import Mathlib

/-!
# Project storage of the QML designer: a verification development

Shallow embedding of `projectstorage/projectstorage.h` (the `ProjectStorage` class template),
`projectstorage/projectstoragetypes.h` (the declaration value model) and
`include/projectstorageids.h` (the identifier types).

Modelling decisions.

* The relational engine is a collaborator.  A table is the list of its rows, and every prepared
  statement of the storage is a function on the tables, written from the SQL text of the
  statement.  Integer primary keys are assigned as the engine does for a rowid table: one more
  than the largest key in use, `1` for an empty table.
* Foreign keys are enforced.  `types.prototypeId -> types.typeId` is declared restrict and
  deferred: deleting a type that another row still names as prototype fails at once, and a
  transaction whose rows name a missing prototype fails at commit.  `sources.sourceContextId ->
  sourceContexts.sourceContextId` is checked with the statement that inserts the source.
* A `SELECT` without `ORDER BY` whose result depends on the order of its rows takes that order
  as a parameter (`Sqlite.RowOrder`): the property lookup with `LIMIT 1` and the select of the
  exported types of a type.
* The transaction of a call of the source path cache reads the store with what other
  connections committed before it, and no commit of another connection comes between its read
  and its insert.
* The JSON table function is read for the texts `createJson` writes (`Sqlite.jsonEach`):
  arrays of objects and objects whose values are strings without escape sequence, integers and
  `null`.
* `Utils::SmallString` is `String`; `Sqlite::compare` and `ORDER BY name` compare byte-wise.
* Machine integers are unbounded `Int`: the storage does no arithmetic on ids.
* The write statements a call issues are recorded next to the tables (`Session.log`).
-/

namespace QmlDesigner

/-! ## Identifier types (`projectstorageids.h`) -/

/-- Typed id: `class InternalId`, a wrapper of a `long long` whose default value is `-1`. -/
structure InternalId where
  id : Int := -1
deriving DecidableEq

namespace InternalId

/-- Validity of an id: `bool isValid() const { return id >= 0; }`. -/
def isValid (self : InternalId) : Bool := decide (0 ≤ self.id)

/-- Equality of ids (`operator==`): `first.id == second.id && first.isValid() && second.isValid()`. -/
def eq (first second : InternalId) : Bool :=
  decide (first.id = second.id) && first.isValid && second.isValid

/-- Inequality of ids (`operator!=`): `!(first == second)`. -/
def ne (first second : InternalId) : Bool := !(eq first second)

/-- Ordering of ids (`operator<`): `first.id < second.id`. -/
def lt (first second : InternalId) : Bool := decide (first.id < second.id)

end InternalId

abbrev TypeId := InternalId
abbrev PropertyDeclarationId := InternalId
abbrev FunctionDeclarationId := InternalId
abbrev SignalDeclarationId := InternalId
abbrev EnumerationDeclarationId := InternalId
abbrev SourceContextId := InternalId
abbrev SourceId := InternalId

/-! ## Declaration value model (`projectstoragetypes.h`) -/

namespace Storage

/-- Access semantics: `enum class TypeAccessSemantics : int`. -/
inductive TypeAccessSemantics
  | Invalid
  | Reference
  | Value
  | Sequence
  | IsEnum
deriving DecidableEq

/-- Integer value of an access semantics: `static_cast<int>(accessSemantics)`. -/
def TypeAccessSemantics.toInt : TypeAccessSemantics → Int
  | .Invalid => 0
  | .Reference => 1
  | .Value => 2
  | .Sequence => 3
  | .IsEnum => 256

/-- Declaration traits: `enum class DeclarationTraits : unsigned int`, bit flags
(`Non = 0`, `IsReadOnly = 1`, `IsPointer = 2`, `IsList = 4`); the value is its integer cast. -/
abbrev DeclarationTraits := Int

structure VersionNumber where
  version : Int := -1
deriving DecidableEq

structure Version where
  major : VersionNumber := {}
  minor : VersionNumber := {}
deriving DecidableEq

structure ExportedType where
  qualifiedTypeName : String := ""
  version : Version := {}
deriving DecidableEq

structure EnumeratorDeclaration where
  name : String := ""
  value : Int := 0
  hasValue : Bool := false
deriving DecidableEq

structure EnumerationDeclaration where
  name : String := ""
  enumeratorDeclarations : List EnumeratorDeclaration := []
deriving DecidableEq

structure EnumerationDeclarationView where
  name : String
  enumeratorDeclarations : String
  id : EnumerationDeclarationId
deriving DecidableEq

structure ParameterDeclaration where
  name : String := ""
  typeName : String := ""
  traits : DeclarationTraits := 0
deriving DecidableEq

structure SignalDeclaration where
  name : String := ""
  parameters : List ParameterDeclaration := []
deriving DecidableEq

structure SignalDeclarationView where
  name : String
  signature : String
  id : SignalDeclarationId
deriving DecidableEq

structure FunctionDeclaration where
  name : String := ""
  returnTypeName : String := ""
  parameters : List ParameterDeclaration := []
deriving DecidableEq

structure FunctionDeclarationView where
  name : String
  returnTypeName : String
  signature : String
  id : FunctionDeclarationId
deriving DecidableEq

structure PropertyDeclaration where
  name : String := ""
  typeName : String := ""
  traits : DeclarationTraits := 0
  typeId : TypeId := {}
deriving DecidableEq

structure PropertyDeclarationView where
  name : String
  traits : DeclarationTraits
  typeId : TypeId
  id : PropertyDeclarationId
deriving DecidableEq

/-- Declared type: `class Type` of the value model. -/
structure Type_ where
  typeName : String := ""
  prototype : String := ""
  attachedType : String := ""
  exportedTypes : List ExportedType := []
  propertyDeclarations : List PropertyDeclaration := []
  functionDeclarations : List FunctionDeclaration := []
  signalDeclarations : List SignalDeclaration := []
  enumerationDeclarations : List EnumerationDeclaration := []
  accessSemantics : TypeAccessSemantics := .Invalid
  sourceId : SourceId := {}
  typeId : TypeId := {}
  isCreatable : Bool := false
deriving DecidableEq

end Storage

/-! ## Tables (`ProjectStorage::Initializer`) -/

/-- Row of `types`: `typeId` is the integer primary key, `name` has a unique index, the other
columns may be null.  The column `defaultProperty` is never written or read and is left out. -/
structure TypesRow where
  typeId : Int
  name : String
  accessSemantics : Option Int := none
  sourceId : Option Int := none
  prototypeId : Option Int := none
deriving DecidableEq

/-- Row of `exportedTypes`: the primary key is `(qualifiedName, majorVersion, minorVersion)`. -/
structure ExportedTypesRow where
  qualifiedName : String
  typeId : Int
  majorVersion : Int
  minorVersion : Int
deriving DecidableEq

/-- Row of `propertyDeclarations`: unique index on `(typeId, name)`. -/
structure PropertyDeclarationsRow where
  propertyDeclarationId : Int
  typeId : Int
  name : String
  propertyTypeId : Int
  propertyTraits : Option Int
deriving DecidableEq

/-- Row of `functionDeclarations`: unique index on `(typeId, name)`. -/
structure FunctionDeclarationsRow where
  functionDeclarationId : Int
  typeId : Int
  name : String
  signature : String
  returnTypeName : String
deriving DecidableEq

/-- Row of `signalDeclarations`: unique index on `(typeId, name)`. -/
structure SignalDeclarationsRow where
  signalDeclarationId : Int
  typeId : Int
  name : String
  signature : String
deriving DecidableEq

/-- Row of `enumerationDeclarations`: unique index on `(typeId, name)`. -/
structure EnumerationDeclarationsRow where
  enumerationDeclarationId : Int
  typeId : Int
  name : String
  enumeratorDeclarations : String
deriving DecidableEq

/-- Row of `sourceContexts`: unique index on `sourceContextPath`. -/
structure SourceContextsRow where
  sourceContextId : Int
  sourceContextPath : String
deriving DecidableEq

/-- Row of `sources`: unique index on `(sourceContextId, sourceName)`. -/
structure SourcesRow where
  sourceId : Int
  sourceContextId : Int
  sourceName : String
deriving DecidableEq

/-- Tables of the store, each the list of its rows. -/
structure Database where
  sourceContexts : List SourceContextsRow := []
  sources : List SourcesRow := []
  types : List TypesRow := []
  exportedTypes : List ExportedTypesRow := []
  propertyDeclarations : List PropertyDeclarationsRow := []
  enumerationDeclarations : List EnumerationDeclarationsRow := []
  functionDeclarations : List FunctionDeclarationsRow := []
  signalDeclarations : List SignalDeclarationsRow := []
deriving DecidableEq

/-- Failures the storage raises or lets through. -/
inductive Error
  | ConstraintPreventsModification
  | SourceContextIdDoesNotExists
  | SourceIdDoesNotExists
deriving DecidableEq

deriving instance DecidableEq for Except

/-! ## Engine primitives -/

/-- Key the engine gives a new row of a rowid table: `1` for an empty table, otherwise one more
than the largest key in use. -/
def newRowId : List Int → Int
  | [] => 1
  | i :: is => is.foldl max i + 1

/-- SQL `nullif(value, sentinel)`. -/
def nullif (value sentinel : Int) : Option Int :=
  if value = sentinel then none else some value

/-- Three-way comparison of two byte sequences: the common part first, then the lengths. -/
def compareBytes : List Char → List Char → Ordering
  | [], [] => .eq
  | [], _ :: _ => .lt
  | _ :: _, [] => .gt
  | a :: as, b :: bs => if a < b then .lt else if b < a then .gt else compareBytes as bs

namespace Sqlite

/-- Order in which the engine returns the rows of a `SELECT` that has no `ORDER BY`: the
statement fixes which rows are returned, the plan the engine picks for it fixes their order.
`arrange` takes the rows as the nested loops of the statement produce them when they are run as
they are written in the models below. -/
structure RowOrder (α : Type) where
  arrange : List α → List α
  perm : ∀ rows, (arrange rows).Perm rows

/-- The plan that runs the loops as the models of the statements write them. -/
def RowOrder.asProduced {α : Type} : RowOrder α :=
  ⟨fun rows => rows, fun rows => List.Perm.refl rows⟩

/-- A plan that returns the rows in the order of a key, as a scan of the b-tree of that key
does. -/
def RowOrder.byKey {α : Type} (notAfter : α → α → Bool) : RowOrder α :=
  ⟨fun rows => rows.insertionSort (fun a b => notAfter a b = true),
   fun rows => List.perm_insertionSort _ rows⟩

/-- Modelled from the spec: `Sqlite::compare` of `sqlitealgorithms.h`, the name order of the
sorted merge ("sort the incoming collection by `name`", rows "ordered by `name`"); it is the
byte-wise order the engine uses for `ORDER BY name`. -/
def compare (first second : String) : Ordering := compareBytes first.toList second.toList

/-- Modelled from the spec: the loop of `Sqlite::insertUpdateDelete` of `sqlitealgorithms.h`,
the merge-join of §4.2 over the persisted rows and the sorted incoming values: a name only in
the persisted stream is deleted, a name only in the incoming stream is inserted, a name in both
is handed to the update callback.  Every round consumes an element, so `fuel` rounds suffice
when `fuel` is the number of elements of both streams. -/
def insertUpdateDeleteLoop {σ V A : Type} (compareKey : V → A → Ordering)
    (insertCallback : A → σ → Except Error σ)
    (updateCallback : V → A → σ → Except Error σ)
    (deleteCallback : V → σ → Except Error σ) :
    Nat → List V → List A → σ → Except Error σ
  | 0, _, _, s => .ok s
  | fuel + 1, sqliteValue :: sqliteRange, value :: values, s =>
    match compareKey sqliteValue value with
    | .eq =>
      match updateCallback sqliteValue value s with
      | .error e => .error e
      | .ok s1 =>
        insertUpdateDeleteLoop compareKey insertCallback updateCallback deleteCallback
          fuel sqliteRange values s1
    | .gt =>
      match insertCallback value s with
      | .error e => .error e
      | .ok s1 =>
        insertUpdateDeleteLoop compareKey insertCallback updateCallback deleteCallback
          fuel (sqliteValue :: sqliteRange) values s1
    | .lt =>
      match deleteCallback sqliteValue s with
      | .error e => .error e
      | .ok s1 =>
        insertUpdateDeleteLoop compareKey insertCallback updateCallback deleteCallback
          fuel sqliteRange (value :: values) s1
  | fuel + 1, [], value :: values, s =>
    match insertCallback value s with
    | .error e => .error e
    | .ok s1 =>
      insertUpdateDeleteLoop compareKey insertCallback updateCallback deleteCallback
        fuel [] values s1
  | fuel + 1, sqliteValue :: sqliteRange, [], s =>
    match deleteCallback sqliteValue s with
    | .error e => .error e
    | .ok s1 =>
      insertUpdateDeleteLoop compareKey insertCallback updateCallback deleteCallback
        fuel sqliteRange [] s1
  | _ + 1, [], [], s => .ok s

/-- Modelled from the spec: `Sqlite::insertUpdateDelete(range, values, compareKey, insert,
update, remove)` of `sqlitealgorithms.h`.  The range is the result of its select statement as
read when the merge starts. -/
def insertUpdateDelete {σ V A : Type} (sqliteRange : List V) (values : List A)
    (compareKey : V → A → Ordering)
    (insertCallback : A → σ → Except Error σ)
    (updateCallback : V → A → σ → Except Error σ)
    (deleteCallback : V → σ → Except Error σ) (s : σ) : Except Error σ :=
  insertUpdateDeleteLoop compareKey insertCallback updateCallback deleteCallback
    (sqliteRange.length + values.length) sqliteRange values s

end Sqlite

/-- Sort by name: `std::sort` with `Sqlite::compare(first.name, second.name) < 0`, and the
engine's `ORDER BY name`. -/
def sortByName {α : Type} (name : α → String) (l : List α) : List α :=
  l.insertionSort (fun a b => Sqlite.compare (name a) (name b) ≠ .gt)

/-! ## Prepared statements of `ProjectStorage` -/

namespace ProjectStorage

/-- Statement `selectTypeIdByNameStatement`: `SELECT typeId FROM types WHERE name=?`, read with
`value<TypeId>`: the default (invalid) id when no row matches. -/
def selectTypeIdByNameStatement (db : Database) (name : String) : TypeId :=
  match db.types.find? (fun row => row.name = name) with
  | some row => { id := row.typeId }
  | none => {}

/-- Statement `insertTypeStatement`: `INSERT INTO types(name) VALUES(?) RETURNING typeId`; the
unique index on `name` rejects a second row of that name. -/
def insertTypeStatement (db : Database) (name : String) : Except Error (Database × TypeId) :=
  if db.types.any (fun row => row.name = name) then
    .error .ConstraintPreventsModification
  else
    let typeId := newRowId (db.types.map (·.typeId))
    .ok ({ db with types := db.types ++ [{ typeId := typeId, name := name }] }, { id := typeId })

/-- Statement `upsertTypeStatement`:
`INSERT INTO types(name, accessSemantics, prototypeId, sourceId) VALUES(?1, ?2, nullif(?3, -1),
nullif(?4, -1)) ON CONFLICT DO UPDATE SET prototypeId=excluded.prototypeId,
accessSemantics=excluded.accessSemantics, sourceId=excluded.sourceId RETURNING typeId`.
The fourth parameter is `none` when the caller binds three values only. -/
def upsertTypeStatement (db : Database) (name : String) (accessSemantics prototypeId : Int)
    (sourceId : Option Int) : Database × TypeId :=
  match db.types.find? (fun row => row.name = name) with
  | some conflicting =>
    ({ db with types := db.types.map fun row =>
        if row.name = name then
          { row with prototypeId := nullif prototypeId (-1),
                     accessSemantics := some accessSemantics,
                     sourceId := sourceId.bind (nullif · (-1)) }
        else row },
     { id := conflicting.typeId })
  | none =>
    let typeId := newRowId (db.types.map (·.typeId))
    ({ db with types := db.types ++ [{ typeId := typeId, name := name,
                                        accessSemantics := some accessSemantics,
                                        sourceId := sourceId.bind (nullif · (-1)),
                                        prototypeId := nullif prototypeId (-1) }] },
     { id := typeId })

/-- Statement `upsertExportedTypesStatement`: `INSERT INTO exportedTypes(qualifiedName,
majorVersion, minorVersion, typeId) VALUES(?1, ?2, ?3, ?4) ON CONFLICT DO NOTHING`. -/
def upsertExportedTypesStatement (db : Database) (qualifiedName : String)
    (majorVersion minorVersion typeId : Int) : Database :=
  if db.exportedTypes.any (fun row => row.qualifiedName = qualifiedName
      ∧ row.majorVersion = majorVersion ∧ row.minorVersion = minorVersion) then db
  else
    { db with exportedTypes := db.exportedTypes ++
        [{ qualifiedName := qualifiedName, typeId := typeId,
           majorVersion := majorVersion, minorVersion := minorVersion }] }

/-- The `WHERE` clause of `deleteNotUpdatedTypesInSourcesStatement`:
`(sourceId IN carray(?1) AND typeId NOT IN carray(?2)) OR sourceId IS NULL`. -/
def notUpdatedTypeInSources (sourceIds updatedTypeIds : List Int) (row : TypesRow) : Bool :=
  match row.sourceId with
  | none => true
  | some sourceId => decide (sourceId ∈ sourceIds) && !decide (row.typeId ∈ updatedTypeIds)

/-- Restrict action of the foreign key `prototypeId`: the rows to delete go one at a time in
key order, and deleting a row fails when a row that is left names it as its prototype. -/
def restrictViolated : List Int → List TypesRow → Bool
  | [], _ => false
  | typeId :: typeIds, table =>
    let remaining := table.filter (fun row => row.typeId ≠ typeId)
    remaining.any (fun row => row.prototypeId = some typeId) || restrictViolated typeIds remaining

/-- Statement `deleteNotUpdatedTypesInSourcesStatement`: `DELETE FROM types WHERE (sourceId IN
carray(?1) AND typeId NOT IN carray(?2)) OR sourceId IS NULL`. -/
def deleteNotUpdatedTypesInSourcesStatement (db : Database) (sourceIds updatedTypeIds : List Int) :
    Except Error Database :=
  let deleted := (db.types.filter (notUpdatedTypeInSources sourceIds updatedTypeIds)).map (·.typeId)
  if restrictViolated (deleted.insertionSort (· ≤ ·)) db.types then
    .error .ConstraintPreventsModification
  else
    .ok { db with
          types := db.types.filter (fun row => !notUpdatedTypeInSources sourceIds updatedTypeIds row) }

/-- Statement `selectPropertyDeclarationsForTypeIdStatement`: `SELECT name, propertyTraits,
propertyTypeId, propertyDeclarationId FROM propertyDeclarations WHERE typeId=? ORDER BY name`,
read as `PropertyDeclarationView`s (a null `propertyTraits` reads as `0`). -/
def selectPropertyDeclarationsForTypeIdStatement (db : Database) (typeId : Int) :
    List Storage.PropertyDeclarationView :=
  (sortByName (·.name) (db.propertyDeclarations.filter (fun row => row.typeId = typeId))).map
    fun row => { name := row.name, traits := row.propertyTraits.getD 0,
                 typeId := { id := row.propertyTypeId }, id := { id := row.propertyDeclarationId } }

/-- Statement `insertPropertyDeclarationStatement`: `INSERT INTO propertyDeclarations(typeId,
name, propertyTypeId, propertyTraits) VALUES(?1, ?2, ?3, ?4)`. -/
def insertPropertyDeclarationStatement (db : Database) (typeId : Int) (name : String)
    (propertyTypeId traits : Int) : Except Error Database :=
  if db.propertyDeclarations.any (fun row => row.typeId = typeId ∧ row.name = name) then
    .error .ConstraintPreventsModification
  else
    .ok { db with propertyDeclarations := db.propertyDeclarations ++
            [{ propertyDeclarationId := newRowId (db.propertyDeclarations.map (·.propertyDeclarationId)),
               typeId := typeId, name := name, propertyTypeId := propertyTypeId,
               propertyTraits := some traits }] }

/-- Statement `updatePropertyDeclarationStatement`: `UPDATE propertyDeclarations SET
propertyTypeId=?2, propertyTraits=?3 WHERE propertyDeclarationId=?1`. -/
def updatePropertyDeclarationStatement (db : Database) (id propertyTypeId traits : Int) :
    Database :=
  { db with propertyDeclarations := db.propertyDeclarations.map fun row =>
      if row.propertyDeclarationId = id then
        { row with propertyTypeId := propertyTypeId, propertyTraits := some traits }
      else row }

/-- Statement `deletePropertyDeclarationStatement`: `DELETE FROM propertyDeclarations WHERE
propertyDeclarationId=?`. -/
def deletePropertyDeclarationStatement (db : Database) (id : Int) : Database :=
  { db with propertyDeclarations :=
      db.propertyDeclarations.filter (fun row => row.propertyDeclarationId ≠ id) }

/-- Statement `selectFunctionDeclarationsForTypeIdStatement`: `SELECT name, returnTypeName,
signature, functionDeclarationId FROM functionDeclarations WHERE typeId=? ORDER BY name`. -/
def selectFunctionDeclarationsForTypeIdStatement (db : Database) (typeId : Int) :
    List Storage.FunctionDeclarationView :=
  (sortByName (·.name) (db.functionDeclarations.filter (fun row => row.typeId = typeId))).map
    fun row => { name := row.name, returnTypeName := row.returnTypeName,
                 signature := row.signature, id := { id := row.functionDeclarationId } }

/-- Statement `insertFunctionDeclarationStatement`: `INSERT INTO functionDeclarations(typeId,
name, returnTypeName, signature) VALUES(?1, ?2, ?3, ?4)`. -/
def insertFunctionDeclarationStatement (db : Database) (typeId : Int)
    (name returnTypeName signature : String) : Except Error Database :=
  if db.functionDeclarations.any (fun row => row.typeId = typeId ∧ row.name = name) then
    .error .ConstraintPreventsModification
  else
    .ok { db with functionDeclarations := db.functionDeclarations ++
            [{ functionDeclarationId := newRowId (db.functionDeclarations.map (·.functionDeclarationId)),
               typeId := typeId, name := name, signature := signature,
               returnTypeName := returnTypeName }] }

/-- Statement `updateFunctionDeclarationStatement`: `UPDATE functionDeclarations SET
returnTypeName=?2, signature=?3 WHERE functionDeclarationId=?1`. -/
def updateFunctionDeclarationStatement (db : Database) (id : Int)
    (returnTypeName signature : String) : Database :=
  { db with functionDeclarations := db.functionDeclarations.map fun row =>
      if row.functionDeclarationId = id then
        { row with returnTypeName := returnTypeName, signature := signature }
      else row }

/-- Statement `deleteFunctionDeclarationStatement`: `DELETE FROM functionDeclarations WHERE
functionDeclarationId=?`. -/
def deleteFunctionDeclarationStatement (db : Database) (id : Int) : Database :=
  { db with functionDeclarations :=
      db.functionDeclarations.filter (fun row => row.functionDeclarationId ≠ id) }

/-- Statement `selectSignalDeclarationsForTypeIdStatement`: `SELECT name, signature,
signalDeclarationId FROM signalDeclarations WHERE typeId=? ORDER BY name`. -/
def selectSignalDeclarationsForTypeIdStatement (db : Database) (typeId : Int) :
    List Storage.SignalDeclarationView :=
  (sortByName (·.name) (db.signalDeclarations.filter (fun row => row.typeId = typeId))).map
    fun row => { name := row.name, signature := row.signature,
                 id := { id := row.signalDeclarationId } }

/-- Statement `insertSignalDeclarationStatement`: `INSERT INTO signalDeclarations(typeId, name,
signature) VALUES(?1, ?2, ?3)`. -/
def insertSignalDeclarationStatement (db : Database) (typeId : Int) (name signature : String) :
    Except Error Database :=
  if db.signalDeclarations.any (fun row => row.typeId = typeId ∧ row.name = name) then
    .error .ConstraintPreventsModification
  else
    .ok { db with signalDeclarations := db.signalDeclarations ++
            [{ signalDeclarationId := newRowId (db.signalDeclarations.map (·.signalDeclarationId)),
               typeId := typeId, name := name, signature := signature }] }

/-- Statement `updateSignalDeclarationStatement`: `UPDATE signalDeclarations SET signature=?2
WHERE signalDeclarationId=?1`. -/
def updateSignalDeclarationStatement (db : Database) (id : Int) (signature : String) : Database :=
  { db with signalDeclarations := db.signalDeclarations.map fun row =>
      if row.signalDeclarationId = id then { row with signature := signature } else row }

/-- Statement `deleteSignalDeclarationStatement`: `DELETE FROM signalDeclarations WHERE
signalDeclarationId=?`. -/
def deleteSignalDeclarationStatement (db : Database) (id : Int) : Database :=
  { db with signalDeclarations :=
      db.signalDeclarations.filter (fun row => row.signalDeclarationId ≠ id) }

/-- Statement `selectEnumerationDeclarationsForTypeIdStatement`: `SELECT name,
enumeratorDeclarations, enumerationDeclarationId FROM enumerationDeclarations WHERE typeId=?
ORDER BY name`. -/
def selectEnumerationDeclarationsForTypeIdStatement (db : Database) (typeId : Int) :
    List Storage.EnumerationDeclarationView :=
  (sortByName (·.name) (db.enumerationDeclarations.filter (fun row => row.typeId = typeId))).map
    fun row => { name := row.name, enumeratorDeclarations := row.enumeratorDeclarations,
                 id := { id := row.enumerationDeclarationId } }

/-- Statement `insertEnumerationDeclarationStatement`: `INSERT INTO
enumerationDeclarations(typeId, name, enumeratorDeclarations) VALUES(?1, ?2, ?3)`. -/
def insertEnumerationDeclarationStatement (db : Database) (typeId : Int)
    (name enumeratorDeclarations : String) : Except Error Database :=
  if db.enumerationDeclarations.any (fun row => row.typeId = typeId ∧ row.name = name) then
    .error .ConstraintPreventsModification
  else
    .ok { db with enumerationDeclarations := db.enumerationDeclarations ++
            [{ enumerationDeclarationId :=
                 newRowId (db.enumerationDeclarations.map (·.enumerationDeclarationId)),
               typeId := typeId, name := name,
               enumeratorDeclarations := enumeratorDeclarations }] }

/-- Statement `updateEnumerationDeclarationStatement`: `UPDATE enumerationDeclarations SET
enumeratorDeclarations=?2 WHERE enumerationDeclarationId=?1`. -/
def updateEnumerationDeclarationStatement (db : Database) (id : Int)
    (enumeratorDeclarations : String) : Database :=
  { db with enumerationDeclarations := db.enumerationDeclarations.map fun row =>
      if row.enumerationDeclarationId = id then
        { row with enumeratorDeclarations := enumeratorDeclarations }
      else row }

/-- Statement `deleteEnumerationDeclarationStatement`: `DELETE FROM enumerationDeclarations
WHERE enumerationDeclarationId=?`. -/
def deleteEnumerationDeclarationStatement (db : Database) (id : Int) : Database :=
  { db with enumerationDeclarations :=
      db.enumerationDeclarations.filter (fun row => row.enumerationDeclarationId ≠ id) }

end ProjectStorage

/-- Call of a `WriteStatement` member of the storage, with the values bound to it. -/
inductive WriteStatement
  | upsertExportedTypesStatement (qualifiedName : String) (majorVersion minorVersion typeId : Int)
  | deleteNotUpdatedTypesInSourcesStatement (sourceIds updatedTypeIds : List Int)
  | insertPropertyDeclarationStatement (typeId : Int) (name : String) (propertyTypeId traits : Int)
  | updatePropertyDeclarationStatement (id propertyTypeId traits : Int)
  | deletePropertyDeclarationStatement (id : Int)
  | insertFunctionDeclarationStatement (typeId : Int) (name returnTypeName signature : String)
  | updateFunctionDeclarationStatement (id : Int) (returnTypeName signature : String)
  | deleteFunctionDeclarationStatement (id : Int)
  | insertSignalDeclarationStatement (typeId : Int) (name signature : String)
  | updateSignalDeclarationStatement (id : Int) (signature : String)
  | deleteSignalDeclarationStatement (id : Int)
  | insertEnumerationDeclarationStatement (typeId : Int) (name enumeratorDeclarations : String)
  | updateEnumerationDeclarationStatement (id : Int) (enumeratorDeclarations : String)
  | deleteEnumerationDeclarationStatement (id : Int)
deriving DecidableEq

/-- Effect of a write statement on the tables: `WriteStatement::write(values...)`. -/
def WriteStatement.write : WriteStatement → Database → Except Error Database
  | .upsertExportedTypesStatement qualifiedName majorVersion minorVersion typeId, db =>
    .ok (ProjectStorage.upsertExportedTypesStatement db qualifiedName majorVersion minorVersion typeId)
  | .deleteNotUpdatedTypesInSourcesStatement sourceIds updatedTypeIds, db =>
    ProjectStorage.deleteNotUpdatedTypesInSourcesStatement db sourceIds updatedTypeIds
  | .insertPropertyDeclarationStatement typeId name propertyTypeId traits, db =>
    ProjectStorage.insertPropertyDeclarationStatement db typeId name propertyTypeId traits
  | .updatePropertyDeclarationStatement id propertyTypeId traits, db =>
    .ok (ProjectStorage.updatePropertyDeclarationStatement db id propertyTypeId traits)
  | .deletePropertyDeclarationStatement id, db =>
    .ok (ProjectStorage.deletePropertyDeclarationStatement db id)
  | .insertFunctionDeclarationStatement typeId name returnTypeName signature, db =>
    ProjectStorage.insertFunctionDeclarationStatement db typeId name returnTypeName signature
  | .updateFunctionDeclarationStatement id returnTypeName signature, db =>
    .ok (ProjectStorage.updateFunctionDeclarationStatement db id returnTypeName signature)
  | .deleteFunctionDeclarationStatement id, db =>
    .ok (ProjectStorage.deleteFunctionDeclarationStatement db id)
  | .insertSignalDeclarationStatement typeId name signature, db =>
    ProjectStorage.insertSignalDeclarationStatement db typeId name signature
  | .updateSignalDeclarationStatement id signature, db =>
    .ok (ProjectStorage.updateSignalDeclarationStatement db id signature)
  | .deleteSignalDeclarationStatement id, db =>
    .ok (ProjectStorage.deleteSignalDeclarationStatement db id)
  | .insertEnumerationDeclarationStatement typeId name enumeratorDeclarations, db =>
    ProjectStorage.insertEnumerationDeclarationStatement db typeId name enumeratorDeclarations
  | .updateEnumerationDeclarationStatement id enumeratorDeclarations, db =>
    .ok (ProjectStorage.updateEnumerationDeclarationStatement db id enumeratorDeclarations)
  | .deleteEnumerationDeclarationStatement id, db =>
    .ok (ProjectStorage.deleteEnumerationDeclarationStatement db id)

/-- State of a running call: the tables as the open transaction sees them, and the write
statements issued so far, oldest first. -/
structure Session where
  database : Database
  log : List WriteStatement := []
deriving DecidableEq

/-- Issue a write statement: run it on the tables and record it. -/
def Session.write (s : Session) (statement : WriteStatement) : Except Error Session :=
  match statement.write s.database with
  | .error e => .error e
  | .ok db => .ok { database := db, log := s.log ++ [statement] }

/-! ## Transactions -/

/-- Result of a call that runs in a transaction of its own: what the caller gets, and the tables
afterwards. -/
structure Outcome (α : Type) where
  result : Except Error α
  database : Database

/-- Deferred check of the foreign key `types.prototypeId -> types.typeId`, made at commit. -/
def deferredForeignKeysHold (db : Database) : Bool :=
  db.types.all fun row =>
    match row.prototypeId with
    | none => true
    | some prototypeId => db.types.any (fun parent => parent.typeId = prototypeId)

namespace Sqlite

/-- Modelled from the spec: `Sqlite::ImmediateTransaction` of `sqlitetransaction.h`, the guard
object a writing call holds.  §4.2 step 5 and §7: `commit()` makes the writes of the body
visible; when the body or the commit raises, "the whole transaction rolls back and the error is
surfaced", "the store's on-disk state remains at the last committed point". -/
def ImmediateTransaction {α : Type} (db : Database)
    (body : Session → Except Error (Session × α)) : Outcome α :=
  match body { database := db } with
  | .error e => { result := .error e, database := db }
  | .ok (s, value) =>
    if deferredForeignKeysHold s.database then { result := .ok value, database := s.database }
    else { result := .error .ConstraintPreventsModification, database := db }

end Sqlite

/-! ## `ProjectStorage`: synchronization -/

namespace ProjectStorage

/-- Method `fetchTypeIdByName`: the id of the type of that name, a new row of that name when
there is none, the invalid id for the empty name. -/
def fetchTypeIdByName (name : String) (s : Session) : Except Error (Session × TypeId) :=
  if name = "" then .ok (s, {})
  else
    let typeId := selectTypeIdByNameStatement s.database name
    if !typeId.isValid then
      match insertTypeStatement s.database name with
      | .error e => .error e
      | .ok (db, inserted) => .ok ({ s with database := db }, inserted)
    else .ok (s, typeId)

/-- Method `upsertExportedType`. -/
def upsertExportedType (qualifiedName : String) (version : Storage.Version) (typeId : TypeId)
    (s : Session) : Except Error Session :=
  s.write (.upsertExportedTypesStatement qualifiedName version.major.version
    version.minor.version typeId.id)

/-- Insert callback of `synchronizePropertyDeclarations`. -/
def synchronizePropertyDeclarations.insert (typeId : TypeId) (value : Storage.PropertyDeclaration)
    (s : Session) : Except Error Session :=
  match fetchTypeIdByName value.typeName s with
  | .error e => .error e
  | .ok (s1, propertyTypeId) =>
    s1.write (.insertPropertyDeclarationStatement typeId.id value.name propertyTypeId.id
      value.traits)

/-- Update callback of `synchronizePropertyDeclarations`. -/
def synchronizePropertyDeclarations.update (view : Storage.PropertyDeclarationView)
    (value : Storage.PropertyDeclaration) (s : Session) : Except Error Session :=
  match fetchTypeIdByName value.typeName s with
  | .error e => .error e
  | .ok (s1, propertyTypeId) =>
    if view.traits = value.traits && propertyTypeId.eq view.typeId then .ok s1
    else s1.write (.updatePropertyDeclarationStatement view.id.id propertyTypeId.id value.traits)

/-- Remove callback of `synchronizePropertyDeclarations`. -/
def synchronizePropertyDeclarations.remove (view : Storage.PropertyDeclarationView)
    (s : Session) : Except Error Session :=
  s.write (.deletePropertyDeclarationStatement view.id.id)

/-- Method `synchronizePropertyDeclarations`. -/
def synchronizePropertyDeclarations (typeId : TypeId)
    (propertyDeclarations : List Storage.PropertyDeclaration) (s : Session) :
    Except Error Session :=
  Sqlite.insertUpdateDelete
    (selectPropertyDeclarationsForTypeIdStatement s.database typeId.id)
    (sortByName (·.name) propertyDeclarations)
    (fun view value => Sqlite.compare view.name value.name)
    (synchronizePropertyDeclarations.insert typeId)
    synchronizePropertyDeclarations.update
    synchronizePropertyDeclarations.remove s

/-- Method `createJson(const Storage::ParameterDeclarations &)`: the signature text of a
parameter list. -/
def createJson (parameters : List Storage.ParameterDeclaration) : String :=
  (parameters.foldl (fun (state : String × String) parameter =>
      let json := state.1 ++ state.2 ++ "\x7b\"n\":\"" ++ parameter.name ++ "\",\"tn\":\""
        ++ parameter.typeName
      (if parameter.traits = 0 then json ++ "\"\x7d"
       else json ++ "\",\"tr\":" ++ toString parameter.traits ++ "\x7d", ","))
    ("[", "")).1 ++ "]"

/-- Insert callback of `synchronizeFunctionDeclarations`. -/
def synchronizeFunctionDeclarations.insert (typeId : TypeId) (value : Storage.FunctionDeclaration)
    (s : Session) : Except Error Session :=
  s.write (.insertFunctionDeclarationStatement typeId.id value.name value.returnTypeName
    (createJson value.parameters))

/-- Update callback of `synchronizeFunctionDeclarations`. -/
def synchronizeFunctionDeclarations.update (view : Storage.FunctionDeclarationView)
    (value : Storage.FunctionDeclaration) (s : Session) : Except Error Session :=
  if value.returnTypeName = view.returnTypeName ∧ createJson value.parameters = view.signature then
    .ok s
  else
    s.write (.updateFunctionDeclarationStatement view.id.id value.returnTypeName
      (createJson value.parameters))

/-- Remove callback of `synchronizeFunctionDeclarations`. -/
def synchronizeFunctionDeclarations.remove (view : Storage.FunctionDeclarationView)
    (s : Session) : Except Error Session :=
  s.write (.deleteFunctionDeclarationStatement view.id.id)

/-- Method `synchronizeFunctionDeclarations`. -/
def synchronizeFunctionDeclarations (typeId : TypeId)
    (functionsDeclarations : List Storage.FunctionDeclaration) (s : Session) :
    Except Error Session :=
  Sqlite.insertUpdateDelete
    (selectFunctionDeclarationsForTypeIdStatement s.database typeId.id)
    (sortByName (·.name) functionsDeclarations)
    (fun view value => Sqlite.compare view.name value.name)
    (synchronizeFunctionDeclarations.insert typeId)
    synchronizeFunctionDeclarations.update
    synchronizeFunctionDeclarations.remove s

/-- Insert callback of `synchronizeSignalDeclarations`. -/
def synchronizeSignalDeclarations.insert (typeId : TypeId) (value : Storage.SignalDeclaration)
    (s : Session) : Except Error Session :=
  s.write (.insertSignalDeclarationStatement typeId.id value.name (createJson value.parameters))

/-- Update callback of `synchronizeSignalDeclarations`. -/
def synchronizeSignalDeclarations.update (view : Storage.SignalDeclarationView)
    (value : Storage.SignalDeclaration) (s : Session) : Except Error Session :=
  if createJson value.parameters = view.signature then .ok s
  else s.write (.updateSignalDeclarationStatement view.id.id (createJson value.parameters))

/-- Remove callback of `synchronizeSignalDeclarations`. -/
def synchronizeSignalDeclarations.remove (view : Storage.SignalDeclarationView)
    (s : Session) : Except Error Session :=
  s.write (.deleteSignalDeclarationStatement view.id.id)

/-- Method `synchronizeSignalDeclarations`. -/
def synchronizeSignalDeclarations (typeId : TypeId)
    (signalDeclarations : List Storage.SignalDeclaration) (s : Session) : Except Error Session :=
  Sqlite.insertUpdateDelete
    (selectSignalDeclarationsForTypeIdStatement s.database typeId.id)
    (sortByName (·.name) signalDeclarations)
    (fun view value => Sqlite.compare view.name value.name)
    (synchronizeSignalDeclarations.insert typeId)
    synchronizeSignalDeclarations.update
    synchronizeSignalDeclarations.remove s

/-- Method `createJson(const Storage::EnumeratorDeclarations &)`: the text stored for the
enumerators of an enumeration. -/
def createJsonEnumeratorDeclarations
    (enumeratorDeclarations : List Storage.EnumeratorDeclaration) : String :=
  (enumeratorDeclarations.foldl (fun (state : String × String) enumerator =>
      let json := state.1 ++ state.2 ++ enumerator.name
      (if enumerator.hasValue then json ++ "\":\"" ++ toString enumerator.value ++ "\""
       else json ++ "\":null", ",\""))
    ("\x7b", "\"")).1 ++ "\x7d"

/-- Insert callback of `synchronizeEnumerationDeclarations`. -/
def synchronizeEnumerationDeclarations.insert (typeId : TypeId)
    (value : Storage.EnumerationDeclaration) (s : Session) : Except Error Session :=
  s.write (.insertEnumerationDeclarationStatement typeId.id value.name
    (createJsonEnumeratorDeclarations value.enumeratorDeclarations))

/-- Update callback of `synchronizeEnumerationDeclarations`. -/
def synchronizeEnumerationDeclarations.update (view : Storage.EnumerationDeclarationView)
    (value : Storage.EnumerationDeclaration) (s : Session) : Except Error Session :=
  if createJsonEnumeratorDeclarations value.enumeratorDeclarations = view.enumeratorDeclarations
  then .ok s
  else s.write (.updateEnumerationDeclarationStatement view.id.id
    (createJsonEnumeratorDeclarations value.enumeratorDeclarations))

/-- Remove callback of `synchronizeEnumerationDeclarations`. -/
def synchronizeEnumerationDeclarations.remove (view : Storage.EnumerationDeclarationView)
    (s : Session) : Except Error Session :=
  s.write (.deleteEnumerationDeclarationStatement view.id.id)

/-- Method `synchronizeEnumerationDeclarations`. -/
def synchronizeEnumerationDeclarations (typeId : TypeId)
    (enumerationDeclarations : List Storage.EnumerationDeclaration) (s : Session) :
    Except Error Session :=
  Sqlite.insertUpdateDelete
    (selectEnumerationDeclarationsForTypeIdStatement s.database typeId.id)
    (sortByName (·.name) enumerationDeclarations)
    (fun view value => Sqlite.compare view.name value.name)
    (synchronizeEnumerationDeclarations.insert typeId)
    synchronizeEnumerationDeclarations.update
    synchronizeEnumerationDeclarations.remove s

/-- The loop `for (const auto &exportedType : type.exportedTypes) upsertExportedType(...)` of
`syncType`. -/
def upsertExportedTypes (typeId : TypeId) :
    List Storage.ExportedType → Session → Except Error Session
  | [], s => .ok s
  | exportedType :: exportedTypes, s =>
    match upsertExportedType exportedType.qualifiedTypeName exportedType.version typeId s with
    | .error e => .error e
    | .ok s1 => upsertExportedTypes typeId exportedTypes s1

/-- Method `syncType`. -/
def syncType (type : Storage.Type_) (s : Session) : Except Error (Session × TypeId) :=
  match fetchTypeIdByName type.prototype s with
  | .error e => .error e
  | .ok (s1, prototypeId) =>
    let upserted := upsertTypeStatement s1.database type.typeName type.accessSemantics.toInt
      prototypeId.id (some type.sourceId.id)
    let typeId := upserted.2
    match upsertExportedTypes typeId type.exportedTypes { s1 with database := upserted.1 } with
    | .error e => .error e
    | .ok s2 =>
      match synchronizePropertyDeclarations typeId type.propertyDeclarations s2 with
      | .error e => .error e
      | .ok s3 =>
        match synchronizeFunctionDeclarations typeId type.functionDeclarations s3 with
        | .error e => .error e
        | .ok s4 =>
          match synchronizeSignalDeclarations typeId type.signalDeclarations s4 with
          | .error e => .error e
          | .ok s5 =>
            match synchronizeEnumerationDeclarations typeId type.enumerationDeclarations s5 with
            | .error e => .error e
            | .ok s6 => .ok (s6, typeId)

/-- The loop `for (auto &&type : types) updatedTypeIds.push_back(syncType(type))` of
`synchronizeTypes`. -/
def syncTypes : List Storage.Type_ → Session → Except Error (Session × List TypeId)
  | [], s => .ok (s, [])
  | type :: types, s =>
    match syncType type s with
    | .error e => .error e
    | .ok (s1, typeId) =>
      match syncTypes types s1 with
      | .error e => .error e
      | .ok (s2, updatedTypeIds) => .ok (s2, typeId :: updatedTypeIds)

/-- Method `deleteNotUpdatedTypes`. -/
def deleteNotUpdatedTypes (updatedTypeIds : List TypeId) (sourceIds : List SourceId)
    (s : Session) : Except Error Session :=
  s.write (.deleteNotUpdatedTypesInSourcesStatement (sourceIds.map (·.id))
    (updatedTypeIds.map (·.id)))

/-- The statements of `synchronizeTypes` between the begin and the commit of its transaction;
the result carries the ids `syncType` returned. -/
def synchronizeTypesBody (types : List Storage.Type_) (sourceIds : List SourceId) (s : Session) :
    Except Error (Session × List TypeId) :=
  match syncTypes types s with
  | .error e => .error e
  | .ok (s1, updatedTypeIds) =>
    match deleteNotUpdatedTypes updatedTypeIds sourceIds s1 with
    | .error e => .error e
    | .ok s2 => .ok (s2, updatedTypeIds)

/-- Method `synchronizeTypes(types, sourceIds)`. -/
def synchronizeTypes (db : Database) (types : List Storage.Type_) (sourceIds : List SourceId) :
    Outcome Unit :=
  Sqlite.ImmediateTransaction db fun s =>
    match synchronizeTypesBody types sourceIds s with
    | .error e => .error e
    | .ok (s1, _) => .ok (s1, ())

/-! ## `ProjectStorage`: prototype chain queries -/

/-- The recursive table `typeSelection` of the chain queries:
`VALUES(?1) UNION ALL SELECT prototypeId FROM types JOIN typeSelection USING(typeId)`, its rows
in the order they are produced.  A null row joins nothing and ends the recursion; `typeId` is
the primary key, so a row joins at most one row of `types`.  `fuel` bounds the number of rows;
on a chain that runs into a cycle the query itself does not end. -/
def typeSelection (types : List TypesRow) : Nat → Option Int → List (Option Int)
  | 0, _ => []
  | fuel + 1, typeId =>
    typeId ::
      match typeId with
      | none => []
      | some id =>
        match types.find? (fun row => row.typeId = id) with
        | none => []
        | some row => typeSelection types fuel row.prototypeId

/-- Statement `selectPrototypeIdStatement`: `SELECT typeId FROM typeSelection WHERE typeId=?2
LIMIT 1`, read with `value<TypeId>`. -/
def selectPrototypeIdStatement (db : Database) (type prototype : Int) : TypeId :=
  if some prototype ∈ typeSelection db.types (db.types.length + 1) (some type) then
    { id := prototype }
  else {}

/-- Method `fetchIsProtype`: `bool(value<TypeId>(&type, &prototype))`, where the conversion of an
id to `bool` is its validity. -/
def fetchIsProtype (db : Database) (type prototype : TypeId) : Bool :=
  (selectPrototypeIdStatement db type.id prototype.id).isValid

/-- The plan for the property lookup that scans `propertyDeclarations` in the order of its key
and looks the type of each row up in the selection. -/
def propertyDeclarationsScan : Sqlite.RowOrder PropertyDeclarationsRow :=
  .byKey fun first second => decide (first.propertyDeclarationId ≤ second.propertyDeclarationId)

/-- Statement `selectPropertyDeclarationByTypeIdAndNameStatement`: `SELECT
propertyDeclarationId FROM propertyDeclarations JOIN typeSelection USING(typeId) WHERE name=?2
LIMIT 1`, read with `value<PropertyDeclarationId>`.  The statement has no `ORDER BY`: the rows
of the join are the declarations of the name by the types of the selection, and `LIMIT 1`
returns the row the plan of the engine (`order`) produces first.  The rows are written here as
the loop over the selection in the order it is produced, with a lookup of each type in the index
on `(typeId, name)`, produces them. -/
def selectPropertyDeclarationByTypeIdAndNameStatement
    (order : Sqlite.RowOrder PropertyDeclarationsRow) (db : Database) (typeId : Int)
    (name : String) : PropertyDeclarationId :=
  match (order.arrange
      ((typeSelection db.types (db.types.length + 1) (some typeId)).flatMap fun selected =>
        db.propertyDeclarations.filter
          fun row => some row.typeId = selected ∧ row.name = name)).head?
  with
  | some row => { id := row.propertyDeclarationId }
  | none => {}

/-- Method `fetchPropertyDeclarationByTypeIdAndName`. -/
def fetchPropertyDeclarationByTypeIdAndName (order : Sqlite.RowOrder PropertyDeclarationsRow)
    (db : Database) (typeId : TypeId) (name : String) : PropertyDeclarationId :=
  selectPropertyDeclarationByTypeIdAndNameStatement order db typeId.id name

end ProjectStorage

/-! ## Invariants of the tables -/

/-- Key columns of a row of a declaration table: `(id, typeId, name)`. -/
abbrev DeclarationKey := Int × Int × String

/-- Constraints of a declaration table on its key columns: the primary key is unique, and so is
the pair `(typeId, name)` of the unique index. -/
def KeysWF (keys : List DeclarationKey) : Prop :=
  (keys.map (·.1)).Nodup ∧ (keys.map (·.2)).Nodup

/-- State of the merge of one declaration kind of type `t` before a round: the table keeps its
constraints, both streams are strictly ascending by name, each persisted row still to visit is
in the table, and every other row of `t` has a name below all names still to visit. -/
structure MergeInv {σ V A : Type} (keys : σ → List DeclarationKey) (t : Int)
    (vid : V → Int) (vname : V → String) (aname : A → String) (Inv : σ → Prop)
    (vs : List V) (as : List A) (s : σ) : Prop where
  wf : KeysWF (keys s)
  inv : Inv s
  vsSorted : vs.Pairwise (fun v w => Sqlite.compare (vname v) (vname w) = .lt)
  asSorted : as.Pairwise (fun a b => Sqlite.compare (aname a) (aname b) = .lt)
  present : ∀ v ∈ vs, (vid v, t, vname v) ∈ keys s
  done : ∀ k ∈ keys s, k.2.1 = t → (∃ v ∈ vs, vid v = k.1) ∨
    ((∀ v ∈ vs, Sqlite.compare k.2.2 (vname v) = .lt) ∧
     (∀ a ∈ as, Sqlite.compare k.2.2 (aname a) = .lt))

/-- What the merge of one declaration kind of type `t` has done once it is over, `s` before and
`s1` after: rows of other types, rows already visited and rows whose name is incoming are kept
with their key, every row of `t` that is left was kept or carries an incoming name, and every
incoming name is stored. -/
structure MergePost {σ V A : Type} (keys : σ → List DeclarationKey) (t : Int)
    (vid : V → Int) (aname : A → String) (Inv : σ → Prop)
    (vs : List V) (as : List A) (s s1 : σ) : Prop where
  wf : KeysWF (keys s1)
  inv : Inv s1
  kept : ∀ k ∈ keys s,
    (k.2.1 ≠ t ∨ (∀ v ∈ vs, vid v ≠ k.1) ∨ (∃ a ∈ as, aname a = k.2.2)) → k ∈ keys s1
  origin : ∀ k ∈ keys s1, (k.2.1 = t ∧ ∃ a ∈ as, aname a = k.2.2) ∨
    (k ∈ keys s ∧ (k.2.1 = t → ∀ v ∈ vs, vid v ≠ k.1))
  stored : ∀ a ∈ as, ∃ i, (i, t, aname a) ∈ keys s1

/-- Key columns of the rows of `propertyDeclarations`. -/
def propertyKeys (db : Database) : List DeclarationKey :=
  db.propertyDeclarations.map fun row => (row.propertyDeclarationId, row.typeId, row.name)

/-- Key columns of the rows of `functionDeclarations`. -/
def functionKeys (db : Database) : List DeclarationKey :=
  db.functionDeclarations.map fun row => (row.functionDeclarationId, row.typeId, row.name)

/-- Key columns of the rows of `signalDeclarations`. -/
def signalKeys (db : Database) : List DeclarationKey :=
  db.signalDeclarations.map fun row => (row.signalDeclarationId, row.typeId, row.name)

/-- Key columns of the rows of `enumerationDeclarations`. -/
def enumerationKeys (db : Database) : List DeclarationKey :=
  db.enumerationDeclarations.map fun row => (row.enumerationDeclarationId, row.typeId, row.name)

/-- Constraints of the table `types`: the primary key `typeId` is unique, `name` is unique, and
the keys are those the engine assigns (not negative). -/
def TypesWF (types : List TypesRow) : Prop :=
  (types.map (·.typeId)).Nodup ∧ (types.map (·.name)).Nodup ∧ ∀ row ∈ types, 0 ≤ row.typeId

/-- Constraints the schema puts on the tables the synchronization works on. -/
structure Database.WellFormed (db : Database) : Prop where
  types : TypesWF db.types
  properties : KeysWF (propertyKeys db)
  functions : KeysWF (functionKeys db)
  signals : KeysWF (signalKeys db)
  enumerations : KeysWF (enumerationKeys db)

/-- Outcome of synchronizing one declaration kind of type `t` with incoming `names`, on the key
columns `before` and `after`: the names stored for `t` are the incoming names, a row whose name
is incoming keeps its id, and a row whose name is not incoming is gone. -/
def DeclarationsSynchronized (before after : List DeclarationKey) (t : Int)
    (names : List String) : Prop :=
  (∀ n, (∃ i, (i, t, n) ∈ after) ↔ n ∈ names) ∧
  (∀ i n, (i, t, n) ∈ before → n ∈ names → (i, t, n) ∈ after) ∧
  (∀ i n, (i, t, n) ∈ before → n ∉ names → (i, t, n) ∉ after)

/-! ## The prototype relation -/

/-- One step of the prototype relation: the row of type `a` names `b` as its prototype. -/
def IsPrototypeOf (db : Database) (a b : Int) : Prop :=
  ∃ row ∈ db.types, row.typeId = a ∧ row.prototypeId = some b

/-- Type `c` is reached from `t` by following `prototypeId` zero or more times. -/
def ReachesPrototype (db : Database) (t c : Int) : Prop :=
  Relation.ReflTransGen (IsPrototypeOf db) t c

/-- Type `c` is reached from `t` by following `prototypeId` one or more times. -/
def ProperAncestor (db : Database) (t c : Int) : Prop :=
  Relation.TransGen (IsPrototypeOf db) t c

/-- The prototype relation has no cycle: no type is a proper ancestor of itself. -/
def Acyclic (db : Database) : Prop :=
  ∀ a, ¬ProperAncestor db a a

/-! ## Sample stores -/

namespace Sample

/-- Store of the unit tests of the chain queries: `Base <- QObject <- QQuickItem`, a second type
`QQuickItem2` derived from `Base`, an unrelated type `double`; `Base` and `QQuickItem` declare a
property `foo`, `QObject` declares `bar`. -/
def chainDatabase : Database :=
  { types := [
      { typeId := 1, name := "Base", accessSemantics := some 1, sourceId := some 1 },
      { typeId := 2, name := "QObject", accessSemantics := some 1, sourceId := some 1,
        prototypeId := some 1 },
      { typeId := 3, name := "QQuickItem", accessSemantics := some 1, sourceId := some 1,
        prototypeId := some 2 },
      { typeId := 4, name := "QQuickItem2", accessSemantics := some 1, sourceId := some 1,
        prototypeId := some 1 },
      { typeId := 5, name := "double", accessSemantics := some 2, sourceId := some 1 }],
    propertyDeclarations := [
      { propertyDeclarationId := 1, typeId := 1, name := "foo", propertyTypeId := 5,
        propertyTraits := some 0 },
      { propertyDeclarationId := 2, typeId := 2, name := "bar", propertyTypeId := 5,
        propertyTraits := some 0 },
      { propertyDeclarationId := 3, typeId := 3, name := "foo", propertyTypeId := 5,
        propertyTraits := some 0 }] }

end Sample

/-! ## Relations between the state before and after a step -/

/-- Every row of `types` is kept as it is, and the constraints of the table are kept. -/
def TypesGrow (s s1 : Session) : Prop :=
  (∀ row ∈ s.database.types, row ∈ s1.database.types) ∧
  (TypesWF s.database.types → TypesWF s1.database.types)

/-- Every row of `types` is still there under its id and name (its other columns may differ). -/
def TypesPersist (types types1 : List TypesRow) : Prop :=
  ∀ row ∈ types, ∃ row1 ∈ types1, row1.typeId = row.typeId ∧ row1.name = row.name

/-- Row `row` of `types` holds the batch entry `type`: its name, access semantics and source, and
as prototype the row of `types` named by the prototype of the entry (none for the empty name). -/
def StoresType (types : List TypesRow) (type : Storage.Type_) (row : TypesRow) : Prop :=
  row ∈ types ∧ row.name = type.typeName ∧
  row.accessSemantics = some type.accessSemantics.toInt ∧
  row.sourceId = nullif type.sourceId.id (-1) ∧
  (type.prototype = "" → row.prototypeId = none) ∧
  (type.prototype ≠ "" →
    ∃ proto ∈ types, proto.name = type.prototype ∧ row.prototypeId = some proto.typeId)

namespace Sample

/-- Type `A` of source `1`, with an exported name and one declaration of each kind; the property
has no type name. -/
def typeA : Storage.Type_ :=
  { typeName := "A", accessSemantics := .Reference, sourceId := { id := 1 },
    exportedTypes := [{ qualifiedTypeName := "Qml.A",
                        version := { major := { version := 1 }, minor := { version := 0 } } }],
    propertyDeclarations := [{ name := "p", typeName := "", traits := 0 }],
    functionDeclarations := [{ name := "f", returnTypeName := "A",
                               parameters := [{ name := "x", typeName := "A" }] }],
    signalDeclarations := [{ name := "changed" }],
    enumerationDeclarations := [{ name := "E", enumeratorDeclarations :=
      [{ name := "on", value := 1, hasValue := true }, { name := "off" }] }] }

/-- Type `B` of source `1`, derived from `A`. -/
def typeB : Storage.Type_ :=
  { typeName := "B", prototype := "A", accessSemantics := .Reference, sourceId := { id := 1 } }

/-- Type `C` of source `1`. -/
def typeC : Storage.Type_ :=
  { typeName := "C", accessSemantics := .Value, sourceId := { id := 1 } }

/-- Type `X` of source `2`. -/
def typeX : Storage.Type_ :=
  { typeName := "X", accessSemantics := .Reference, sourceId := { id := 2 } }

/-- Store after `synchronizeTypes([A, B, X], [1, 2])` on the empty store: `A`, `B`, `X` under
the ids `1`, `2`, `3`. -/
def declaredDatabase : Database :=
  (ProjectStorage.synchronizeTypes {} [typeA, typeB, typeX] [{ id := 1 }, { id := 2 }]).database

/-- Store after `synchronizeTypes([A], [1])` on the empty store: `A` under the id `1`, with its
declarations and its exported name. -/
def singleDatabase : Database :=
  (ProjectStorage.synchronizeTypes {} [typeA] [{ id := 1 }]).database

/-- Store with one type that has no source. -/
def builtinDatabase : Database :=
  { types := [{ typeId := 1, name := "QObject", accessSemantics := some 1 }] }

/-- Store in which type `1` has the properties `a` and `c`, the function `f`, the signal `s`
and the enumeration `E`. -/
def mergeDatabase : Database :=
  { types := [{ typeId := 1, name := "A", accessSemantics := some 1, sourceId := some 1 }],
    propertyDeclarations := [
      { propertyDeclarationId := 1, typeId := 1, name := "a", propertyTypeId := 1,
        propertyTraits := some 0 },
      { propertyDeclarationId := 2, typeId := 1, name := "c", propertyTypeId := 1,
        propertyTraits := some 0 }],
    functionDeclarations := [
      { functionDeclarationId := 1, typeId := 1, name := "f", signature := "[]",
        returnTypeName := "" }],
    signalDeclarations := [
      { signalDeclarationId := 1, typeId := 1, name := "s", signature := "[]" }],
    enumerationDeclarations := [
      { enumerationDeclarationId := 1, typeId := 1, name := "E",
        enumeratorDeclarations := "\x7b\x7d" }] }

end Sample

namespace Sample

/-- Type `A` as a later parse gives it: other access semantics and no source id. -/
def typeAWithoutSource : Storage.Type_ :=
  { typeName := "A", prototype := "", accessSemantics := .Value }

/-- Type `A` as a later parse gives it: other access semantics, derived from `C`. -/
def typeAChanged : Storage.Type_ :=
  { typeName := "A", prototype := "C", accessSemantics := .Value, sourceId := { id := 1 } }

/-- Type `A` with two properties of one name. -/
def typeATwice : Storage.Type_ :=
  { typeName := "A", accessSemantics := .Reference, sourceId := { id := 1 },
    propertyDeclarations := [{ name := "p", typeName := "C" }, { name := "p", typeName := "C" }] }

end Sample

namespace Sample

/-- State after the sweep for source `1` with no updated type, run on `singleDatabase`. -/
def sweptSession : Session :=
  { database := { singleDatabase with types := [] },
    log := [.deleteNotUpdatedTypesInSourcesStatement [1] []] }

end Sample

namespace Sample

/-- Type `D` of source `2`, derived from `A`. -/
def typeD : Storage.Type_ :=
  { typeName := "D", prototype := "A", accessSemantics := .Reference, sourceId := { id := 2 } }

/-- Store after `synchronizeTypes([A, D], [1, 2])` on the empty store: `A` of source `1` under
the id `1`, and `D` of source `2`, derived from `A`, under the id `2`. -/
def derivedDatabase : Database :=
  (ProjectStorage.synchronizeTypes {} [typeA, typeD] [{ id := 1 }, { id := 2 }]).database

end Sample

/-! ## `ProjectStorage`: single writes -/

namespace ProjectStorage

/-- Statement `selectTypeIdByQualifiedNameStatement`: `SELECT typeId FROM exportedTypes WHERE
qualifiedName=?1 AND majorVersion=?2 AND minorVersion<=?3 ORDER BY minorVersion DESC LIMIT 1`,
read with `value<TypeId>`: the default (invalid) id when no row matches. -/
def selectTypeIdByQualifiedNameStatement (db : Database) (qualifiedName : String)
    (majorVersion minorVersion : Int) : TypeId :=
  match ((db.exportedTypes.filter fun row => row.qualifiedName = qualifiedName
      ∧ row.majorVersion = majorVersion ∧ row.minorVersion ≤ minorVersion).insertionSort
        fun first second => second.minorVersion ≤ first.minorVersion).head? with
  | some row => { id := row.typeId }
  | none => {}

/-- Method `fetchTypeIdByQualifiedNameAndVersion`. -/
def fetchTypeIdByQualifiedNameAndVersion (db : Database) (name : String)
    (version : Storage.Version) : TypeId :=
  selectTypeIdByQualifiedNameStatement db name version.major.version version.minor.version

/-- Method `upsertType(name, prototypeId, accessSemantics, exportedTypes)`.  The call binds the
name, the access semantics and the prototype id of `upsertTypeStatement`, not its fourth
parameter; the loop over the exported types issues `upsertExportedTypesStatement` as
`upsertExportedType` does. -/
def upsertType (db : Database) (name : String) (prototypeId : TypeId)
    (accessSemantics : Storage.TypeAccessSemantics) (exportedTypes : List Storage.ExportedType) :
    Outcome TypeId :=
  Sqlite.ImmediateTransaction db fun s =>
    let upserted := upsertTypeStatement s.database name accessSemantics.toInt prototypeId.id none
    match upsertExportedTypes upserted.2 exportedTypes { s with database := upserted.1 } with
    | .error e => .error e
    | .ok s1 => .ok (s1, upserted.2)

/-- Statement `upsertPropertyDeclarationStatement`: `INSERT INTO propertyDeclarations(typeId,
name, propertyTypeId, propertyTraits) VALUES(?1, ?2, ?3, nullif(?4, 0)) ON CONFLICT DO UPDATE SET
typeId=excluded.typeId, name=excluded.name, propertyTypeId=excluded.propertyTypeId,
propertyTraits=excluded.propertyTraits RETURNING propertyDeclarationId`; the conflict is the one
of the unique index on `(typeId, name)`. -/
def upsertPropertyDeclarationStatement (db : Database) (typeId : Int) (name : String)
    (propertyTypeId traits : Int) : Database × PropertyDeclarationId :=
  match db.propertyDeclarations.find? (fun row => row.typeId = typeId ∧ row.name = name) with
  | some conflicting =>
    ({ db with propertyDeclarations := db.propertyDeclarations.map fun row =>
        if row.typeId = typeId ∧ row.name = name then
          { row with propertyTypeId := propertyTypeId, propertyTraits := nullif traits 0 }
        else row },
     { id := conflicting.propertyDeclarationId })
  | none =>
    let id := newRowId (db.propertyDeclarations.map (·.propertyDeclarationId))
    ({ db with propertyDeclarations := db.propertyDeclarations ++
        [{ propertyDeclarationId := id, typeId := typeId, name := name,
           propertyTypeId := propertyTypeId, propertyTraits := nullif traits 0 }] },
     { id := id })

/-- Method `upsertPropertyDeclaration(typeId, name, propertyTypeId)`: the statement with the
traits `0`, in a transaction of its own; the statement raises nothing. -/
def upsertPropertyDeclaration (db : Database) (typeId : TypeId) (name : String)
    (propertyTypeId : TypeId) : Database × PropertyDeclarationId :=
  upsertPropertyDeclarationStatement db typeId.id name propertyTypeId.id 0

/-! ## `ProjectStorage`: hydration -/

end ProjectStorage

/-- Reading of an access semantics: `static_cast<TypeAccessSemantics>(value)`; an integer that
is no enumerator, which the storage never writes, reads as `Invalid`. -/
def Storage.TypeAccessSemantics.ofInt (value : Int) : Storage.TypeAccessSemantics :=
  if value = 1 then .Reference
  else if value = 2 then .Value
  else if value = 3 then .Sequence
  else if value = 256 then .IsEnum
  else .Invalid

/-- The JSON table function of the engine, as far as the fetch statements use it.  The engine is
not part of the sources, so the two readings are parameters of the fetch methods:
`parameters signature` are the rows `json_extract(value, '$.n'), json_extract(value, '$.tn'),
json_extract(value, '$.tr')` of `json_each(signature)` read as `ParameterDeclaration`s, and
`enumerators text` the rows `key, value, type!='null'` of `json_each(text)` read as
`EnumeratorDeclaration`s. -/
structure JsonEach where
  parameters : String → List Storage.ParameterDeclaration
  enumerators : String → List Storage.EnumeratorDeclaration

namespace ProjectStorage

/-- The scalar subquery `(SELECT name FROM types WHERE typeId=...)` of the select statements,
read as a string: empty when the id is null or names no row. -/
def selectTypeNameSubquery (db : Database) (typeId : Option Int) : String :=
  match typeId with
  | none => ""
  | some id =>
    match db.types.find? (fun row => row.typeId = id) with
    | some row => row.name
    | none => ""

/-- Statement `selectTypesStatement`: `SELECT name, typeId, (SELECT name FROM types WHERE
typeId=outerTypes.prototypeId), accessSemantics, ifnull(sourceId, -1) FROM types AS outerTypes`,
read as `Storage::Type(typeName, typeId, prototype, accessSemantics, sourceId)`. -/
def selectTypesStatement (db : Database) : List Storage.Type_ :=
  db.types.map fun row =>
    { typeName := row.name, typeId := { id := row.typeId },
      prototype := selectTypeNameSubquery db row.prototypeId,
      accessSemantics := .ofInt (row.accessSemantics.getD 0),
      sourceId := { id := row.sourceId.getD (-1) } }

/-- Statement `selectTypeByTypeIdStatement`: `SELECT name, (SELECT name FROM types WHERE
typeId=outerTypes.prototypeId), accessSemantics, ifnull(sourceId, -1) FROM types AS outerTypes
WHERE typeId=?`, read with `value<Storage::Type>` as `Storage::Type(typeName, prototype,
accessSemantics, sourceId)`: the default type when no row matches. -/
def selectTypeByTypeIdStatement (db : Database) (typeId : Int) : Storage.Type_ :=
  match db.types.find? (fun row => row.typeId = typeId) with
  | some row =>
    { typeName := row.name, prototype := selectTypeNameSubquery db row.prototypeId,
      accessSemantics := .ofInt (row.accessSemantics.getD 0),
      sourceId := { id := row.sourceId.getD (-1) } }
  | none => {}

/-- The plan for `selectExportedTypesByTypeIdStatement` that scans `exportedTypes`, a table
without rowid, in the order of its primary key `(qualifiedName, majorVersion, minorVersion)`. -/
def exportedTypesScan : Sqlite.RowOrder ExportedTypesRow :=
  .byKey fun first second =>
    match Sqlite.compare first.qualifiedName second.qualifiedName with
    | .lt => true
    | .gt => false
    | .eq =>
      decide (first.majorVersion < second.majorVersion) ||
        (decide (first.majorVersion = second.majorVersion) &&
          decide (first.minorVersion ≤ second.minorVersion))

/-- Statement `selectExportedTypesByTypeIdStatement`: `SELECT qualifiedName, majorVersion,
minorVersion FROM exportedTypes WHERE typeId=?`.  The statement has no `ORDER BY`: the rows of
the type come in the order of the plan of the engine (`order`); they are written here in the
order they were inserted. -/
def selectExportedTypesByTypeIdStatement (order : Sqlite.RowOrder ExportedTypesRow)
    (db : Database) (typeId : Int) : List Storage.ExportedType :=
  (order.arrange (db.exportedTypes.filter (fun row => row.typeId = typeId))).map fun row =>
    { qualifiedTypeName := row.qualifiedName,
      version := { major := { version := row.majorVersion },
                   minor := { version := row.minorVersion } } }

/-- Method `fetchExportedTypes`. -/
def fetchExportedTypes (order : Sqlite.RowOrder ExportedTypesRow) (db : Database)
    (typeId : TypeId) : List Storage.ExportedType :=
  selectExportedTypesByTypeIdStatement order db typeId.id

/-- Statement `selectPropertyDeclarationsByTypeIdStatement`: `SELECT name, (SELECT name FROM
types WHERE typeId=propertyDeclarations.propertyTypeId), propertyTraits FROM
propertyDeclarations WHERE typeId=?`, read as `PropertyDeclaration(name, typeName, traits)`. -/
def selectPropertyDeclarationsByTypeIdStatement (db : Database) (typeId : Int) :
    List Storage.PropertyDeclaration :=
  (db.propertyDeclarations.filter (fun row => row.typeId = typeId)).map fun row =>
    { name := row.name, typeName := selectTypeNameSubquery db (some row.propertyTypeId),
      traits := row.propertyTraits.getD 0 }

/-- Method `fetchPropertyDeclarations`. -/
def fetchPropertyDeclarations (db : Database) (typeId : TypeId) :
    List Storage.PropertyDeclaration :=
  selectPropertyDeclarationsByTypeIdStatement db typeId.id

/-- Statement `selectFunctionParameterDeclarationsStatement`: the parameters
`json_each(functionDeclarations.signature)` gives for the row `functionDeclarationId=?`. -/
def selectFunctionParameterDeclarationsStatement (json : JsonEach) (db : Database)
    (functionDeclarationId : Int) : List Storage.ParameterDeclaration :=
  (db.functionDeclarations.filter
    (fun row => row.functionDeclarationId = functionDeclarationId)).flatMap
      fun row => json.parameters row.signature

/-- Method `fetchFunctionDeclarations`: the rows of
`selectFunctionDeclarationsForTypeIdWithoutSignatureStatement` (`SELECT name, returnTypeName,
functionDeclarationId FROM functionDeclarations WHERE typeId=? ORDER BY name`), each with the
parameters read for its id. -/
def fetchFunctionDeclarations (json : JsonEach) (db : Database) (typeId : TypeId) :
    List Storage.FunctionDeclaration :=
  (sortByName (·.name) (db.functionDeclarations.filter (fun row => row.typeId = typeId.id))).map
    fun row =>
      { name := row.name, returnTypeName := row.returnTypeName,
        parameters := selectFunctionParameterDeclarationsStatement json db
          row.functionDeclarationId }

/-- Statement `selectSignalParameterDeclarationsStatement`: the parameters
`json_each(signalDeclarations.signature)` gives for the row `signalDeclarationId=?`. -/
def selectSignalParameterDeclarationsStatement (json : JsonEach) (db : Database)
    (signalDeclarationId : Int) : List Storage.ParameterDeclaration :=
  (db.signalDeclarations.filter
    (fun row => row.signalDeclarationId = signalDeclarationId)).flatMap
      fun row => json.parameters row.signature

/-- Method `fetchSignalDeclarations`: the rows of
`selectSignalDeclarationsForTypeIdWithoutSignatureStatement` (`SELECT name, signalDeclarationId
FROM signalDeclarations WHERE typeId=? ORDER BY name`), each with the parameters read for its
id. -/
def fetchSignalDeclarations (json : JsonEach) (db : Database) (typeId : TypeId) :
    List Storage.SignalDeclaration :=
  (sortByName (·.name) (db.signalDeclarations.filter (fun row => row.typeId = typeId.id))).map
    fun row =>
      { name := row.name,
        parameters := selectSignalParameterDeclarationsStatement json db row.signalDeclarationId }

/-- Statement `selectEnumeratorDeclarationStatement`: the enumerators
`json_each(enumerationDeclarations.enumeratorDeclarations)` gives for the row
`enumerationDeclarationId=?`. -/
def selectEnumeratorDeclarationStatement (json : JsonEach) (db : Database)
    (enumerationDeclarationId : Int) : List Storage.EnumeratorDeclaration :=
  (db.enumerationDeclarations.filter
    (fun row => row.enumerationDeclarationId = enumerationDeclarationId)).flatMap
      fun row => json.enumerators row.enumeratorDeclarations

/-- Method `fetchEnumerationDeclarations`: the rows of
`selectEnumerationDeclarationsForTypeIdWithoutEnumeratorDeclarationsStatement` (`SELECT name,
enumerationDeclarationId FROM enumerationDeclarations WHERE typeId=? ORDER BY name`), each with
the enumerators read for its id. -/
def fetchEnumerationDeclarations (json : JsonEach) (db : Database) (typeId : TypeId) :
    List Storage.EnumerationDeclaration :=
  (sortByName (·.name)
    (db.enumerationDeclarations.filter (fun row => row.typeId = typeId.id))).map
    fun row =>
      { name := row.name,
        enumeratorDeclarations := selectEnumeratorDeclarationStatement json db
          row.enumerationDeclarationId }

/-- Method `fetchTypeByTypeId`. -/
def fetchTypeByTypeId (order : Sqlite.RowOrder ExportedTypesRow) (db : Database)
    (typeId : TypeId) : Storage.Type_ :=
  { selectTypeByTypeIdStatement db typeId.id with
    exportedTypes := fetchExportedTypes order db typeId }

/-- Method `fetchTypes`. -/
def fetchTypes (order : Sqlite.RowOrder ExportedTypesRow) (json : JsonEach) (db : Database) :
    List Storage.Type_ :=
  (selectTypesStatement db).map fun type =>
    { type with
      exportedTypes := fetchExportedTypes order db type.typeId,
      propertyDeclarations := fetchPropertyDeclarations db type.typeId,
      functionDeclarations := fetchFunctionDeclarations json db type.typeId,
      signalDeclarations := fetchSignalDeclarations json db type.typeId,
      enumerationDeclarations := fetchEnumerationDeclarations json db type.typeId }

/-- Statement `selectPrototypeIdsStatement`: `SELECT typeId FROM typeSelection`, every row of
the recursive table, the null `prototypeId` of the last type of the chain included. -/
def selectPrototypeIdsStatement (db : Database) (type : Int) : List (Option Int) :=
  typeSelection db.types (db.types.length + 1) (some type)

/-- Method `fetchPrototypes`: the rows of `selectPrototypeIdsStatement` read as `TypeId`s.  The
reading of a column is not part of the sources; `nullValue` is the integer the engine gives for
a null column. -/
def fetchPrototypes (nullValue : Int) (db : Database) (type : TypeId) : List TypeId :=
  (selectPrototypeIdsStatement db type.id).map fun row => { id := row.getD nullValue }

end ProjectStorage

/-! ## The storage of `metainfo/projectstorage.h` -/

namespace Metainfo

abbrev InternalTypeId := InternalId
abbrev InternalPropertyDeclarationId := InternalId

/-- Access semantics of `projectstorageids.h`:
`enum class TypeAccessSemantics { Reference, Value, Sequence, IsEnum = 0xF }`. -/
inductive TypeAccessSemantics
  | Reference
  | Value
  | Sequence
  | IsEnum
deriving DecidableEq

/-- Integer value of an access semantics: `static_cast<long long>(accessSemantics)`. -/
def TypeAccessSemantics.toInt : TypeAccessSemantics → Int
  | .Reference => 0
  | .Value => 1
  | .Sequence => 2
  | .IsEnum => 15

/-- Row of `types`: `typeId` is the integer primary key, `name` has a unique index.  The column
`defaultProperty` is never written or read and is left out. -/
structure TypesRow where
  typeId : Int
  name : String
  accessSemantics : Option Int := none
  prototype : Option Int := none
deriving DecidableEq

/-- Row of `qualifiedTypeNames`, a table without rowid whose primary key is `qualifiedName`. -/
structure QualifiedTypeNamesRow where
  qualifiedName : String
  typeId : Int
deriving DecidableEq

/-- Row of `propertyDeclarations`: unique index on `(typeId, name)`. -/
structure PropertyDeclarationsRow where
  propertyDeclarationId : Int
  typeId : Int
  name : String
  propertyTypeId : Int
deriving DecidableEq

/-- Tables the statements of the storage use (`enumerationValues`, `methods` and `signals` are
created and never touched). -/
structure Database where
  types : List TypesRow := []
  qualifiedTypeNames : List QualifiedTypeNamesRow := []
  propertyDeclarations : List PropertyDeclarationsRow := []
deriving DecidableEq

namespace ProjectStorage

/-- Statement `upsertTypeStatement`: `INSERT INTO types(name, accessSemantics, prototype)
VALUES(?1, ?2, nullif(?3, -1)) ON CONFLICT DO UPDATE SET prototype=excluded.prototype,
accessSemantics=excluded.accessSemantics RETURNING typeId`. -/
def upsertTypeStatement (db : Database) (name : String) (accessSemantics prototype : Int) :
    Database × InternalTypeId :=
  match db.types.find? (fun row => row.name = name) with
  | some conflicting =>
    ({ db with types := db.types.map fun row =>
        if row.name = name then
          { row with prototype := nullif prototype (-1), accessSemantics := some accessSemantics }
        else row },
     { id := conflicting.typeId })
  | none =>
    let typeId := newRowId (db.types.map (·.typeId))
    ({ db with types := db.types ++ [{ typeId := typeId, name := name,
                                        accessSemantics := some accessSemantics,
                                        prototype := nullif prototype (-1) }] },
     { id := typeId })

/-- Statement `upsertQualifiedTypeNameStatement`: `INSERT INTO qualifiedTypeNames(qualifiedName,
typeId) VALUES(?1, ?2) ON CONFLICT DO UPDATE SET typeId=excluded.typeId`. -/
def upsertQualifiedTypeNameStatement (db : Database) (qualifiedName : String) (typeId : Int) :
    Database :=
  if db.qualifiedTypeNames.any (fun row => row.qualifiedName = qualifiedName) then
    { db with qualifiedTypeNames := db.qualifiedTypeNames.map fun row =>
        if row.qualifiedName = qualifiedName then { row with typeId := typeId } else row }
  else
    { db with qualifiedTypeNames := db.qualifiedTypeNames ++
        [{ qualifiedName := qualifiedName, typeId := typeId }] }

/-- Method `upsertType(name, prototype, accessSemantics, qualifiedNames)`.  Its statements are
upserts on tables without foreign keys: none raises, and the transaction commits. -/
def upsertType (db : Database) (name : String) (prototype : InternalTypeId)
    (accessSemantics : TypeAccessSemantics) (qualifiedNames : List String) :
    Database × InternalTypeId :=
  let upserted := upsertTypeStatement db name accessSemantics.toInt prototype.id
  (qualifiedNames.foldl
    (fun db1 qualifiedName => upsertQualifiedTypeNameStatement db1 qualifiedName upserted.2.id)
    upserted.1,
   upserted.2)

/-- Statement `upsertPropertyDeclarationStatement`: `INSERT INTO propertyDeclarations(typeId,
name, propertyTypeId) VALUES(?1, ?2, ?3) ON CONFLICT DO UPDATE SET typeId=excluded.typeId,
name=excluded.name, propertyTypeId=excluded.propertyTypeId RETURNING propertyDeclarationId`. -/
def upsertPropertyDeclarationStatement (db : Database) (typeId : Int) (name : String)
    (propertyTypeId : Int) : Database × InternalPropertyDeclarationId :=
  match db.propertyDeclarations.find? (fun row => row.typeId = typeId ∧ row.name = name) with
  | some conflicting =>
    ({ db with propertyDeclarations := db.propertyDeclarations.map fun row =>
        if row.typeId = typeId ∧ row.name = name then
          { row with propertyTypeId := propertyTypeId }
        else row },
     { id := conflicting.propertyDeclarationId })
  | none =>
    let id := newRowId (db.propertyDeclarations.map (·.propertyDeclarationId))
    ({ db with propertyDeclarations := db.propertyDeclarations ++
        [{ propertyDeclarationId := id, typeId := typeId, name := name,
           propertyTypeId := propertyTypeId }] },
     { id := id })

/-- Method `upsertPropertyDeclaration(typeId, name, propertyTypeId)`. -/
def upsertPropertyDeclaration (db : Database) (typeId : InternalTypeId) (name : String)
    (propertyTypeId : InternalTypeId) : Database × InternalPropertyDeclarationId :=
  upsertPropertyDeclarationStatement db typeId.id name propertyTypeId.id

/-- Statement `selectTypeIdByQualifiedNameStatement`: `SELECT typeId FROM qualifiedTypeNames
WHERE qualifiedName=?`, read with `value<InternalTypeId>`: no value when no row matches. -/
def selectTypeIdByQualifiedNameStatement (db : Database) (name : String) :
    Option InternalTypeId :=
  (db.qualifiedTypeNames.find? (fun row => row.qualifiedName = name)).map
    fun row => { id := row.typeId }

/-- Method `fetchTypeIdByQualifiedName`. -/
def fetchTypeIdByQualifiedName (db : Database) (name : String) : InternalTypeId :=
  match selectTypeIdByQualifiedNameStatement db name with
  | some typeId => typeId
  | none => {}

/-- The recursive table `typeSelection` of the chain queries:
`VALUES(?1) UNION ALL SELECT prototype FROM types JOIN typeSelection USING(typeId)`, its rows in
the order they are produced; `fuel` bounds the number of rows. -/
def typeSelection (types : List TypesRow) : Nat → Option Int → List (Option Int)
  | 0, _ => []
  | fuel + 1, typeId =>
    typeId ::
      match typeId with
      | none => []
      | some id =>
        match types.find? (fun row => row.typeId = id) with
        | none => []
        | some row => typeSelection types fuel row.prototype

/-- The plan for the property lookup that scans `propertyDeclarations` in the order of its key
and looks the type of each row up in the selection. -/
def propertyDeclarationsScan : Sqlite.RowOrder PropertyDeclarationsRow :=
  .byKey fun first second => decide (first.propertyDeclarationId ≤ second.propertyDeclarationId)

/-- Statement `selectPropertyDeclarationByTypeIdAndNameStatement`: `SELECT propertyDeclarationId
FROM propertyDeclarations JOIN typeSelection USING(typeId) WHERE name=?2 LIMIT 1`, read with
`value<InternalPropertyDeclarationId>`.  The statement has no `ORDER BY`: `LIMIT 1` returns the
row of the join that the plan of the engine (`order`) produces first; the rows are written here
as the loop over the selection in the order it is produced produces them. -/
def selectPropertyDeclarationByTypeIdAndNameStatement
    (order : Sqlite.RowOrder PropertyDeclarationsRow) (db : Database) (typeId : Int)
    (name : String) : Option InternalPropertyDeclarationId :=
  ((order.arrange
      ((typeSelection db.types (db.types.length + 1) (some typeId)).flatMap fun selected =>
        db.propertyDeclarations.filter
          fun row => some row.typeId = selected ∧ row.name = name)).head?).map
    fun row => { id := row.propertyDeclarationId }

/-- Method `fetchPropertyDeclarationByTypeIdAndName`. -/
def fetchPropertyDeclarationByTypeIdAndName (order : Sqlite.RowOrder PropertyDeclarationsRow)
    (db : Database) (typeId : InternalTypeId) (name : String) :
    InternalPropertyDeclarationId :=
  match selectPropertyDeclarationByTypeIdAndNameStatement order db typeId.id name with
  | some propertyDeclarationId => propertyDeclarationId
  | none => {}

end ProjectStorage

end Metainfo

/-! ## Invariants and call sequences of the single writes -/

/-- Constraint of the table `exportedTypes`: the primary key `(qualifiedName, majorVersion,
minorVersion)` is unique. -/
def ExportedTypesWF (rows : List ExportedTypesRow) : Prop :=
  (rows.map fun row => (row.qualifiedName, row.majorVersion, row.minorVersion)).Nodup

/-- Entry `entry` of `exportedTypes` answers a request for `name` in `version`: it has that
qualified name and that major version, and its minor version is not above the requested one. -/
def Answers (entry : ExportedTypesRow) (name : String) (version : Storage.Version) : Prop :=
  entry.qualifiedName = name ∧ entry.majorVersion = version.major.version ∧
    entry.minorVersion ≤ version.minor.version

instance (rows : List ExportedTypesRow) : Decidable (ExportedTypesWF rows) :=
  inferInstanceAs (Decidable
    (rows.map fun row : ExportedTypesRow =>
      (row.qualifiedName, row.majorVersion, row.minorVersion)).Nodup)

instance (entry : ExportedTypesRow) (name : String) (version : Storage.Version) :
    Decidable (Answers entry name version) :=
  inferInstanceAs (Decidable (entry.qualifiedName = name ∧
    entry.majorVersion = version.major.version ∧ entry.minorVersion ≤ version.minor.version))

namespace Sample

/-- Store in which `Foo` is exported in the versions `1.0` (type `1`), `1.2` (type `2`) and
`2.1` (type `3`). -/
def fooDatabase : Database :=
  { types := [{ typeId := 1, name := "Foo10" }, { typeId := 2, name := "Foo12" },
              { typeId := 3, name := "Foo21" }],
    exportedTypes := [
      { qualifiedName := "Foo", typeId := 1, majorVersion := 1, minorVersion := 0 },
      { qualifiedName := "Foo", typeId := 2, majorVersion := 1, minorVersion := 2 },
      { qualifiedName := "Foo", typeId := 3, majorVersion := 2, minorVersion := 1 }] }

end Sample

/-- Every row of `exportedTypes` is kept as it is, and the primary key stays unique. -/
def ExportedTypesGrow (db db1 : Database) : Prop :=
  (∀ row ∈ db.exportedTypes, row ∈ db1.exportedTypes) ∧
  (ExportedTypesWF db.exportedTypes → ExportedTypesWF db1.exportedTypes)

/-- Arguments of a call of `upsertType`. -/
structure UpsertTypeCall where
  name : String
  prototypeId : TypeId := {}
  accessSemantics : Storage.TypeAccessSemantics := .Invalid
  exportedTypes : List Storage.ExportedType := []

/-- The call `upsertType(name, prototypeId, accessSemantics, exportedTypes)` on the store
`db`. -/
def UpsertTypeCall.run (call : UpsertTypeCall) (db : Database) : Outcome TypeId :=
  ProjectStorage.upsertType db call.name call.prototypeId call.accessSemantics call.exportedTypes

/-- The store after a sequence of `upsertType` calls, each in a transaction of its own. -/
def upsertTypeCalls (db : Database) : List UpsertTypeCall → Database
  | [] => db
  | call :: calls => upsertTypeCalls (call.run db).database calls

namespace Metainfo

/-- Constraints of the table `types`: the primary key `typeId` is unique, `name` is unique, and
the keys are those the engine assigns (not negative). -/
def TypesWF (types : List TypesRow) : Prop :=
  (types.map (·.typeId)).Nodup ∧ (types.map (·.name)).Nodup ∧ ∀ row ∈ types, 0 ≤ row.typeId

/-- Arguments of a call of `upsertType`. -/
structure UpsertTypeCall where
  name : String
  prototype : InternalTypeId := {}
  accessSemantics : TypeAccessSemantics := .Reference
  qualifiedNames : List String := []

/-- The call `upsertType(name, prototype, accessSemantics, qualifiedNames)` on the store `db`. -/
def UpsertTypeCall.run (call : UpsertTypeCall) (db : Database) : Database × InternalTypeId :=
  ProjectStorage.upsertType db call.name call.prototype call.accessSemantics call.qualifiedNames

/-- The store after a sequence of `upsertType` calls. -/
def upsertTypeCalls (db : Database) : List UpsertTypeCall → Database
  | [] => db
  | call :: calls => upsertTypeCalls (call.run db).1 calls

end Metainfo

namespace Metainfo

/-- Every row of `types` is still there under its id and name (its other columns may differ). -/
def TypesPersist (types types1 : List TypesRow) : Prop :=
  ∀ row ∈ types, ∃ row1 ∈ types1, row1.typeId = row.typeId ∧ row1.name = row.name

/-- The type id the table `qualifiedTypeNames` gives for a qualified name, if it has a row of
that name. -/
def boundTypeId (db : Database) (qualifiedName : String) : Option Int :=
  (db.qualifiedTypeNames.find? (fun row => row.qualifiedName = qualifiedName)).map (·.typeId)

/-- Key columns of the rows of `propertyDeclarations`. -/
def propertyKeys (db : Database) : List DeclarationKey :=
  db.propertyDeclarations.map fun row => (row.propertyDeclarationId, row.typeId, row.name)

/-- The store after a sequence of `upsertPropertyDeclaration(typeId, name, propertyTypeId)`
calls. -/
def upsertPropertyDeclarationCalls (db : Database) :
    List (InternalTypeId × String × InternalTypeId) → Database
  | [] => db
  | call :: calls =>
    upsertPropertyDeclarationCalls
      (ProjectStorage.upsertPropertyDeclaration db call.1 call.2.1 call.2.2).1 calls

end Metainfo

/-- The store after a sequence of `upsertPropertyDeclaration(typeId, name, propertyTypeId)`
calls. -/
def upsertPropertyDeclarationCalls (db : Database) :
    List (TypeId × String × TypeId) → Database
  | [] => db
  | call :: calls =>
    upsertPropertyDeclarationCalls
      (ProjectStorage.upsertPropertyDeclaration db call.1 call.2.1 call.2.2).1 calls

namespace Sample

/-- Calls of `upsertType` of the main storage: `Yi` twice, the second time derived from `Er`. -/
def callYi : UpsertTypeCall :=
  { name := "Yi", accessSemantics := .Reference,
    exportedTypes := [{ qualifiedTypeName := "Qml.Yi",
                        version := { major := { version := 1 }, minor := { version := 0 } } }] }

/-- Call of `upsertType` for the type `Er`, which exports the name `Qml.Yi 1.0` too. -/
def callEr : UpsertTypeCall :=
  { name := "Er", accessSemantics := .Value,
    exportedTypes := [{ qualifiedTypeName := "Qml.Yi",
                        version := { major := { version := 1 }, minor := { version := 0 } } }] }

/-- Call of `upsertType` for the type `Yi` with the prototype `2` and other access semantics. -/
def callYiDerived : UpsertTypeCall :=
  { name := "Yi", prototypeId := { id := 2 }, accessSemantics := .Sequence }

/-- Call of `upsertType` for a type whose prototype id names no row. -/
def callSan : UpsertTypeCall :=
  { name := "San", prototypeId := { id := 7 }, accessSemantics := .Reference }

end Sample

namespace Metainfo.Sample

/-- Call of `upsertType` of the unit tests: `Yi`, exported as `Qml.Yi`. -/
def callYi : UpsertTypeCall :=
  { name := "Yi", accessSemantics := .Reference, qualifiedNames := ["Qml.Yi"] }

/-- Call of `upsertType` of the unit tests: `Er`, exported as `Qml.Er`. -/
def callEr : UpsertTypeCall :=
  { name := "Er", accessSemantics := .Reference, qualifiedNames := ["Qml.Er"] }

/-- Call of `upsertType` of the unit tests: `San`, exported as `Qml.San`. -/
def callSan : UpsertTypeCall :=
  { name := "San", accessSemantics := .Reference, qualifiedNames := ["Qml.San"] }

end Metainfo.Sample

namespace Metainfo.Sample

/-- Store of the unit tests of the property upsert: the types `QObject` (`1`) and `double`
(`2`), and the property `foo` of `QObject`, of type `double`. -/
def objectDatabase : Database :=
  { types := [{ typeId := 1, name := "QObject", accessSemantics := some 0 },
              { typeId := 2, name := "double", accessSemantics := some 1 }],
    qualifiedTypeNames := [{ qualifiedName := "Qml.Object", typeId := 1 },
                           { qualifiedName := "Qml.doube", typeId := 2 }],
    propertyDeclarations := [{ propertyDeclarationId := 1, typeId := 1, name := "foo",
                               propertyTypeId := 2 }] }

end Metainfo.Sample

namespace Sample

/-- Type `D` of source `1`, derived from `B`. -/
def forwardD : Storage.Type_ :=
  { typeName := "D", prototype := "B", accessSemantics := .Reference, sourceId := { id := 1 } }

/-- Type `B` of source `2`, the prototype `forwardD` names. -/
def forwardB : Storage.Type_ :=
  { typeName := "B", accessSemantics := .Value, sourceId := { id := 2 } }

/-- Type `D` derived from `B`, as `forwardD` but with the default source id. -/
def sourcelessD : Storage.Type_ :=
  { typeName := "D", prototype := "B", accessSemantics := .Reference }

/-- Type `B` as `forwardB` but with the default source id. -/
def sourcelessB : Storage.Type_ :=
  { typeName := "B", accessSemantics := .Value }

end Sample

/-! ## The tables while a batch is synchronized into the empty store -/

/-- Row `row` of `exportedTypes` is the exported type `exportedType` of the type `typeId`. -/
def StoresExportedType (typeId : Int) (row : ExportedTypesRow)
    (exportedType : Storage.ExportedType) : Prop :=
  row.typeId = typeId ∧ row.qualifiedName = exportedType.qualifiedTypeName ∧
  row.majorVersion = exportedType.version.major.version ∧
  row.minorVersion = exportedType.version.minor.version

/-- Row `row` of `propertyDeclarations` is the property `property` of the type `typeId`: name
and traits are those of the property, and the property type is the row of `types` of the type
name of the property (`-1` for the empty name). -/
def StoresProperty (types : List TypesRow) (typeId : Int) (row : PropertyDeclarationsRow)
    (property : Storage.PropertyDeclaration) : Prop :=
  row.typeId = typeId ∧ row.name = property.name ∧ row.propertyTraits = some property.traits ∧
  ((property.typeName = "" ∧ row.propertyTypeId = -1) ∨
   (property.typeName ≠ "" ∧
    ∃ r ∈ types, r.name = property.typeName ∧ r.typeId = row.propertyTypeId))

/-- Row `row` of `functionDeclarations` is the function `function` of the type `typeId`. -/
def StoresFunction (typeId : Int) (row : FunctionDeclarationsRow)
    (function : Storage.FunctionDeclaration) : Prop :=
  row.typeId = typeId ∧ row.name = function.name ∧
  row.returnTypeName = function.returnTypeName ∧
  row.signature = ProjectStorage.createJson function.parameters

/-- Row `row` of `signalDeclarations` is the signal `signal` of the type `typeId`. -/
def StoresSignal (typeId : Int) (row : SignalDeclarationsRow)
    (signal : Storage.SignalDeclaration) : Prop :=
  row.typeId = typeId ∧ row.name = signal.name ∧
  row.signature = ProjectStorage.createJson signal.parameters

/-- Row `row` of `enumerationDeclarations` is the enumeration `enumeration` of the type
`typeId`. -/
def StoresEnumeration (typeId : Int) (row : EnumerationDeclarationsRow)
    (enumeration : Storage.EnumerationDeclaration) : Prop :=
  row.typeId = typeId ∧ row.name = enumeration.name ∧
  row.enumeratorDeclarations =
    ProjectStorage.createJsonEnumeratorDeclarations enumeration.enumeratorDeclarations

/-- State of one table while a batch is synchronized into the empty store.  `processed` pairs
the entries synchronized so far with the type ids `syncType` returned for them.  Every row of
the table belongs to one of these types, and the rows of each of them are, in the order of the
table, what the entry declares (`decls`), related by `Stores`. -/
structure TableInv {R D : Type} (rows : List R) (typeIdOf : R → Int)
    (Stores : Int → R → D → Prop) (decls : Storage.Type_ → List D)
    (processed : List (Storage.Type_ × Int)) : Prop where
  owned : ∀ row ∈ rows, typeIdOf row ∈ processed.map (·.2)
  stored : ∀ p ∈ processed,
    List.Forall₂ (Stores p.2) (rows.filter fun row => typeIdOf row = p.2) (decls p.1)

/-- State of the store while a batch is synchronized into the empty store: the constraints of
`types` hold, every type synchronized so far has its row, every other row of `types` is a
placeholder without source, and each table holds what the types synchronized so far declare. -/
structure BatchInv (processed : List (Storage.Type_ × Int)) (db : Database) : Prop where
  wf : TypesWF db.types
  named : ∀ p ∈ processed, ∃ r ∈ db.types, r.typeId = p.2 ∧ r.name = p.1.typeName
  sourced : ∀ r ∈ db.types, r.sourceId = none ∨ r.name ∈ processed.map (·.1.typeName)
  exported : TableInv db.exportedTypes (·.typeId) StoresExportedType (·.exportedTypes) processed
  properties : TableInv db.propertyDeclarations (·.typeId) (StoresProperty db.types)
    (fun type => sortByName (·.name) type.propertyDeclarations) processed
  functions : TableInv db.functionDeclarations (·.typeId) StoresFunction
    (fun type => sortByName (·.name) type.functionDeclarations) processed
  signals : TableInv db.signalDeclarations (·.typeId) StoresSignal
    (fun type => sortByName (·.name) type.signalDeclarations) processed
  enumerations : TableInv db.enumerationDeclarations (·.typeId) StoresEnumeration
    (fun type => sortByName (·.name) type.enumerationDeclarations) processed

/-- The merge of `Sqlite::insertUpdateDelete` over an empty range: the insert callback runs on
each value in turn, from state `s` to state `s1`. -/
def InsertedAll {σ A : Type} (insertCallback : A → σ → Except Error σ) :
    List A → σ → σ → Prop
  | [], s, s1 => s1 = s
  | value :: values, s, s1 =>
    ∃ s0, insertCallback value s = .ok s0 ∧ InsertedAll insertCallback values s0 s1

namespace Sample

/-- Type `A` of source `1` with a property of type `double`, a type the batch does not
declare. -/
def typeWithDouble : Storage.Type_ :=
  { typeName := "A", accessSemantics := .Reference, sourceId := { id := 1 },
    propertyDeclarations := [{ name := "p", typeName := "double", traits := 1 }] }

/-- Type `double` of source `1`. -/
def typeDouble : Storage.Type_ :=
  { typeName := "double", accessSemantics := .Value, sourceId := { id := 1 } }

end Sample

namespace Sample

/-- Type `E` of source `2`, derived from `A`, with a property of type `double`. -/
def typeE : Storage.Type_ :=
  { typeName := "E", prototype := "A", accessSemantics := .Reference, sourceId := { id := 2 },
    propertyDeclarations := [{ name := "width", typeName := "double", traits := 1 }] }

end Sample

/-- The type `fetched`, as `fetchTypes()` returns it, is the incoming type `type`: same typeName,
prototype name, accessSemantics and sourceId, and the same exported types and property,
function, signal and enumeration declarations up to order, a function, a signal and an
enumeration with its parameter list or enumerator list as it came in. -/
def Hydrates (type fetched : Storage.Type_) : Prop :=
  fetched.typeName = type.typeName ∧ fetched.prototype = type.prototype ∧
  fetched.accessSemantics = type.accessSemantics ∧ fetched.sourceId = type.sourceId ∧
  fetched.exportedTypes.Perm type.exportedTypes ∧
  fetched.propertyDeclarations.Perm (type.propertyDeclarations.map fun property =>
    ({ name := property.name, typeName := property.typeName, traits := property.traits } :
      Storage.PropertyDeclaration)) ∧
  fetched.functionDeclarations.Perm type.functionDeclarations ∧
  fetched.signalDeclarations.Perm type.signalDeclarations ∧
  fetched.enumerationDeclarations.Perm type.enumerationDeclarations

/-! ## `ProjectStorage`: source path cache -/

namespace Cache

/-- Modelled from the spec: `Cache::SourceNameAndSourceContextId` of `sourcepathcachetypes.h`,
the value a row of `sources` is read into ("a (sourceContextId, fileName) pair"); the default
value has the empty name and the invalid id. -/
structure SourceNameAndSourceContextId where
  sourceName : String := ""
  sourceContextId : SourceContextId := {}
deriving DecidableEq

end Cache

namespace ProjectStorage

/-- Statement `selectSourceContextIdFromSourceContextsBySourceContextPathStatement`:
`SELECT sourceContextId FROM sourceContexts WHERE sourceContextPath = ?`, read with
`value<SourceContextId>`: the default (invalid) id when no row matches. -/
def selectSourceContextIdFromSourceContextsBySourceContextPathStatement (db : Database)
    (sourceContextPath : String) : SourceContextId :=
  match db.sourceContexts.find? (fun row => row.sourceContextPath = sourceContextPath) with
  | some row => { id := row.sourceContextId }
  | none => {}

/-- Statement `selectSourceContextPathFromSourceContextsBySourceContextIdStatement`:
`SELECT sourceContextPath FROM sourceContexts WHERE sourceContextId = ?`, read with
`optionalValue<Utils::PathString>`. -/
def selectSourceContextPathFromSourceContextsBySourceContextIdStatement (db : Database)
    (sourceContextId : Int) : Option String :=
  (db.sourceContexts.find? (fun row => row.sourceContextId = sourceContextId)).map
    (·.sourceContextPath)

/-- Statement `insertIntoSourceContextsStatement`: `INSERT INTO sourceContexts(sourceContextPath)
VALUES (?)`; the unique index on `sourceContextPath` rejects a second row of that path.  The
second component is the key of the new row, which `database.lastInsertedRowId()` reads. -/
def insertIntoSourceContextsStatement (db : Database) (sourceContextPath : String) :
    Except Error (Database × Int) :=
  if db.sourceContexts.any (fun row => row.sourceContextPath = sourceContextPath) then
    .error .ConstraintPreventsModification
  else
    let sourceContextId := newRowId (db.sourceContexts.map (·.sourceContextId))
    .ok ({ db with sourceContexts := db.sourceContexts ++
             [{ sourceContextId := sourceContextId, sourceContextPath := sourceContextPath }] },
         sourceContextId)

/-- Statement `selectSourceIdFromSourcesBySourceContextIdAndSourceNameStatement`:
`SELECT sourceId FROM sources WHERE sourceContextId = ? AND sourceName = ?`, read with
`value<SourceId>`. -/
def selectSourceIdFromSourcesBySourceContextIdAndSourceNameStatement (db : Database)
    (sourceContextId : Int) (sourceName : String) : SourceId :=
  match db.sources.find? (fun row => row.sourceContextId = sourceContextId
      ∧ row.sourceName = sourceName) with
  | some row => { id := row.sourceId }
  | none => {}

/-- Statement `selectSourceNameAndSourceContextIdFromSourcesBySourceIdStatement`:
`SELECT sourceName, sourceContextId FROM sources WHERE sourceId = ?`, read with
`value<Cache::SourceNameAndSourceContextId>`: the default value when no row matches. -/
def selectSourceNameAndSourceContextIdFromSourcesBySourceIdStatement (db : Database)
    (sourceId : Int) : Cache.SourceNameAndSourceContextId :=
  match db.sources.find? (fun row => row.sourceId = sourceId) with
  | some row => { sourceName := row.sourceName, sourceContextId := { id := row.sourceContextId } }
  | none => {}

/-- Statement `selectSourceContextIdFromSourcesBySourceIdStatement`:
`SELECT sourceContextId FROM sources WHERE sourceId = ?`, read with `value<SourceContextId>`. -/
def selectSourceContextIdFromSourcesBySourceIdStatement (db : Database) (sourceId : Int) :
    SourceContextId :=
  match db.sources.find? (fun row => row.sourceId = sourceId) with
  | some row => { id := row.sourceContextId }
  | none => {}

/-- Statement `insertIntoSourcesStatement`: `INSERT INTO sources(sourceContextId, sourceName)
VALUES (?,?)`.  The unique index on `(sourceContextId, sourceName)` rejects a second row of that
pair, and the foreign key `sources.sourceContextId -> sourceContexts.sourceContextId` (checked
with the statement) rejects a row whose source context is not stored; the engine reports both
as a constraint failure.  The second component is the key of the new row. -/
def insertIntoSourcesStatement (db : Database) (sourceContextId : Int) (sourceName : String) :
    Except Error (Database × Int) :=
  if db.sources.any (fun row => row.sourceContextId = sourceContextId
      ∧ row.sourceName = sourceName) then
    .error .ConstraintPreventsModification
  else if !db.sourceContexts.any (fun row => row.sourceContextId = sourceContextId) then
    .error .ConstraintPreventsModification
  else
    let sourceId := newRowId (db.sources.map (·.sourceId))
    .ok ({ db with sources := db.sources ++
             [{ sourceId := sourceId, sourceContextId := sourceContextId,
                sourceName := sourceName }] },
         sourceId)

end ProjectStorage

/-- Insert that another connection of the source path cache commits: the cache only adds rows
("created on first use, and never mutated afterward"). -/
inductive ConcurrentInsert
  | sourceContext (sourceContextPath : String)
  | source (sourceContextId : Int) (sourceName : String)
deriving DecidableEq

/-- Effect of the insert of another connection on the tables; an insert the constraints reject
leaves them as they are. -/
def ConcurrentInsert.run : ConcurrentInsert → Database → Database
  | .sourceContext sourceContextPath, db =>
    match ProjectStorage.insertIntoSourceContextsStatement db sourceContextPath with
    | .ok (db1, _) => db1
    | .error _ => db
  | .source sourceContextId sourceName, db =>
    match ProjectStorage.insertIntoSourcesStatement db sourceContextId sourceName with
    | .ok (db1, _) => db1
    | .error _ => db

/-- Modelled from the spec: the store as one connection sees it while "concurrent creators" use
the cache (§3, §4.4).  `concurrent` lists, for each transaction this connection opens next, the
inserts other connections commit before that transaction reads; the empty list is a store no
other connection writes to, as in a sequence of calls. -/
structure Connection where
  database : Database
  concurrent : List (List ConcurrentInsert) := []
deriving DecidableEq

/-- The commits of other connections that come before the next transaction of this one. -/
def Connection.yield (c : Connection) : Connection :=
  match c.concurrent with
  | [] => c
  | inserts :: concurrent =>
    { database := inserts.foldl (fun db insert => insert.run db) c.database,
      concurrent := concurrent }

namespace Sqlite

/-- Modelled from the spec: `Sqlite::DeferredTransaction` of `sqlitetransaction.h` around a call
of the source path cache ("try a read under a read (deferred) transaction; if absent, attempt an
insert").  The transaction reads the store with what other connections committed before it; the
engine admits no commit of another connection between the read and the insert of one
transaction, so the body runs on that store alone.  The body issues at most one write, as its
last statement: when that raises nothing of the body is left to undo, and when the body returns
the commit makes its write visible.  The body does not touch `types`, so the deferred foreign
key cannot fail the commit. -/
def DeferredTransaction {α : Type} (c : Connection)
    (body : Connection → Connection × Except Error α) : Connection × Except Error α :=
  body c.yield

end Sqlite

namespace ProjectStorage

/-- Method `readSourceContextId`. -/
def readSourceContextId (sourceContextPath : String) (c : Connection) :
    Connection × SourceContextId :=
  (c, selectSourceContextIdFromSourceContextsBySourceContextPathStatement c.database
     sourceContextPath)

/-- Method `writeSourceContextId`: the insert, then `SourceContextId(lastInsertedRowId())`. -/
def writeSourceContextId (sourceContextPath : String) (c : Connection) :
    Connection × Except Error SourceContextId :=
  match insertIntoSourceContextsStatement c.database sourceContextPath with
  | .error e => (c, .error e)
  | .ok (db, rowId) => ({ c with database := db }, .ok { id := rowId })

/-- Method `fetchSourceContextIdUnguarded`:
`sourceContextId ? sourceContextId : writeSourceContextId(sourceContextPath)`. -/
def fetchSourceContextIdUnguarded (sourceContextPath : String) (c : Connection) :
    Connection × Except Error SourceContextId :=
  let read := readSourceContextId sourceContextPath c
  if read.2.isValid then (read.1, .ok read.2) else writeSourceContextId sourceContextPath read.1

/-- Method `fetchSourceContextId(Utils::SmallStringView sourceContextPath)`: the unguarded fetch
in a deferred transaction, and the same call again when `ConstraintPreventsModification` is
caught.  `fuel` bounds the number of attempts; `none` is a call that has not returned within
them. -/
def fetchSourceContextId : Nat → String → Connection →
    Option (Connection × Except Error SourceContextId)
  | 0, _, _ => none
  | fuel + 1, sourceContextPath, c =>
    match Sqlite.DeferredTransaction c (fetchSourceContextIdUnguarded sourceContextPath) with
    | (c1, .error .ConstraintPreventsModification) => fetchSourceContextId fuel sourceContextPath c1
    | (c1, result) => some (c1, result)

/-- Method `fetchSourceContextPath`. -/
def fetchSourceContextPath (db : Database) (sourceContextId : SourceContextId) :
    Except Error String :=
  match selectSourceContextPathFromSourceContextsBySourceContextIdStatement db
      sourceContextId.id with
  | none => .error .SourceContextIdDoesNotExists
  | some sourceContextPath => .ok sourceContextPath

/-- Method `readSourceId`. -/
def readSourceId (sourceContextId : SourceContextId) (sourceName : String) (c : Connection) :
    Connection × SourceId :=
  (c, selectSourceIdFromSourcesBySourceContextIdAndSourceNameStatement c.database
     sourceContextId.id sourceName)

/-- Method `writeSourceId`: the insert, then `SourceId(lastInsertedRowId())`. -/
def writeSourceId (sourceContextId : SourceContextId) (sourceName : String) (c : Connection) :
    Connection × Except Error SourceId :=
  match insertIntoSourcesStatement c.database sourceContextId.id sourceName with
  | .error e => (c, .error e)
  | .ok (db, rowId) => ({ c with database := db }, .ok { id := rowId })

/-- Method `fetchSourceIdUnguarded`. -/
def fetchSourceIdUnguarded (sourceContextId : SourceContextId) (sourceName : String)
    (c : Connection) : Connection × Except Error SourceId :=
  let read := readSourceId sourceContextId sourceName c
  if read.2.isValid then (read.1, .ok read.2)
  else writeSourceId sourceContextId sourceName read.1

/-- Method `fetchSourceId(sourceContextId, sourceName)`: the unguarded fetch in a deferred
transaction; the method has no handler, what the insert raises leaves the call. -/
def fetchSourceId (sourceContextId : SourceContextId) (sourceName : String) (c : Connection) :
    Connection × Except Error SourceId :=
  Sqlite.DeferredTransaction c (fetchSourceIdUnguarded sourceContextId sourceName)

/-- Method `fetchSourceNameAndSourceContextId`. -/
def fetchSourceNameAndSourceContextId (db : Database) (sourceId : SourceId) :
    Except Error Cache.SourceNameAndSourceContextId :=
  let value := selectSourceNameAndSourceContextIdFromSourcesBySourceIdStatement db sourceId.id
  if !value.sourceContextId.isValid then .error .SourceIdDoesNotExists else .ok value

/-- Method `fetchSourceContextId(SourceId sourceId)`, the overload that takes a source id. -/
def fetchSourceContextIdOfSource (db : Database) (sourceId : SourceId) :
    Except Error SourceContextId :=
  let sourceContextId := selectSourceContextIdFromSourcesBySourceIdStatement db sourceId.id
  if !sourceContextId.isValid then .error .SourceIdDoesNotExists else .ok sourceContextId

/-- The ids that `calls` calls of `fetchSourceContextId(sourceContextPath)` return, one call
after the other, and the store after the last of them. -/
def fetchSourceContextIdCalls (fuel : Nat) (sourceContextPath : String) :
    Nat → Connection → Option (Connection × List (Except Error SourceContextId))
  | 0, c => some (c, [])
  | calls + 1, c =>
    match fetchSourceContextId fuel sourceContextPath c with
    | none => none
    | some (c1, result) =>
      match fetchSourceContextIdCalls fuel sourceContextPath calls c1 with
      | none => none
      | some (c2, results) => some (c2, result :: results)

/-- The ids that `calls` calls of `fetchSourceId(sourceContextId, sourceName)` return, one call
after the other, and the store after the last of them. -/
def fetchSourceIdCalls (sourceContextId : SourceContextId) (sourceName : String) :
    Nat → Connection → Connection × List (Except Error SourceId)
  | 0, c => (c, [])
  | calls + 1, c =>
    let first := fetchSourceId sourceContextId sourceName c
    let rest := fetchSourceIdCalls sourceContextId sourceName calls first.1
    (rest.1, first.2 :: rest.2)

end ProjectStorage

/-- Constraints of the table `sourceContexts`: the primary key is unique, the path is unique, and
the keys are those the engine assigns (not negative). -/
def SourceContextsWF (rows : List SourceContextsRow) : Prop :=
  (rows.map (·.sourceContextId)).Nodup ∧ (rows.map (·.sourceContextPath)).Nodup ∧
  ∀ row ∈ rows, 0 ≤ row.sourceContextId

/-- Constraints of the table `sources`: the primary key is unique, the pair
`(sourceContextId, sourceName)` is unique, the keys are those the engine assigns, and every row
names a stored source context (the foreign key). -/
def SourcesWF (db : Database) : Prop :=
  (db.sources.map (·.sourceId)).Nodup ∧
  (db.sources.map fun row => (row.sourceContextId, row.sourceName)).Nodup ∧
  ∀ row ∈ db.sources, 0 ≤ row.sourceId ∧
    ∃ context ∈ db.sourceContexts, context.sourceContextId = row.sourceContextId

namespace Sample

/-- Store of the source path cache with the directory `/path/to` (id `1`) and its file
`file.qml` (id `1`). -/
def pathDatabase : Database :=
  { sourceContexts := [{ sourceContextId := 1, sourceContextPath := "/path/to" }],
    sources := [{ sourceId := 1, sourceContextId := 1, sourceName := "file.qml" }] }

end Sample

/-! ## The metainfo storage as a class template over its `Database` parameter -/

namespace Metainfo

namespace ProjectStorage

/-- Statement `selectPrototypeIdStatement`: `SELECT typeId FROM typeSelection WHERE typeId=?2
LIMIT 1` over the recursive table, read with `value<InternalTypeId>`: no value when no row
matches. -/
def selectPrototypeIdStatement (db : Database) (type prototype : Int) : Option InternalTypeId :=
  if some prototype ∈ typeSelection db.types (db.types.length + 1) (some type) then
    some { id := prototype }
  else none

/-- Method `fetchIsProtype`: `bool(typeId)`, whether the statement gave a value. -/
def fetchIsProtype (db : Database) (type prototype : InternalTypeId) : Bool :=
  (selectPrototypeIdStatement db type.id prototype.id).isSome

end ProjectStorage

/-- Call the storage makes on its `Database` parameter or on one of its statements, with the
values it binds. -/
inductive DatabaseCall
  | immediateBegin
  | deferredBegin
  | commit
  | upsertTypeStatement (name : String) (accessSemantics prototype : Int)
  | upsertQualifiedTypeNameStatement (qualifiedName : String) (typeId : Int)
  | upsertPropertyDeclarationStatement (typeId : Int) (name : String) (propertyTypeId : Int)
  | selectPropertyDeclarationByTypeIdAndNameStatement (typeId : Int) (name : String)
  | selectTypeIdByQualifiedNameStatement (name : String)
  | selectPrototypeIdStatement (type prototype : Int)
deriving DecidableEq

/-- What the class template `ProjectStorage<Database>` uses of its parameter: the begin and the
commit that `Sqlite::ImmediateTransaction` and `Sqlite::DeferredTransaction` call on it, and the
statements of the storage.  Each operation takes the state of the database object and gives the
state after it; a statement read with `value<T>` gives an optional value. -/
structure DatabaseInterface (σ : Type) where
  immediateBegin : σ → σ
  deferredBegin : σ → σ
  commit : σ → σ
  upsertTypeStatement : String → Int → Int → σ → σ × Option InternalTypeId
  upsertQualifiedTypeNameStatement : String → Int → σ → σ
  upsertPropertyDeclarationStatement :
    Int → String → Int → σ → σ × Option InternalPropertyDeclarationId
  selectPropertyDeclarationByTypeIdAndNameStatement :
    Int → String → σ → σ × Option InternalPropertyDeclarationId
  selectTypeIdByQualifiedNameStatement : String → σ → σ × Option InternalTypeId
  selectPrototypeIdStatement : Int → Int → σ → σ × Option InternalTypeId

namespace Template

variable {σ : Type}

/-- Method `upsertType(name, prototype, accessSemantics, qualifiedNames)` of the template.  The
method reads `internalTypeId->id` and `*internalTypeId`: when the statement gives no value it
has no defined result (`none`). -/
def upsertType (database : DatabaseInterface σ) (name : String) (prototype : InternalTypeId)
    (accessSemantics : TypeAccessSemantics) (qualifiedNames : List String) (s : σ) :
    Option (σ × InternalTypeId) :=
  let upserted := database.upsertTypeStatement name accessSemantics.toInt prototype.id
    (database.immediateBegin s)
  match upserted.2 with
  | none => none
  | some internalTypeId =>
    some (database.commit (qualifiedNames.foldl
            (fun s1 qualifiedName =>
              database.upsertQualifiedTypeNameStatement qualifiedName internalTypeId.id s1)
            upserted.1),
          internalTypeId)

/-- Method `upsertPropertyDeclaration(typeId, name, propertyTypeId)` of the template; it reads
`*propertyDeclarationId`. -/
def upsertPropertyDeclaration (database : DatabaseInterface σ) (typeId : InternalTypeId)
    (name : String) (propertyTypeId : InternalTypeId) (s : σ) :
    Option (σ × InternalPropertyDeclarationId) :=
  let upserted := database.upsertPropertyDeclarationStatement typeId.id name propertyTypeId.id
    (database.immediateBegin s)
  match upserted.2 with
  | none => none
  | some propertyDeclarationId => some (database.commit upserted.1, propertyDeclarationId)

/-- Method `fetchPropertyDeclarationByTypeIdAndName(typeId, name)` of the template. -/
def fetchPropertyDeclarationByTypeIdAndName (database : DatabaseInterface σ)
    (typeId : InternalTypeId) (name : String) (s : σ) : σ × InternalPropertyDeclarationId :=
  let selected := database.selectPropertyDeclarationByTypeIdAndNameStatement typeId.id name
    (database.deferredBegin s)
  (database.commit selected.1,
   match selected.2 with
   | some propertyDeclarationId => propertyDeclarationId
   | none => {})

/-- Method `fetchTypeIdByQualifiedName(name)` of the template. -/
def fetchTypeIdByQualifiedName (database : DatabaseInterface σ) (name : String) (s : σ) :
    σ × InternalTypeId :=
  let selected := database.selectTypeIdByQualifiedNameStatement name (database.deferredBegin s)
  (database.commit selected.1,
   match selected.2 with
   | some typeId => typeId
   | none => {})

/-- Method `fetchIsProtype(type, prototype)` of the template. -/
def fetchIsProtype (database : DatabaseInterface σ) (type prototype : InternalTypeId) (s : σ) :
    σ × Bool :=
  let selected := database.selectPrototypeIdStatement type.id prototype.id
    (database.deferredBegin s)
  (database.commit selected.1, selected.2.isSome)

end Template

/-- Modelled from the spec: `SqliteDatabaseMock` of the unit tests (`sqlitedatabasemock.h`),
the parameter `ProjectStorage<SqliteDatabaseMock>` is instantiated with there.  It records the
calls made on it and on its statements in their order (`InSequence`), and a statement read with
`value<T>` answers what the test has set for the call (`Return(...)`), no value when nothing is
set. -/
structure SqliteDatabaseMock where
  valueReturnsInternalTypeId : DatabaseCall → Option InternalTypeId := fun _ => none
  valueReturnsInternalPropertyDeclarationId :
    DatabaseCall → Option InternalPropertyDeclarationId := fun _ => none
  calls : List DatabaseCall := []

/-- The mock records a call. -/
def SqliteDatabaseMock.record (mock : SqliteDatabaseMock) (call : DatabaseCall) :
    SqliteDatabaseMock :=
  { mock with calls := mock.calls ++ [call] }

/-- The operations of the mock, as the template uses them. -/
def SqliteDatabaseMock.database : DatabaseInterface SqliteDatabaseMock where
  immediateBegin mock := mock.record .immediateBegin
  deferredBegin mock := mock.record .deferredBegin
  commit mock := mock.record .commit
  upsertTypeStatement name accessSemantics prototype mock :=
    (mock.record (.upsertTypeStatement name accessSemantics prototype),
     mock.valueReturnsInternalTypeId (.upsertTypeStatement name accessSemantics prototype))
  upsertQualifiedTypeNameStatement qualifiedName typeId mock :=
    mock.record (.upsertQualifiedTypeNameStatement qualifiedName typeId)
  upsertPropertyDeclarationStatement typeId name propertyTypeId mock :=
    (mock.record (.upsertPropertyDeclarationStatement typeId name propertyTypeId),
     mock.valueReturnsInternalPropertyDeclarationId
       (.upsertPropertyDeclarationStatement typeId name propertyTypeId))
  selectPropertyDeclarationByTypeIdAndNameStatement typeId name mock :=
    (mock.record (.selectPropertyDeclarationByTypeIdAndNameStatement typeId name),
     mock.valueReturnsInternalPropertyDeclarationId
       (.selectPropertyDeclarationByTypeIdAndNameStatement typeId name))
  selectTypeIdByQualifiedNameStatement name mock :=
    (mock.record (.selectTypeIdByQualifiedNameStatement name),
     mock.valueReturnsInternalTypeId (.selectTypeIdByQualifiedNameStatement name))
  selectPrototypeIdStatement type prototype mock :=
    (mock.record (.selectPrototypeIdStatement type prototype),
     mock.valueReturnsInternalTypeId (.selectPrototypeIdStatement type prototype))

/-- The operations of the engine on the tables, as the template uses them: the statements of
`Metainfo.ProjectStorage`; a begin changes no table, and the commit keeps what the statements
of these methods wrote (none of them raises); `order` is the order in which the engine returns
the rows of the property lookup. -/
def Database.database (order : Sqlite.RowOrder PropertyDeclarationsRow) :
    DatabaseInterface Database where
  immediateBegin db := db
  deferredBegin db := db
  commit db := db
  upsertTypeStatement name accessSemantics prototype db :=
    ((ProjectStorage.upsertTypeStatement db name accessSemantics prototype).1,
     some (ProjectStorage.upsertTypeStatement db name accessSemantics prototype).2)
  upsertQualifiedTypeNameStatement qualifiedName typeId db :=
    ProjectStorage.upsertQualifiedTypeNameStatement db qualifiedName typeId
  upsertPropertyDeclarationStatement typeId name propertyTypeId db :=
    ((ProjectStorage.upsertPropertyDeclarationStatement db typeId name propertyTypeId).1,
     some (ProjectStorage.upsertPropertyDeclarationStatement db typeId name propertyTypeId).2)
  selectPropertyDeclarationByTypeIdAndNameStatement typeId name db :=
    (db, ProjectStorage.selectPropertyDeclarationByTypeIdAndNameStatement order db typeId name)
  selectTypeIdByQualifiedNameStatement name db :=
    (db, ProjectStorage.selectTypeIdByQualifiedNameStatement db name)
  selectPrototypeIdStatement type prototype db :=
    (db, ProjectStorage.selectPrototypeIdStatement db type prototype)

namespace Sample

/-- Mock of the test `InsertTypeCalls`: the type upsert of `QObject` answers the id `11`. -/
def insertTypeMock : SqliteDatabaseMock :=
  { valueReturnsInternalTypeId := fun call =>
      if call = .upsertTypeStatement "QObject" 0 3 then some { id := 11 } else none }

end Sample

end Metainfo

/-! ## The signature text, character by character -/

namespace ProjectStorage

/-- The characters the loop of `createJson` appends for one parameter, after the separator. -/
def createJson.object (parameter : Storage.ParameterDeclaration) : List Char :=
  "\x7b\"n\":\"".data ++ parameter.name.data ++ "\",\"tn\":\"".data ++ parameter.typeName.data ++
    if parameter.traits = 0 then "\"\x7d".data
    else "\",\"tr\":".data ++ (toString parameter.traits).data ++ "\x7d".data

/-- The characters of a signature after its first parameter: each further parameter after a
comma, then the closing bracket. -/
def createJson.rest : List Storage.ParameterDeclaration → List Char
  | [] => "]".data
  | parameter :: parameters =>
    ",".data ++ createJson.object parameter ++ createJson.rest parameters

/-- No name and no type name of the parameter list contains the double quote (character 34),
the one character `createJson` would have to escape. -/
def PlainNames (parameters : List Storage.ParameterDeclaration) : Prop :=
  ∀ parameter ∈ parameters,
    Char.ofNat 34 ∉ parameter.name.data ∧ Char.ofNat 34 ∉ parameter.typeName.data

instance (parameters : List Storage.ParameterDeclaration) : Decidable (PlainNames parameters) :=
  inferInstanceAs (Decidable (∀ parameter ∈ parameters,
    Char.ofNat 34 ∉ parameter.name.data ∧ Char.ofNat 34 ∉ parameter.typeName.data))

end ProjectStorage

namespace Sample

/-- Parameter list of one parameter whose type name holds the text that separates two
parameters in a signature. -/
def quotedParameters : List Storage.ParameterDeclaration :=
  [{ name := "a", typeName := "b\"\x7d,\x7b\"n\":\"c\",\"tn\":\"d" }]

/-- Parameter list of the two parameters `a : b` and `c : d`. -/
def plainParameters : List Storage.ParameterDeclaration :=
  [{ name := "a", typeName := "b" }, { name := "c", typeName := "d" }]

end Sample

/-! ## The tables after a batch is synchronized into a store -/

/-- Row `row` of `propertyDeclarations` holds the property `property` of the type `typeId`: its
name, its traits (a null column reads as `0`), and as property type the row of `types` that has
the type name of the property; for the empty type name the property type is `-1` and the traits
are written. -/
def HoldsProperty (types : List TypesRow) (typeId : Int) (row : PropertyDeclarationsRow)
    (property : Storage.PropertyDeclaration) : Prop :=
  row.typeId = typeId ∧ row.name = property.name ∧
  row.propertyTraits.getD 0 = property.traits ∧
  ((property.typeName = "" ∧ row.propertyTypeId = -1 ∧
      row.propertyTraits = some property.traits) ∨
   (property.typeName ≠ "" ∧
    ∃ r ∈ types, r.name = property.typeName ∧ r.typeId = row.propertyTypeId))

/-- The tables hold the batch entry `type` under the type id `typeId`: its exported types are
stored, and in each declaration table the rows of `typeId` are the declarations of the entry,
name by name, with their values. -/
structure HoldsType (db : Database) (type : Storage.Type_) (typeId : Int) : Prop where
  exported : ∀ e ∈ type.exportedTypes, ∃ row ∈ db.exportedTypes,
    row.qualifiedName = e.qualifiedTypeName ∧ row.majorVersion = e.version.major.version ∧
    row.minorVersion = e.version.minor.version
  properties : ∀ row ∈ db.propertyDeclarations, row.typeId = typeId →
    ∃ d ∈ type.propertyDeclarations, HoldsProperty db.types typeId row d
  propertyNames : ∀ d ∈ type.propertyDeclarations,
    ∃ row ∈ db.propertyDeclarations, row.typeId = typeId ∧ row.name = d.name
  functions : ∀ row ∈ db.functionDeclarations, row.typeId = typeId →
    ∃ d ∈ type.functionDeclarations, StoresFunction typeId row d
  functionNames : ∀ d ∈ type.functionDeclarations,
    ∃ row ∈ db.functionDeclarations, row.typeId = typeId ∧ row.name = d.name
  signals : ∀ row ∈ db.signalDeclarations, row.typeId = typeId →
    ∃ d ∈ type.signalDeclarations, StoresSignal typeId row d
  signalNames : ∀ d ∈ type.signalDeclarations,
    ∃ row ∈ db.signalDeclarations, row.typeId = typeId ∧ row.name = d.name
  enumerations : ∀ row ∈ db.enumerationDeclarations, row.typeId = typeId →
    ∃ d ∈ type.enumerationDeclarations, StoresEnumeration typeId row d
  enumerationNames : ∀ d ∈ type.enumerationDeclarations,
    ∃ row ∈ db.enumerationDeclarations, row.typeId = typeId ∧ row.name = d.name

/-- A step of the synchronization that leaves the declarations of the type `typeId` alone: the
rows of `types` stay under their id and name, the exported types stay, and in each declaration
table the rows of `typeId` are the same before and after. -/
structure KeepsDeclarationsOf (typeId : Int) (db db1 : Database) : Prop where
  types : TypesPersist db.types db1.types
  exported : ∀ row ∈ db.exportedTypes, row ∈ db1.exportedTypes
  properties : ∀ row : PropertyDeclarationsRow, row.typeId = typeId →
    (row ∈ db1.propertyDeclarations ↔ row ∈ db.propertyDeclarations)
  functions : ∀ row : FunctionDeclarationsRow, row.typeId = typeId →
    (row ∈ db1.functionDeclarations ↔ row ∈ db.functionDeclarations)
  signals : ∀ row : SignalDeclarationsRow, row.typeId = typeId →
    (row ∈ db1.signalDeclarations ↔ row ∈ db.signalDeclarations)
  enumerations : ∀ row : EnumerationDeclarationsRow, row.typeId = typeId →
    (row ∈ db1.enumerationDeclarations ↔ row ∈ db.enumerationDeclarations)

/-- Within each declaration kind of the batch entry no two declarations have the same name. -/
def DistinctDeclarationNames (type : Storage.Type_) : Prop :=
  (type.propertyDeclarations.map (·.name)).Nodup ∧
  (type.functionDeclarations.map (·.name)).Nodup ∧
  (type.signalDeclarations.map (·.name)).Nodup ∧
  (type.enumerationDeclarations.map (·.name)).Nodup

instance (type : Storage.Type_) : Decidable (DistinctDeclarationNames type) := by
  unfold DistinctDeclarationNames; infer_instance

instance (types : List TypesRow) : Decidable (TypesWF types) := by
  unfold TypesWF; infer_instance

instance (keys : List DeclarationKey) : Decidable (KeysWF keys) := by
  unfold KeysWF; infer_instance

instance (db : Database) : Decidable db.WellFormed :=
  decidable_of_iff (TypesWF db.types ∧ KeysWF (propertyKeys db) ∧ KeysWF (functionKeys db) ∧
      KeysWF (signalKeys db) ∧ KeysWF (enumerationKeys db))
    ⟨fun h => ⟨h.1, h.2.1, h.2.2.1, h.2.2.2.1, h.2.2.2.2⟩,
     fun h => ⟨h.types, h.properties, h.functions, h.signals, h.enumerations⟩⟩

/-! ## Failure of a statement inside `synchronizeTypes` -/

/-- A phase of `syncType(type)` in the session `s` raises `e`: the lookup of the prototype, which
inserts a row for a name that is not stored; or the loop over the exported types; or the merge
of the property, the function, the signal or the enumeration declarations; each after the phases
before it went through. -/
def ProjectStorage.PhaseRaises (type : Storage.Type_) (s : Session) (e : Error) : Prop :=
  ProjectStorage.fetchTypeIdByName type.prototype s = .error e ∨
  ∃ s1 prototypeId upserted,
    ProjectStorage.fetchTypeIdByName type.prototype s = .ok (s1, prototypeId) ∧
    upserted = ProjectStorage.upsertTypeStatement s1.database type.typeName
      type.accessSemantics.toInt prototypeId.id (some type.sourceId.id) ∧
    (ProjectStorage.upsertExportedTypes upserted.2 type.exportedTypes
        { s1 with database := upserted.1 } = .error e ∨
     ∃ s2, ProjectStorage.upsertExportedTypes upserted.2 type.exportedTypes
          { s1 with database := upserted.1 } = .ok s2 ∧
      (ProjectStorage.synchronizePropertyDeclarations upserted.2 type.propertyDeclarations s2
          = .error e ∨
       ∃ s3, ProjectStorage.synchronizePropertyDeclarations upserted.2
            type.propertyDeclarations s2 = .ok s3 ∧
        (ProjectStorage.synchronizeFunctionDeclarations upserted.2 type.functionDeclarations s3
            = .error e ∨
         ∃ s4, ProjectStorage.synchronizeFunctionDeclarations upserted.2
              type.functionDeclarations s3 = .ok s4 ∧
          (ProjectStorage.synchronizeSignalDeclarations upserted.2 type.signalDeclarations s4
              = .error e ∨
           ∃ s5, ProjectStorage.synchronizeSignalDeclarations upserted.2
                type.signalDeclarations s4 = .ok s5 ∧
            ProjectStorage.synchronizeEnumerationDeclarations upserted.2
                type.enumerationDeclarations s5 = .error e))))

/-- A statement inside the call `synchronizeTypes(types, sourceIds)` on the store `db` raises
`e`: a phase of the `syncType` of an entry of the batch does, after the entries before it went
through; or the sweep `deleteNotUpdatedTypes` does, after the loop over the batch went through;
or the commit does, whose deferred foreign key check raises `ConstraintPreventsModification`
after the body went through. -/
def ProjectStorage.StatementRaises (db : Database) (types : List Storage.Type_)
    (sourceIds : List SourceId) (e : Error) : Prop :=
  (∃ before type after s1 typeIds, types = before ++ type :: after ∧
    ProjectStorage.syncTypes before { database := db } = .ok (s1, typeIds) ∧
    ProjectStorage.PhaseRaises type s1 e) ∨
  (∃ s1 typeIds, ProjectStorage.syncTypes types { database := db } = .ok (s1, typeIds) ∧
    ProjectStorage.deleteNotUpdatedTypes typeIds sourceIds s1 = .error e) ∨
  (∃ s2 typeIds,
    ProjectStorage.synchronizeTypesBody types sourceIds { database := db } = .ok (s2, typeIds) ∧
    deferredForeignKeysHold s2.database = false ∧ e = .ConstraintPreventsModification)

/-! ## The JSON table function of the engine, on the texts the storage writes -/

namespace Sqlite

/-- Scalar JSON value: `null`, an integer, or a string. -/
inductive JsonValue
  | null
  | integer (value : Int)
  | text (value : List Char)
deriving DecidableEq

/-- The characters of a JSON string after its opening double quote, up to the closing double
quote, and the text after it.  Escape sequences are not covered: a backslash ends the reading
without a value, as a control character does, which is no character of a JSON string. -/
def readJsonString : List Char → Option (List Char × List Char)
  | [] => none
  | c :: rest =>
    if c = Char.ofNat 34 then some ([], rest)
    else if c = Char.ofNat 92 ∨ c.toNat < 32 then none
    else (readJsonString rest).map fun read => (c :: read.1, read.2)

/-- Decimal digit. -/
def isDecimalDigit (c : Char) : Bool := decide (48 ≤ c.toNat ∧ c.toNat ≤ 57)

/-- The text starts with a decimal digit. -/
def startsWithDigit : List Char → Bool
  | [] => false
  | c :: _ => isDecimalDigit c

/-- The number the decimal digits at the start of a text denote, after the digits read so far,
and the text after them. -/
def readDigits : Nat → List Char → Nat × List Char
  | value, [] => (value, [])
  | value, c :: rest =>
    if isDecimalDigit c then readDigits (10 * value + (c.toNat - 48)) rest
    else (value, c :: rest)

/-- The integer at the start of a text, an optional minus sign and decimal digits, and the text
after it. -/
def readJsonInteger : List Char → Option (Int × List Char)
  | [] => none
  | c :: rest =>
    if c = Char.ofNat 45 then
      if startsWithDigit rest then
        some (-((readDigits 0 rest).1 : Int), (readDigits 0 rest).2)
      else none
    else if isDecimalDigit c then
      some (((readDigits 0 (c :: rest)).1 : Int), (readDigits 0 (c :: rest)).2)
    else none

/-- The scalar value at the start of a text, a string, `null` or an integer, and the text after
it. -/
def readJsonValue : List Char → Option (JsonValue × List Char)
  | [] => none
  | c :: rest =>
    if c = Char.ofNat 34 then (readJsonString rest).map fun read => (.text read.1, read.2)
    else if c = Char.ofNat 110 then
      if rest.take 3 = [Char.ofNat 117, Char.ofNat 108, Char.ofNat 108] then
        some (.null, rest.drop 3)
      else none
    else (readJsonInteger (c :: rest)).map fun read => (.integer read.1, read.2)

/-- The members `"key":value` of an object, separated by commas, up to the closing brace of the
object, in the order of the text, and the text after the brace.  `fuel` bounds the number of
members. -/
def readJsonMembers : Nat → List Char → Option (List (List Char × JsonValue) × List Char)
  | 0, _ => none
  | _ + 1, [] => none
  | fuel + 1, quote :: rest =>
    if quote = Char.ofNat 34 then
      match readJsonString rest with
      | none => none
      | some key =>
        if key.2.head? = some (Char.ofNat 58) then
          match readJsonValue key.2.tail with
          | none => none
          | some value =>
            if value.2.head? = some (Char.ofNat 125) then
              some ([(key.1, value.1)], value.2.tail)
            else if value.2.head? = some (Char.ofNat 44) then
              (readJsonMembers fuel value.2.tail).map fun read =>
                ((key.1, value.1) :: read.1, read.2)
            else none
        else none
    else none

/-- The members of the object at the start of a text, and the text after the object. -/
def readJsonObject (fuel : Nat) (text : List Char) :
    Option (List (List Char × JsonValue) × List Char) :=
  if text.head? = some (Char.ofNat 123) then
    if text.tail.head? = some (Char.ofNat 125) then some ([], text.tail.tail)
    else readJsonMembers fuel text.tail
  else none

/-- The objects of an array after its opening bracket, separated by commas, up to the closing
bracket that ends the text.  `fuel` bounds the number of objects. -/
def readJsonObjects : Nat → List Char → Option (List (List (List Char × JsonValue)))
  | 0, _ => none
  | fuel + 1, text =>
    match readJsonObject text.length text with
    | none => none
    | some object =>
      if object.2 = [Char.ofNat 93] then some [object.1]
      else if object.2.head? = some (Char.ofNat 44) then
        (readJsonObjects fuel object.2.tail).map fun read => object.1 :: read
      else none

/-- Function `json_extract(value, '$.key')` on an object: the value of the first member of that
key, null when there is none. -/
def jsonExtract (object : List (List Char × JsonValue)) (key : String) : JsonValue :=
  match object.find? (fun member => member.1 = key.data) with
  | some member => member.2
  | none => .null

/-- A column read as a string: the characters of a string, the decimal text of an integer, the
empty string for null. -/
def JsonValue.toText : JsonValue → String
  | .null => ""
  | .integer value => toString value
  | .text value => ⟨value⟩

/-- A column read as an integer: the integer, `0` for null, and for a string the integer its
decimal text denotes (`0` when it does not start with one). -/
def JsonValue.toInteger : JsonValue → Int
  | .null => 0
  | .integer value => value
  | .text value =>
    match readJsonInteger value with
    | some read => read.1
    | none => 0

/-- The row `json_extract(value, '$.n'), json_extract(value, '$.tn'), json_extract(value,
'$.tr')` of an object, read as `ParameterDeclaration(name, typeName, traits)`. -/
def readParameter (object : List (List Char × JsonValue)) : Storage.ParameterDeclaration :=
  { name := (jsonExtract object "n").toText,
    typeName := (jsonExtract object "tn").toText,
    traits := (jsonExtract object "tr").toInteger }

/-- The row `key, value, type!='null'` of a member of an object, read as
`EnumeratorDeclaration(name, value, hasValue)`. -/
def readEnumerator (member : List Char × JsonValue) : Storage.EnumeratorDeclaration :=
  { name := ⟨member.1⟩, value := member.2.toInteger, hasValue := decide (member.2 ≠ .null) }

/-- The rows of `json_each(signature)` for an array of objects, each read as a parameter.  A
text this reading does not cover, which `createJson` writes for no parameter list of names
without double quote, backslash and control character, gives no row. -/
def jsonEachParameters (signature : String) : List Storage.ParameterDeclaration :=
  if signature.data = [Char.ofNat 91, Char.ofNat 93] then []
  else if signature.data.head? = some (Char.ofNat 91) then
    match readJsonObjects signature.length signature.data.tail with
    | none => []
    | some objects => objects.map readParameter
  else []

/-- The rows of `json_each(text)` for an object, each member read as an enumerator.  A text
this reading does not cover gives no row. -/
def jsonEachEnumerators (text : String) : List Storage.EnumeratorDeclaration :=
  match readJsonObject text.length text.data with
  | none => []
  | some object =>
    if object.2 = [] then
      object.1.map readEnumerator
    else []

/-- The JSON table function of the engine. -/
def jsonEach : JsonEach :=
  { parameters := jsonEachParameters, enumerators := jsonEachEnumerators }

/-- The text holds no double quote, no backslash and no control character: between double
quotes it is the JSON string of itself. -/
def PlainText (text : String) : Prop :=
  ∀ c ∈ text.data, c ≠ Char.ofNat 34 ∧ c ≠ Char.ofNat 92 ∧ 32 ≤ c.toNat

instance (text : String) : Decidable (PlainText text) :=
  inferInstanceAs (Decidable (∀ c ∈ text.data,
    c ≠ Char.ofNat 34 ∧ c ≠ Char.ofNat 92 ∧ 32 ≤ c.toNat))

end Sqlite

namespace ProjectStorage

/-- The characters the loop of `createJson` appends for one enumerator, after the separator and
the double quote that opens its name. -/
def createJsonEnumeratorDeclarations.member (enumerator : Storage.EnumeratorDeclaration) :
    List Char :=
  enumerator.name.data ++
    if enumerator.hasValue then
      "\":\"".data ++ (toString enumerator.value).data ++ "\"".data
    else "\":null".data

/-- The characters of the text of an enumerator list after its first enumerator: each further
enumerator after a comma and a double quote, then the closing brace. -/
def createJsonEnumeratorDeclarations.rest : List Storage.EnumeratorDeclaration → List Char
  | [] => "\x7d".data
  | enumerator :: enumerators =>
    ",\"".data ++ createJsonEnumeratorDeclarations.member enumerator ++
      createJsonEnumeratorDeclarations.rest enumerators

end ProjectStorage

/-- The names and type names of the parameters are plain texts. -/
def PlainParameters (parameters : List Storage.ParameterDeclaration) : Prop :=
  ∀ parameter ∈ parameters,
    Sqlite.PlainText parameter.name ∧ Sqlite.PlainText parameter.typeName

instance (parameters : List Storage.ParameterDeclaration) :
    Decidable (PlainParameters parameters) :=
  inferInstanceAs (Decidable (∀ parameter ∈ parameters,
    Sqlite.PlainText parameter.name ∧ Sqlite.PlainText parameter.typeName))

/-- The names of the enumerators are plain texts, and an enumerator without value has the value
`0` of the constructor `EnumeratorDeclaration(name)`. -/
def PlainEnumerators (enumerators : List Storage.EnumeratorDeclaration) : Prop :=
  ∀ enumerator ∈ enumerators,
    Sqlite.PlainText enumerator.name ∧ (enumerator.hasValue = false → enumerator.value = 0)

instance (enumerators : List Storage.EnumeratorDeclaration) :
    Decidable (PlainEnumerators enumerators) :=
  inferInstanceAs (Decidable (∀ enumerator ∈ enumerators,
    Sqlite.PlainText enumerator.name ∧ (enumerator.hasValue = false → enumerator.value = 0)))

/-- The parameter lists and the enumerator lists of the type are plain. -/
def PlainDeclarations (type : Storage.Type_) : Prop :=
  (∀ function ∈ type.functionDeclarations, PlainParameters function.parameters) ∧
  (∀ signal ∈ type.signalDeclarations, PlainParameters signal.parameters) ∧
  (∀ enumeration ∈ type.enumerationDeclarations,
    PlainEnumerators enumeration.enumeratorDeclarations)

instance (type : Storage.Type_) : Decidable (PlainDeclarations type) :=
  inferInstanceAs (Decidable (
    (∀ function ∈ type.functionDeclarations, PlainParameters function.parameters) ∧
    (∀ signal ∈ type.signalDeclarations, PlainParameters signal.parameters) ∧
    (∀ enumeration ∈ type.enumerationDeclarations,
      PlainEnumerators enumeration.enumeratorDeclarations)))

namespace Sample

/-- Type `A` of source `1` with two exported names, `Qml.B` before `Qml.A`. -/
def typeExported : Storage.Type_ :=
  { typeName := "A", accessSemantics := .Reference, sourceId := { id := 1 },
    exportedTypes := [
      { qualifiedTypeName := "Qml.B",
        version := { major := { version := 1 }, minor := { version := 0 } } },
      { qualifiedTypeName := "Qml.A",
        version := { major := { version := 1 }, minor := { version := 0 } } }] }

/-- Type `A` of source `1` with a function `f` of one parameter whose type name holds a double
quote. -/
def typeQuoted : Storage.Type_ :=
  { typeName := "A", accessSemantics := .Reference, sourceId := { id := 1 },
    functionDeclarations := [{ name := "f", parameters := quotedParameters }] }

/-- Type `A` of source `1` with an enumeration `E` whose enumerator `e` has the value `5` and
the flag `hasValue` off. -/
def typeUnvalued : Storage.Type_ :=
  { typeName := "A", accessSemantics := .Reference, sourceId := { id := 1 },
    enumerationDeclarations := [{ name := "E", enumeratorDeclarations :=
      [{ name := "e", value := 5, hasValue := false }] }] }

end Sample

namespace Metainfo.Sample

/-- Store of `objectDatabase` with a third type, `Item` (`3`), derived from `QObject`. -/
def itemDatabase : Database :=
  { objectDatabase with
    types := objectDatabase.types ++
      [{ typeId := 3, name := "Item", accessSemantics := some 0, prototype := some 1 }] }

end Metainfo.Sample

/-! # Theorems -/

/-! ## The name order -/

theorem compareBytes_self (a : List Char) : compareBytes a a = .eq := by
  induction a with
  | nil => rfl
  | cons x xs ih => simp [compareBytes, ih]

theorem compareBytes_eq {a b : List Char} (h : compareBytes a b = .eq) : a = b := by
  induction a generalizing b with
  | nil => cases b <;> simp_all [compareBytes]
  | cons x xs ih =>
    cases b with
    | nil => simp [compareBytes] at h
    | cons y ys =>
      simp only [compareBytes] at h
      split_ifs at h with h1 h2
      have hxy : x = y := le_antisymm (not_lt.mp h2) (not_lt.mp h1)
      rw [hxy, ih h]

theorem compareBytes_gt_iff {a b : List Char} :
    compareBytes a b = .gt ↔ compareBytes b a = .lt := by
  induction a generalizing b with
  | nil => cases b <;> simp [compareBytes]
  | cons x xs ih =>
    cases b with
    | nil => simp [compareBytes]
    | cons y ys =>
      simp only [compareBytes]
      split_ifs with h1 h2 h3 <;> simp_all
      exact absurd h1 (lt_asymm h2)

theorem compareBytes_lt_trans {a b c : List Char} (h1 : compareBytes a b = .lt)
    (h2 : compareBytes b c = .lt) : compareBytes a c = .lt := by
  induction a generalizing b c with
  | nil =>
    cases b with
    | nil => simp [compareBytes] at h1
    | cons y ys => cases c <;> simp_all [compareBytes]
  | cons x xs ih =>
    cases b with
    | nil => simp [compareBytes] at h1
    | cons y ys =>
      cases c with
      | nil => simp [compareBytes] at h2
      | cons z zs =>
        simp only [compareBytes] at h1 h2 ⊢
        split_ifs at h1 with hxy hyx
        · split_ifs at h2 with hyz hzy
          · simp [lt_trans hxy hyz]
          · have : y = z := le_antisymm (not_lt.mp hzy) (not_lt.mp hyz)
            subst this; simp [hxy]
        · have hxy' : x = y := le_antisymm (not_lt.mp hyx) (not_lt.mp hxy)
          subst hxy'
          split_ifs at h2 with hyz hzy
          · simp [hyz]
          · simp [hyz, hzy]; exact ih h1 h2

namespace Sqlite

theorem compare_self (a : String) : compare a a = .eq := compareBytes_self _

theorem compare_eq_iff {a b : String} : compare a b = .eq ↔ a = b := by
  constructor
  · intro h
    exact String.ext (compareBytes_eq h)
  · rintro rfl
    exact compare_self a

theorem compare_gt_iff {a b : String} : compare a b = .gt ↔ compare b a = .lt :=
  compareBytes_gt_iff

theorem compare_lt_trans {a b c : String} (h1 : compare a b = .lt) (h2 : compare b c = .lt) :
    compare a c = .lt := compareBytes_lt_trans h1 h2

theorem compare_lt_irrefl (a : String) : compare a a ≠ .lt := by
  rw [compare_self]; decide

theorem compare_lt_ne {a b : String} (h : compare a b = .lt) : a ≠ b := by
  rintro rfl
  exact compare_lt_irrefl a h

end Sqlite

theorem sortByName_perm {α : Type} (name : α → String) (l : List α) :
    (sortByName name l).Perm l :=
  List.perm_insertionSort _ l

theorem sortByName_sorted {α : Type} (name : α → String) (l : List α)
    (h : (l.map name).Nodup) :
    (sortByName name l).Pairwise (fun a b => Sqlite.compare (name a) (name b) = .lt) := by
  have htotal : IsTotal α (fun a b => Sqlite.compare (name a) (name b) ≠ .gt) := by
    constructor
    intro a b
    by_cases hab : Sqlite.compare (name a) (name b) = .gt
    · right
      rw [Sqlite.compare_gt_iff.mp hab]; decide
    · left; exact hab
  have htrans : IsTrans α (fun a b => Sqlite.compare (name a) (name b) ≠ .gt) := by
    constructor
    intro a b c hab hbc hac
    have hca := Sqlite.compare_gt_iff.mp hac
    cases hbc' : Sqlite.compare (name b) (name c) with
    | gt => exact hbc hbc'
    | eq =>
      rw [Sqlite.compare_eq_iff.mp hbc'] at hab
      exact hab hac
    | lt =>
      have hba := Sqlite.compare_lt_trans hbc' hca
      exact hab (Sqlite.compare_gt_iff.mpr hba)
  have hsorted : List.Sorted (fun a b => Sqlite.compare (name a) (name b) ≠ .gt)
      (sortByName name l) := List.sorted_insertionSort _ l
  have hnodup : ((sortByName name l).map name).Nodup :=
    ((sortByName_perm name l).map name).nodup_iff.mpr h
  have hne : (sortByName name l).Pairwise (fun a b => name a ≠ name b) :=
    List.pairwise_map.mp hnodup
  refine (List.Pairwise.and hsorted hne).imp ?_
  rintro a b ⟨h1, h2⟩
  cases hc : Sqlite.compare (name a) (name b) with
  | gt => exact absurd hc h1
  | eq => exact absurd (Sqlite.compare_eq_iff.mp hc) h2
  | lt => rfl

/-! ## Keys of new rows -/

theorem le_foldl_max (is : List Int) (i : Int) :
    i ≤ is.foldl max i ∧ ∀ x ∈ is, x ≤ is.foldl max i := by
  induction is generalizing i with
  | nil => simp
  | cons j js ih =>
    simp only [List.foldl_cons, List.mem_cons]
    obtain ⟨h1, h2⟩ := ih (max i j)
    refine ⟨le_trans (le_max_left i j) h1, ?_⟩
    rintro x (rfl | hx)
    · exact le_trans (le_max_right i x) h1
    · exact h2 x hx

theorem lt_newRowId {l : List Int} {x : Int} (h : x ∈ l) : x < newRowId l := by
  cases l with
  | nil => simp at h
  | cons i is =>
    simp only [newRowId]
    obtain ⟨h1, h2⟩ := le_foldl_max is i
    rcases List.mem_cons.mp h with rfl | hx
    · omega
    · have := h2 x hx
      omega

theorem newRowId_not_mem (l : List Int) : newRowId l ∉ l := fun h =>
  lt_irrefl _ (lt_newRowId h)

theorem newRowId_pos {l : List Int} (h : ∀ x ∈ l, 0 ≤ x) : 0 < newRowId l := by
  cases l with
  | nil => simp [newRowId]
  | cons i is =>
    have := lt_newRowId (List.mem_cons_self i is)
    have := h i (List.mem_cons_self i is)
    omega

/-! ## The merge of a declaration kind -/

theorem KeysWF.filter {ks : List DeclarationKey} (h : KeysWF ks) (p : DeclarationKey → Bool) :
    KeysWF (ks.filter p) :=
  ⟨h.1.sublist ((List.filter_sublist ks).map _), h.2.sublist ((List.filter_sublist ks).map _)⟩

theorem KeysWF.eq_of_id {ks : List DeclarationKey} (h : KeysWF ks) {k k1 : DeclarationKey}
    (hk : k ∈ ks) (hk1 : k1 ∈ ks) (hid : k.1 = k1.1) : k = k1 :=
  List.inj_on_of_nodup_map h.1 hk hk1 hid

theorem KeysWF.eq_of_name {ks : List DeclarationKey} (h : KeysWF ks) {k k1 : DeclarationKey}
    (hk : k ∈ ks) (hk1 : k1 ∈ ks) (hid : k.2 = k1.2) : k = k1 :=
  List.inj_on_of_nodup_map h.2 hk hk1 hid

theorem KeysWF.append_key {ks : List DeclarationKey} (h : KeysWF ks) (t : Int) (n : String)
    (hfree : ∀ k ∈ ks, ¬(k.2.1 = t ∧ k.2.2 = n)) :
    KeysWF (ks ++ [(newRowId (ks.map (·.1)), t, n)]) := by
  constructor
  · rw [List.map_append, List.nodup_append]
    refine ⟨h.1, by simp, ?_⟩
    intro a ha hb
    simp only [List.map_cons, List.map_nil, List.mem_singleton] at hb
    subst hb
    exact newRowId_not_mem _ ha
  · rw [List.map_append, List.nodup_append]
    refine ⟨h.2, by simp, ?_⟩
    intro a ha hb
    simp only [List.map_cons, List.map_nil, List.mem_singleton] at hb
    subst hb
    obtain ⟨k, hk, hk2⟩ := List.mem_map.mp ha
    exact hfree k hk ⟨by rw [hk2], by rw [hk2]⟩

section Merge

variable {σ V A : Type} {keys : σ → List DeclarationKey} {t : Int}
  {vid : V → Int} {vname : V → String} {aname : A → String} {Inv : σ → Prop}

theorem MergeInv.vid_ne {v : V} {vs : List V} {as : List A} {s : σ}
    (hI : MergeInv keys t vid vname aname Inv (v :: vs) as s) :
    ∀ w ∈ vs, vid w ≠ vid v := by
  intro w hw hid
  have h1 := hI.present v (List.mem_cons_self _ _)
  have h2 := hI.present w (List.mem_cons_of_mem _ hw)
  have h3 := hI.wf.eq_of_id h2 h1 hid
  have h4 : vname w = vname v := by simpa using congrArg (fun k => k.2.2) h3
  have h5 := (List.pairwise_cons.mp hI.vsSorted).1 w hw
  exact Sqlite.compare_lt_ne h5 h4.symm

theorem MergeInv.free {vs : List V} {a : A} {as : List A} {s : σ}
    (hI : MergeInv keys t vid vname aname Inv vs (a :: as) s)
    (hlt : ∀ v ∈ vs, Sqlite.compare (aname a) (vname v) = .lt) :
    ∀ k ∈ keys s, ¬(k.2.1 = t ∧ k.2.2 = aname a) := by
  rintro k hk ⟨ht, hn⟩
  rcases hI.done k hk ht with ⟨v, hv, hid⟩ | ⟨_, h2⟩
  · have h1 := hI.present v hv
    have h3 := hI.wf.eq_of_id h1 hk hid
    have h4 : vname v = k.2.2 := by simpa using congrArg (fun k => k.2.2) h3
    exact Sqlite.compare_lt_ne (hlt v hv) (by rw [h4, hn])
  · have := h2 a (List.mem_cons_self _ _)
    rw [hn] at this
    exact Sqlite.compare_lt_irrefl _ this

theorem MergeInv.step_insert {vs : List V} {a : A} {as : List A} {s s1 : σ}
    (hI : MergeInv keys t vid vname aname Inv vs (a :: as) s)
    (hlt : ∀ v ∈ vs, Sqlite.compare (aname a) (vname v) = .lt)
    (hinv : Inv s1)
    (hkeys : keys s1 = keys s ++ [(newRowId ((keys s).map (·.1)), t, aname a)]) :
    MergeInv keys t vid vname aname Inv vs as s1 ∧
    ∀ s2, MergePost keys t vid aname Inv vs as s1 s2 →
      MergePost keys t vid aname Inv vs (a :: as) s s2 := by
  have hfree := hI.free hlt
  constructor
  · refine ⟨?_, hinv, hI.vsSorted, (List.pairwise_cons.mp hI.asSorted).2, ?_, ?_⟩
    · rw [hkeys]; exact hI.wf.append_key t _ hfree
    · intro v hv
      rw [hkeys]
      exact List.mem_append_left _ (hI.present v hv)
    · intro k hk ht
      rw [hkeys] at hk
      rcases List.mem_append.mp hk with hk | hk
      · rcases hI.done k hk ht with h | ⟨h1, h2⟩
        · exact Or.inl h
        · exact Or.inr ⟨h1, fun b hb => h2 b (List.mem_cons_of_mem _ hb)⟩
      · simp only [List.mem_singleton] at hk
        subst hk
        exact Or.inr ⟨hlt, (List.pairwise_cons.mp hI.asSorted).1⟩
  · intro s2 hP
    refine ⟨hP.wf, hP.inv, ?_, ?_, ?_⟩
    · intro k hk hcond
      refine hP.kept k (by rw [hkeys]; exact List.mem_append_left _ hk) ?_
      rcases hcond with h | h | ⟨b, hb, hbn⟩
      · exact Or.inl h
      · exact Or.inr (Or.inl h)
      · by_cases ht : k.2.1 = t
        · rcases List.mem_cons.mp hb with rfl | hb
          · exact absurd ⟨ht, hbn.symm⟩ (hfree k hk)
          · exact Or.inr (Or.inr ⟨b, hb, hbn⟩)
        · exact Or.inl ht
    · intro k hk
      rcases hP.origin k hk with ⟨ht, b, hb, hbn⟩ | ⟨hk1, h⟩
      · exact Or.inl ⟨ht, b, List.mem_cons_of_mem _ hb, hbn⟩
      · rw [hkeys] at hk1
        rcases List.mem_append.mp hk1 with hk1 | hk1
        · exact Or.inr ⟨hk1, h⟩
        · simp only [List.mem_singleton] at hk1
          subst hk1
          exact Or.inl ⟨rfl, a, List.mem_cons_self _ _, rfl⟩
    · intro b hb
      rcases List.mem_cons.mp hb with rfl | hb
      · refine ⟨newRowId ((keys s).map (·.1)), hP.kept _ (by rw [hkeys]; simp) ?_⟩
        refine Or.inr (Or.inl ?_)
        intro v hv hid
        have h1 := hI.present v hv
        have h2 : vid v ∈ (keys s).map (·.1) := List.mem_map.mpr ⟨_, h1, rfl⟩
        simp only at hid
        rw [hid] at h2
        exact newRowId_not_mem _ h2
      · exact hP.stored b hb

theorem MergeInv.step_remove {v : V} {vs : List V} {as : List A} {s s1 : σ}
    (hI : MergeInv keys t vid vname aname Inv (v :: vs) as s)
    (hlt : ∀ a ∈ as, Sqlite.compare (vname v) (aname a) = .lt)
    (hinv : Inv s1)
    (hkeys : keys s1 = (keys s).filter (fun k => k.1 ≠ vid v)) :
    MergeInv keys t vid vname aname Inv vs as s1 ∧
    ∀ s2, MergePost keys t vid aname Inv vs as s1 s2 →
      MergePost keys t vid aname Inv (v :: vs) as s s2 := by
  have hne := hI.vid_ne
  have hv := hI.present v (List.mem_cons_self _ _)
  have hmem : ∀ k, k ∈ keys s1 ↔ k ∈ keys s ∧ k.1 ≠ vid v := by
    intro k; rw [hkeys]; simp
  constructor
  · refine ⟨?_, hinv, (List.pairwise_cons.mp hI.vsSorted).2, hI.asSorted, ?_, ?_⟩
    · rw [hkeys]; exact hI.wf.filter _
    · intro w hw
      exact (hmem _).mpr ⟨hI.present w (List.mem_cons_of_mem _ hw), hne w hw⟩
    · intro k hk ht
      obtain ⟨hk, hkid⟩ := (hmem k).mp hk
      rcases hI.done k hk ht with ⟨w, hw, hid⟩ | ⟨h1, h2⟩
      · rcases List.mem_cons.mp hw with rfl | hw
        · exact absurd hid.symm hkid
        · exact Or.inl ⟨w, hw, hid⟩
      · exact Or.inr ⟨fun w hw => h1 w (List.mem_cons_of_mem _ hw), h2⟩
  · intro s2 hP
    refine ⟨hP.wf, hP.inv, ?_, ?_, hP.stored⟩
    · intro k hk hcond
      have hkid : k.1 ≠ vid v := by
        intro hid
        have hkv : k = (vid v, t, vname v) := hI.wf.eq_of_id hk hv hid
        rcases hcond with h | h | ⟨b, hb, hbn⟩
        · exact h (by rw [hkv])
        · exact h v (List.mem_cons_self _ _) hid.symm
        · have := hlt b hb
          rw [hbn, hkv] at this
          exact Sqlite.compare_lt_irrefl _ this
      refine hP.kept k ((hmem k).mpr ⟨hk, hkid⟩) ?_
      rcases hcond with h | h | h
      · exact Or.inl h
      · exact Or.inr (Or.inl fun w hw => h w (List.mem_cons_of_mem _ hw))
      · exact Or.inr (Or.inr h)
    · intro k hk
      rcases hP.origin k hk with h | ⟨hk1, h⟩
      · exact Or.inl h
      · obtain ⟨hk1, hkid⟩ := (hmem k).mp hk1
        refine Or.inr ⟨hk1, fun ht w hw => ?_⟩
        rcases List.mem_cons.mp hw with rfl | hw
        · exact fun h => hkid h.symm
        · exact h ht w hw

theorem MergeInv.step_update {v : V} {vs : List V} {a : A} {as : List A} {s s1 : σ}
    (hI : MergeInv keys t vid vname aname Inv (v :: vs) (a :: as) s)
    (heq : vname v = aname a)
    (hinv : Inv s1)
    (hkeys : keys s1 = keys s) :
    MergeInv keys t vid vname aname Inv vs as s1 ∧
    ∀ s2, MergePost keys t vid aname Inv vs as s1 s2 →
      MergePost keys t vid aname Inv (v :: vs) (a :: as) s s2 := by
  have hne := hI.vid_ne
  have hv := hI.present v (List.mem_cons_self _ _)
  constructor
  · refine ⟨by rw [hkeys]; exact hI.wf, hinv, (List.pairwise_cons.mp hI.vsSorted).2,
      (List.pairwise_cons.mp hI.asSorted).2, ?_, ?_⟩
    · intro w hw
      rw [hkeys]
      exact hI.present w (List.mem_cons_of_mem _ hw)
    · intro k hk ht
      rw [hkeys] at hk
      rcases hI.done k hk ht with ⟨w, hw, hid⟩ | ⟨h1, h2⟩
      · rcases List.mem_cons.mp hw with rfl | hw
        · have hkv : k = (vid w, t, vname w) := hI.wf.eq_of_id hk hv hid.symm
          refine Or.inr ⟨?_, ?_⟩
          · intro w1 hw1
            rw [hkv]
            exact (List.pairwise_cons.mp hI.vsSorted).1 w1 hw1
          · intro b hb
            rw [hkv]
            simp only
            rw [heq]
            exact (List.pairwise_cons.mp hI.asSorted).1 b hb
        · exact Or.inl ⟨w, hw, hid⟩
      · exact Or.inr ⟨fun w hw => h1 w (List.mem_cons_of_mem _ hw),
          fun b hb => h2 b (List.mem_cons_of_mem _ hb)⟩
  · intro s2 hP
    refine ⟨hP.wf, hP.inv, ?_, ?_, ?_⟩
    · intro k hk hcond
      refine hP.kept k (by rw [hkeys]; exact hk) ?_
      rcases hcond with h | h | ⟨b, hb, hbn⟩
      · exact Or.inl h
      · exact Or.inr (Or.inl fun w hw => h w (List.mem_cons_of_mem _ hw))
      · by_cases ht : k.2.1 = t
        · rcases List.mem_cons.mp hb with rfl | hb
          · have hkv : k = (vid v, t, vname v) := by
              refine hI.wf.eq_of_name hk hv ?_
              exact Prod.ext ht (by rw [← hbn, heq])
            refine Or.inr (Or.inl ?_)
            rw [hkv]
            exact hne
          · exact Or.inr (Or.inr ⟨b, hb, hbn⟩)
        · exact Or.inl ht
    · intro k hk
      rcases hP.origin k hk with ⟨ht, b, hb, hbn⟩ | ⟨hk1, h⟩
      · exact Or.inl ⟨ht, b, List.mem_cons_of_mem _ hb, hbn⟩
      · rw [hkeys] at hk1
        by_cases hkv : k.2.1 = t ∧ vid v = k.1
        · have hkv1 : k = (vid v, t, vname v) := hI.wf.eq_of_id hk1 hv hkv.2.symm
          refine Or.inl ⟨hkv.1, a, List.mem_cons_self _ _, ?_⟩
          rw [hkv1, heq]
        · refine Or.inr ⟨hk1, fun ht w hw => ?_⟩
          rcases List.mem_cons.mp hw with rfl | hw
          · exact fun h => hkv ⟨ht, h⟩
          · exact h ht w hw
    · intro b hb
      rcases List.mem_cons.mp hb with rfl | hb
      · refine ⟨vid v, hP.kept _ (by rw [hkeys, ← heq]; exact hv) ?_⟩
        exact Or.inr (Or.inl hne)
      · exact hP.stored b hb

end Merge

section MergeLoop

variable {σ V A : Type} {keys : σ → List DeclarationKey} {t : Int}
  {vid : V → Int} {vname : V → String} {aname : A → String} {Inv : σ → Prop}

theorem MergePost.nil {s : σ} (hwf : KeysWF (keys s)) (hinv : Inv s) :
    MergePost keys t vid aname Inv ([] : List V) ([] : List A) s s :=
  ⟨hwf, hinv, fun _ hk _ => hk, fun _ hk => Or.inr ⟨hk, fun _ _ hw => by simp at hw⟩,
    fun _ hb => by simp at hb⟩

/-- The merge of one declaration kind succeeds and does what `MergePost` says, whenever the
callbacks act on the key columns as an insert, an in-place update and a delete by id. -/
theorem insertUpdateDeleteLoop_spec
    {ins : A → σ → Except Error σ} {upd : V → A → σ → Except Error σ}
    {rem : V → σ → Except Error σ}
    (h_ins : ∀ s a, Inv s → (∀ k ∈ keys s, ¬(k.2.1 = t ∧ k.2.2 = aname a)) →
      ∃ s1, ins a s = .ok s1 ∧ Inv s1 ∧
        keys s1 = keys s ++ [(newRowId ((keys s).map (·.1)), t, aname a)])
    (h_upd : ∀ s v a, Inv s → ∃ s1, upd v a s = .ok s1 ∧ Inv s1 ∧ keys s1 = keys s)
    (h_rem : ∀ s v, Inv s → ∃ s1, rem v s = .ok s1 ∧ Inv s1 ∧
        keys s1 = (keys s).filter (fun k => k.1 ≠ vid v)) :
    ∀ (fuel : Nat) (vs : List V) (as : List A) (s : σ), vs.length + as.length ≤ fuel →
      MergeInv keys t vid vname aname Inv vs as s →
      ∃ s2, Sqlite.insertUpdateDeleteLoop (fun v a => Sqlite.compare (vname v) (aname a))
              ins upd rem fuel vs as s = .ok s2 ∧
            MergePost keys t vid aname Inv vs as s s2 := by
  intro fuel
  induction fuel with
  | zero =>
    intro vs as s hlen hI
    have hvs : vs = [] := List.length_eq_zero.mp (by omega)
    have has : as = [] := List.length_eq_zero.mp (by omega)
    subst hvs has
    exact ⟨s, rfl, MergePost.nil hI.wf hI.inv⟩
  | succ fuel ih =>
    intro vs as s hlen hI
    cases vs with
    | nil =>
      cases as with
      | nil => exact ⟨s, rfl, MergePost.nil hI.wf hI.inv⟩
      | cons a as =>
        have hlt : ∀ v ∈ ([] : List V), Sqlite.compare (aname a) (vname v) = .lt := by simp
        obtain ⟨s1, h1, hinv, hkeys⟩ := h_ins s a hI.inv (hI.free hlt)
        obtain ⟨hI1, hlift⟩ := hI.step_insert hlt hinv hkeys
        obtain ⟨s2, h2, hP⟩ := ih [] as s1 (by simp at hlen ⊢; omega) hI1
        refine ⟨s2, ?_, hlift s2 hP⟩
        simp only [Sqlite.insertUpdateDeleteLoop, h1, h2]
    | cons v vs =>
      cases as with
      | nil =>
        have hlt : ∀ a ∈ ([] : List A), Sqlite.compare (vname v) (aname a) = .lt := by simp
        obtain ⟨s1, h1, hinv, hkeys⟩ := h_rem s v hI.inv
        obtain ⟨hI1, hlift⟩ := hI.step_remove hlt hinv hkeys
        obtain ⟨s2, h2, hP⟩ := ih vs [] s1 (by simp at hlen ⊢; omega) hI1
        refine ⟨s2, ?_, hlift s2 hP⟩
        simp only [Sqlite.insertUpdateDeleteLoop, h1, h2]
      | cons a as =>
        cases hcmp : Sqlite.compare (vname v) (aname a) with
        | eq =>
          have heq := Sqlite.compare_eq_iff.mp hcmp
          obtain ⟨s1, h1, hinv, hkeys⟩ := h_upd s v a hI.inv
          obtain ⟨hI1, hlift⟩ := hI.step_update heq hinv hkeys
          obtain ⟨s2, h2, hP⟩ := ih vs as s1 (by simp at hlen ⊢; omega) hI1
          refine ⟨s2, ?_, hlift s2 hP⟩
          simp only [Sqlite.insertUpdateDeleteLoop, hcmp, h1, h2]
        | gt =>
          have hav := Sqlite.compare_gt_iff.mp hcmp
          have hlt : ∀ w ∈ v :: vs, Sqlite.compare (aname a) (vname w) = .lt := by
            intro w hw
            rcases List.mem_cons.mp hw with rfl | hw
            · exact hav
            · exact Sqlite.compare_lt_trans hav ((List.pairwise_cons.mp hI.vsSorted).1 w hw)
          obtain ⟨s1, h1, hinv, hkeys⟩ := h_ins s a hI.inv (hI.free hlt)
          obtain ⟨hI1, hlift⟩ := hI.step_insert hlt hinv hkeys
          obtain ⟨s2, h2, hP⟩ := ih (v :: vs) as s1 (by simp at hlen ⊢; omega) hI1
          refine ⟨s2, ?_, hlift s2 hP⟩
          simp only [Sqlite.insertUpdateDeleteLoop, hcmp, h1, h2]
        | lt =>
          have hlt : ∀ b ∈ a :: as, Sqlite.compare (vname v) (aname b) = .lt := by
            intro b hb
            rcases List.mem_cons.mp hb with rfl | hb
            · exact hcmp
            · exact Sqlite.compare_lt_trans hcmp ((List.pairwise_cons.mp hI.asSorted).1 b hb)
          obtain ⟨s1, h1, hinv, hkeys⟩ := h_rem s v hI.inv
          obtain ⟨hI1, hlift⟩ := hI.step_remove hlt hinv hkeys
          obtain ⟨s2, h2, hP⟩ := ih vs (a :: as) s1 (by simp at hlen ⊢; omega) hI1
          refine ⟨s2, ?_, hlift s2 hP⟩
          simp only [Sqlite.insertUpdateDeleteLoop, hcmp, h1, h2]

/-- Whatever relation `R` between the state before and after every successful callback holds,
and is reflexive and transitive, holds across a successful merge. -/
theorem insertUpdateDeleteLoop_rel {R : σ → σ → Prop}
    {cmp : V → A → Ordering}
    {ins : A → σ → Except Error σ} {upd : V → A → σ → Except Error σ}
    {rem : V → σ → Except Error σ}
    (hrefl : ∀ s, R s s) (htrans : ∀ s s1 s2, R s s1 → R s1 s2 → R s s2)
    (h_ins : ∀ s a s1, ins a s = .ok s1 → R s s1)
    (h_upd : ∀ s v a s1, upd v a s = .ok s1 → R s s1)
    (h_rem : ∀ s v s1, rem v s = .ok s1 → R s s1) :
    ∀ (fuel : Nat) (vs : List V) (as : List A) (s s2 : σ),
      Sqlite.insertUpdateDeleteLoop cmp ins upd rem fuel vs as s = .ok s2 → R s s2 := by
  intro fuel
  induction fuel with
  | zero =>
    intro vs as s s2 h
    simp only [Sqlite.insertUpdateDeleteLoop, Except.ok.injEq] at h
    subst h; exact hrefl s
  | succ fuel ih =>
    intro vs as s s2 h
    cases vs with
    | nil =>
      cases as with
      | nil =>
        simp only [Sqlite.insertUpdateDeleteLoop, Except.ok.injEq] at h
        subst h; exact hrefl s
      | cons a as =>
        simp only [Sqlite.insertUpdateDeleteLoop] at h
        cases h1 : ins a s with
        | error e => simp [h1] at h
        | ok s1 =>
          simp only [h1] at h
          exact htrans _ _ _ (h_ins _ _ _ h1) (ih _ _ _ _ h)
    | cons v vs =>
      cases as with
      | nil =>
        simp only [Sqlite.insertUpdateDeleteLoop] at h
        cases h1 : rem v s with
        | error e => simp [h1] at h
        | ok s1 =>
          simp only [h1] at h
          exact htrans _ _ _ (h_rem _ _ _ h1) (ih _ _ _ _ h)
      | cons a as =>
        simp only [Sqlite.insertUpdateDeleteLoop] at h
        cases hcmp : cmp v a with
        | eq =>
          simp only [hcmp] at h
          cases h1 : upd v a s with
          | error e => simp [h1] at h
          | ok s1 =>
            simp only [h1] at h
            exact htrans _ _ _ (h_upd _ _ _ _ h1) (ih _ _ _ _ h)
        | gt =>
          simp only [hcmp] at h
          cases h1 : ins a s with
          | error e => simp [h1] at h
          | ok s1 =>
            simp only [h1] at h
            exact htrans _ _ _ (h_ins _ _ _ h1) (ih _ _ _ _ h)
        | lt =>
          simp only [hcmp] at h
          cases h1 : rem v s with
          | error e => simp [h1] at h
          | ok s1 =>
            simp only [h1] at h
            exact htrans _ _ _ (h_rem _ _ _ h1) (ih _ _ _ _ h)

end MergeLoop

section MergeTable

variable {σ V A R : Type}

/-- The merge of one declaration kind, started on the rows of `t` in name order: it succeeds
and leaves the table synchronized with the incoming names. -/
theorem insertUpdateDelete_table (t : Int)
    (vid : V → Int) (vname : V → String) (aname : A → String) (Inv : σ → Prop)
    (rows : σ → List R) (key : R → DeclarationKey) (toView : R → V)
    (hvid : ∀ r, vid (toView r) = (key r).1) (hvname : ∀ r, vname (toView r) = (key r).2.2)
    {ins : A → σ → Except Error σ} {upd : V → A → σ → Except Error σ}
    {rem : V → σ → Except Error σ}
    (h_ins : ∀ s a, Inv s → (∀ k ∈ (rows s).map key, ¬(k.2.1 = t ∧ k.2.2 = aname a)) →
      ∃ s1, ins a s = .ok s1 ∧ Inv s1 ∧
        (rows s1).map key = (rows s).map key ++
          [(newRowId (((rows s).map key).map (·.1)), t, aname a)])
    (h_upd : ∀ s v a, Inv s → ∃ s1, upd v a s = .ok s1 ∧ Inv s1 ∧
        (rows s1).map key = (rows s).map key)
    (h_rem : ∀ s v, Inv s → ∃ s1, rem v s = .ok s1 ∧ Inv s1 ∧
        (rows s1).map key = ((rows s).map key).filter (fun k => k.1 ≠ vid v))
    (s : σ) (hwf : KeysWF ((rows s).map key)) (hinv : Inv s)
    (values : List A) (hnodup : (values.map aname).Nodup) :
    ∃ s2, Sqlite.insertUpdateDelete
            ((sortByName (fun r => (key r).2.2)
              ((rows s).filter (fun r => (key r).2.1 = t))).map toView)
            (sortByName aname values)
            (fun v a => Sqlite.compare (vname v) (aname a)) ins upd rem s = .ok s2 ∧
          Inv s2 ∧ KeysWF ((rows s2).map key) ∧
          DeclarationsSynchronized ((rows s).map key) ((rows s2).map key) t (values.map aname) ∧
          ∀ k, k.2.1 ≠ t → (k ∈ (rows s2).map key ↔ k ∈ (rows s).map key) := by
  set own := (rows s).filter (fun r => (key r).2.1 = t) with hown
  have hmem_sorted : ∀ r, r ∈ sortByName (fun r => (key r).2.2) own ↔
      r ∈ rows s ∧ (key r).2.1 = t := by
    intro r
    rw [(sortByName_perm _ own).mem_iff, hown]
    simp
  -- the names of the rows of `t` are distinct
  have hnames : (own.map (fun r => (key r).2.2)).Nodup := by
    have h1 : ((own.map key).map (·.2)).Nodup :=
      hwf.2.sublist (((List.filter_sublist _).map key).map _)
    have h2 := List.pairwise_map.mp (List.pairwise_map.mp h1)
    refine List.pairwise_map.mpr (List.Pairwise.imp_of_mem ?_ h2)
    intro a b ha hb hne heq
    apply hne
    have hta : (key a).2.1 = t := by
      have := (List.mem_filter.mp ha).2; simpa using this
    have htb : (key b).2.1 = t := by
      have := (List.mem_filter.mp hb).2; simpa using this
    exact Prod.ext (by simp [hta, htb]) heq
  have hI : MergeInv (fun s => (rows s).map key) t vid vname aname Inv
      ((sortByName (fun r => (key r).2.2) own).map toView) (sortByName aname values) s := by
    refine ⟨hwf, hinv, ?_, sortByName_sorted aname values hnodup, ?_, ?_⟩
    · rw [List.pairwise_map]
      refine (sortByName_sorted _ own hnames).imp ?_
      intro a b hab
      rw [hvname, hvname]; exact hab
    · intro v hv
      obtain ⟨r, hr, rfl⟩ := List.mem_map.mp hv
      obtain ⟨hr1, hr2⟩ := (hmem_sorted r).mp hr
      rw [hvid, hvname]
      refine List.mem_map.mpr ⟨r, hr1, ?_⟩
      rw [← hr2]
    · intro k hk ht
      obtain ⟨r, hr, rfl⟩ := List.mem_map.mp hk
      exact Or.inl ⟨toView r, List.mem_map.mpr ⟨r, (hmem_sorted r).mpr ⟨hr, ht⟩, rfl⟩, hvid r⟩
  obtain ⟨s2, h2, hP⟩ := insertUpdateDeleteLoop_spec h_ins h_upd h_rem _ _ _ s le_rfl hI
  have hnames_iff : ∀ n, (∃ a ∈ sortByName aname values, aname a = n) ↔ n ∈ values.map aname := by
    intro n
    constructor
    · rintro ⟨a, ha, rfl⟩
      exact List.mem_map.mpr ⟨a, (sortByName_perm aname values).mem_iff.mp ha, rfl⟩
    · intro hn
      obtain ⟨a, ha, rfl⟩ := List.mem_map.mp hn
      exact ⟨a, (sortByName_perm aname values).mem_iff.mpr ha, rfl⟩
  have hview : ∀ k ∈ (rows s).map key, k.2.1 = t →
      ∃ v ∈ (sortByName (fun r => (key r).2.2) own).map toView, vid v = k.1 := by
    intro k hk ht
    obtain ⟨r, hr, rfl⟩ := List.mem_map.mp hk
    exact ⟨toView r, List.mem_map.mpr ⟨r, (hmem_sorted r).mpr ⟨hr, ht⟩, rfl⟩, hvid r⟩
  refine ⟨s2, h2, hP.inv, hP.wf, ⟨?_, ?_, ?_⟩, ?_⟩
  · intro n
    constructor
    · rintro ⟨i, hi⟩
      rcases hP.origin _ hi with ⟨_, h⟩ | ⟨hk, h⟩
      · exact (hnames_iff n).mp h
      · obtain ⟨v, hv, hid⟩ := hview _ hk rfl
        exact absurd hid (h rfl v hv)
    · intro hn
      obtain ⟨a, ha, rfl⟩ := (hnames_iff n).mpr hn
      exact hP.stored a ha
  · intro i n hk hn
    exact hP.kept _ hk (Or.inr (Or.inr ((hnames_iff n).mpr hn)))
  · intro i n hk hn hk2
    rcases hP.origin _ hk2 with ⟨_, h⟩ | ⟨hk1, h⟩
    · exact hn ((hnames_iff n).mp h)
    · obtain ⟨v, hv, hid⟩ := hview _ hk1 rfl
      exact absurd hid (h rfl v hv)
  · intro k hkt
    constructor
    · intro hk
      rcases hP.origin _ hk with ⟨ht, _⟩ | ⟨hk1, _⟩
      · exact absurd ht hkt
      · exact hk1
    · intro hk
      exact hP.kept _ hk (Or.inl hkt)

end MergeTable

/-! ## The four declaration kinds -/

namespace ProjectStorage

theorem synchronizeFunctionDeclarations_spec (typeId : TypeId)
    (functionsDeclarations : List Storage.FunctionDeclaration) (s : Session)
    (hwf : KeysWF (functionKeys s.database))
    (hnodup : (functionsDeclarations.map (·.name)).Nodup) :
    ∃ s2, synchronizeFunctionDeclarations typeId functionsDeclarations s = .ok s2 ∧
      KeysWF (functionKeys s2.database) ∧
      DeclarationsSynchronized (functionKeys s.database) (functionKeys s2.database) typeId.id
        (functionsDeclarations.map (·.name)) ∧
      ∀ k, k.2.1 ≠ typeId.id → (k ∈ functionKeys s2.database ↔ k ∈ functionKeys s.database) := by
  have h_ins : ∀ (s : Session) (a : Storage.FunctionDeclaration), True →
      (∀ k ∈ functionKeys s.database, ¬(k.2.1 = typeId.id ∧ k.2.2 = a.name)) →
      ∃ s1, synchronizeFunctionDeclarations.insert typeId a s = .ok s1 ∧ True ∧
        functionKeys s1.database = functionKeys s.database ++
          [(newRowId ((functionKeys s.database).map (·.1)), typeId.id, a.name)] := by
    intro s a _ hfree
    have hany : (s.database.functionDeclarations.any
        (fun row => row.typeId = typeId.id ∧ row.name = a.name)) = false := by
      rw [List.any_eq_false]
      intro row hrow
      have := hfree _ (List.mem_map.mpr ⟨row, hrow, rfl⟩)
      simpa using this
    simp only [synchronizeFunctionDeclarations.insert, Session.write, WriteStatement.write,
      insertFunctionDeclarationStatement, hany]
    refine ⟨_, rfl, trivial, ?_⟩
    simp [functionKeys, List.map_map, Function.comp_def]
  have h_upd : ∀ (s : Session) (v : Storage.FunctionDeclarationView)
      (a : Storage.FunctionDeclaration), True →
      ∃ s1, synchronizeFunctionDeclarations.update v a s = .ok s1 ∧ True ∧
        functionKeys s1.database = functionKeys s.database := by
    intro s v a _
    by_cases hc : a.returnTypeName = v.returnTypeName ∧ createJson a.parameters = v.signature
    · exact ⟨s, by simp [synchronizeFunctionDeclarations.update, hc], trivial, rfl⟩
    · simp only [synchronizeFunctionDeclarations.update, hc, Session.write,
        WriteStatement.write, if_false]
      refine ⟨_, rfl, trivial, ?_⟩
      simp only [functionKeys, updateFunctionDeclarationStatement, List.map_map]
      apply List.map_congr_left
      intro row _
      simp only [Function.comp]
      split <;> rfl
  have h_rem : ∀ (s : Session) (v : Storage.FunctionDeclarationView), True →
      ∃ s1, synchronizeFunctionDeclarations.remove v s = .ok s1 ∧ True ∧
        functionKeys s1.database = (functionKeys s.database).filter (fun k => k.1 ≠ v.id.id) := by
    intro s v _
    simp only [synchronizeFunctionDeclarations.remove, Session.write, WriteStatement.write]
    refine ⟨_, rfl, trivial, ?_⟩
    simp only [functionKeys, deleteFunctionDeclarationStatement, List.filter_map]
    rfl
  obtain ⟨s2, h1, _, h2, h3, h4⟩ := insertUpdateDelete_table typeId.id
    (fun (v : Storage.FunctionDeclarationView) => v.id.id) (·.name)
    (fun (a : Storage.FunctionDeclaration) => a.name) (fun (_ : Session) => True)
    (fun s => s.database.functionDeclarations)
    (fun row => (row.functionDeclarationId, row.typeId, row.name))
    (fun row => { name := row.name, returnTypeName := row.returnTypeName,
                  signature := row.signature, id := { id := row.functionDeclarationId } })
    (fun _ => rfl) (fun _ => rfl) h_ins h_upd h_rem s hwf trivial functionsDeclarations hnodup
  exact ⟨s2, h1, h2, h3, h4⟩

end ProjectStorage

theorem TypesWF.append_row {types : List TypesRow} (h : TypesWF types) (row : TypesRow)
    (hid : row.typeId = newRowId (types.map (·.typeId)))
    (hname : ∀ r ∈ types, r.name ≠ row.name) : TypesWF (types ++ [row]) := by
  obtain ⟨h1, h2, h3⟩ := h
  refine ⟨?_, ?_, ?_⟩
  · rw [List.map_append, List.nodup_append]
    refine ⟨h1, by simp, ?_⟩
    intro a ha hb
    simp only [List.map_cons, List.map_nil, List.mem_singleton] at hb
    subst hb
    rw [hid] at ha
    exact newRowId_not_mem _ ha
  · rw [List.map_append, List.nodup_append]
    refine ⟨h2, by simp, ?_⟩
    intro a ha hb
    simp only [List.map_cons, List.map_nil, List.mem_singleton] at hb
    subst hb
    obtain ⟨r, hr, hrn⟩ := List.mem_map.mp ha
    exact hname r hr hrn
  · intro r hr
    rcases List.mem_append.mp hr with hr | hr
    · exact h3 r hr
    · simp only [List.mem_singleton] at hr
      subst hr
      rw [hid]
      refine le_of_lt (newRowId_pos ?_)
      intro x hx
      obtain ⟨r, hr, rfl⟩ := List.mem_map.mp hx
      exact h3 r hr

namespace ProjectStorage

/-! ### `fetchTypeIdByName` -/

/-- What a successful `fetchTypeIdByName` has done: nothing, or it has appended one row of that
name without source, prototype or access semantics. -/
theorem fetchTypeIdByName_cases {name : String} {s s1 : Session} {typeId : TypeId}
    (h : fetchTypeIdByName name s = .ok (s1, typeId)) :
    s1.log = s.log ∧
    ((s1.database = s.database ∧
        ((name = "" ∧ typeId = {}) ∨
         (name ≠ "" ∧ 0 ≤ typeId.id ∧
          ∃ row ∈ s.database.types, row.name = name ∧ row.typeId = typeId.id))) ∨
     (name ≠ "" ∧ (∀ row ∈ s.database.types, row.name ≠ name) ∧
      typeId.id = newRowId (s.database.types.map (·.typeId)) ∧
      s1.database = { s.database with
        types := s.database.types ++ [{ typeId := typeId.id, name := name }] })) := by
  unfold fetchTypeIdByName at h
  by_cases hn : name = ""
  · simp only [hn, if_true, Except.ok.injEq, Prod.mk.injEq] at h
    obtain ⟨rfl, rfl⟩ := h
    exact ⟨rfl, Or.inl ⟨rfl, Or.inl ⟨hn, rfl⟩⟩⟩
  · simp only [hn, if_false] at h
    by_cases hv : (selectTypeIdByNameStatement s.database name).isValid = true
    · simp only [hv, Bool.not_true, Bool.false_eq_true, if_false, Except.ok.injEq,
        Prod.mk.injEq] at h
      obtain ⟨rfl, rfl⟩ := h
      refine ⟨rfl, Or.inl ⟨rfl, Or.inr ⟨hn, ?_, ?_⟩⟩⟩
      · simpa [InternalId.isValid] using hv
      · unfold selectTypeIdByNameStatement at hv ⊢
        cases hf : s.database.types.find? (fun row => row.name = name) with
        | none => simp [hf, InternalId.isValid] at hv
        | some row =>
          refine ⟨row, List.mem_of_find?_eq_some hf, ?_, rfl⟩
          simpa using List.find?_some hf
    · simp only [hv, Bool.not_false, if_true] at h
      unfold insertTypeStatement at h
      by_cases hany : (s.database.types.any fun row => row.name = name) = true
      · simp [hany] at h
      · simp only [hany, if_false, Except.ok.injEq, Prod.mk.injEq] at h
        obtain ⟨rfl, rfl⟩ := h
        refine ⟨rfl, Or.inr ⟨hn, ?_, rfl, rfl⟩⟩
        intro row hrow hname
        apply hany
        rw [List.any_eq_true]
        exact ⟨row, hrow, by simpa using hname⟩

/-- On a well-formed `types` table `fetchTypeIdByName` does not fail. -/
theorem fetchTypeIdByName_ok (name : String) (s : Session) (hwf : TypesWF s.database.types) :
    ∃ s1 typeId, fetchTypeIdByName name s = .ok (s1, typeId) := by
  unfold fetchTypeIdByName
  by_cases hn : name = ""
  · exact ⟨s, {}, by simp [hn]⟩
  · simp only [hn, if_false]
    unfold selectTypeIdByNameStatement
    cases hf : s.database.types.find? (fun row => row.name = name) with
    | some row =>
      have hrow := hwf.2.2 row (List.mem_of_find?_eq_some hf)
      exact ⟨s, { id := row.typeId }, by simp [InternalId.isValid, hrow]⟩
    | none =>
      have hany : (s.database.types.any fun row => row.name = name) = false := by
        rw [List.any_eq_false]
        intro row hrow
        have := List.find?_eq_none.mp hf row hrow
        simpa using this
      simp [InternalId.isValid, insertTypeStatement, hany]

/-- A successful `fetchTypeIdByName` keeps every row of `types` and the constraints of the
table, and touches no other table. -/
theorem fetchTypeIdByName_frame {name : String} {s s1 : Session} {typeId : TypeId}
    (h : fetchTypeIdByName name s = .ok (s1, typeId)) :
    s1.log = s.log ∧ s1.database = { s.database with types := s1.database.types } ∧
    (∀ row ∈ s.database.types, row ∈ s1.database.types) ∧
    (TypesWF s.database.types → TypesWF s1.database.types) := by
  obtain ⟨hlog, h1 | ⟨hn, hfree, hid, hdb⟩⟩ := fetchTypeIdByName_cases h
  · rw [h1.1]
    exact ⟨hlog, rfl, fun _ h => h, fun h => h⟩
  · rw [hdb]
    refine ⟨hlog, rfl, fun row hrow => List.mem_append_left _ hrow, fun hwf => ?_⟩
    exact hwf.append_row _ hid hfree

end ProjectStorage

namespace ProjectStorage

theorem synchronizePropertyDeclarations_spec (typeId : TypeId)
    (propertyDeclarations : List Storage.PropertyDeclaration) (s : Session)
    (htypes : TypesWF s.database.types) (hwf : KeysWF (propertyKeys s.database))
    (hnodup : (propertyDeclarations.map (·.name)).Nodup) :
    ∃ s2, synchronizePropertyDeclarations typeId propertyDeclarations s = .ok s2 ∧
      TypesWF s2.database.types ∧ KeysWF (propertyKeys s2.database) ∧
      DeclarationsSynchronized (propertyKeys s.database) (propertyKeys s2.database) typeId.id
        (propertyDeclarations.map (·.name)) ∧
      ∀ k, k.2.1 ≠ typeId.id → (k ∈ propertyKeys s2.database ↔ k ∈ propertyKeys s.database) := by
  have h_ins : ∀ (s : Session) (a : Storage.PropertyDeclaration), TypesWF s.database.types →
      (∀ k ∈ propertyKeys s.database, ¬(k.2.1 = typeId.id ∧ k.2.2 = a.name)) →
      ∃ s1, synchronizePropertyDeclarations.insert typeId a s = .ok s1 ∧
        TypesWF s1.database.types ∧
        propertyKeys s1.database = propertyKeys s.database ++
          [(newRowId ((propertyKeys s.database).map (·.1)), typeId.id, a.name)] := by
    intro s a hty hfree
    obtain ⟨s0, pid, hf⟩ := fetchTypeIdByName_ok a.typeName s hty
    obtain ⟨_, hdb, _, hwf0⟩ := fetchTypeIdByName_frame hf
    have hprops : s0.database.propertyDeclarations = s.database.propertyDeclarations := by
      rw [hdb]
    have hany : (s0.database.propertyDeclarations.any
        (fun row => row.typeId = typeId.id ∧ row.name = a.name)) = false := by
      rw [hprops, List.any_eq_false]
      intro row hrow
      have := hfree _ (List.mem_map.mpr ⟨row, hrow, rfl⟩)
      simpa using this
    simp only [synchronizePropertyDeclarations.insert, hf, Session.write, WriteStatement.write,
      insertPropertyDeclarationStatement, hany]
    refine ⟨_, rfl, hwf0 hty, ?_⟩
    simp [propertyKeys, List.map_map, Function.comp_def, hprops]
  have h_upd : ∀ (s : Session) (v : Storage.PropertyDeclarationView)
      (a : Storage.PropertyDeclaration), TypesWF s.database.types →
      ∃ s1, synchronizePropertyDeclarations.update v a s = .ok s1 ∧
        TypesWF s1.database.types ∧
        propertyKeys s1.database = propertyKeys s.database := by
    intro s v a hty
    obtain ⟨s0, pid, hf⟩ := fetchTypeIdByName_ok a.typeName s hty
    obtain ⟨_, hdb, _, hwf0⟩ := fetchTypeIdByName_frame hf
    have hprops : s0.database.propertyDeclarations = s.database.propertyDeclarations := by
      rw [hdb]
    by_cases hc : (decide (v.traits = a.traits) && pid.eq v.typeId) = true
    · refine ⟨s0, by simp only [synchronizePropertyDeclarations.update, hf, hc, if_true],
        hwf0 hty, ?_⟩
      simp only [propertyKeys, hprops]
    · simp only [synchronizePropertyDeclarations.update, hf, hc, Session.write,
        WriteStatement.write]
      refine ⟨_, rfl, hwf0 hty, ?_⟩
      simp only [propertyKeys, updatePropertyDeclarationStatement, List.map_map, hprops]
      apply List.map_congr_left
      intro row _
      simp only [Function.comp]
      split <;> rfl
  have h_rem : ∀ (s : Session) (v : Storage.PropertyDeclarationView), TypesWF s.database.types →
      ∃ s1, synchronizePropertyDeclarations.remove v s = .ok s1 ∧ TypesWF s1.database.types ∧
        propertyKeys s1.database = (propertyKeys s.database).filter (fun k => k.1 ≠ v.id.id) := by
    intro s v hty
    simp only [synchronizePropertyDeclarations.remove, Session.write, WriteStatement.write]
    refine ⟨_, rfl, hty, ?_⟩
    simp only [propertyKeys, deletePropertyDeclarationStatement, List.filter_map]
    rfl
  exact insertUpdateDelete_table typeId.id
    (fun (v : Storage.PropertyDeclarationView) => v.id.id) (·.name)
    (fun (a : Storage.PropertyDeclaration) => a.name)
    (fun (s : Session) => TypesWF s.database.types)
    (fun s => s.database.propertyDeclarations)
    (fun row => (row.propertyDeclarationId, row.typeId, row.name))
    (fun row => { name := row.name, traits := row.propertyTraits.getD 0,
                  typeId := { id := row.propertyTypeId },
                  id := { id := row.propertyDeclarationId } })
    (fun _ => rfl) (fun _ => rfl) h_ins h_upd h_rem s hwf htypes propertyDeclarations hnodup

theorem synchronizeSignalDeclarations_spec (typeId : TypeId)
    (signalDeclarations : List Storage.SignalDeclaration) (s : Session)
    (hwf : KeysWF (signalKeys s.database))
    (hnodup : (signalDeclarations.map (·.name)).Nodup) :
    ∃ s2, synchronizeSignalDeclarations typeId signalDeclarations s = .ok s2 ∧
      KeysWF (signalKeys s2.database) ∧
      DeclarationsSynchronized (signalKeys s.database) (signalKeys s2.database) typeId.id
        (signalDeclarations.map (·.name)) ∧
      ∀ k, k.2.1 ≠ typeId.id → (k ∈ signalKeys s2.database ↔ k ∈ signalKeys s.database) := by
  have h_ins : ∀ (s : Session) (a : Storage.SignalDeclaration), True →
      (∀ k ∈ signalKeys s.database, ¬(k.2.1 = typeId.id ∧ k.2.2 = a.name)) →
      ∃ s1, synchronizeSignalDeclarations.insert typeId a s = .ok s1 ∧ True ∧
        signalKeys s1.database = signalKeys s.database ++
          [(newRowId ((signalKeys s.database).map (·.1)), typeId.id, a.name)] := by
    intro s a _ hfree
    have hany : (s.database.signalDeclarations.any
        (fun row => row.typeId = typeId.id ∧ row.name = a.name)) = false := by
      rw [List.any_eq_false]
      intro row hrow
      have := hfree _ (List.mem_map.mpr ⟨row, hrow, rfl⟩)
      simpa using this
    simp only [synchronizeSignalDeclarations.insert, Session.write, WriteStatement.write,
      insertSignalDeclarationStatement, hany]
    refine ⟨_, rfl, trivial, ?_⟩
    simp [signalKeys, List.map_map, Function.comp_def]
  have h_upd : ∀ (s : Session) (v : Storage.SignalDeclarationView)
      (a : Storage.SignalDeclaration), True →
      ∃ s1, synchronizeSignalDeclarations.update v a s = .ok s1 ∧ True ∧
        signalKeys s1.database = signalKeys s.database := by
    intro s v a _
    by_cases hc : createJson a.parameters = v.signature
    · exact ⟨s, by simp [synchronizeSignalDeclarations.update, hc], trivial, rfl⟩
    · simp only [synchronizeSignalDeclarations.update, hc, Session.write,
        WriteStatement.write, if_false]
      refine ⟨_, rfl, trivial, ?_⟩
      simp only [signalKeys, updateSignalDeclarationStatement, List.map_map]
      apply List.map_congr_left
      intro row _
      simp only [Function.comp]
      split <;> rfl
  have h_rem : ∀ (s : Session) (v : Storage.SignalDeclarationView), True →
      ∃ s1, synchronizeSignalDeclarations.remove v s = .ok s1 ∧ True ∧
        signalKeys s1.database = (signalKeys s.database).filter (fun k => k.1 ≠ v.id.id) := by
    intro s v _
    simp only [synchronizeSignalDeclarations.remove, Session.write, WriteStatement.write]
    refine ⟨_, rfl, trivial, ?_⟩
    simp only [signalKeys, deleteSignalDeclarationStatement, List.filter_map]
    rfl
  obtain ⟨s2, h1, _, h2, h3, h4⟩ := insertUpdateDelete_table typeId.id
    (fun (v : Storage.SignalDeclarationView) => v.id.id) (·.name)
    (fun (a : Storage.SignalDeclaration) => a.name) (fun (_ : Session) => True)
    (fun s => s.database.signalDeclarations)
    (fun row => (row.signalDeclarationId, row.typeId, row.name))
    (fun row => { name := row.name, signature := row.signature,
                  id := { id := row.signalDeclarationId } })
    (fun _ => rfl) (fun _ => rfl) h_ins h_upd h_rem s hwf trivial signalDeclarations hnodup
  exact ⟨s2, h1, h2, h3, h4⟩

theorem synchronizeEnumerationDeclarations_spec (typeId : TypeId)
    (enumerationDeclarations : List Storage.EnumerationDeclaration) (s : Session)
    (hwf : KeysWF (enumerationKeys s.database))
    (hnodup : (enumerationDeclarations.map (·.name)).Nodup) :
    ∃ s2, synchronizeEnumerationDeclarations typeId enumerationDeclarations s = .ok s2 ∧
      KeysWF (enumerationKeys s2.database) ∧
      DeclarationsSynchronized (enumerationKeys s.database) (enumerationKeys s2.database)
        typeId.id (enumerationDeclarations.map (·.name)) ∧
      ∀ k, k.2.1 ≠ typeId.id →
        (k ∈ enumerationKeys s2.database ↔ k ∈ enumerationKeys s.database) := by
  have h_ins : ∀ (s : Session) (a : Storage.EnumerationDeclaration), True →
      (∀ k ∈ enumerationKeys s.database, ¬(k.2.1 = typeId.id ∧ k.2.2 = a.name)) →
      ∃ s1, synchronizeEnumerationDeclarations.insert typeId a s = .ok s1 ∧ True ∧
        enumerationKeys s1.database = enumerationKeys s.database ++
          [(newRowId ((enumerationKeys s.database).map (·.1)), typeId.id, a.name)] := by
    intro s a _ hfree
    have hany : (s.database.enumerationDeclarations.any
        (fun row => row.typeId = typeId.id ∧ row.name = a.name)) = false := by
      rw [List.any_eq_false]
      intro row hrow
      have := hfree _ (List.mem_map.mpr ⟨row, hrow, rfl⟩)
      simpa using this
    simp only [synchronizeEnumerationDeclarations.insert, Session.write, WriteStatement.write,
      insertEnumerationDeclarationStatement, hany]
    refine ⟨_, rfl, trivial, ?_⟩
    simp [enumerationKeys, List.map_map, Function.comp_def]
  have h_upd : ∀ (s : Session) (v : Storage.EnumerationDeclarationView)
      (a : Storage.EnumerationDeclaration), True →
      ∃ s1, synchronizeEnumerationDeclarations.update v a s = .ok s1 ∧ True ∧
        enumerationKeys s1.database = enumerationKeys s.database := by
    intro s v a _
    by_cases hc : createJsonEnumeratorDeclarations a.enumeratorDeclarations
        = v.enumeratorDeclarations
    · exact ⟨s, by simp [synchronizeEnumerationDeclarations.update, hc], trivial, rfl⟩
    · simp only [synchronizeEnumerationDeclarations.update, hc, Session.write,
        WriteStatement.write, if_false]
      refine ⟨_, rfl, trivial, ?_⟩
      simp only [enumerationKeys, updateEnumerationDeclarationStatement, List.map_map]
      apply List.map_congr_left
      intro row _
      simp only [Function.comp]
      split <;> rfl
  have h_rem : ∀ (s : Session) (v : Storage.EnumerationDeclarationView), True →
      ∃ s1, synchronizeEnumerationDeclarations.remove v s = .ok s1 ∧ True ∧
        enumerationKeys s1.database =
          (enumerationKeys s.database).filter (fun k => k.1 ≠ v.id.id) := by
    intro s v _
    simp only [synchronizeEnumerationDeclarations.remove, Session.write, WriteStatement.write]
    refine ⟨_, rfl, trivial, ?_⟩
    simp only [enumerationKeys, deleteEnumerationDeclarationStatement, List.filter_map]
    rfl
  obtain ⟨s2, h1, _, h2, h3, h4⟩ := insertUpdateDelete_table typeId.id
    (fun (v : Storage.EnumerationDeclarationView) => v.id.id) (·.name)
    (fun (a : Storage.EnumerationDeclaration) => a.name) (fun (_ : Session) => True)
    (fun s => s.database.enumerationDeclarations)
    (fun row => (row.enumerationDeclarationId, row.typeId, row.name))
    (fun row => { name := row.name, enumeratorDeclarations := row.enumeratorDeclarations,
                  id := { id := row.enumerationDeclarationId } })
    (fun _ => rfl) (fun _ => rfl) h_ins h_upd h_rem s hwf trivial enumerationDeclarations hnodup
  exact ⟨s2, h1, h2, h3, h4⟩

end ProjectStorage

/-! ## Prototype chain queries -/

namespace ProjectStorage

theorem find_typeId {types : List TypesRow} (hwf : TypesWF types) {row : TypesRow}
    (hrow : row ∈ types) : types.find? (fun r => r.typeId = row.typeId) = some row := by
  cases hf : types.find? (fun r => r.typeId = row.typeId) with
  | none =>
    have := List.find?_eq_none.mp hf row hrow
    simp at this
  | some r =>
    have h1 := List.mem_of_find?_eq_some hf
    have h2 : r.typeId = row.typeId := by simpa using List.find?_some hf
    rw [List.inj_on_of_nodup_map hwf.1 h1 hrow h2]

/-- Every id of the selection is reached from the start by prototype steps. -/
theorem typeSelection_sound (db : Database) :
    ∀ (fuel : Nat) (t c : Int), some c ∈ typeSelection db.types fuel (some t) →
      ReachesPrototype db t c := by
  intro fuel
  induction fuel with
  | zero => intro t c h; simp [typeSelection] at h
  | succ fuel ih =>
    intro t c h
    simp only [typeSelection, List.mem_cons, Option.some.injEq] at h
    rcases h with rfl | h
    · exact Relation.ReflTransGen.refl
    · cases hf : db.types.find? (fun row => row.typeId = t) with
      | none => simp [hf] at h
      | some row =>
        simp only [hf] at h
        cases hp : row.prototypeId with
        | none =>
          rw [hp] at h
          cases fuel <;> simp [typeSelection] at h
        | some p =>
          rw [hp] at h
          have hstep : IsPrototypeOf db t p :=
            ⟨row, List.mem_of_find?_eq_some hf, by simpa using List.find?_some hf, hp⟩
          exact Relation.ReflTransGen.head hstep (ih p c h)

/-- Along a chain of prototype steps shorter than the fuel, every type is in the selection. -/
theorem typeSelection_chain (db : Database) (hwf : TypesWF db.types) :
    ∀ (l : List Int) (fuel : Nat) (t : Int), List.Chain (IsPrototypeOf db) t l →
      l.length < fuel → ∀ x ∈ t :: l, some x ∈ typeSelection db.types fuel (some t) := by
  intro l
  induction l with
  | nil =>
    intro fuel t _ hlen x hx
    cases fuel with
    | zero => omega
    | succ fuel =>
      simp only [List.mem_singleton] at hx
      subst hx
      simp [typeSelection]
  | cons p l ih =>
    intro fuel t hchain hlen x hx
    cases fuel with
    | zero => omega
    | succ fuel =>
      obtain ⟨hstep, hrest⟩ := List.chain_cons.mp hchain
      obtain ⟨row, hrow, hid, hproto⟩ := hstep
      have hfind := find_typeId hwf hrow
      rw [hid] at hfind
      simp only [typeSelection, hfind, hproto, List.mem_cons, Option.some.injEq]
      rcases List.mem_cons.mp hx with rfl | hx
      · exact Or.inl rfl
      · exact Or.inr (ih fuel p hrest (by simpa using hlen) x hx)

/-- Every type of a chain of prototype steps but the last one has a row. -/
theorem chain_stored (db : Database) :
    ∀ (l : List Int) (t : Int), List.Chain (IsPrototypeOf db) t l →
      ∀ x ∈ (t :: l).dropLast, x ∈ db.types.map (·.typeId) := by
  intro l
  induction l with
  | nil => intro t _ x hx; simp at hx
  | cons p l ih =>
    intro t hchain x hx
    obtain ⟨hstep, hrest⟩ := List.chain_cons.mp hchain
    rw [List.dropLast_cons₂] at hx
    rcases List.mem_cons.mp hx with rfl | hx
    · obtain ⟨row, hrow, hid, _⟩ := hstep
      exact List.mem_map.mpr ⟨row, hrow, hid⟩
    · exact ih p hrest x hx

/-- In a store without cycle a chain of prototype steps is no longer than the `types` table. -/
theorem chain_length_le (db : Database) (hacyclic : Acyclic db) (l : List Int) (t : Int)
    (hchain : List.Chain (IsPrototypeOf db) t l) : l.length ≤ db.types.length := by
  have hchain1 : List.Chain (ProperAncestor db) t l :=
    hchain.imp fun _ _ h => Relation.TransGen.single h
  have htrans : ∀ {a b c : Int}, ProperAncestor db a b → ProperAncestor db b c →
      ProperAncestor db a c := fun h1 h2 => Relation.TransGen.trans h1 h2
  have hpair : List.Pairwise (ProperAncestor db) (t :: l) := by
    have : IsTrans Int (ProperAncestor db) := ⟨fun _ _ _ => htrans⟩
    exact List.chain_iff_pairwise.mp hchain1
  have hnodup : (t :: l).Nodup := by
    refine hpair.imp ?_
    intro a b h hab
    subst hab
    exact hacyclic a h
  have hnodup1 : ((t :: l).dropLast).Nodup := hnodup.sublist (List.dropLast_sublist _)
  have hsub : (t :: l).dropLast ⊆ db.types.map (·.typeId) := chain_stored db l t hchain
  have hlen := (List.subperm_of_subset hnodup1 hsub).length_le
  simpa using hlen

/-- In a well-formed store without cycle the selection holds exactly the types reached from the
start: the fuel of the model is enough. -/
theorem mem_typeSelection_iff (db : Database) (hwf : TypesWF db.types) (hacyclic : Acyclic db)
    (t c : Int) :
    some c ∈ typeSelection db.types (db.types.length + 1) (some t) ↔
      ReachesPrototype db t c := by
  constructor
  · exact typeSelection_sound db _ t c
  · intro h
    obtain ⟨l, hchain, hlast⟩ := List.exists_chain_of_relationReflTransGen h
    have hlen := chain_length_le db hacyclic l t hchain
    refine typeSelection_chain db hwf l _ t hchain (by omega) c ?_
    rw [← hlast]
    exact List.getLast_mem _

theorem acyclic_not_reaches (db : Database) (hacyclic : Acyclic db) {t c : Int}
    (h : ProperAncestor db c t) : ¬ReachesPrototype db t c := by
  intro hr
  exact hacyclic c (Relation.TransGen.trans_left h hr)

/-- A store in which every prototype has a smaller id than the types derived from it has no
cycle. -/
theorem acyclic_of_decreasing (db : Database)
    (h : ∀ row ∈ db.types, ∀ p, row.prototypeId = some p → p < row.typeId) : Acyclic db := by
  have hlt : ∀ a b, ProperAncestor db a b → b < a := by
    intro a b hab
    induction hab with
    | single hstep =>
      obtain ⟨row, hrow, hid, hp⟩ := hstep
      rw [← hid]; exact h row hrow _ hp
    | tail _ hstep ih =>
      obtain ⟨row, hrow, hid, hp⟩ := hstep
      have := h row hrow _ hp
      rw [hid] at this
      omega
  intro a ha
  exact lt_irrefl _ (hlt a a ha)

end ProjectStorage

/-! ## Frame of the synchronization on `types` -/

namespace ProjectStorage

theorem TypesGrow.same (s : Session) : TypesGrow s s := ⟨fun _ h => h, fun h => h⟩

theorem TypesGrow.step {s s1 s2 : Session} (h1 : TypesGrow s s1) (h2 : TypesGrow s1 s2) :
    TypesGrow s s2 :=
  ⟨fun row h => h2.1 row (h1.1 row h), fun h => h2.2 (h1.2 h)⟩

theorem TypesGrow.of_eq {s s1 : Session} (h : s1.database.types = s.database.types) :
    TypesGrow s s1 := by
  unfold TypesGrow
  rw [h]
  exact ⟨fun _ h => h, fun h => h⟩

/-- A write statement other than the sweep leaves `types` as it is. -/
theorem write_types {s s1 : Session} {statement : WriteStatement}
    (hsweep : ∀ a b, statement ≠ .deleteNotUpdatedTypesInSourcesStatement a b)
    (h : s.write statement = .ok s1) : s1.database.types = s.database.types := by
  unfold Session.write at h
  cases hw : statement.write s.database with
  | error e => simp [hw] at h
  | ok db =>
    simp only [hw, Except.ok.injEq] at h
    subst h
    simp only
    cases statement with
    | deleteNotUpdatedTypesInSourcesStatement a b => exact absurd rfl (hsweep a b)
    | upsertExportedTypesStatement a b c d =>
      simp only [WriteStatement.write, upsertExportedTypesStatement, Except.ok.injEq] at hw
      subst hw; split <;> rfl
    | insertPropertyDeclarationStatement a b c d =>
      simp only [WriteStatement.write, insertPropertyDeclarationStatement] at hw
      split at hw
      · simp at hw
      · simp only [Except.ok.injEq] at hw; subst hw; rfl
    | updatePropertyDeclarationStatement a b c =>
      simp only [WriteStatement.write, Except.ok.injEq] at hw; subst hw; rfl
    | deletePropertyDeclarationStatement a =>
      simp only [WriteStatement.write, Except.ok.injEq] at hw; subst hw; rfl
    | insertFunctionDeclarationStatement a b c d =>
      simp only [WriteStatement.write, insertFunctionDeclarationStatement] at hw
      split at hw
      · simp at hw
      · simp only [Except.ok.injEq] at hw; subst hw; rfl
    | updateFunctionDeclarationStatement a b c =>
      simp only [WriteStatement.write, Except.ok.injEq] at hw; subst hw; rfl
    | deleteFunctionDeclarationStatement a =>
      simp only [WriteStatement.write, Except.ok.injEq] at hw; subst hw; rfl
    | insertSignalDeclarationStatement a b c =>
      simp only [WriteStatement.write, insertSignalDeclarationStatement] at hw
      split at hw
      · simp at hw
      · simp only [Except.ok.injEq] at hw; subst hw; rfl
    | updateSignalDeclarationStatement a b =>
      simp only [WriteStatement.write, Except.ok.injEq] at hw; subst hw; rfl
    | deleteSignalDeclarationStatement a =>
      simp only [WriteStatement.write, Except.ok.injEq] at hw; subst hw; rfl
    | insertEnumerationDeclarationStatement a b c =>
      simp only [WriteStatement.write, insertEnumerationDeclarationStatement] at hw
      split at hw
      · simp at hw
      · simp only [Except.ok.injEq] at hw; subst hw; rfl
    | updateEnumerationDeclarationStatement a b =>
      simp only [WriteStatement.write, Except.ok.injEq] at hw; subst hw; rfl
    | deleteEnumerationDeclarationStatement a =>
      simp only [WriteStatement.write, Except.ok.injEq] at hw; subst hw; rfl

theorem synchronizePropertyDeclarations_grow {typeId : TypeId}
    {propertyDeclarations : List Storage.PropertyDeclaration} {s s1 : Session}
    (h : synchronizePropertyDeclarations typeId propertyDeclarations s = .ok s1) :
    TypesGrow s s1 := by
  refine insertUpdateDeleteLoop_rel TypesGrow.same (fun _ _ _ => TypesGrow.step) ?_ ?_ ?_
    _ _ _ _ _ h
  · intro s a s1 h
    unfold synchronizePropertyDeclarations.insert at h
    cases hf : fetchTypeIdByName a.typeName s with
    | error e => simp [hf] at h
    | ok r =>
      obtain ⟨s0, pid⟩ := r
      simp only [hf] at h
      obtain ⟨_, _, h1, h2⟩ := fetchTypeIdByName_frame hf
      exact TypesGrow.step ⟨h1, h2⟩ (TypesGrow.of_eq (write_types (by simp) h))
  · intro s v a s1 h
    unfold synchronizePropertyDeclarations.update at h
    cases hf : fetchTypeIdByName a.typeName s with
    | error e => simp [hf] at h
    | ok r =>
      obtain ⟨s0, pid⟩ := r
      simp only [hf] at h
      obtain ⟨_, _, h1, h2⟩ := fetchTypeIdByName_frame hf
      split at h
      · simp only [Except.ok.injEq] at h
        subst h
        exact ⟨h1, h2⟩
      · exact TypesGrow.step ⟨h1, h2⟩ (TypesGrow.of_eq (write_types (by simp) h))
  · intro s v s1 h
    exact TypesGrow.of_eq (write_types (by simp) h)

theorem synchronizeFunctionDeclarations_types {typeId : TypeId}
    {functionsDeclarations : List Storage.FunctionDeclaration} {s s1 : Session}
    (h : synchronizeFunctionDeclarations typeId functionsDeclarations s = .ok s1) :
    s1.database.types = s.database.types := by
  refine insertUpdateDeleteLoop_rel
    (R := fun (s s1 : Session) => s1.database.types = s.database.types)
    (fun _ => rfl) (fun _ _ _ h1 h2 => h2.trans h1) ?_ ?_ ?_ _ _ _ _ _ h
  · intro s a s1 h
    exact write_types (by simp) h
  · intro s v a s1 h
    unfold synchronizeFunctionDeclarations.update at h
    split at h
    · simp only [Except.ok.injEq] at h; subst h; rfl
    · exact write_types (by simp) h
  · intro s v s1 h
    exact write_types (by simp) h

theorem synchronizeSignalDeclarations_types {typeId : TypeId}
    {signalDeclarations : List Storage.SignalDeclaration} {s s1 : Session}
    (h : synchronizeSignalDeclarations typeId signalDeclarations s = .ok s1) :
    s1.database.types = s.database.types := by
  refine insertUpdateDeleteLoop_rel
    (R := fun (s s1 : Session) => s1.database.types = s.database.types)
    (fun _ => rfl) (fun _ _ _ h1 h2 => h2.trans h1) ?_ ?_ ?_ _ _ _ _ _ h
  · intro s a s1 h
    exact write_types (by simp) h
  · intro s v a s1 h
    unfold synchronizeSignalDeclarations.update at h
    split at h
    · simp only [Except.ok.injEq] at h; subst h; rfl
    · exact write_types (by simp) h
  · intro s v s1 h
    exact write_types (by simp) h

theorem synchronizeEnumerationDeclarations_types {typeId : TypeId}
    {enumerationDeclarations : List Storage.EnumerationDeclaration} {s s1 : Session}
    (h : synchronizeEnumerationDeclarations typeId enumerationDeclarations s = .ok s1) :
    s1.database.types = s.database.types := by
  refine insertUpdateDeleteLoop_rel
    (R := fun (s s1 : Session) => s1.database.types = s.database.types)
    (fun _ => rfl) (fun _ _ _ h1 h2 => h2.trans h1) ?_ ?_ ?_ _ _ _ _ _ h
  · intro s a s1 h
    exact write_types (by simp) h
  · intro s v a s1 h
    unfold synchronizeEnumerationDeclarations.update at h
    split at h
    · simp only [Except.ok.injEq] at h; subst h; rfl
    · exact write_types (by simp) h
  · intro s v s1 h
    exact write_types (by simp) h

theorem upsertExportedTypes_types {typeId : TypeId} :
    ∀ (exportedTypes : List Storage.ExportedType) (s s1 : Session),
      upsertExportedTypes typeId exportedTypes s = .ok s1 →
      s1.database.types = s.database.types := by
  intro exportedTypes
  induction exportedTypes with
  | nil =>
    intro s s1 h
    simp only [upsertExportedTypes, Except.ok.injEq] at h
    subst h; rfl
  | cons e es ih =>
    intro s s1 h
    simp only [upsertExportedTypes] at h
    cases h1 : upsertExportedType e.qualifiedTypeName e.version typeId s with
    | error err => simp [h1] at h
    | ok s0 =>
      simp only [h1] at h
      rw [ih s0 s1 h]
      exact write_types (by simp) h1

end ProjectStorage

/-! ## `syncType` and `syncTypes` on the table `types` -/

theorem TypesPersist.self (types : List TypesRow) : TypesPersist types types :=
  fun row h => ⟨row, h, rfl, rfl⟩

theorem TypesPersist.chain {a b c : List TypesRow} (h1 : TypesPersist a b)
    (h2 : TypesPersist b c) : TypesPersist a c := by
  intro row hrow
  obtain ⟨r1, hr1, hid1, hn1⟩ := h1 row hrow
  obtain ⟨r2, hr2, hid2, hn2⟩ := h2 r1 hr1
  exact ⟨r2, hr2, hid2.trans hid1, hn2.trans hn1⟩

theorem TypesPersist.of_subset {a b : List TypesRow} (h : ∀ row ∈ a, row ∈ b) :
    TypesPersist a b := fun row hrow => ⟨row, h row hrow, rfl, rfl⟩

theorem StoresType.mono {types types1 : List TypesRow} {type : Storage.Type_} {row : TypesRow}
    (h : StoresType types type row) (hrow : row ∈ types1) (hp : TypesPersist types types1) :
    StoresType types1 type row := by
  obtain ⟨_, h2, h3, h4, h5, h6⟩ := h
  refine ⟨hrow, h2, h3, h4, h5, fun hne => ?_⟩
  obtain ⟨proto, hproto, hname, hid⟩ := h6 hne
  obtain ⟨p1, hp1, hid1, hn1⟩ := hp proto hproto
  exact ⟨p1, hp1, hn1.trans hname, by rw [hid, hid1]⟩

namespace ProjectStorage

theorem upsertTypeStatement_frame (db : Database) (name : String)
    (accessSemantics prototypeId : Int) (sourceId : Option Int) :
    (upsertTypeStatement db name accessSemantics prototypeId sourceId).1 =
      { db with
        types := (upsertTypeStatement db name accessSemantics prototypeId sourceId).1.types } := by
  unfold upsertTypeStatement
  split <;> rfl

theorem upsertTypeStatement_kept (db : Database) (name : String)
    (accessSemantics prototypeId : Int) (sourceId : Option Int) :
    ∀ row ∈ db.types, row.name ≠ name →
      row ∈ (upsertTypeStatement db name accessSemantics prototypeId sourceId).1.types := by
  intro row hrow hne
  unfold upsertTypeStatement
  split
  · exact List.mem_map.mpr ⟨row, hrow, by simp [hne]⟩
  · exact List.mem_append_left _ hrow

theorem upsertTypeStatement_spec (db : Database) (name : String)
    (accessSemantics prototypeId : Int) (sourceId : Option Int) (hwf : TypesWF db.types) :
    TypesWF (upsertTypeStatement db name accessSemantics prototypeId sourceId).1.types ∧
    TypesPersist db.types
      (upsertTypeStatement db name accessSemantics prototypeId sourceId).1.types ∧
    ∃ row ∈ (upsertTypeStatement db name accessSemantics prototypeId sourceId).1.types,
      row.name = name ∧
      row.typeId = (upsertTypeStatement db name accessSemantics prototypeId sourceId).2.id ∧
      row.accessSemantics = some accessSemantics ∧
      row.sourceId = sourceId.bind (nullif · (-1)) ∧
      row.prototypeId = nullif prototypeId (-1) := by
  unfold upsertTypeStatement
  cases hf : db.types.find? (fun row => row.name = name) with
  | some conflicting =>
    simp only
    have hmem := List.mem_of_find?_eq_some hf
    have hname : conflicting.name = name := by simpa using List.find?_some hf
    have hids : (db.types.map fun row =>
        if row.name = name then
          { row with prototypeId := nullif prototypeId (-1),
                     accessSemantics := some accessSemantics,
                     sourceId := sourceId.bind (nullif · (-1)) }
        else row).map (·.typeId) = db.types.map (·.typeId) := by
      rw [List.map_map]
      apply List.map_congr_left
      intro row _
      simp only [Function.comp]
      split <;> rfl
    have hnames : (db.types.map fun row =>
        if row.name = name then
          { row with prototypeId := nullif prototypeId (-1),
                     accessSemantics := some accessSemantics,
                     sourceId := sourceId.bind (nullif · (-1)) }
        else row).map (·.name) = db.types.map (·.name) := by
      rw [List.map_map]
      apply List.map_congr_left
      intro row _
      simp only [Function.comp]
      split <;> rfl
    refine ⟨⟨by rw [hids]; exact hwf.1, by rw [hnames]; exact hwf.2.1, ?_⟩, ?_, ?_⟩
    · intro row hrow
      obtain ⟨r, hr, rfl⟩ := List.mem_map.mp hrow
      have := hwf.2.2 r hr
      split <;> exact this
    · intro row hrow
      refine ⟨_, List.mem_map.mpr ⟨row, hrow, rfl⟩, ?_, ?_⟩ <;> split <;> rfl
    · refine ⟨_, List.mem_map.mpr ⟨conflicting, hmem, rfl⟩, ?_⟩
      simp [hname]
  | none =>
    simp only
    have hfree : ∀ r ∈ db.types, r.name ≠ name := by
      intro r hr
      have := List.find?_eq_none.mp hf r hr
      simpa using this
    refine ⟨hwf.append_row _ rfl hfree, TypesPersist.of_subset fun row h =>
      List.mem_append_left _ h, ?_⟩
    exact ⟨_, List.mem_append_right _ (List.mem_singleton.mpr rfl), rfl, rfl, rfl, rfl, rfl⟩

/-- The steps of a successful `syncType`, one after the other. -/
theorem syncType_steps {type : Storage.Type_} {s s1 : Session} {typeId : TypeId}
    (h : syncType type s = .ok (s1, typeId)) :
    ∃ s0 prototypeId s2 s3,
      fetchTypeIdByName type.prototype s = .ok (s0, prototypeId) ∧
      typeId = (upsertTypeStatement s0.database type.typeName type.accessSemantics.toInt
        prototypeId.id (some type.sourceId.id)).2 ∧
      upsertExportedTypes typeId type.exportedTypes
        { s0 with database := (upsertTypeStatement s0.database type.typeName
            type.accessSemantics.toInt prototypeId.id (some type.sourceId.id)).1 } = .ok s2 ∧
      synchronizePropertyDeclarations typeId type.propertyDeclarations s2 = .ok s3 ∧
      s1.database.types = s3.database.types := by
  unfold syncType at h
  cases hf : fetchTypeIdByName type.prototype s with
  | error e => simp [hf] at h
  | ok r =>
    obtain ⟨s0, prototypeId⟩ := r
    simp only [hf] at h
    cases he : upsertExportedTypes (upsertTypeStatement s0.database type.typeName
        type.accessSemantics.toInt prototypeId.id (some type.sourceId.id)).2 type.exportedTypes
        { s0 with database := (upsertTypeStatement s0.database type.typeName
            type.accessSemantics.toInt prototypeId.id (some type.sourceId.id)).1 } with
    | error e => simp [he] at h
    | ok s2 =>
      simp only [he] at h
      cases hp : synchronizePropertyDeclarations (upsertTypeStatement s0.database type.typeName
          type.accessSemantics.toInt prototypeId.id (some type.sourceId.id)).2
          type.propertyDeclarations s2 with
      | error e => simp [hp] at h
      | ok s3 =>
        simp only [hp] at h
        cases hfn : synchronizeFunctionDeclarations (upsertTypeStatement s0.database
            type.typeName type.accessSemantics.toInt prototypeId.id
            (some type.sourceId.id)).2 type.functionDeclarations s3 with
        | error e => simp [hfn] at h
        | ok s4 =>
          simp only [hfn] at h
          cases hsg : synchronizeSignalDeclarations (upsertTypeStatement s0.database
              type.typeName type.accessSemantics.toInt prototypeId.id
              (some type.sourceId.id)).2 type.signalDeclarations s4 with
          | error e => simp [hsg] at h
          | ok s5 =>
            simp only [hsg] at h
            cases hen : synchronizeEnumerationDeclarations (upsertTypeStatement s0.database
                type.typeName type.accessSemantics.toInt prototypeId.id
                (some type.sourceId.id)).2 type.enumerationDeclarations s5 with
            | error e => simp [hen] at h
            | ok s6 =>
              simp only [hen, Except.ok.injEq, Prod.mk.injEq] at h
              obtain ⟨rfl, rfl⟩ := h
              refine ⟨s0, prototypeId, s2, s3, rfl, rfl, he, hp, ?_⟩
              rw [synchronizeEnumerationDeclarations_types hen,
                synchronizeSignalDeclarations_types hsg,
                synchronizeFunctionDeclarations_types hfn]

/-- A successful `syncType` keeps every row of `types` of another name as it is. -/
theorem syncType_kept {type : Storage.Type_} {s s1 : Session} {typeId : TypeId}
    (h : syncType type s = .ok (s1, typeId)) :
    ∀ row ∈ s.database.types, row.name ≠ type.typeName → row ∈ s1.database.types := by
  obtain ⟨s0, prototypeId, s2, s3, hf, _, he, hp, htypes⟩ := syncType_steps h
  intro row hrow hne
  rw [htypes]
  apply (synchronizePropertyDeclarations_grow hp).1
  rw [upsertExportedTypes_types _ _ _ he]
  exact upsertTypeStatement_kept _ _ _ _ _ row ((fetchTypeIdByName_frame hf).2.2.1 row hrow) hne

/-- A successful `syncType` keeps the constraints of `types`, keeps every row under its id and
name, and leaves a row that holds the entry under the id it returns. -/
theorem syncType_spec {type : Storage.Type_} {s s1 : Session} {typeId : TypeId}
    (h : syncType type s = .ok (s1, typeId)) (hwf : TypesWF s.database.types) :
    TypesWF s1.database.types ∧ TypesPersist s.database.types s1.database.types ∧
    ∃ row, StoresType s1.database.types type row ∧ row.typeId = typeId.id := by
  obtain ⟨s0, prototypeId, s2, s3, hf, hid, he, hp, htypes⟩ := syncType_steps h
  obtain ⟨_, _, hkeep0, hwf0⟩ := fetchTypeIdByName_frame hf
  have hwf0 := hwf0 hwf
  obtain ⟨hwfu, hpersu, row, hrow, hname, hrid, hsem, hsrc, hproto⟩ :=
    upsertTypeStatement_spec s0.database type.typeName type.accessSemantics.toInt
      prototypeId.id (some type.sourceId.id) hwf0
  have hexp := upsertExportedTypes_types _ _ _ he
  simp only at hexp
  have hgrow := synchronizePropertyDeclarations_grow hp
  have hsub : ∀ r ∈ (upsertTypeStatement s0.database type.typeName
      type.accessSemantics.toInt prototypeId.id (some type.sourceId.id)).1.types,
      r ∈ s1.database.types := by
    intro r hr
    rw [htypes]
    exact hgrow.1 r (by rw [hexp]; exact hr)
  have hwf1 : TypesWF s1.database.types := by
    rw [htypes]
    exact hgrow.2 (by rw [hexp]; exact hwfu)
  refine ⟨hwf1, ?_, row, ?_, by rw [hrid, hid]⟩
  · exact (TypesPersist.of_subset hkeep0).chain (hpersu.chain (TypesPersist.of_subset hsub))
  · have hstored : StoresType (upsertTypeStatement s0.database type.typeName
        type.accessSemantics.toInt prototypeId.id (some type.sourceId.id)).1.types type row := by
      refine ⟨hrow, hname, hsem, by simpa using hsrc, ?_, ?_⟩
      · intro hempty
        obtain ⟨_, h1 | ⟨hne, _⟩⟩ := fetchTypeIdByName_cases hf
        · rcases h1.2 with ⟨_, hp0⟩ | ⟨hne, _⟩
          · rw [hproto, hp0]; rfl
          · exact absurd hempty hne
        · exact absurd hempty hne
      · intro hne
        have hfound : ∃ p ∈ s0.database.types, p.name = type.prototype ∧
            p.typeId = prototypeId.id ∧ 0 ≤ prototypeId.id := by
          obtain ⟨_, h1 | ⟨_, _, hnew, hdb⟩⟩ := fetchTypeIdByName_cases hf
          · rcases h1.2 with ⟨hempty, _⟩ | ⟨_, hpos, p, hp0, hpn, hpid⟩
            · exact absurd hempty hne
            · exact ⟨p, by rw [h1.1]; exact hp0, hpn, hpid, hpos⟩
          · refine ⟨{ typeId := prototypeId.id, name := type.prototype }, ?_, rfl, rfl, ?_⟩
            · rw [hdb]; simp
            · rw [hnew]
              refine le_of_lt (newRowId_pos ?_)
              intro x hx
              obtain ⟨r, hr, rfl⟩ := List.mem_map.mp hx
              exact hwf.2.2 r hr
        obtain ⟨p, hp0, hpn, hpid, hpos⟩ := hfound
        obtain ⟨p1, hp1, hid1, hn1⟩ := hpersu p hp0
        refine ⟨p1, hp1, hn1.trans hpn, ?_⟩
        rw [hproto, hid1, hpid]
        unfold nullif
        rw [if_neg (by omega)]
    exact hstored.mono (hsub row hrow) (TypesPersist.of_subset hsub)

theorem syncTypes_kept :
    ∀ (types : List Storage.Type_) (s s1 : Session) (typeIds : List TypeId),
      syncTypes types s = .ok (s1, typeIds) →
      ∀ row ∈ s.database.types, row.name ∉ types.map (·.typeName) →
        row ∈ s1.database.types := by
  intro types
  induction types with
  | nil =>
    intro s s1 typeIds h row hrow _
    simp only [syncTypes, Except.ok.injEq, Prod.mk.injEq] at h
    rw [← h.1]; exact hrow
  | cons type types ih =>
    intro s s1 typeIds h row hrow hname
    simp only [syncTypes] at h
    cases h1 : syncType type s with
    | error e => simp [h1] at h
    | ok r =>
      obtain ⟨s0, typeId⟩ := r
      simp only [h1] at h
      cases h2 : syncTypes types s0 with
      | error e => simp [h2] at h
      | ok r2 =>
        obtain ⟨s2, ids⟩ := r2
        simp only [h2, Except.ok.injEq, Prod.mk.injEq] at h
        obtain ⟨rfl, rfl⟩ := h
        simp only [List.map_cons, List.mem_cons, not_or] at hname
        exact ih s0 s2 ids h2 row (syncType_kept h1 row hrow hname.1) hname.2

theorem syncTypes_spec :
    ∀ (types : List Storage.Type_) (s s1 : Session) (typeIds : List TypeId),
      syncTypes types s = .ok (s1, typeIds) → TypesWF s.database.types →
      TypesWF s1.database.types ∧ TypesPersist s.database.types s1.database.types ∧
      ∀ type ∈ types, (∀ x ∈ types, x.typeName = type.typeName → x = type) →
        ∃ row, StoresType s1.database.types type row ∧ row.typeId ∈ typeIds.map (·.id) := by
  intro types
  induction types with
  | nil =>
    intro s s1 typeIds h hwf
    simp only [syncTypes, Except.ok.injEq, Prod.mk.injEq] at h
    obtain ⟨rfl, rfl⟩ := h
    exact ⟨hwf, TypesPersist.self _, fun type ht => by simp at ht⟩
  | cons first types ih =>
    intro s s1 typeIds h hwf
    simp only [syncTypes] at h
    cases h1 : syncType first s with
    | error e => simp [h1] at h
    | ok r =>
      obtain ⟨s0, typeId⟩ := r
      simp only [h1] at h
      cases h2 : syncTypes types s0 with
      | error e => simp [h2] at h
      | ok r2 =>
        obtain ⟨s2, ids⟩ := r2
        simp only [h2, Except.ok.injEq, Prod.mk.injEq] at h
        obtain ⟨rfl, rfl⟩ := h
        obtain ⟨hwf0, hpers0, row0, hstores0, hrow0⟩ := syncType_spec h1 hwf
        obtain ⟨hwf2, hpers2, hrest⟩ := ih s0 s2 ids h2 hwf0
        refine ⟨hwf2, hpers0.chain hpers2, ?_⟩
        intro type htype huniq
        by_cases hin : type.typeName ∈ types.map (·.typeName)
        · obtain ⟨y, hy, hyn⟩ := List.mem_map.mp hin
          have hyt : y = type := huniq y (List.mem_cons_of_mem _ hy) hyn
          subst hyt
          obtain ⟨row, hrow, hid⟩ := hrest y hy
            (fun x hx hxn => huniq x (List.mem_cons_of_mem _ hx) hxn)
          exact ⟨row, hrow, by simp only [List.map_cons, List.mem_cons]; exact Or.inr hid⟩
        · have hfirst : type = first := by
            rcases List.mem_cons.mp htype with h | h
            · exact h
            · exact absurd (List.mem_map.mpr ⟨type, h, rfl⟩) hin
          subst hfirst
          have hkept := syncTypes_kept types s0 s2 ids h2 row0 hstores0.1
            (by rw [hstores0.2.1]; exact hin)
          exact ⟨row0, hstores0.mono hkept hpers2,
            by simp only [List.map_cons, List.mem_cons]; exact Or.inl hrow0⟩

/-- A successful sweep removes from `types` the rows its `WHERE` clause selects and nothing
else, and leaves every other table as it is. -/
theorem deleteNotUpdatedTypes_ok {updatedTypeIds : List TypeId} {sourceIds : List SourceId}
    {s s1 : Session} (h : deleteNotUpdatedTypes updatedTypeIds sourceIds s = .ok s1) :
    s1.database = { s.database with
      types := s.database.types.filter fun row =>
        !notUpdatedTypeInSources (sourceIds.map (·.id)) (updatedTypeIds.map (·.id)) row } := by
  unfold deleteNotUpdatedTypes Session.write at h
  simp only [WriteStatement.write, deleteNotUpdatedTypesInSourcesStatement] at h
  split at h
  · simp at h
  · rename_i db hw
    split at hw
    · simp at hw
    · simp only [Except.ok.injEq] at hw h
      subst h
      rw [← hw]

/-- The steps of a `synchronizeTypes` call that commits. -/
theorem synchronizeTypes_ok {db : Database} {types : List Storage.Type_}
    {sourceIds : List SourceId} (h : (synchronizeTypes db types sourceIds).result = .ok ()) :
    ∃ s1 updatedTypeIds s2,
      syncTypes types { database := db } = .ok (s1, updatedTypeIds) ∧
      deleteNotUpdatedTypes updatedTypeIds sourceIds s1 = .ok s2 ∧
      deferredForeignKeysHold s2.database = true ∧
      (synchronizeTypes db types sourceIds).database = s2.database := by
  have hdef : synchronizeTypes db types sourceIds =
      Sqlite.ImmediateTransaction db fun s =>
        match synchronizeTypesBody types sourceIds s with
        | .error e => .error e
        | .ok (s1, _) => .ok (s1, ()) := rfl
  rw [hdef] at h ⊢
  unfold Sqlite.ImmediateTransaction synchronizeTypesBody at h ⊢
  cases h1 : syncTypes types { database := db } with
  | error e => simp [h1] at h
  | ok r =>
    obtain ⟨s1, ids⟩ := r
    simp only [h1] at h
    cases h2 : deleteNotUpdatedTypes ids sourceIds s1 with
    | error e => simp [h2] at h
    | ok s2 =>
      simp only [h2] at h
      by_cases hfk : deferredForeignKeysHold s2.database = true
      · refine ⟨s1, ids, s2, rfl, h2, hfk, ?_⟩
        simp only [h1, h2, hfk, if_true]
      · simp [hfk] at h

/-- The constraints of `types` hold after a `synchronizeTypes` call that commits, when they hold
before it. -/
theorem synchronizeTypes_typesWF {db : Database} {types : List Storage.Type_}
    {sourceIds : List SourceId} (hwf : TypesWF db.types)
    (h : (synchronizeTypes db types sourceIds).result = .ok ()) :
    TypesWF (synchronizeTypes db types sourceIds).database.types := by
  obtain ⟨s1, ids, s2, h1, h2, _, hdb⟩ := synchronizeTypes_ok h
  obtain ⟨hwf1, _, _⟩ := syncTypes_spec types _ s1 ids h1 hwf
  rw [hdb, deleteNotUpdatedTypes_ok h2]
  exact ⟨hwf1.1.sublist ((List.filter_sublist _).map _),
    hwf1.2.1.sublist ((List.filter_sublist _).map _),
    fun row hrow => hwf1.2.2 row (List.mem_filter.mp hrow).1⟩

end ProjectStorage

/-! ## The constraints of the tables are kept -/

namespace ProjectStorage

theorem keysWF_map_eq {R : Type} {key : R → DeclarationKey} {f : R → R} {rows : List R}
    (hf : ∀ row ∈ rows, key (f row) = key row) (h : KeysWF (rows.map key)) :
    KeysWF ((rows.map f).map key) := by
  have : (rows.map f).map key = rows.map key := by
    rw [List.map_map]
    exact List.map_congr_left fun row hrow => hf row hrow
  rw [this]; exact h

theorem keysWF_insert {R : Type} {key : R → DeclarationKey} {rows : List R} {row : R}
    {t : Int} {n : String} (h : KeysWF (rows.map key))
    (hkey : key row = (newRowId (rows.map fun r => (key r).1), t, n))
    (hfree : ∀ r ∈ rows, ¬((key r).2.1 = t ∧ (key r).2.2 = n)) :
    KeysWF ((rows ++ [row]).map key) := by
  have hids : (rows.map fun r => (key r).1) = (rows.map key).map (·.1) := by
    rw [List.map_map]; rfl
  rw [List.map_append, List.map_cons, List.map_nil, hkey, hids]
  refine h.append_key t n ?_
  intro k hk
  obtain ⟨r, hr, rfl⟩ := List.mem_map.mp hk
  exact hfree r hr

theorem keysWF_delete {R : Type} {key : R → DeclarationKey} {rows : List R} (p : R → Bool)
    (h : KeysWF (rows.map key)) : KeysWF ((rows.filter p).map key) :=
  ⟨h.1.sublist (((List.filter_sublist _).map key).map _),
   h.2.sublist (((List.filter_sublist _).map key).map _)⟩

/-- A write statement that succeeds keeps the constraints of the tables. -/
theorem write_wellFormed {s s1 : Session} {statement : WriteStatement}
    (h : s.write statement = .ok s1) (hwf : s.database.WellFormed) :
    s1.database.WellFormed := by
  unfold Session.write at h
  cases hw : statement.write s.database with
  | error e => simp [hw] at h
  | ok db =>
    simp only [hw, Except.ok.injEq] at h
    subst h
    simp only
    cases statement with
    | deleteNotUpdatedTypesInSourcesStatement a b =>
      simp only [WriteStatement.write, deleteNotUpdatedTypesInSourcesStatement] at hw
      split at hw
      · simp at hw
      · simp only [Except.ok.injEq] at hw
        subst hw
        exact ⟨⟨hwf.types.1.sublist ((List.filter_sublist _).map _),
          hwf.types.2.1.sublist ((List.filter_sublist _).map _),
          fun row hrow => hwf.types.2.2 row (List.mem_filter.mp hrow).1⟩,
          hwf.properties, hwf.functions, hwf.signals, hwf.enumerations⟩
    | upsertExportedTypesStatement a b c d =>
      simp only [WriteStatement.write, upsertExportedTypesStatement, Except.ok.injEq] at hw
      subst hw
      split
      · exact hwf
      · exact ⟨hwf.types, hwf.properties, hwf.functions, hwf.signals, hwf.enumerations⟩
    | insertPropertyDeclarationStatement a b c d =>
      simp only [WriteStatement.write, insertPropertyDeclarationStatement] at hw
      split at hw
      · simp at hw
      · rename_i hany
        simp only [Except.ok.injEq] at hw
        subst hw
        refine ⟨hwf.types, ?_, hwf.functions, hwf.signals, hwf.enumerations⟩
        refine keysWF_insert hwf.properties rfl ?_
        intro r hr hk
        apply hany
        rw [List.any_eq_true]
        exact ⟨r, hr, by simpa using hk⟩
    | updatePropertyDeclarationStatement a b c =>
      simp only [WriteStatement.write, Except.ok.injEq] at hw
      subst hw
      refine ⟨hwf.types, ?_, hwf.functions, hwf.signals, hwf.enumerations⟩
      refine keysWF_map_eq ?_ hwf.properties
      intro row _
      split <;> rfl
    | deletePropertyDeclarationStatement a =>
      simp only [WriteStatement.write, Except.ok.injEq] at hw
      subst hw
      exact ⟨hwf.types, keysWF_delete _ hwf.properties, hwf.functions, hwf.signals,
        hwf.enumerations⟩
    | insertFunctionDeclarationStatement a b c d =>
      simp only [WriteStatement.write, insertFunctionDeclarationStatement] at hw
      split at hw
      · simp at hw
      · rename_i hany
        simp only [Except.ok.injEq] at hw
        subst hw
        refine ⟨hwf.types, hwf.properties, ?_, hwf.signals, hwf.enumerations⟩
        refine keysWF_insert hwf.functions rfl ?_
        intro r hr hk
        apply hany
        rw [List.any_eq_true]
        exact ⟨r, hr, by simpa using hk⟩
    | updateFunctionDeclarationStatement a b c =>
      simp only [WriteStatement.write, Except.ok.injEq] at hw
      subst hw
      refine ⟨hwf.types, hwf.properties, ?_, hwf.signals, hwf.enumerations⟩
      refine keysWF_map_eq ?_ hwf.functions
      intro row _
      split <;> rfl
    | deleteFunctionDeclarationStatement a =>
      simp only [WriteStatement.write, Except.ok.injEq] at hw
      subst hw
      exact ⟨hwf.types, hwf.properties, keysWF_delete _ hwf.functions, hwf.signals,
        hwf.enumerations⟩
    | insertSignalDeclarationStatement a b c =>
      simp only [WriteStatement.write, insertSignalDeclarationStatement] at hw
      split at hw
      · simp at hw
      · rename_i hany
        simp only [Except.ok.injEq] at hw
        subst hw
        refine ⟨hwf.types, hwf.properties, hwf.functions, ?_, hwf.enumerations⟩
        refine keysWF_insert hwf.signals rfl ?_
        intro r hr hk
        apply hany
        rw [List.any_eq_true]
        exact ⟨r, hr, by simpa using hk⟩
    | updateSignalDeclarationStatement a b =>
      simp only [WriteStatement.write, Except.ok.injEq] at hw
      subst hw
      refine ⟨hwf.types, hwf.properties, hwf.functions, ?_, hwf.enumerations⟩
      refine keysWF_map_eq ?_ hwf.signals
      intro row _
      split <;> rfl
    | deleteSignalDeclarationStatement a =>
      simp only [WriteStatement.write, Except.ok.injEq] at hw
      subst hw
      exact ⟨hwf.types, hwf.properties, hwf.functions, keysWF_delete _ hwf.signals,
        hwf.enumerations⟩
    | insertEnumerationDeclarationStatement a b c =>
      simp only [WriteStatement.write, insertEnumerationDeclarationStatement] at hw
      split at hw
      · simp at hw
      · rename_i hany
        simp only [Except.ok.injEq] at hw
        subst hw
        refine ⟨hwf.types, hwf.properties, hwf.functions, hwf.signals, ?_⟩
        refine keysWF_insert hwf.enumerations rfl ?_
        intro r hr hk
        apply hany
        rw [List.any_eq_true]
        exact ⟨r, hr, by simpa using hk⟩
    | updateEnumerationDeclarationStatement a b =>
      simp only [WriteStatement.write, Except.ok.injEq] at hw
      subst hw
      refine ⟨hwf.types, hwf.properties, hwf.functions, hwf.signals, ?_⟩
      refine keysWF_map_eq ?_ hwf.enumerations
      intro row _
      split <;> rfl
    | deleteEnumerationDeclarationStatement a =>
      simp only [WriteStatement.write, Except.ok.injEq] at hw
      subst hw
      exact ⟨hwf.types, hwf.properties, hwf.functions, hwf.signals,
        keysWF_delete _ hwf.enumerations⟩

theorem fetchTypeIdByName_wellFormed {name : String} {s s1 : Session} {typeId : TypeId}
    (h : fetchTypeIdByName name s = .ok (s1, typeId)) (hwf : s.database.WellFormed) :
    s1.database.WellFormed := by
  obtain ⟨_, hdb, _, htypes⟩ := fetchTypeIdByName_frame h
  rw [hdb]
  exact ⟨htypes hwf.types, hwf.properties, hwf.functions, hwf.signals, hwf.enumerations⟩

theorem upsertExportedTypes_wellFormed {typeId : TypeId} :
    ∀ (exportedTypes : List Storage.ExportedType) (s s1 : Session),
      upsertExportedTypes typeId exportedTypes s = .ok s1 → s.database.WellFormed →
      s1.database.WellFormed := by
  intro exportedTypes
  induction exportedTypes with
  | nil =>
    intro s s1 h hwf
    simp only [upsertExportedTypes, Except.ok.injEq] at h
    rw [← h]; exact hwf
  | cons e es ih =>
    intro s s1 h hwf
    simp only [upsertExportedTypes] at h
    cases h1 : upsertExportedType e.qualifiedTypeName e.version typeId s with
    | error err => simp [h1] at h
    | ok s0 =>
      simp only [h1] at h
      exact ih s0 s1 h (write_wellFormed h1 hwf)

/-- A `syncType` call that succeeds keeps the constraints of the tables. -/
theorem syncType_wellFormed {type : Storage.Type_} {s s1 : Session} {typeId : TypeId}
    (h : syncType type s = .ok (s1, typeId)) (hwf : s.database.WellFormed) :
    s1.database.WellFormed := by
  have hrefl : ∀ s : Session, s.database.WellFormed → s.database.WellFormed := fun _ h => h
  have htrans : ∀ s s1 s2 : Session, (s.database.WellFormed → s1.database.WellFormed) →
      (s1.database.WellFormed → s2.database.WellFormed) →
      s.database.WellFormed → s2.database.WellFormed := fun _ _ _ h1 h2 h => h2 (h1 h)
  unfold syncType at h
  cases hf : fetchTypeIdByName type.prototype s with
  | error e => simp [hf] at h
  | ok r =>
    obtain ⟨s0, prototypeId⟩ := r
    simp only [hf] at h
    have hwf0 := fetchTypeIdByName_wellFormed hf hwf
    have hwfu : (upsertTypeStatement s0.database type.typeName type.accessSemantics.toInt
        prototypeId.id (some type.sourceId.id)).1.WellFormed := by
      rw [upsertTypeStatement_frame]
      exact ⟨(upsertTypeStatement_spec _ _ _ _ _ hwf0.types).1, hwf0.properties, hwf0.functions,
        hwf0.signals, hwf0.enumerations⟩
    split at h
    · simp at h
    · rename_i s2 he
      have hwf2 : s2.database.WellFormed := upsertExportedTypes_wellFormed _ _ _ he hwfu
      split at h
      · simp at h
      · rename_i s3 hp
        have hwf3 : s3.database.WellFormed := by
          refine insertUpdateDeleteLoop_rel
            (R := fun (s s1 : Session) => s.database.WellFormed → s1.database.WellFormed)
            hrefl htrans ?_ ?_ ?_ _ _ _ _ _ hp hwf2
          · intro s a s1 h hs
            unfold synchronizePropertyDeclarations.insert at h
            split at h
            · simp at h
            · rename_i s' pid hf'
              exact write_wellFormed h (fetchTypeIdByName_wellFormed hf' hs)
          · intro s v a s1 h hs
            unfold synchronizePropertyDeclarations.update at h
            split at h
            · simp at h
            · rename_i s' pid hf'
              split at h
              · simp only [Except.ok.injEq] at h
                rw [← h]; exact fetchTypeIdByName_wellFormed hf' hs
              · exact write_wellFormed h (fetchTypeIdByName_wellFormed hf' hs)
          · intro s v s1 h hs
            exact write_wellFormed h hs
        split at h
        · simp at h
        · rename_i s4 hfn
          have hwf4 : s4.database.WellFormed := by
            refine insertUpdateDeleteLoop_rel
              (R := fun (s s1 : Session) => s.database.WellFormed → s1.database.WellFormed)
              hrefl htrans ?_ ?_ ?_ _ _ _ _ _ hfn hwf3
            · intro s a s1 h hs
              exact write_wellFormed h hs
            · intro s v a s1 h hs
              unfold synchronizeFunctionDeclarations.update at h
              split at h
              · simp only [Except.ok.injEq] at h
                rw [← h]; exact hs
              · exact write_wellFormed h hs
            · intro s v s1 h hs
              exact write_wellFormed h hs
          split at h
          · simp at h
          · rename_i s5 hsg
            have hwf5 : s5.database.WellFormed := by
              refine insertUpdateDeleteLoop_rel
                (R := fun (s s1 : Session) => s.database.WellFormed → s1.database.WellFormed)
                hrefl htrans ?_ ?_ ?_ _ _ _ _ _ hsg hwf4
              · intro s a s1 h hs
                exact write_wellFormed h hs
              · intro s v a s1 h hs
                unfold synchronizeSignalDeclarations.update at h
                split at h
                · simp only [Except.ok.injEq] at h
                  rw [← h]; exact hs
                · exact write_wellFormed h hs
              · intro s v s1 h hs
                exact write_wellFormed h hs
            split at h
            · simp at h
            · rename_i s6 hen
              simp only [Except.ok.injEq, Prod.mk.injEq] at h
              rw [← h.1]
              refine insertUpdateDeleteLoop_rel
                (R := fun (s s1 : Session) => s.database.WellFormed → s1.database.WellFormed)
                hrefl htrans ?_ ?_ ?_ _ _ _ _ _ hen hwf5
              · intro s a s1 h hs
                exact write_wellFormed h hs
              · intro s v a s1 h hs
                unfold synchronizeEnumerationDeclarations.update at h
                split at h
                · simp only [Except.ok.injEq] at h
                  rw [← h]; exact hs
                · exact write_wellFormed h hs
              · intro s v s1 h hs
                exact write_wellFormed h hs

/-- The constraints of the tables are an invariant of `synchronizeTypes`: they hold after the
call, committed or rolled back, when they hold before it. -/
theorem synchronizeTypes_wellFormed (db : Database) (types : List Storage.Type_)
    (sourceIds : List SourceId) (hwf : db.WellFormed) :
    (synchronizeTypes db types sourceIds).database.WellFormed := by
  cases hres : (synchronizeTypes db types sourceIds).result with
  | error e =>
    have hdef : synchronizeTypes db types sourceIds =
        Sqlite.ImmediateTransaction db fun s =>
          match synchronizeTypesBody types sourceIds s with
          | .error e => .error e
          | .ok (s1, _) => .ok (s1, ()) := rfl
    rw [hdef] at hres ⊢
    unfold Sqlite.ImmediateTransaction at hres ⊢
    cases hbody : synchronizeTypesBody types sourceIds { database := db } with
    | error e0 =>
      simp only [hbody]
      exact hwf
    | ok r =>
      obtain ⟨s1, ids⟩ := r
      simp only [hbody] at hres ⊢
      by_cases hfk : deferredForeignKeysHold s1.database = true
      · simp [hfk] at hres
      · simp only [hfk, if_false]
        exact hwf
  | ok u =>
    obtain ⟨s1, ids, s2, h1, h2, _, hdb⟩ := synchronizeTypes_ok hres
    rw [hdb]
    have hwf1 : s1.database.WellFormed := by
      clear h2 hdb hres
      generalize hstart : ({ database := db } : Session) = start at h1
      have hstartwf : start.database.WellFormed := by rw [← hstart]; exact hwf
      clear hstart
      induction types generalizing start s1 ids with
      | nil =>
        simp only [syncTypes, Except.ok.injEq, Prod.mk.injEq] at h1
        rw [← h1.1]; exact hstartwf
      | cons type types ih =>
        simp only [syncTypes] at h1
        split at h1
        · simp at h1
        · rename_i s0 tid hs0
          split at h1
          · simp at h1
          · rename_i s2' ids' hrest
            simp only [Except.ok.injEq, Prod.mk.injEq] at h1
            rw [← h1.1]
            exact ih s2' ids' s0 hrest (syncType_wellFormed hs0 hstartwf)
    unfold deleteNotUpdatedTypes at h2
    exact write_wellFormed h2 hwf1

end ProjectStorage

/-! ## Row orders -/

/-- The first row of a plan is one of the rows of the statement. -/
theorem Sqlite.RowOrder.mem_of_head? {α : Type} (order : Sqlite.RowOrder α) {rows : List α}
    {first : α} (h : (order.arrange rows).head? = some first) : first ∈ rows :=
  (order.perm rows).mem_iff.mp (List.mem_of_mem_head? h)

/-- A plan returns no first row only when the statement has no row. -/
theorem Sqlite.RowOrder.head?_eq_none {α : Type} (order : Sqlite.RowOrder α) {rows : List α}
    (h : (order.arrange rows).head? = none) : rows = [] := by
  rw [List.head?_eq_none_iff] at h
  exact List.Perm.eq_nil (h ▸ (order.perm rows).symm)

/-- A plan returns the one row of a statement that has one row. -/
theorem Sqlite.RowOrder.arrange_singleton {α : Type} (order : Sqlite.RowOrder α) (row : α) :
    order.arrange [row] = [row] :=
  List.perm_singleton.mp (order.perm [row])

/-! ## Claims on the prototype chain queries -/

namespace ProjectStorage

theorem isPrototypeOf_unique {db : Database} (hwf : TypesWF db.types) {a b c : Int}
    (h1 : IsPrototypeOf db a b) (h2 : IsPrototypeOf db a c) : b = c := by
  obtain ⟨r1, hr1, hid1, hp1⟩ := h1
  obtain ⟨r2, hr2, hid2, hp2⟩ := h2
  have := List.inj_on_of_nodup_map hwf.1 hr1 hr2 (by rw [hid1, hid2])
  subst this
  rw [hp1] at hp2
  exact Option.some.inj hp2

theorem fetchIsProtype_eq_true_iff (db : Database) (hwf : TypesWF db.types)
    (hacyclic : Acyclic db) (t c : TypeId) (hc : c.isValid = true) :
    fetchIsProtype db t c = true ↔ ReachesPrototype db t.id c.id := by
  unfold fetchIsProtype selectPrototypeIdStatement
  rw [← mem_typeSelection_iff db hwf hacyclic]
  by_cases hmem : some c.id ∈ typeSelection db.types (db.types.length + 1) (some t.id)
  · simp only [hmem, if_true, iff_true]
    simpa [InternalId.isValid] using hc
  · simp [hmem, InternalId.isValid]

/-- C8: in a store whose prototype relation is acyclic, for valid type ids `t` and `c`,
`fetchIsProtype(t, c)` is true exactly when `c` is reached from `t` by following `prototypeId`
zero or more times; it is true for `c = t`, and false when `c` is derived from `t` and when `c`
is another type with the same prototype as `t`. -/
theorem fetchIsProtype_iff_reaches (db : Database) (hwf : TypesWF db.types)
    (hacyclic : Acyclic db) (t c : TypeId) (ht : t.isValid = true) (hc : c.isValid = true) :
    (fetchIsProtype db t c = true ↔ ReachesPrototype db t.id c.id) ∧
    fetchIsProtype db t t = true ∧
    (ProperAncestor db c.id t.id → fetchIsProtype db t c = false) ∧
    (∀ p, IsPrototypeOf db t.id p → IsPrototypeOf db c.id p → c.id ≠ t.id →
      fetchIsProtype db t c = false) := by
  have hiff := fetchIsProtype_eq_true_iff db hwf hacyclic t c hc
  refine ⟨hiff, ?_, ?_, ?_⟩
  · exact (fetchIsProtype_eq_true_iff db hwf hacyclic t t ht).mpr Relation.ReflTransGen.refl
  · intro hdesc
    rw [← Bool.not_eq_true, hiff]
    exact acyclic_not_reaches db hacyclic hdesc
  · intro p htp hcp hne
    rw [← Bool.not_eq_true, hiff]
    intro hreach
    rcases Relation.ReflTransGen.cases_head hreach with heq | ⟨b, htb, hbc⟩
    · exact hne heq.symm
    · have hbp : b = p := isPrototypeOf_unique hwf htb htp
      subst hbp
      exact hacyclic c.id (Relation.TransGen.head' hcp hbc)

theorem fetchIsProtype_iff_reaches_witness :
    (fetchIsProtype Sample.chainDatabase { id := 3 } { id := 1 } = true ↔
      ReachesPrototype Sample.chainDatabase 3 1) ∧
    fetchIsProtype Sample.chainDatabase { id := 3 } { id := 3 } = true ∧
    (ProperAncestor Sample.chainDatabase 1 3 →
      fetchIsProtype Sample.chainDatabase { id := 3 } { id := 1 } = false) ∧
    (∀ p, IsPrototypeOf Sample.chainDatabase 3 p → IsPrototypeOf Sample.chainDatabase 1 p →
      (1 : Int) ≠ 3 → fetchIsProtype Sample.chainDatabase { id := 3 } { id := 1 } = false) :=
  fetchIsProtype_iff_reaches Sample.chainDatabase (by unfold TypesWF; decide)
    (acyclic_of_decreasing _ (by decide)) { id := 3 } { id := 1 } (by decide) (by decide)

/-- Rows the property lookup joins: the declarations of the name by the types of the
selection. -/
theorem mem_selected_declarations {db : Database} {typeId : Int} {name : String}
    {row : PropertyDeclarationsRow} :
    row ∈ ((typeSelection db.types (db.types.length + 1) (some typeId)).flatMap fun selected =>
        db.propertyDeclarations.filter fun row => some row.typeId = selected ∧ row.name = name) ↔
    some row.typeId ∈ typeSelection db.types (db.types.length + 1) (some typeId) ∧
      row ∈ db.propertyDeclarations ∧ row.name = name := by
  simp only [List.mem_flatMap, List.mem_filter, decide_eq_true_eq]
  constructor
  · rintro ⟨selected, hsel, hrow, hid, hname⟩
    exact ⟨hid ▸ hsel, hrow, hname⟩
  · rintro ⟨hsel, hrow, hname⟩
    exact ⟨some row.typeId, hsel, hrow, rfl, hname⟩

/-- C9: in an acyclic store, whatever the order in which the engine returns the rows of the
join, `fetchPropertyDeclarationByTypeIdAndName(t, n)` returns a valid id exactly when `t` or one
of its transitive prototypes declares a property named `n`; a valid result is the id of such a
declaration; when no type of the chain declares `n`, in particular when only types derived from
`t` do, the result is the invalid id (the call does not fail). -/
theorem fetchPropertyDeclarationByTypeIdAndName_iff
    (order : Sqlite.RowOrder PropertyDeclarationsRow) (db : Database)
    (hwf : TypesWF db.types) (hacyclic : Acyclic db)
    (hids : ∀ row ∈ db.propertyDeclarations, 0 ≤ row.propertyDeclarationId)
    (t : TypeId) (n : String) :
    ((fetchPropertyDeclarationByTypeIdAndName order db t n).isValid = true ↔
      ∃ c, ReachesPrototype db t.id c ∧
        ∃ row ∈ db.propertyDeclarations, row.typeId = c ∧ row.name = n) ∧
    ((fetchPropertyDeclarationByTypeIdAndName order db t n).isValid = true →
      ∃ c, ReachesPrototype db t.id c ∧
        ∃ row ∈ db.propertyDeclarations, row.typeId = c ∧ row.name = n ∧
          (fetchPropertyDeclarationByTypeIdAndName order db t n).id
            = row.propertyDeclarationId) ∧
    ((¬∃ c, ReachesPrototype db t.id c ∧
        ∃ row ∈ db.propertyDeclarations, row.typeId = c ∧ row.name = n) →
      fetchPropertyDeclarationByTypeIdAndName order db t n = {}) ∧
    ((∀ row ∈ db.propertyDeclarations, row.name = n → ProperAncestor db row.typeId t.id) →
      fetchPropertyDeclarationByTypeIdAndName order db t n = {}) := by
  have hnone : (¬∃ c, ReachesPrototype db t.id c ∧
        ∃ row ∈ db.propertyDeclarations, row.typeId = c ∧ row.name = n) →
      fetchPropertyDeclarationByTypeIdAndName order db t n = {} := by
    intro hno
    unfold fetchPropertyDeclarationByTypeIdAndName
      selectPropertyDeclarationByTypeIdAndNameStatement
    cases hhead : (order.arrange
        ((typeSelection db.types (db.types.length + 1) (some t.id)).flatMap
          fun selected => db.propertyDeclarations.filter
            fun row => some row.typeId = selected ∧ row.name = n)).head? with
    | none => rfl
    | some row =>
      exfalso
      have hmem := mem_selected_declarations.mp (order.mem_of_head? hhead)
      exact hno ⟨row.typeId, (mem_typeSelection_iff db hwf hacyclic _ _).mp hmem.1,
        row, hmem.2.1, rfl, hmem.2.2⟩
  have hsome : (fetchPropertyDeclarationByTypeIdAndName order db t n).isValid = true →
      ∃ c, ReachesPrototype db t.id c ∧
        ∃ row ∈ db.propertyDeclarations, row.typeId = c ∧ row.name = n ∧
          (fetchPropertyDeclarationByTypeIdAndName order db t n).id
            = row.propertyDeclarationId := by
    unfold fetchPropertyDeclarationByTypeIdAndName
      selectPropertyDeclarationByTypeIdAndNameStatement
    cases hhead : (order.arrange
        ((typeSelection db.types (db.types.length + 1) (some t.id)).flatMap
          fun selected => db.propertyDeclarations.filter
            fun row => some row.typeId = selected ∧ row.name = n)).head? with
    | none => intro h; simp [InternalId.isValid] at h
    | some row =>
      intro _
      have hmem := mem_selected_declarations.mp (order.mem_of_head? hhead)
      exact ⟨row.typeId, (mem_typeSelection_iff db hwf hacyclic _ _).mp hmem.1,
        row, hmem.2.1, rfl, hmem.2.2, rfl⟩
  refine ⟨⟨?_, ?_⟩, hsome, hnone, ?_⟩
  · intro h
    obtain ⟨c, hc, row, hrow, hid, hname, _⟩ := hsome h
    exact ⟨c, hc, row, hrow, hid, hname⟩
  · rintro ⟨c, hc, row, hrow, hid, hname⟩
    have hmem : row ∈ ((typeSelection db.types (db.types.length + 1) (some t.id)).flatMap
        fun selected => db.propertyDeclarations.filter
          fun row => some row.typeId = selected ∧ row.name = n) :=
      mem_selected_declarations.mpr
        ⟨(mem_typeSelection_iff db hwf hacyclic _ _).mpr (hid ▸ hc), hrow, hname⟩
    unfold fetchPropertyDeclarationByTypeIdAndName
      selectPropertyDeclarationByTypeIdAndNameStatement
    cases hhead : (order.arrange
        ((typeSelection db.types (db.types.length + 1) (some t.id)).flatMap
          fun selected => db.propertyDeclarations.filter
            fun row => some row.typeId = selected ∧ row.name = n)).head? with
    | none =>
      rw [order.head?_eq_none hhead] at hmem
      simp at hmem
    | some first =>
      have hfirst := mem_selected_declarations.mp (order.mem_of_head? hhead)
      simpa [InternalId.isValid] using hids first hfirst.2.1
  · intro hderived
    apply hnone
    rintro ⟨c, hc, row, hrow, hid, hname⟩
    exact acyclic_not_reaches db hacyclic (hderived row hrow hname) (hid ▸ hc)

theorem fetchPropertyDeclarationByTypeIdAndName_iff_witness :
    ((fetchPropertyDeclarationByTypeIdAndName propertyDeclarationsScan Sample.chainDatabase
        { id := 3 } "bar").isValid = true ↔
      ∃ c, ReachesPrototype Sample.chainDatabase 3 c ∧
        ∃ row ∈ Sample.chainDatabase.propertyDeclarations, row.typeId = c ∧ row.name = "bar") ∧
    ((fetchPropertyDeclarationByTypeIdAndName propertyDeclarationsScan Sample.chainDatabase
        { id := 3 } "bar").isValid = true →
      ∃ c, ReachesPrototype Sample.chainDatabase 3 c ∧
        ∃ row ∈ Sample.chainDatabase.propertyDeclarations, row.typeId = c ∧ row.name = "bar" ∧
          (fetchPropertyDeclarationByTypeIdAndName propertyDeclarationsScan
            Sample.chainDatabase { id := 3 } "bar").id = row.propertyDeclarationId) ∧
    ((¬∃ c, ReachesPrototype Sample.chainDatabase 3 c ∧
        ∃ row ∈ Sample.chainDatabase.propertyDeclarations, row.typeId = c ∧ row.name = "bar") →
      fetchPropertyDeclarationByTypeIdAndName propertyDeclarationsScan Sample.chainDatabase
        { id := 3 } "bar" = {}) ∧
    ((∀ row ∈ Sample.chainDatabase.propertyDeclarations, row.name = "bar" →
        ProperAncestor Sample.chainDatabase row.typeId 3) →
      fetchPropertyDeclarationByTypeIdAndName propertyDeclarationsScan Sample.chainDatabase
        { id := 3 } "bar" = {}) :=
  fetchPropertyDeclarationByTypeIdAndName_iff propertyDeclarationsScan Sample.chainDatabase
    (by unfold TypesWF; decide) (acyclic_of_decreasing _ (by decide)) (by decide) { id := 3 }
    "bar"

/-- The lookup returns a declaration when all the rows of the join have its id, whatever the
order in which the engine returns them. -/
theorem fetchPropertyDeclarationByTypeIdAndName_only
    (order : Sqlite.RowOrder PropertyDeclarationsRow) (db : Database) (typeId : TypeId)
    (name : String) (row : PropertyDeclarationsRow) (hrow : row ∈ db.propertyDeclarations)
    (hsel : some row.typeId ∈ typeSelection db.types (db.types.length + 1) (some typeId.id))
    (hname : row.name = name)
    (honly : ∀ other ∈ db.propertyDeclarations, other.name = name →
      some other.typeId ∈ typeSelection db.types (db.types.length + 1) (some typeId.id) →
      other.propertyDeclarationId = row.propertyDeclarationId) :
    fetchPropertyDeclarationByTypeIdAndName order db typeId name
      = { id := row.propertyDeclarationId } := by
  have hmem : row ∈ ((typeSelection db.types (db.types.length + 1) (some typeId.id)).flatMap
      fun selected => db.propertyDeclarations.filter
        fun row => some row.typeId = selected ∧ row.name = name) :=
    mem_selected_declarations.mpr ⟨hsel, hrow, hname⟩
  unfold fetchPropertyDeclarationByTypeIdAndName
    selectPropertyDeclarationByTypeIdAndNameStatement
  cases hhead : (order.arrange
      ((typeSelection db.types (db.types.length + 1) (some typeId.id)).flatMap
        fun selected => db.propertyDeclarations.filter
          fun row => some row.typeId = selected ∧ row.name = name)).head? with
  | none =>
    rw [order.head?_eq_none hhead] at hmem
    simp at hmem
  | some first =>
    have hfirst := mem_selected_declarations.mp (order.mem_of_head? hhead)
    simp only [honly first hfirst.2.1 hfirst.2.2 hfirst.1]

/-- The start type of a selection is in the selection. -/
theorem mem_typeSelection_self (types : List TypesRow) (fuel : Nat) (typeId : Int) :
    some typeId ∈ typeSelection types (fuel + 1) (some typeId) := by
  simp [typeSelection]

/-- The rows of the join in the order the selection is produced begin with the declarations of
the first type of the selection that declares the name. -/
theorem head?_selected_declarations (db : Database) (name : String) :
    ∀ (fuel : Nat) (t c : Int), some c ∈ typeSelection db.types fuel (some t) →
      (∀ nearer, ReachesPrototype db t nearer → ProperAncestor db nearer c →
        ∀ row ∈ db.propertyDeclarations, ¬(row.typeId = nearer ∧ row.name = name)) →
      (db.propertyDeclarations.filter
        fun row => some row.typeId = some c ∧ row.name = name) ≠ [] →
      ((typeSelection db.types fuel (some t)).flatMap fun selected =>
        db.propertyDeclarations.filter
          fun row => some row.typeId = selected ∧ row.name = name).head?
      = (db.propertyDeclarations.filter
          fun row => some row.typeId = some c ∧ row.name = name).head? := by
  intro fuel
  induction fuel with
  | zero => intro t c h; simp [typeSelection] at h
  | succ fuel ih =>
    intro t c hmem hnear hne
    by_cases htc : t = c
    · subst htc
      simp only [typeSelection, List.flatMap_cons]
      rw [List.head?_append_of_ne_nil _ hne]
    · have hreach := typeSelection_sound db _ t c hmem
      have hproper : ProperAncestor db t c := by
        rcases Relation.reflTransGen_iff_eq_or_transGen.mp hreach with h | h
        · exact absurd h.symm htc
        · exact h
      have hempty : db.propertyDeclarations.filter
          (fun row => some row.typeId = some t ∧ row.name = name) = [] := by
        rw [List.filter_eq_nil_iff]
        intro row hrow
        have := hnear t Relation.ReflTransGen.refl hproper row hrow
        simpa using fun hid hn => this ⟨hid, hn⟩
      simp only [typeSelection, List.mem_cons, Option.some.injEq] at hmem
      rcases hmem with h | h
      · exact absurd h.symm htc
      · cases hfind : db.types.find? (fun row => row.typeId = t) with
        | none => simp [hfind] at h
        | some row =>
          simp only [hfind] at h
          cases hproto : row.prototypeId with
          | none =>
            rw [hproto] at h
            cases fuel <;> simp [typeSelection] at h
          | some p =>
            rw [hproto] at h
            have hstep : IsPrototypeOf db t p :=
              ⟨row, List.mem_of_find?_eq_some hfind, by simpa using List.find?_some hfind,
                hproto⟩
            have hrest := ih p c h
              (fun nearer hr hp => hnear nearer (Relation.ReflTransGen.head hstep hr) hp) hne
            simp only [typeSelection, List.flatMap_cons, hfind, hproto, hempty,
              List.nil_append]
            exact hrest

/-- Under the plan that joins in the order the selection is produced, the lookup returns the
declaration of the nearest type of the chain that declares the name. -/
theorem fetchPropertyDeclarationByTypeIdAndName_nearest (db : Database)
    (hwf : TypesWF db.types) (hacyclic : Acyclic db) (hkeys : KeysWF (propertyKeys db))
    (t : TypeId) (name : String) (row : PropertyDeclarationsRow)
    (hrow : row ∈ db.propertyDeclarations) (hname : row.name = name)
    (hreach : ReachesPrototype db t.id row.typeId)
    (hnear : ∀ nearer, ReachesPrototype db t.id nearer → ProperAncestor db nearer row.typeId →
      ∀ other ∈ db.propertyDeclarations, ¬(other.typeId = nearer ∧ other.name = name)) :
    fetchPropertyDeclarationByTypeIdAndName .asProduced db t name
      = { id := row.propertyDeclarationId } := by
  have hmem : row ∈ db.propertyDeclarations.filter
      (fun r => some r.typeId = some row.typeId ∧ r.name = name) := by
    simp [hrow, hname]
  have hne : db.propertyDeclarations.filter
      (fun r => some r.typeId = some row.typeId ∧ r.name = name) ≠ [] := by
    intro h
    rw [h] at hmem
    simp at hmem
  have hhead := head?_selected_declarations db name (db.types.length + 1) t.id row.typeId
    ((mem_typeSelection_iff db hwf hacyclic _ _).mpr hreach) hnear hne
  unfold fetchPropertyDeclarationByTypeIdAndName
    selectPropertyDeclarationByTypeIdAndNameStatement
  simp only [Sqlite.RowOrder.asProduced, hhead]
  cases hfilter : db.propertyDeclarations.filter
      (fun r => some r.typeId = some row.typeId ∧ r.name = name) with
  | nil => exact absurd hfilter hne
  | cons first rest =>
    simp only [List.head?_cons]
    have hfirst : first ∈ db.propertyDeclarations.filter
        (fun r => some r.typeId = some row.typeId ∧ r.name = name) := by
      rw [hfilter]; exact List.mem_cons_self _ _
    simp only [List.mem_filter, decide_eq_true_eq, Option.some.injEq] at hfirst
    have hkey : (first.propertyDeclarationId, first.typeId, first.name)
        = (row.propertyDeclarationId, row.typeId, row.name) := by
      refine hkeys.eq_of_name (List.mem_map.mpr ⟨first, hfirst.1, rfl⟩)
        (List.mem_map.mpr ⟨row, hrow, rfl⟩) ?_
      simp [hfirst.2.1, hfirst.2.2, hname]
    have : first.propertyDeclarationId = row.propertyDeclarationId :=
      congrArg (fun k => k.1) hkey
    rw [this]

/-- Under the plan that joins in the order the selection is produced, the lookup started at a
type that declares the name itself returns that declaration. -/
theorem fetchPropertyDeclarationByTypeIdAndName_own (db : Database)
    (hkeys : KeysWF (propertyKeys db)) (typeId : TypeId) (name : String)
    (row : PropertyDeclarationsRow) (hrow : row ∈ db.propertyDeclarations)
    (hid : row.typeId = typeId.id) (hname : row.name = name) :
    fetchPropertyDeclarationByTypeIdAndName .asProduced db typeId name
      = { id := row.propertyDeclarationId } := by
  unfold fetchPropertyDeclarationByTypeIdAndName
    selectPropertyDeclarationByTypeIdAndNameStatement
  simp only [Sqlite.RowOrder.asProduced, typeSelection, List.flatMap_cons]
  have hmem : row ∈ db.propertyDeclarations.filter
      (fun row => some row.typeId = some typeId.id ∧ row.name = name) := by
    simp [hrow, hid, hname]
  cases hfilter : db.propertyDeclarations.filter
      (fun row => some row.typeId = some typeId.id ∧ row.name = name) with
  | nil => rw [hfilter] at hmem; simp at hmem
  | cons first rest =>
    simp only [List.cons_append, List.head?_cons]
    have hfirst : first ∈ db.propertyDeclarations.filter
        (fun row => some row.typeId = some typeId.id ∧ row.name = name) := by
      rw [hfilter]; exact List.mem_cons_self _ _
    simp only [List.mem_filter, decide_eq_true_eq, Option.some.injEq] at hfirst
    have hkey : (first.propertyDeclarationId, first.typeId, first.name)
        = (row.propertyDeclarationId, row.typeId, row.name) := by
      refine hkeys.eq_of_name (List.mem_map.mpr ⟨first, hfirst.1, rfl⟩)
        (List.mem_map.mpr ⟨row, hrow, rfl⟩) ?_
      simp [hfirst.2.1, hfirst.2.2, hid, hname]
    have : first.propertyDeclarationId = row.propertyDeclarationId :=
      congrArg (fun k => k.1) hkey
    rw [this]

end ProjectStorage

namespace ProjectStorage

/-- C10, as stated, fails.  On the store of the chain tests, `Base <- QObject <- QQuickItem`,
where `QQuickItem` (type `3`) declares `foo` under the id `3` and `Base` (type `1`) declares
`foo` under the id `1`: the statement of the lookup has `LIMIT 1` and no `ORDER BY`, and under
the plan that scans `propertyDeclarations` in the order of its key the lookup from `QQuickItem`
returns the id `1` of the declaration of `Base`, not the id `3` of its own declaration. -/
theorem fetchPropertyDeclarationByTypeIdAndName_returns_ancestor :
    ReachesPrototype Sample.chainDatabase 3 1 ∧
    (∃ row ∈ Sample.chainDatabase.propertyDeclarations,
      row.typeId = 3 ∧ row.name = "foo" ∧ row.propertyDeclarationId = 3) ∧
    (∃ row ∈ Sample.chainDatabase.propertyDeclarations,
      row.typeId = 1 ∧ row.name = "foo" ∧ row.propertyDeclarationId = 1) ∧
    fetchPropertyDeclarationByTypeIdAndName propertyDeclarationsScan Sample.chainDatabase
      { id := 3 } "foo" = { id := 1 } :=
  ⟨Relation.ReflTransGen.head
      ⟨{ typeId := 3, name := "QQuickItem", accessSemantics := some 1, sourceId := some 1,
         prototypeId := some 2 }, by decide, rfl, rfl⟩
      (Relation.ReflTransGen.single
        ⟨{ typeId := 2, name := "QObject", accessSemantics := some 1, sourceId := some 1,
           prototypeId := some 1 }, by decide, rfl, rfl⟩),
    by decide, by decide, by decide⟩

/-- C10, amended.  In an acyclic store that keeps the keys of its tables, when a type `D` whose
prototype chain contains `B` and `B` itself both declare a property named `n`: under the plan
that joins in the order the selection is produced, the lookup from `D` returns the id of the
declaration of `D` and the lookup from `B` the id of the declaration of `B`, and in general the
lookup from a type returns the declaration of `n` nearest to the start of its chain.  Whatever
the plan, the lookup from `D` returns the id of a declaration of `n` by a type of the chain of
`D`, for some plan that of `B`; and the lookup from `B` returns the declaration of `B` when no
proper prototype of `B` declares `n`. -/
theorem fetchPropertyDeclarationByTypeIdAndName_nearest_first (db : Database)
    (hwf : TypesWF db.types) (hacyclic : Acyclic db) (hkeys : KeysWF (propertyKeys db))
    (D B : TypeId) (n : String) (hchain : ReachesPrototype db D.id B.id)
    (rowD rowB : PropertyDeclarationsRow)
    (hD : rowD ∈ db.propertyDeclarations) (hDid : rowD.typeId = D.id) (hDname : rowD.name = n)
    (hB : rowB ∈ db.propertyDeclarations) (hBid : rowB.typeId = B.id) (hBname : rowB.name = n) :
    fetchPropertyDeclarationByTypeIdAndName .asProduced db D n
      = { id := rowD.propertyDeclarationId } ∧
    fetchPropertyDeclarationByTypeIdAndName .asProduced db B n
      = { id := rowB.propertyDeclarationId } ∧
    (∀ (t : TypeId) (row : PropertyDeclarationsRow), row ∈ db.propertyDeclarations →
      row.name = n → ReachesPrototype db t.id row.typeId →
      (∀ nearer, ReachesPrototype db t.id nearer → ProperAncestor db nearer row.typeId →
        ∀ other ∈ db.propertyDeclarations, ¬(other.typeId = nearer ∧ other.name = n)) →
      fetchPropertyDeclarationByTypeIdAndName .asProduced db t n
        = { id := row.propertyDeclarationId }) ∧
    (∀ order : Sqlite.RowOrder PropertyDeclarationsRow,
      ∃ row ∈ db.propertyDeclarations, row.name = n ∧ ReachesPrototype db D.id row.typeId ∧
        fetchPropertyDeclarationByTypeIdAndName order db D n
          = { id := row.propertyDeclarationId }) ∧
    (∃ order : Sqlite.RowOrder PropertyDeclarationsRow,
      fetchPropertyDeclarationByTypeIdAndName order db D n
        = { id := rowB.propertyDeclarationId }) ∧
    (∀ order : Sqlite.RowOrder PropertyDeclarationsRow,
      (∀ other ∈ db.propertyDeclarations, other.name = n →
        ¬ProperAncestor db B.id other.typeId) →
      fetchPropertyDeclarationByTypeIdAndName order db B n
        = { id := rowB.propertyDeclarationId }) := by
  have hjoinD : rowD ∈ ((typeSelection db.types (db.types.length + 1) (some D.id)).flatMap
      fun selected => db.propertyDeclarations.filter
        fun row => some row.typeId = selected ∧ row.name = n) :=
    mem_selected_declarations.mpr ⟨hDid ▸ mem_typeSelection_self _ _ _, hD, hDname⟩
  have hjoinB : rowB ∈ ((typeSelection db.types (db.types.length + 1) (some D.id)).flatMap
      fun selected => db.propertyDeclarations.filter
        fun row => some row.typeId = selected ∧ row.name = n) :=
    mem_selected_declarations.mpr
      ⟨(mem_typeSelection_iff db hwf hacyclic _ _).mpr (hBid ▸ hchain), hB, hBname⟩
  refine ⟨fetchPropertyDeclarationByTypeIdAndName_own db hkeys D n rowD hD hDid hDname,
    fetchPropertyDeclarationByTypeIdAndName_own db hkeys B n rowB hB hBid hBname,
    fun t row hrow hname hreach hnear =>
      fetchPropertyDeclarationByTypeIdAndName_nearest db hwf hacyclic hkeys t n row hrow hname
        hreach hnear, ?_, ?_, ?_⟩
  · intro order
    unfold fetchPropertyDeclarationByTypeIdAndName
      selectPropertyDeclarationByTypeIdAndNameStatement
    cases hhead : (order.arrange
        ((typeSelection db.types (db.types.length + 1) (some D.id)).flatMap
          fun selected => db.propertyDeclarations.filter
            fun row => some row.typeId = selected ∧ row.name = n)).head? with
    | none =>
      rw [order.head?_eq_none hhead] at hjoinD
      simp at hjoinD
    | some first =>
      have hfirst := mem_selected_declarations.mp (order.mem_of_head? hhead)
      exact ⟨first, hfirst.2.1, hfirst.2.2, typeSelection_sound db _ _ _ hfirst.1, rfl⟩
  · refine ⟨⟨fun rows =>
        rows.filter (fun row => row.propertyDeclarationId = rowB.propertyDeclarationId) ++
          rows.filter
            (fun row => !decide (row.propertyDeclarationId = rowB.propertyDeclarationId)),
      fun rows => List.filter_append_perm _ rows⟩, ?_⟩
    unfold fetchPropertyDeclarationByTypeIdAndName
      selectPropertyDeclarationByTypeIdAndNameStatement
    simp only
    have hmem : rowB ∈ List.filter
        (fun row => decide (row.propertyDeclarationId = rowB.propertyDeclarationId))
        ((typeSelection db.types (db.types.length + 1) (some D.id)).flatMap
          fun selected => db.propertyDeclarations.filter
            fun row => some row.typeId = selected ∧ row.name = n) :=
      List.mem_filter.mpr ⟨hjoinB, by simp⟩
    cases hfilter : List.filter
        (fun row => decide (row.propertyDeclarationId = rowB.propertyDeclarationId))
        ((typeSelection db.types (db.types.length + 1) (some D.id)).flatMap
          fun selected => db.propertyDeclarations.filter
            fun row => some row.typeId = selected ∧ row.name = n) with
    | nil => rw [hfilter] at hmem; simp at hmem
    | cons first rest =>
      have hfirst : first ∈ List.filter
          (fun row => decide (row.propertyDeclarationId = rowB.propertyDeclarationId))
          ((typeSelection db.types (db.types.length + 1) (some D.id)).flatMap
            fun selected => db.propertyDeclarations.filter
              fun row => some row.typeId = selected ∧ row.name = n) := by
        rw [hfilter]; exact List.mem_cons_self _ _
      have hid : first.propertyDeclarationId = rowB.propertyDeclarationId := by
        simpa using (List.mem_filter.mp hfirst).2
      simp only [List.cons_append, List.head?_cons, hid]
  · intro order honly
    refine fetchPropertyDeclarationByTypeIdAndName_only order db B n rowB hB
      (hBid ▸ mem_typeSelection_self _ _ _) hBname ?_
    intro other hother hname hsel
    have hreach := typeSelection_sound db _ _ _ hsel
    rcases Relation.reflTransGen_iff_eq_or_transGen.mp hreach with h | h
    · have hkey : (other.propertyDeclarationId, other.typeId, other.name)
          = (rowB.propertyDeclarationId, rowB.typeId, rowB.name) := by
        refine hkeys.eq_of_name (List.mem_map.mpr ⟨other, hother, rfl⟩)
          (List.mem_map.mpr ⟨rowB, hB, rfl⟩) ?_
        simp [h, hname, hBid, hBname]
      exact congrArg (fun k => k.1) hkey
    · exact absurd h (honly other hother hname)

theorem fetchPropertyDeclarationByTypeIdAndName_nearest_first_witness :
    fetchPropertyDeclarationByTypeIdAndName .asProduced Sample.chainDatabase { id := 3 } "foo"
      = { id := 3 } ∧
    fetchPropertyDeclarationByTypeIdAndName .asProduced Sample.chainDatabase { id := 1 } "foo"
      = { id := 1 } ∧
    (∀ order : Sqlite.RowOrder PropertyDeclarationsRow,
      ∃ row ∈ Sample.chainDatabase.propertyDeclarations, row.name = "foo" ∧
        ReachesPrototype Sample.chainDatabase 3 row.typeId ∧
        fetchPropertyDeclarationByTypeIdAndName order Sample.chainDatabase { id := 3 } "foo"
          = { id := row.propertyDeclarationId }) ∧
    (∃ order : Sqlite.RowOrder PropertyDeclarationsRow,
      fetchPropertyDeclarationByTypeIdAndName order Sample.chainDatabase { id := 3 } "foo"
        = { id := 1 }) ∧
    (∀ order : Sqlite.RowOrder PropertyDeclarationsRow,
      (∀ other ∈ Sample.chainDatabase.propertyDeclarations, other.name = "foo" →
        ¬ProperAncestor Sample.chainDatabase 1 other.typeId) →
      fetchPropertyDeclarationByTypeIdAndName order Sample.chainDatabase { id := 1 } "foo"
        = { id := 1 }) :=
  have h := fetchPropertyDeclarationByTypeIdAndName_nearest_first Sample.chainDatabase
    (by unfold TypesWF; decide) (acyclic_of_decreasing _ (by decide))
    (by unfold KeysWF; decide) { id := 3 } { id := 1 } "foo"
    (Relation.ReflTransGen.head
      ⟨{ typeId := 3, name := "QQuickItem", accessSemantics := some 1, sourceId := some 1,
         prototypeId := some 2 }, by decide, rfl, rfl⟩
      (Relation.ReflTransGen.single
        ⟨{ typeId := 2, name := "QObject", accessSemantics := some 1, sourceId := some 1,
           prototypeId := some 1 }, by decide, rfl, rfl⟩))
    { propertyDeclarationId := 3, typeId := 3, name := "foo", propertyTypeId := 5,
      propertyTraits := some 0 }
    { propertyDeclarationId := 1, typeId := 1, name := "foo", propertyTypeId := 5,
      propertyTraits := some 0 }
    (by decide) rfl rfl (by decide) rfl rfl
  ⟨h.1, h.2.1, h.2.2.2.1, h.2.2.2.2.1, h.2.2.2.2.2⟩

end ProjectStorage

/-! ## Claims on `synchronizeTypes` -/

namespace ProjectStorage

/-- C1: after `synchronizeTypes(types, sourceIds)` commits, every stored type whose sourceId is
one of `sourceIds` has a typeId that `syncType` returned for an incoming type in this call (a
row of those sources with another typeId is deleted), and every type row whose sourceId is a
source not in `sourceIds` and whose name is not among the incoming types is left unchanged. -/
theorem synchronizeTypes_deletes_stale_types (db : Database) (types : List Storage.Type_)
    (sourceIds : List SourceId)
    (hcommit : (synchronizeTypes db types sourceIds).result = .ok ()) :
    ∃ s1 updatedTypeIds, syncTypes types { database := db } = .ok (s1, updatedTypeIds) ∧
      (∀ row ∈ (synchronizeTypes db types sourceIds).database.types, ∀ sourceId,
        row.sourceId = some sourceId → sourceId ∈ sourceIds.map (·.id) →
        row.typeId ∈ updatedTypeIds.map (·.id)) ∧
      (∀ row ∈ s1.database.types, ∀ sourceId,
        row.sourceId = some sourceId → sourceId ∈ sourceIds.map (·.id) →
        row.typeId ∉ updatedTypeIds.map (·.id) →
        row ∉ (synchronizeTypes db types sourceIds).database.types) ∧
      (∀ row ∈ db.types, ∀ sourceId,
        row.sourceId = some sourceId → sourceId ∉ sourceIds.map (·.id) →
        row.name ∉ types.map (·.typeName) →
        row ∈ (synchronizeTypes db types sourceIds).database.types) := by
  obtain ⟨s1, ids, s2, h1, h2, _, hdb⟩ := synchronizeTypes_ok hcommit
  have htypes : (synchronizeTypes db types sourceIds).database.types =
      s1.database.types.filter fun row =>
        !notUpdatedTypeInSources (sourceIds.map (·.id)) (ids.map (·.id)) row := by
    rw [hdb, deleteNotUpdatedTypes_ok h2]
  refine ⟨s1, ids, h1, ?_, ?_, ?_⟩
  · intro row hrow sourceId hsource hin
    rw [htypes] at hrow
    have := (List.mem_filter.mp hrow).2
    simp only [notUpdatedTypeInSources, hsource, hin, decide_True, Bool.true_and,
      Bool.not_not, decide_eq_true_eq] at this
    exact this
  · intro row _ sourceId hsource hin hnot hrow
    rw [htypes] at hrow
    have := (List.mem_filter.mp hrow).2
    simp only [notUpdatedTypeInSources, hsource, hin, decide_True, Bool.true_and,
      Bool.not_not, decide_eq_true_eq] at this
    exact hnot this
  · intro row hrow sourceId hsource hnotin hname
    rw [htypes]
    refine List.mem_filter.mpr ⟨syncTypes_kept types _ _ _ h1 row hrow hname, ?_⟩
    simp [notUpdatedTypeInSources, hsource, hnotin]

theorem synchronizeTypes_deletes_stale_types_witness :
    ∃ s1 updatedTypeIds,
      syncTypes [Sample.typeA, Sample.typeC] { database := Sample.declaredDatabase }
        = .ok (s1, updatedTypeIds) ∧
      (∀ row ∈ (synchronizeTypes Sample.declaredDatabase [Sample.typeA, Sample.typeC]
          [{ id := 1 }]).database.types, ∀ sourceId,
        row.sourceId = some sourceId → sourceId ∈ [({ id := 1 } : SourceId)].map (·.id) →
        row.typeId ∈ updatedTypeIds.map (·.id)) ∧
      (∀ row ∈ s1.database.types, ∀ sourceId,
        row.sourceId = some sourceId → sourceId ∈ [({ id := 1 } : SourceId)].map (·.id) →
        row.typeId ∉ updatedTypeIds.map (·.id) →
        row ∉ (synchronizeTypes Sample.declaredDatabase [Sample.typeA, Sample.typeC]
          [{ id := 1 }]).database.types) ∧
      (∀ row ∈ Sample.declaredDatabase.types, ∀ sourceId,
        row.sourceId = some sourceId → sourceId ∉ [({ id := 1 } : SourceId)].map (·.id) →
        row.name ∉ [Sample.typeA, Sample.typeC].map (·.typeName) →
        row ∈ (synchronizeTypes Sample.declaredDatabase [Sample.typeA, Sample.typeC]
          [{ id := 1 }]).database.types) :=
  synchronizeTypes_deletes_stale_types Sample.declaredDatabase [Sample.typeA, Sample.typeC]
    [{ id := 1 }] (by decide)

/-- C2, as stated, fails: a type without source that no incoming type names is deleted by a
`synchronizeTypes` call that commits. -/
theorem synchronizeTypes_deletes_sourceless_type :
    ∃ row ∈ Sample.builtinDatabase.types,
      row.sourceId = none ∧ row.name ∉ ([] : List Storage.Type_).map (·.typeName) ∧
      (synchronizeTypes Sample.builtinDatabase [] []).result = .ok () ∧
      ¬∃ row1 ∈ (synchronizeTypes Sample.builtinDatabase [] []).database.types,
        row1.typeId = row.typeId :=
  ⟨{ typeId := 1, name := "QObject", accessSemantics := some 1 }, by decide, rfl, by decide,
    by decide, by decide⟩

/-- C2, amended: after a `synchronizeTypes` call that commits no row of `types` has a null
sourceId; each type whose sourceId is null before the call and that no incoming type names is
deleted. -/
theorem synchronizeTypes_leaves_no_sourceless_type (db : Database)
    (types : List Storage.Type_) (sourceIds : List SourceId)
    (hcommit : (synchronizeTypes db types sourceIds).result = .ok ()) :
    (∀ row ∈ (synchronizeTypes db types sourceIds).database.types, row.sourceId ≠ none) ∧
    (∀ row ∈ db.types, row.sourceId = none → row.name ∉ types.map (·.typeName) →
      row ∉ (synchronizeTypes db types sourceIds).database.types) := by
  obtain ⟨s1, ids, s2, h1, h2, _, hdb⟩ := synchronizeTypes_ok hcommit
  have hall : ∀ row ∈ (synchronizeTypes db types sourceIds).database.types,
      row.sourceId ≠ none := by
    intro row hrow hnone
    rw [hdb, deleteNotUpdatedTypes_ok h2] at hrow
    have := (List.mem_filter.mp hrow).2
    simp [notUpdatedTypeInSources, hnone] at this
  exact ⟨hall, fun row _ hnone _ hrow => hall row hrow hnone⟩

theorem synchronizeTypes_leaves_no_sourceless_type_witness :
    (∀ row ∈ (synchronizeTypes Sample.builtinDatabase [Sample.typeC]
        [{ id := 1 }]).database.types, row.sourceId ≠ none) ∧
    (∀ row ∈ Sample.builtinDatabase.types, row.sourceId = none →
      row.name ∉ [Sample.typeC].map (·.typeName) →
      row ∉ (synchronizeTypes Sample.builtinDatabase [Sample.typeC]
        [{ id := 1 }]).database.types) :=
  synchronizeTypes_leaves_no_sourceless_type Sample.builtinDatabase [Sample.typeC]
    [{ id := 1 }] (by decide)

/-- C3, as stated, fails: `A` is stored under the typeId `1`, and after a later
`synchronizeTypes` call whose batch contains a type named `A` (without source id) no row named
`A` is stored. -/
theorem synchronizeTypes_drops_resynchronized_type :
    (∃ row ∈ Sample.singleDatabase.types, row.name = "A" ∧ row.typeId = 1) ∧
    Sample.typeAWithoutSource ∈ [Sample.typeAWithoutSource] ∧
    Sample.typeAWithoutSource.typeName = "A" ∧
    (synchronizeTypes Sample.singleDatabase [Sample.typeAWithoutSource]
      [{ id := 1 }]).result = .ok () ∧
    ¬∃ row ∈ (synchronizeTypes Sample.singleDatabase [Sample.typeAWithoutSource]
      [{ id := 1 }]).database.types, row.name = "A" :=
  ⟨⟨{ typeId := 1, name := "A", accessSemantics := some 1, sourceId := some 1 },
      by decide, rfl, rfl⟩, by decide, rfl, by decide, by decide⟩

/-- C3, amended: when the store holds a row named `A` under typeId `i`, a `synchronizeTypes`
call that commits and whose batch has an entry named `A` with a source id other than `-1` (all
entries of that name being the same) leaves exactly one row named `A`; it has the typeId `i`,
the access semantics and the source id of the entry, and as prototype the stored row named by
the prototype of the entry (none for the empty name). -/
theorem synchronizeTypes_keeps_typeId (db : Database) (hwf : TypesWF db.types)
    (types : List Storage.Type_) (sourceIds : List SourceId) (type : Storage.Type_)
    (htype : type ∈ types) (hsame : ∀ x ∈ types, x.typeName = type.typeName → x = type)
    (hsource : type.sourceId.id ≠ -1)
    (stored : TypesRow) (hstored : stored ∈ db.types) (hname : stored.name = type.typeName)
    (hcommit : (synchronizeTypes db types sourceIds).result = .ok ()) :
    ∃ row ∈ (synchronizeTypes db types sourceIds).database.types,
      row.typeId = stored.typeId ∧ row.name = type.typeName ∧
      row.accessSemantics = some type.accessSemantics.toInt ∧
      row.sourceId = some type.sourceId.id ∧
      (type.prototype = "" → row.prototypeId = none) ∧
      (type.prototype ≠ "" →
        ∃ proto ∈ (synchronizeTypes db types sourceIds).database.types,
          proto.name = type.prototype ∧ row.prototypeId = some proto.typeId) ∧
      ∀ other ∈ (synchronizeTypes db types sourceIds).database.types,
        other.name = type.typeName → other = row := by
  obtain ⟨s1, ids, s2, h1, h2, hfk, hdb⟩ := synchronizeTypes_ok hcommit
  have htypes : (synchronizeTypes db types sourceIds).database.types =
      s1.database.types.filter fun row =>
        !notUpdatedTypeInSources (sourceIds.map (·.id)) (ids.map (·.id)) row := by
    rw [hdb, deleteNotUpdatedTypes_ok h2]
  obtain ⟨hwf1, hpers, hstore⟩ := syncTypes_spec types _ s1 ids h1 hwf
  obtain ⟨row, ⟨hrow, hrname, hsem, hsrc, hp0, hp1⟩, hrid⟩ := hstore type htype hsame
  have hsrc1 : row.sourceId = some type.sourceId.id := by
    rw [hsrc]; unfold nullif; rw [if_neg hsource]
  have hkept : row ∈ (synchronizeTypes db types sourceIds).database.types := by
    rw [htypes]
    refine List.mem_filter.mpr ⟨hrow, ?_⟩
    simp [notUpdatedTypeInSources, hsrc1, hrid]
  have hsub : ∀ r ∈ (synchronizeTypes db types sourceIds).database.types,
      r ∈ s1.database.types := by
    intro r hr
    rw [htypes] at hr
    exact (List.mem_filter.mp hr).1
  refine ⟨row, hkept, ?_, hrname, hsem, hsrc1, hp0, ?_, ?_⟩
  · obtain ⟨r1, hr1, hid1, hn1⟩ := hpers stored hstored
    have : r1 = row := List.inj_on_of_nodup_map hwf1.2.1 hr1 hrow
      (by rw [hn1, hname, hrname])
    rw [← this, hid1]
  · intro hne
    obtain ⟨proto, hproto, hpname, hpid⟩ := hp1 hne
    have hall := List.all_eq_true.mp hfk row (by rw [← hdb]; exact hkept)
    rw [hpid] at hall
    simp only [List.any_eq_true, decide_eq_true_eq] at hall
    obtain ⟨parent, hparent, hparentid⟩ := hall
    have hparent1 : parent ∈ s1.database.types := hsub parent (by rw [hdb]; exact hparent)
    have : parent = proto := List.inj_on_of_nodup_map hwf1.1 hparent1 hproto hparentid
    rw [this] at hparent
    exact ⟨proto, by rw [hdb]; exact hparent, hpname, hpid⟩
  · intro other hother honame
    exact List.inj_on_of_nodup_map hwf1.2.1 (hsub other hother) hrow
      (by rw [honame, hrname])

theorem synchronizeTypes_keeps_typeId_witness :
    ∃ row ∈ (synchronizeTypes Sample.declaredDatabase [Sample.typeAChanged, Sample.typeC]
        [{ id := 1 }]).database.types,
      row.typeId = 1 ∧ row.name = Sample.typeAChanged.typeName ∧
      row.accessSemantics = some Sample.typeAChanged.accessSemantics.toInt ∧
      row.sourceId = some Sample.typeAChanged.sourceId.id ∧
      (Sample.typeAChanged.prototype = "" → row.prototypeId = none) ∧
      (Sample.typeAChanged.prototype ≠ "" →
        ∃ proto ∈ (synchronizeTypes Sample.declaredDatabase [Sample.typeAChanged, Sample.typeC]
            [{ id := 1 }]).database.types,
          proto.name = Sample.typeAChanged.prototype ∧ row.prototypeId = some proto.typeId) ∧
      ∀ other ∈ (synchronizeTypes Sample.declaredDatabase [Sample.typeAChanged, Sample.typeC]
          [{ id := 1 }]).database.types,
        other.name = Sample.typeAChanged.typeName → other = row :=
  synchronizeTypes_keeps_typeId Sample.declaredDatabase (by unfold TypesWF; decide)
    [Sample.typeAChanged, Sample.typeC] [{ id := 1 }] Sample.typeAChanged (by decide)
    (by decide) (by decide)
    { typeId := 1, name := "A", accessSemantics := some 1, sourceId := some 1 }
    (by decide) rfl (by decide)

/-- C4: the code at the failing input.  Type `A` is stored with its property `p`, which has an
empty type name; resynchronizing `A` with the same property list issues an `UPDATE` on
`propertyDeclarations` for `p` (the tables end as they were, so the id of the row is kept). -/
theorem synchronizeTypes_rewrites_unchanged_property :
    ∃ s updatedTypeIds,
      synchronizeTypesBody [Sample.typeA] [{ id := 1 }] { database := Sample.singleDatabase }
        = .ok (s, updatedTypeIds) ∧
      WriteStatement.updatePropertyDeclarationStatement 1 (-1) 0 ∈ s.log ∧
      s.database = Sample.singleDatabase ∧
      Sample.singleDatabase.propertyDeclarations =
        [{ propertyDeclarationId := 1, typeId := 1, name := "p", propertyTypeId := -1,
           propertyTraits := some 0 }] :=
  ⟨_, _, rfl, by decide, by decide, by decide⟩

/-- C5: for each declaration kind (properties, functions, signals, enumerations), every type id
`t` and every incoming list with pairwise distinct names, synchronizing the declarations of `t`
on a well-formed store succeeds, and afterwards the names stored for `t` are the incoming
names: a row whose name is only in the store is deleted, a name only in the incoming list has a
row, and a row whose name is in both keeps its id. -/
theorem synchronizeDeclarations_stores_incoming_names (s : Session)
    (hwf : s.database.WellFormed) (t : TypeId)
    (propertyDeclarations : List Storage.PropertyDeclaration)
    (functionDeclarations : List Storage.FunctionDeclaration)
    (signalDeclarations : List Storage.SignalDeclaration)
    (enumerationDeclarations : List Storage.EnumerationDeclaration)
    (hproperties : (propertyDeclarations.map (·.name)).Nodup)
    (hfunctions : (functionDeclarations.map (·.name)).Nodup)
    (hsignals : (signalDeclarations.map (·.name)).Nodup)
    (henumerations : (enumerationDeclarations.map (·.name)).Nodup) :
    (∃ s1, synchronizePropertyDeclarations t propertyDeclarations s = .ok s1 ∧
      DeclarationsSynchronized (propertyKeys s.database) (propertyKeys s1.database) t.id
        (propertyDeclarations.map (·.name))) ∧
    (∃ s1, synchronizeFunctionDeclarations t functionDeclarations s = .ok s1 ∧
      DeclarationsSynchronized (functionKeys s.database) (functionKeys s1.database) t.id
        (functionDeclarations.map (·.name))) ∧
    (∃ s1, synchronizeSignalDeclarations t signalDeclarations s = .ok s1 ∧
      DeclarationsSynchronized (signalKeys s.database) (signalKeys s1.database) t.id
        (signalDeclarations.map (·.name))) ∧
    (∃ s1, synchronizeEnumerationDeclarations t enumerationDeclarations s = .ok s1 ∧
      DeclarationsSynchronized (enumerationKeys s.database) (enumerationKeys s1.database) t.id
        (enumerationDeclarations.map (·.name))) := by
  refine ⟨?_, ?_, ?_, ?_⟩
  · obtain ⟨s1, h1, _, _, h2, _⟩ := synchronizePropertyDeclarations_spec t
      propertyDeclarations s hwf.types hwf.properties hproperties
    exact ⟨s1, h1, h2⟩
  · obtain ⟨s1, h1, _, h2, _⟩ := synchronizeFunctionDeclarations_spec t
      functionDeclarations s hwf.functions hfunctions
    exact ⟨s1, h1, h2⟩
  · obtain ⟨s1, h1, _, h2, _⟩ := synchronizeSignalDeclarations_spec t
      signalDeclarations s hwf.signals hsignals
    exact ⟨s1, h1, h2⟩
  · obtain ⟨s1, h1, _, h2, _⟩ := synchronizeEnumerationDeclarations_spec t
      enumerationDeclarations s hwf.enumerations henumerations
    exact ⟨s1, h1, h2⟩

theorem synchronizeDeclarations_stores_incoming_names_witness :
    (∃ s1, synchronizePropertyDeclarations { id := 1 }
        [{ name := "c", typeName := "A" }, { name := "b", typeName := "double" }]
        { database := Sample.mergeDatabase } = .ok s1 ∧
      DeclarationsSynchronized (propertyKeys Sample.mergeDatabase) (propertyKeys s1.database) 1
        ["c", "b"]) ∧
    (∃ s1, synchronizeFunctionDeclarations { id := 1 } [{ name := "g" }, { name := "f" }]
        { database := Sample.mergeDatabase } = .ok s1 ∧
      DeclarationsSynchronized (functionKeys Sample.mergeDatabase) (functionKeys s1.database) 1
        ["g", "f"]) ∧
    (∃ s1, synchronizeSignalDeclarations { id := 1 } []
        { database := Sample.mergeDatabase } = .ok s1 ∧
      DeclarationsSynchronized (signalKeys Sample.mergeDatabase) (signalKeys s1.database) 1
        []) ∧
    (∃ s1, synchronizeEnumerationDeclarations { id := 1 } [{ name := "F" }]
        { database := Sample.mergeDatabase } = .ok s1 ∧
      DeclarationsSynchronized (enumerationKeys Sample.mergeDatabase)
        (enumerationKeys s1.database) 1 ["F"]) :=
  synchronizeDeclarations_stores_incoming_names { database := Sample.mergeDatabase }
    ⟨by unfold TypesWF; decide, by unfold KeysWF; decide, by unfold KeysWF; decide,
      by unfold KeysWF; decide, by unfold KeysWF; decide⟩
    { id := 1 } [{ name := "c", typeName := "A" }, { name := "b", typeName := "double" }]
    [{ name := "g" }, { name := "f" }] [] [{ name := "F" }]
    (by decide) (by decide) (by decide) (by decide)

/-- C6, as stated, fails: `A` is stored with an exported name and a declaration of each kind;
a `synchronizeTypes` call for its source with an empty batch deletes the type, and the exported
name and the four declarations that refer to its typeId stay. -/
theorem synchronizeTypes_orphans_declarations :
    (synchronizeTypes Sample.singleDatabase [] [{ id := 1 }]).result = .ok () ∧
    (synchronizeTypes Sample.singleDatabase [] [{ id := 1 }]).database.types = [] ∧
    (synchronizeTypes Sample.singleDatabase [] [{ id := 1 }]).database.propertyDeclarations.map
      (·.typeId) = [1] ∧
    (synchronizeTypes Sample.singleDatabase [] [{ id := 1 }]).database.functionDeclarations.map
      (·.typeId) = [1] ∧
    (synchronizeTypes Sample.singleDatabase [] [{ id := 1 }]).database.signalDeclarations.map
      (·.typeId) = [1] ∧
    (synchronizeTypes Sample.singleDatabase [] [{ id := 1 }]).database.enumerationDeclarations.map
      (·.typeId) = [1] ∧
    (synchronizeTypes Sample.singleDatabase [] [{ id := 1 }]).database.exportedTypes.map
      (·.typeId) = [1] := by
  decide

/-- C6, amended: when `synchronizeTypes` deletes stale types, the sweep removes rows of `types`
only: `propertyDeclarations`, `functionDeclarations`, `signalDeclarations`,
`enumerationDeclarations` and `exportedTypes` are left as they were, the rows of the deleted
types included. -/
theorem deleteNotUpdatedTypes_leaves_declarations (updatedTypeIds : List TypeId)
    (sourceIds : List SourceId) (s s1 : Session)
    (h : deleteNotUpdatedTypes updatedTypeIds sourceIds s = .ok s1) :
    s1.database.propertyDeclarations = s.database.propertyDeclarations ∧
    s1.database.functionDeclarations = s.database.functionDeclarations ∧
    s1.database.signalDeclarations = s.database.signalDeclarations ∧
    s1.database.enumerationDeclarations = s.database.enumerationDeclarations ∧
    s1.database.exportedTypes = s.database.exportedTypes ∧
    ∀ row ∈ s.database.types, (row ∈ s1.database.types ↔
      notUpdatedTypeInSources (sourceIds.map (·.id)) (updatedTypeIds.map (·.id)) row
        = false) := by
  rw [deleteNotUpdatedTypes_ok h]
  refine ⟨rfl, rfl, rfl, rfl, rfl, ?_⟩
  intro row hrow
  simp [List.mem_filter, hrow]

theorem deleteNotUpdatedTypes_leaves_declarations_witness :
    Sample.sweptSession.database.propertyDeclarations
      = Sample.singleDatabase.propertyDeclarations ∧
    Sample.sweptSession.database.functionDeclarations
      = Sample.singleDatabase.functionDeclarations ∧
    Sample.sweptSession.database.signalDeclarations
      = Sample.singleDatabase.signalDeclarations ∧
    Sample.sweptSession.database.enumerationDeclarations
      = Sample.singleDatabase.enumerationDeclarations ∧
    Sample.sweptSession.database.exportedTypes = Sample.singleDatabase.exportedTypes ∧
    ∀ row ∈ Sample.singleDatabase.types,
      (row ∈ Sample.sweptSession.database.types ↔
        notUpdatedTypeInSources ([({ id := 1 } : SourceId)].map (·.id))
          (([] : List TypeId).map (·.id)) row = false) :=
  deleteNotUpdatedTypes_leaves_declarations [] [{ id := 1 }]
    { database := Sample.singleDatabase } Sample.sweptSession (by decide)

end ProjectStorage

namespace ProjectStorage

/-- The `syncType` of an entry raises `e` exactly when one of its phases does. -/
theorem syncType_error_iff (type : Storage.Type_) (s : Session) (e : Error) :
    syncType type s = .error e ↔ PhaseRaises type s e := by
  unfold syncType PhaseRaises
  cases h0 : fetchTypeIdByName type.prototype s with
  | error e0 => simp
  | ok r0 =>
    obtain ⟨s1, prototypeId⟩ := r0
    simp only [reduceCtorEq, false_or]
    have inner : ∀ (typeId : TypeId) (s1 : Session),
        (match upsertExportedTypes typeId type.exportedTypes s1 with
          | .error e => (.error e : Except Error (Session × TypeId))
          | .ok s2 =>
            match synchronizePropertyDeclarations typeId type.propertyDeclarations s2 with
            | .error e => .error e
            | .ok s3 =>
              match synchronizeFunctionDeclarations typeId type.functionDeclarations s3 with
              | .error e => .error e
              | .ok s4 =>
                match synchronizeSignalDeclarations typeId type.signalDeclarations s4 with
                | .error e => .error e
                | .ok s5 =>
                  match synchronizeEnumerationDeclarations typeId
                      type.enumerationDeclarations s5 with
                  | .error e => .error e
                  | .ok s6 => .ok (s6, typeId)) = .error e ↔
        (upsertExportedTypes typeId type.exportedTypes s1 = .error e ∨
         ∃ s2, upsertExportedTypes typeId type.exportedTypes s1 = .ok s2 ∧
          (synchronizePropertyDeclarations typeId type.propertyDeclarations s2 = .error e ∨
           ∃ s3, synchronizePropertyDeclarations typeId type.propertyDeclarations s2
                = .ok s3 ∧
            (synchronizeFunctionDeclarations typeId type.functionDeclarations s3 = .error e ∨
             ∃ s4, synchronizeFunctionDeclarations typeId type.functionDeclarations s3
                  = .ok s4 ∧
              (synchronizeSignalDeclarations typeId type.signalDeclarations s4 = .error e ∨
               ∃ s5, synchronizeSignalDeclarations typeId type.signalDeclarations s4
                    = .ok s5 ∧
                synchronizeEnumerationDeclarations typeId type.enumerationDeclarations s5
                  = .error e)))) := by
      intro typeId s1
      cases h2 : upsertExportedTypes typeId type.exportedTypes s1 with
      | error e2 => simp
      | ok s2 =>
        cases h3 : synchronizePropertyDeclarations typeId type.propertyDeclarations s2 with
        | error e3 => simp [h3]
        | ok s3 =>
          cases h4 : synchronizeFunctionDeclarations typeId type.functionDeclarations s3 with
          | error e4 => simp [h3, h4]
          | ok s4 =>
            cases h5 : synchronizeSignalDeclarations typeId type.signalDeclarations s4 with
            | error e5 => simp [h3, h4, h5]
            | ok s5 =>
              cases h6 : synchronizeEnumerationDeclarations typeId
                  type.enumerationDeclarations s5 with
              | error e6 => simp [h3, h4, h5, h6]
              | ok s6 => simp [h3, h4, h5, h6]
    constructor
    · intro h
      exact ⟨s1, prototypeId, _, rfl, rfl, (inner _ _).mp h⟩
    · rintro ⟨s1a, pa, u, h, rfl, hrest⟩
      simp only [Except.ok.injEq, Prod.mk.injEq] at h
      obtain ⟨rfl, rfl⟩ := h
      exact (inner _ _).mpr hrest

end ProjectStorage

namespace ProjectStorage

/-- An entry of the batch whose `syncType` raises makes the loop over the batch raise that
error, and the loop raises only so. -/
theorem syncTypes_error_iff (e : Error) :
    ∀ (types : List Storage.Type_) (s : Session),
      syncTypes types s = .error e ↔
        ∃ before type after s1 typeIds, types = before ++ type :: after ∧
          syncTypes before s = .ok (s1, typeIds) ∧ syncType type s1 = .error e := by
  intro types
  induction types with
  | nil =>
    intro s
    constructor
    · intro h; simp [syncTypes] at h
    · rintro ⟨before, type, after, _, _, h, _⟩
      simp at h
  | cons head rest ih =>
    intro s
    constructor
    · intro h
      simp only [syncTypes] at h
      cases h0 : syncType head s with
      | error e0 =>
        simp only [h0, Except.error.injEq] at h
        exact ⟨[], head, rest, s, [], rfl, rfl, h ▸ h0⟩
      | ok r0 =>
        obtain ⟨sa, typeId⟩ := r0
        simp only [h0] at h
        cases h1 : syncTypes rest sa with
        | ok r1 => simp [h1] at h
        | error e1 =>
          simp only [h1, Except.error.injEq] at h
          obtain ⟨before, type, after, s1, typeIds, hsplit, hbefore, htype⟩ :=
            (ih sa).mp (h ▸ h1)
          refine ⟨head :: before, type, after, s1, typeId :: typeIds, ?_, ?_, htype⟩
          · rw [hsplit]; rfl
          · simp only [syncTypes, h0, hbefore]
    · rintro ⟨before, type, after, s1, typeIds, hsplit, hbefore, htype⟩
      cases before with
      | nil =>
        simp only [List.nil_append, List.cons.injEq] at hsplit
        obtain ⟨rfl, rfl⟩ := hsplit
        simp only [syncTypes, Except.ok.injEq, Prod.mk.injEq] at hbefore
        obtain ⟨rfl, -⟩ := hbefore
        simp only [syncTypes, htype]
      | cons first before =>
        simp only [List.cons_append, List.cons.injEq] at hsplit
        obtain ⟨rfl, rfl⟩ := hsplit
        simp only [syncTypes] at hbefore
        cases h0 : syncType head s with
        | error e0 => simp [h0] at hbefore
        | ok r0 =>
          obtain ⟨sa, typeId⟩ := r0
          simp only [h0] at hbefore
          cases h1 : syncTypes before sa with
          | error e1 => simp [h1] at hbefore
          | ok r1 =>
            obtain ⟨sb, ids⟩ := r1
            simp only [h1, Except.ok.injEq, Prod.mk.injEq] at hbefore
            obtain ⟨rfl, -⟩ := hbefore
            have hrest : syncTypes (before ++ type :: after) sa = .error e :=
              (ih sa).mpr ⟨before, type, after, sb, ids, rfl, h1, htype⟩
            simp only [syncTypes, h0, hrest]

/-- The body of the call raises `e` exactly when the loop over the batch or the sweep does. -/
theorem synchronizeTypesBody_error_iff (types : List Storage.Type_) (sourceIds : List SourceId)
    (s : Session) (e : Error) :
    synchronizeTypesBody types sourceIds s = .error e ↔
      syncTypes types s = .error e ∨
      ∃ s1 typeIds, syncTypes types s = .ok (s1, typeIds) ∧
        deleteNotUpdatedTypes typeIds sourceIds s1 = .error e := by
  unfold synchronizeTypesBody
  cases hloop : syncTypes types s with
  | error e1 => simp
  | ok r =>
    obtain ⟨s1, typeIds⟩ := r
    cases hsweep : deleteNotUpdatedTypes typeIds sourceIds s1 with
    | error e1 =>
      simp only [hsweep]
      constructor
      · intro h
        exact Or.inr ⟨s1, typeIds, rfl, by rw [hsweep, Except.error.inj h]⟩
      · rintro (h | ⟨s1', typeIds', h, h'⟩)
        · exact absurd h (by simp)
        · simp only [Except.ok.injEq, Prod.mk.injEq] at h
          obtain ⟨rfl, rfl⟩ := h
          rw [hsweep] at h'
          rw [Except.error.inj h']
    | ok s2 =>
      simp only [hsweep]
      constructor
      · intro h
        exact absurd h (by simp)
      · rintro (h | ⟨s1', typeIds', h, h'⟩)
        · exact absurd h (by simp)
        · simp only [Except.ok.injEq, Prod.mk.injEq] at h
          obtain ⟨rfl, rfl⟩ := h
          rw [hsweep] at h'
          exact absurd h' (by simp)

/-- The call raises `e` exactly when a statement inside it raises `e`. -/
theorem synchronizeTypes_error_iff (db : Database) (types : List Storage.Type_)
    (sourceIds : List SourceId) (e : Error) :
    (synchronizeTypes db types sourceIds).result = .error e ↔
      StatementRaises db types sourceIds e := by
  have hbodyiff := synchronizeTypesBody_error_iff types sourceIds { database := db }
  have hloopiff : ∀ e, syncTypes types { database := db } = .error e ↔
      ∃ before type after s1 typeIds, types = before ++ type :: after ∧
        syncTypes before { database := db } = .ok (s1, typeIds) ∧ PhaseRaises type s1 e := by
    intro e
    rw [syncTypes_error_iff e types { database := db }]
    constructor
    · rintro ⟨before, type, after, s1, typeIds, h1, h2, h3⟩
      exact ⟨before, type, after, s1, typeIds, h1, h2, (syncType_error_iff _ _ _).mp h3⟩
    · rintro ⟨before, type, after, s1, typeIds, h1, h2, h3⟩
      exact ⟨before, type, after, s1, typeIds, h1, h2, (syncType_error_iff _ _ _).mpr h3⟩
  unfold StatementRaises
  cases hbody : synchronizeTypesBody types sourceIds { database := db } with
  | error e0 =>
    have hres : (synchronizeTypes db types sourceIds).result = .error e0 := by
      simp only [synchronizeTypes, Sqlite.ImmediateTransaction, hbody]
    rw [hres]
    constructor
    · intro h
      have he : e0 = e := Except.error.inj h
      subst he
      rcases (hbodyiff e0).mp hbody with hloop | hsweep
      · exact Or.inl ((hloopiff e0).mp hloop)
      · exact Or.inr (Or.inl hsweep)
    · rintro (hsplit | hsweep | ⟨s2, typeIds, h, _⟩)
      · have h1 := (hbodyiff e).mpr (Or.inl ((hloopiff e).mpr hsplit))
        rw [hbody] at h1
        rw [Except.error.inj h1]
      · have h1 := (hbodyiff e).mpr (Or.inr hsweep)
        rw [hbody] at h1
        rw [Except.error.inj h1]
      · exact absurd h (by simp)
  | ok r =>
    obtain ⟨s2, typeIds⟩ := r
    have hnot : ∀ e1, ¬(syncTypes types { database := db } = .error e1 ∨
        ∃ s1 ids, syncTypes types { database := db } = .ok (s1, ids) ∧
          deleteNotUpdatedTypes ids sourceIds s1 = .error e1) := by
      intro e1 h
      have h1 := (hbodyiff e1).mpr h
      rw [hbody] at h1
      exact absurd h1 (by simp)
    by_cases hfk : deferredForeignKeysHold s2.database = true
    · have hres : (synchronizeTypes db types sourceIds).result = .ok () := by
        simp only [synchronizeTypes, Sqlite.ImmediateTransaction, hbody, hfk, if_true]
      rw [hres]
      constructor
      · intro h; exact absurd h (by simp)
      · rintro (hsplit | hsweep | ⟨s3, ids, h, hfalse, _⟩)
        · exact absurd (Or.inl ((hloopiff e).mpr hsplit)) (hnot e)
        · exact absurd (Or.inr hsweep) (hnot e)
        · simp only [Except.ok.injEq, Prod.mk.injEq] at h
          obtain ⟨rfl, rfl⟩ := h
          rw [hfk] at hfalse
          exact absurd hfalse (by simp)
    · have hfalse : deferredForeignKeysHold s2.database = false := by
        simpa using hfk
      have hres : (synchronizeTypes db types sourceIds).result
          = .error .ConstraintPreventsModification := by
        simp only [synchronizeTypes, Sqlite.ImmediateTransaction, hbody, hfalse,
          Bool.false_eq_true, if_false]
      rw [hres]
      constructor
      · intro h
        exact Or.inr (Or.inr ⟨s2, typeIds, rfl, hfalse, (Except.error.inj h).symm⟩)
      · rintro (hsplit | hsweep | ⟨s3, ids, _, _, he⟩)
        · exact absurd (Or.inl ((hloopiff e).mpr hsplit)) (hnot e)
        · exact absurd (Or.inr hsweep) (hnot e)
        · rw [he]

/-- A call that raises leaves the store as it was before the call. -/
theorem synchronizeTypes_error_database (db : Database) (types : List Storage.Type_)
    (sourceIds : List SourceId) (e : Error)
    (h : (synchronizeTypes db types sourceIds).result = .error e) :
    (synchronizeTypes db types sourceIds).database = db := by
  have hdef : synchronizeTypes db types sourceIds =
      Sqlite.ImmediateTransaction db fun s =>
        match synchronizeTypesBody types sourceIds s with
        | .error e => .error e
        | .ok (s1, _) => .ok (s1, ()) := rfl
  rw [hdef] at h ⊢
  unfold Sqlite.ImmediateTransaction at h ⊢
  cases hbody : synchronizeTypesBody types sourceIds { database := db } with
  | error e0 => simp only [hbody]
  | ok r =>
    obtain ⟨s1, ids⟩ := r
    simp only [hbody] at h ⊢
    by_cases hfk : deferredForeignKeysHold s1.database = true
    · simp [hfk] at h
    · simp [hfk]

/-- C7: `synchronizeTypes` is atomic.  When a statement inside the call raises an error, in a
phase of the `syncType` of an entry of the batch (the lookup of the prototype, the exported
types, the merge of the properties, functions, signals or enumerations), in the sweep or in the
foreign key check of the commit, the call raises that error, and the store is exactly as it was
before the call: no row that the statements before the failing one wrote is visible. -/
theorem synchronizeTypes_atomic (db : Database) (types : List Storage.Type_)
    (sourceIds : List SourceId) (e : Error)
    (hraises : StatementRaises db types sourceIds e) :
    (synchronizeTypes db types sourceIds).result = .error e ∧
    (synchronizeTypes db types sourceIds).database = db :=
  ⟨(synchronizeTypes_error_iff db types sourceIds e).mpr hraises,
   synchronizeTypes_error_database db types sourceIds e
    ((synchronizeTypes_error_iff db types sourceIds e).mpr hraises)⟩

theorem synchronizeTypes_atomic_witness :
    (∃ s1 typeIds, syncTypes [Sample.typeC] { database := Sample.declaredDatabase }
        = .ok (s1, typeIds) ∧
      s1.database ≠ Sample.declaredDatabase ∧
      PhaseRaises Sample.typeATwice s1 .ConstraintPreventsModification) ∧
    ((synchronizeTypes Sample.declaredDatabase [Sample.typeC, Sample.typeATwice]
        [{ id := 1 }]).result = .error .ConstraintPreventsModification ∧
      (synchronizeTypes Sample.declaredDatabase [Sample.typeC, Sample.typeATwice]
        [{ id := 1 }]).database = Sample.declaredDatabase) ∧
    ((synchronizeTypes Sample.derivedDatabase [] [{ id := 1 }]).result
        = .error .ConstraintPreventsModification ∧
      (synchronizeTypes Sample.derivedDatabase [] [{ id := 1 }]).database
        = Sample.derivedDatabase) :=
  ⟨⟨_, _, rfl, by decide,
      Or.inr ⟨_, _, _, rfl, rfl, Or.inr ⟨_, rfl, Or.inl (by decide)⟩⟩⟩,
   synchronizeTypes_atomic Sample.declaredDatabase [Sample.typeC, Sample.typeATwice]
    [{ id := 1 }] .ConstraintPreventsModification
    (Or.inl ⟨[Sample.typeC], Sample.typeATwice, [], _, _, rfl, rfl,
      Or.inr ⟨_, _, _, rfl, rfl, Or.inr ⟨_, rfl, Or.inl (by decide)⟩⟩⟩),
   synchronizeTypes_atomic Sample.derivedDatabase [] [{ id := 1 }]
    .ConstraintPreventsModification
    (Or.inr (Or.inl ⟨{ database := Sample.derivedDatabase }, [], rfl, by decide⟩))⟩

end ProjectStorage

/-! ### Lookup of an exported name -/

/-- The first element of a list sorted downwards by `f` is an element with the greatest `f`. -/
theorem head?_insertionSort_greatest {α : Type} (f : α → Int) (l : List α) (h : α)
    (hh : (l.insertionSort fun first second => f second ≤ f first).head? = some h) :
    h ∈ l ∧ ∀ x ∈ l, f x ≤ f h := by
  have htotal : IsTotal α (fun first second => f second ≤ f first) :=
    ⟨fun a b => le_total (f b) (f a)⟩
  have htrans : IsTrans α (fun first second => f second ≤ f first) :=
    ⟨fun a b c hab hbc => le_trans hbc hab⟩
  have hsorted := List.sorted_insertionSort (fun first second => f second ≤ f first) l
  have hperm := List.perm_insertionSort (fun first second => f second ≤ f first) l
  cases hs : l.insertionSort (fun first second => f second ≤ f first) with
  | nil => rw [hs] at hh; simp at hh
  | cons a t =>
    rw [hs] at hh hsorted hperm
    simp only [List.head?_cons, Option.some.injEq] at hh
    subst hh
    refine ⟨hperm.subset (List.mem_cons_self _ _), fun x hx => ?_⟩
    have hx1 : x ∈ a :: t := hperm.symm.subset hx
    rcases List.mem_cons.mp hx1 with rfl | hxt
    · exact le_refl _
    · exact List.rel_of_sorted_cons hsorted x hxt

theorem ExportedTypesWF.eq_of_key {rows : List ExportedTypesRow} (hwf : ExportedTypesWF rows)
    {a b : ExportedTypesRow} (ha : a ∈ rows) (hb : b ∈ rows)
    (hname : a.qualifiedName = b.qualifiedName) (hmajor : a.majorVersion = b.majorVersion)
    (hminor : a.minorVersion = b.minorVersion) : a = b := by
  apply List.inj_on_of_nodup_map hwf ha hb
  simp [hname, hmajor, hminor]

namespace ProjectStorage

/-- C11: `fetchTypeIdByQualifiedNameAndVersion(name, version)` returns the type id of the
exported entry of that name and major version whose minor version is the greatest one not above
the requested minor version (such an entry exists as soon as any entry answers the request), and
the invalid id when no entry of that name and major version has a minor version that small. -/
theorem fetchTypeIdByQualifiedNameAndVersion_greatest_minor (db : Database)
    (hwf : ExportedTypesWF db.exportedTypes) (name : String) (version : Storage.Version) :
    (∀ entry ∈ db.exportedTypes, Answers entry name version →
      (∀ other ∈ db.exportedTypes, Answers other name version →
        other.minorVersion ≤ entry.minorVersion) →
      fetchTypeIdByQualifiedNameAndVersion db name version = { id := entry.typeId }) ∧
    ((∃ candidate ∈ db.exportedTypes, Answers candidate name version) →
      ∃ entry ∈ db.exportedTypes, Answers entry name version ∧
        ∀ other ∈ db.exportedTypes, Answers other name version →
          other.minorVersion ≤ entry.minorVersion) ∧
    ((∀ entry ∈ db.exportedTypes, ¬Answers entry name version) →
      fetchTypeIdByQualifiedNameAndVersion db name version = {}) := by
  have hfilter : ∀ row, row ∈ db.exportedTypes.filter (fun row => row.qualifiedName = name
      ∧ row.majorVersion = version.major.version ∧ row.minorVersion ≤ version.minor.version) ↔
      row ∈ db.exportedTypes ∧ Answers row name version := by
    intro row
    simp [Answers]
  have hhead : ∀ entry ∈ db.exportedTypes, Answers entry name version →
      ∃ h, ((db.exportedTypes.filter (fun row => row.qualifiedName = name
        ∧ row.majorVersion = version.major.version
        ∧ row.minorVersion ≤ version.minor.version)).insertionSort
          fun first second => second.minorVersion ≤ first.minorVersion).head? = some h ∧
        h ∈ db.exportedTypes ∧ Answers h name version ∧
        ∀ other ∈ db.exportedTypes, Answers other name version →
          other.minorVersion ≤ h.minorVersion := by
    intro entry hentry hanswers
    cases hs : ((db.exportedTypes.filter (fun row => row.qualifiedName = name
        ∧ row.majorVersion = version.major.version
        ∧ row.minorVersion ≤ version.minor.version)).insertionSort
          fun first second => second.minorVersion ≤ first.minorVersion).head? with
    | none =>
      have hnil := List.head?_eq_none_iff.mp hs
      have hmem : entry ∈ (db.exportedTypes.filter (fun row => row.qualifiedName = name
        ∧ row.majorVersion = version.major.version
        ∧ row.minorVersion ≤ version.minor.version)).insertionSort
          fun first second => second.minorVersion ≤ first.minorVersion :=
        (List.perm_insertionSort _ _).symm.subset ((hfilter entry).mpr ⟨hentry, hanswers⟩)
      rw [hnil] at hmem
      simp at hmem
    | some h =>
      obtain ⟨hmem, hmax⟩ := head?_insertionSort_greatest (·.minorVersion) _ h hs
      obtain ⟨hmem1, hans⟩ := (hfilter h).mp hmem
      exact ⟨h, rfl, hmem1, hans, fun other ho hoa => hmax other ((hfilter other).mpr ⟨ho, hoa⟩)⟩
  refine ⟨?_, ?_, ?_⟩
  · intro entry hentry hanswers hgreatest
    obtain ⟨h, hs, hmem, hans, hmax⟩ := hhead entry hentry hanswers
    have heq : h = entry :=
      hwf.eq_of_key hmem hentry (hans.1.trans hanswers.1.symm) (hans.2.1.trans hanswers.2.1.symm)
        (le_antisymm (hgreatest h hmem hans) (hmax entry hentry hanswers))
    unfold fetchTypeIdByQualifiedNameAndVersion selectTypeIdByQualifiedNameStatement
    rw [hs, heq]
  · rintro ⟨entry, hentry, hanswers⟩
    obtain ⟨h, _, hmem, hans, hmax⟩ := hhead entry hentry hanswers
    exact ⟨h, hmem, hans, hmax⟩
  · intro hnone
    unfold fetchTypeIdByQualifiedNameAndVersion selectTypeIdByQualifiedNameStatement
    have hnil : db.exportedTypes.filter (fun row => row.qualifiedName = name
        ∧ row.majorVersion = version.major.version
        ∧ row.minorVersion ≤ version.minor.version) = [] := by
      apply List.eq_nil_iff_forall_not_mem.mpr
      intro row hrow
      exact hnone row ((hfilter row).mp hrow).1 ((hfilter row).mp hrow).2
    rw [hnil]
    rfl

theorem fetchTypeIdByQualifiedNameAndVersion_greatest_minor_witness :
    fetchTypeIdByQualifiedNameAndVersion Sample.fooDatabase "Foo"
      { major := { version := 1 }, minor := { version := 1 } } = { id := 1 } ∧
    fetchTypeIdByQualifiedNameAndVersion Sample.fooDatabase "Foo"
      { major := { version := 1 }, minor := { version := 5 } } = { id := 2 } ∧
    fetchTypeIdByQualifiedNameAndVersion Sample.fooDatabase "Foo"
      { major := { version := 2 }, minor := { version := 0 } } = {} :=
  ⟨(fetchTypeIdByQualifiedNameAndVersion_greatest_minor Sample.fooDatabase (by decide) "Foo"
      { major := { version := 1 }, minor := { version := 1 } }).1
      { qualifiedName := "Foo", typeId := 1, majorVersion := 1, minorVersion := 0 }
      (by decide) (by decide) (by decide),
   (fetchTypeIdByQualifiedNameAndVersion_greatest_minor Sample.fooDatabase (by decide) "Foo"
      { major := { version := 1 }, minor := { version := 5 } }).1
      { qualifiedName := "Foo", typeId := 2, majorVersion := 1, minorVersion := 2 }
      (by decide) (by decide) (by decide),
   (fetchTypeIdByQualifiedNameAndVersion_greatest_minor Sample.fooDatabase (by decide) "Foo"
      { major := { version := 2 }, minor := { version := 0 } }).2.2 (by decide)⟩

end ProjectStorage

/-! ## Relations every statement of a call respects -/

namespace ProjectStorage

theorem Session.write_database {s s1 : Session} {statement : WriteStatement}
    (h : s.write statement = .ok s1) : statement.write s.database = .ok s1.database := by
  unfold Session.write at h
  cases hw : statement.write s.database with
  | error e => simp [hw] at h
  | ok db =>
    simp only [hw, Except.ok.injEq] at h
    subst h; rfl

theorem fetchTypeIdByName_rel {Rd : Database → Database → Prop} (hrefl : ∀ db, Rd db db)
    (hinsert : ∀ (db db1 : Database) (name : String) (id : TypeId),
      insertTypeStatement db name = .ok (db1, id) → Rd db db1)
    {name : String} {s s1 : Session} {typeId : TypeId}
    (h : fetchTypeIdByName name s = .ok (s1, typeId)) : Rd s.database s1.database := by
  unfold fetchTypeIdByName at h
  by_cases hn : name = ""
  · simp only [hn, if_true, Except.ok.injEq, Prod.mk.injEq] at h
    rw [← h.1]; exact hrefl _
  · simp only [hn, if_false] at h
    by_cases hv : (selectTypeIdByNameStatement s.database name).isValid = true
    · simp only [hv, Bool.not_true, Bool.false_eq_true, if_false, Except.ok.injEq,
        Prod.mk.injEq] at h
      rw [← h.1]; exact hrefl _
    · simp only [hv, Bool.not_false, if_true] at h
      cases hi : insertTypeStatement s.database name with
      | error e => simp [hi] at h
      | ok r =>
        obtain ⟨db, inserted⟩ := r
        simp only [hi, Except.ok.injEq, Prod.mk.injEq] at h
        rw [← h.1]
        exact hinsert _ _ _ _ hi

theorem upsertExportedTypes_rel {Rd : Database → Database → Prop} (hrefl : ∀ db, Rd db db)
    (htrans : ∀ a b c, Rd a b → Rd b c → Rd a c)
    (hwrite : ∀ (db db1 : Database) (statement : WriteStatement),
      (∀ a b, statement ≠ .deleteNotUpdatedTypesInSourcesStatement a b) →
      statement.write db = .ok db1 → Rd db db1) {typeId : TypeId} :
    ∀ (exportedTypes : List Storage.ExportedType) (s s1 : Session),
      upsertExportedTypes typeId exportedTypes s = .ok s1 → Rd s.database s1.database := by
  intro exportedTypes
  induction exportedTypes with
  | nil =>
    intro s s1 h
    simp only [upsertExportedTypes, Except.ok.injEq] at h
    subst h; exact hrefl _
  | cons e es ih =>
    intro s s1 h
    simp only [upsertExportedTypes] at h
    cases h1 : upsertExportedType e.qualifiedTypeName e.version typeId s with
    | error err => simp [h1] at h
    | ok s0 =>
      simp only [h1] at h
      exact htrans _ _ _ (hwrite _ _ _ (by simp) (Session.write_database h1)) (ih s0 s1 h)

/-- A relation between stores that is kept by every write statement but the sweep, by the insert
of a type row and by the upsert of the row of the type, holds between the stores before and
after a `syncType` call that succeeds. -/
theorem syncType_rel {Rd : Database → Database → Prop} (hrefl : ∀ db, Rd db db)
    (htrans : ∀ a b c, Rd a b → Rd b c → Rd a c)
    (hwrite : ∀ (db db1 : Database) (statement : WriteStatement),
      (∀ a b, statement ≠ .deleteNotUpdatedTypesInSourcesStatement a b) →
      statement.write db = .ok db1 → Rd db db1)
    (hinsert : ∀ (db db1 : Database) (name : String) (id : TypeId),
      insertTypeStatement db name = .ok (db1, id) → Rd db db1)
    {type : Storage.Type_}
    (hupsert : ∀ (db : Database) (p : Int),
      Rd db (upsertTypeStatement db type.typeName type.accessSemantics.toInt p
        (some type.sourceId.id)).1)
    {s s1 : Session} {typeId : TypeId}
    (h : syncType type s = .ok (s1, typeId)) : Rd s.database s1.database := by
  have hR : ∀ s : Session, Rd s.database s.database := fun s => hrefl _
  have hT : ∀ s s1 s2 : Session, Rd s.database s1.database → Rd s1.database s2.database →
      Rd s.database s2.database := fun _ _ _ => htrans _ _ _
  have hW : ∀ {s s1 : Session} {statement : WriteStatement},
      (∀ a b, statement ≠ .deleteNotUpdatedTypesInSourcesStatement a b) →
      s.write statement = .ok s1 → Rd s.database s1.database :=
    fun hs h => hwrite _ _ _ hs (Session.write_database h)
  unfold syncType at h
  cases hf : fetchTypeIdByName type.prototype s with
  | error e => simp [hf] at h
  | ok r =>
    obtain ⟨s0, prototypeId⟩ := r
    simp only [hf] at h
    have h0 : Rd s.database s0.database := fetchTypeIdByName_rel hrefl hinsert hf
    have hu : Rd s0.database (upsertTypeStatement s0.database type.typeName
        type.accessSemantics.toInt prototypeId.id (some type.sourceId.id)).1 := hupsert _ _
    split at h
    · simp at h
    · rename_i s2 he
      have h2 : Rd s.database s2.database :=
        htrans _ _ _ h0 (htrans _ _ _ hu (upsertExportedTypes_rel hrefl htrans hwrite _ _ _ he))
      split at h
      · simp at h
      · rename_i s3 hp
        have h3 : Rd s2.database s3.database := by
          refine insertUpdateDeleteLoop_rel
            (R := fun (s s1 : Session) => Rd s.database s1.database)
            hR hT ?_ ?_ ?_ _ _ _ _ _ hp
          · intro s a s1 h
            unfold synchronizePropertyDeclarations.insert at h
            split at h
            · simp at h
            · rename_i s' pid hf'
              exact htrans _ _ _ (fetchTypeIdByName_rel hrefl hinsert hf') (hW (by simp) h)
          · intro s v a s1 h
            unfold synchronizePropertyDeclarations.update at h
            split at h
            · simp at h
            · rename_i s' pid hf'
              split at h
              · simp only [Except.ok.injEq] at h
                rw [← h]; exact fetchTypeIdByName_rel hrefl hinsert hf'
              · exact htrans _ _ _ (fetchTypeIdByName_rel hrefl hinsert hf') (hW (by simp) h)
          · intro s v s1 h
            exact hW (by simp) h
        split at h
        · simp at h
        · rename_i s4 hfn
          have h4 : Rd s3.database s4.database := by
            refine insertUpdateDeleteLoop_rel
              (R := fun (s s1 : Session) => Rd s.database s1.database)
              hR hT ?_ ?_ ?_ _ _ _ _ _ hfn
            · intro s a s1 h
              exact hW (by simp) h
            · intro s v a s1 h
              unfold synchronizeFunctionDeclarations.update at h
              split at h
              · simp only [Except.ok.injEq] at h
                rw [← h]; exact hrefl _
              · exact hW (by simp) h
            · intro s v s1 h
              exact hW (by simp) h
          split at h
          · simp at h
          · rename_i s5 hsg
            have h5 : Rd s4.database s5.database := by
              refine insertUpdateDeleteLoop_rel
                (R := fun (s s1 : Session) => Rd s.database s1.database)
                hR hT ?_ ?_ ?_ _ _ _ _ _ hsg
              · intro s a s1 h
                exact hW (by simp) h
              · intro s v a s1 h
                unfold synchronizeSignalDeclarations.update at h
                split at h
                · simp only [Except.ok.injEq] at h
                  rw [← h]; exact hrefl _
                · exact hW (by simp) h
              · intro s v s1 h
                exact hW (by simp) h
            split at h
            · simp at h
            · rename_i s6 hen
              simp only [Except.ok.injEq, Prod.mk.injEq] at h
              rw [← h.1]
              have h6 : Rd s5.database s6.database := by
                refine insertUpdateDeleteLoop_rel
                  (R := fun (s s1 : Session) => Rd s.database s1.database)
                  hR hT ?_ ?_ ?_ _ _ _ _ _ hen
                · intro s a s1 h
                  exact hW (by simp) h
                · intro s v a s1 h
                  unfold synchronizeEnumerationDeclarations.update at h
                  split at h
                  · simp only [Except.ok.injEq] at h
                    rw [← h]; exact hrefl _
                  · exact hW (by simp) h
                · intro s v s1 h
                  exact hW (by simp) h
              exact htrans _ _ _ h2 (htrans _ _ _ h3 (htrans _ _ _ h4 (htrans _ _ _ h5 h6)))

theorem syncTypes_rel {Rd : Database → Database → Prop} (hrefl : ∀ db, Rd db db)
    (htrans : ∀ a b c, Rd a b → Rd b c → Rd a c)
    (hwrite : ∀ (db db1 : Database) (statement : WriteStatement),
      (∀ a b, statement ≠ .deleteNotUpdatedTypesInSourcesStatement a b) →
      statement.write db = .ok db1 → Rd db db1)
    (hinsert : ∀ (db db1 : Database) (name : String) (id : TypeId),
      insertTypeStatement db name = .ok (db1, id) → Rd db db1)
    :
    ∀ (types : List Storage.Type_),
      (∀ type ∈ types, ∀ (db : Database) (p : Int),
        Rd db (upsertTypeStatement db type.typeName type.accessSemantics.toInt p
          (some type.sourceId.id)).1) →
      ∀ (s s1 : Session) (typeIds : List TypeId),
        syncTypes types s = .ok (s1, typeIds) → Rd s.database s1.database := by
  intro types
  induction types with
  | nil =>
    intro _ s s1 typeIds h
    simp only [syncTypes, Except.ok.injEq, Prod.mk.injEq] at h
    rw [← h.1]; exact hrefl _
  | cons type types ih =>
    intro hupsert s s1 typeIds h
    simp only [syncTypes] at h
    split at h
    · simp at h
    · rename_i s0 tid hs0
      split at h
      · simp at h
      · rename_i s2 ids hs2
        simp only [Except.ok.injEq, Prod.mk.injEq] at h
        rw [← h.1]
        exact htrans _ _ _
          (syncType_rel hrefl htrans hwrite hinsert (hupsert type (List.mem_cons_self _ _)) hs0)
          (ih (fun t ht => hupsert t (List.mem_cons_of_mem _ ht)) s0 s2 ids hs2)

/-- A relation between stores that is kept by every statement `synchronizeTypes` can issue holds
between the store before and after the call, whether it commits or raises. -/
theorem synchronizeTypes_rel {Rd : Database → Database → Prop} (hrefl : ∀ db, Rd db db)
    (htrans : ∀ a b c, Rd a b → Rd b c → Rd a c)
    (hwrite : ∀ (db db1 : Database) (statement : WriteStatement),
      statement.write db = .ok db1 → Rd db db1)
    (hinsert : ∀ (db db1 : Database) (name : String) (id : TypeId),
      insertTypeStatement db name = .ok (db1, id) → Rd db db1)
    (db : Database) (types : List Storage.Type_) (sourceIds : List SourceId)
    (hupsert : ∀ type ∈ types, ∀ (db : Database) (p : Int),
      Rd db (upsertTypeStatement db type.typeName type.accessSemantics.toInt p
        (some type.sourceId.id)).1) :
    Rd db (synchronizeTypes db types sourceIds).database := by
  cases hres : (synchronizeTypes db types sourceIds).result with
  | error e =>
    have hdef : synchronizeTypes db types sourceIds =
        Sqlite.ImmediateTransaction db fun s =>
          match synchronizeTypesBody types sourceIds s with
          | .error e => .error e
          | .ok (s1, _) => .ok (s1, ()) := rfl
    rw [hdef] at hres ⊢
    unfold Sqlite.ImmediateTransaction at hres ⊢
    cases hbody : synchronizeTypesBody types sourceIds { database := db } with
    | error e0 =>
      simp only [hbody]
      exact hrefl _
    | ok r =>
      obtain ⟨s1, ids⟩ := r
      simp only [hbody] at hres ⊢
      by_cases hfk : deferredForeignKeysHold s1.database = true
      · simp [hfk] at hres
      · simp only [hfk, if_false]
        exact hrefl _
  | ok u =>
    obtain ⟨s1, ids, s2, h1, h2, _, hdb⟩ := synchronizeTypes_ok hres
    rw [hdb]
    have hr1 := syncTypes_rel hrefl htrans (fun db db1 st _ h => hwrite db db1 st h) hinsert
      types hupsert _ s1 ids h1
    have hr2 : Rd s1.database s2.database := by
      unfold deleteNotUpdatedTypes at h2
      exact hwrite _ _ _ (Session.write_database h2)
    exact htrans _ _ _ hr1 hr2

end ProjectStorage

/-! ## The table `exportedTypes` under the writes -/

theorem ExportedTypesGrow.here (db : Database) : ExportedTypesGrow db db :=
  ⟨fun _ h => h, fun h => h⟩

theorem ExportedTypesGrow.next {a b c : Database} (h1 : ExportedTypesGrow a b)
    (h2 : ExportedTypesGrow b c) : ExportedTypesGrow a c :=
  ⟨fun row h => h2.1 row (h1.1 row h), fun h => h2.2 (h1.2 h)⟩

theorem ExportedTypesGrow.of_same {db db1 : Database}
    (h : db1.exportedTypes = db.exportedTypes) : ExportedTypesGrow db db1 := by
  unfold ExportedTypesGrow
  rw [h]
  exact ⟨fun _ h => h, fun h => h⟩

namespace ProjectStorage

theorem upsertExportedTypesStatement_grow (db : Database) (qualifiedName : String)
    (majorVersion minorVersion typeId : Int) :
    ExportedTypesGrow db
      (upsertExportedTypesStatement db qualifiedName majorVersion minorVersion typeId) := by
  unfold upsertExportedTypesStatement
  split
  · exact ExportedTypesGrow.here db
  · rename_i hany
    refine ⟨fun row h => List.mem_append_left _ h, fun hwf => ?_⟩
    unfold ExportedTypesWF at hwf ⊢
    simp only [List.map_append, List.map_cons, List.map_nil]
    refine List.Nodup.append hwf (List.nodup_singleton _) ?_
    rw [List.disjoint_singleton]
    intro hmem
    obtain ⟨row, hrow, hkey⟩ := List.mem_map.mp hmem
    apply hany
    rw [List.any_eq_true]
    simp only [Prod.mk.injEq] at hkey
    exact ⟨row, hrow, by simpa using hkey⟩

/-- Re-exporting a stored triple, for whatever type, changes nothing. -/
theorem upsertExportedTypesStatement_stored (db : Database) (row : ExportedTypesRow)
    (hrow : row ∈ db.exportedTypes) (typeId : Int) :
    upsertExportedTypesStatement db row.qualifiedName row.majorVersion row.minorVersion typeId
      = db := by
  unfold upsertExportedTypesStatement
  have hany : (db.exportedTypes.any fun r => r.qualifiedName = row.qualifiedName
      ∧ r.majorVersion = row.majorVersion ∧ r.minorVersion = row.minorVersion) = true := by
    rw [List.any_eq_true]
    exact ⟨row, hrow, by simp⟩
  rw [if_pos hany]

/-- A write statement either leaves `exportedTypes` as it is or is the upsert of an exported
type. -/
theorem write_exportedTypes {db db1 : Database} {statement : WriteStatement}
    (hw : statement.write db = .ok db1) :
    db1.exportedTypes = db.exportedTypes ∨
      ∃ q major minor typeId, db1 = upsertExportedTypesStatement db q major minor typeId := by
  cases statement with
  | deleteNotUpdatedTypesInSourcesStatement a b =>
    simp only [WriteStatement.write, deleteNotUpdatedTypesInSourcesStatement] at hw
    split at hw
    · simp at hw
    · simp only [Except.ok.injEq] at hw; subst hw; exact Or.inl rfl
  | upsertExportedTypesStatement a b c d =>
    simp only [WriteStatement.write, Except.ok.injEq] at hw
    exact Or.inr ⟨a, b, c, d, hw.symm⟩
  | insertPropertyDeclarationStatement a b c d =>
    simp only [WriteStatement.write, insertPropertyDeclarationStatement] at hw
    split at hw
    · simp at hw
    · simp only [Except.ok.injEq] at hw; subst hw; exact Or.inl rfl
  | updatePropertyDeclarationStatement a b c =>
    simp only [WriteStatement.write, Except.ok.injEq] at hw; subst hw; exact Or.inl rfl
  | deletePropertyDeclarationStatement a =>
    simp only [WriteStatement.write, Except.ok.injEq] at hw; subst hw; exact Or.inl rfl
  | insertFunctionDeclarationStatement a b c d =>
    simp only [WriteStatement.write, insertFunctionDeclarationStatement] at hw
    split at hw
    · simp at hw
    · simp only [Except.ok.injEq] at hw; subst hw; exact Or.inl rfl
  | updateFunctionDeclarationStatement a b c =>
    simp only [WriteStatement.write, Except.ok.injEq] at hw; subst hw; exact Or.inl rfl
  | deleteFunctionDeclarationStatement a =>
    simp only [WriteStatement.write, Except.ok.injEq] at hw; subst hw; exact Or.inl rfl
  | insertSignalDeclarationStatement a b c =>
    simp only [WriteStatement.write, insertSignalDeclarationStatement] at hw
    split at hw
    · simp at hw
    · simp only [Except.ok.injEq] at hw; subst hw; exact Or.inl rfl
  | updateSignalDeclarationStatement a b =>
    simp only [WriteStatement.write, Except.ok.injEq] at hw; subst hw; exact Or.inl rfl
  | deleteSignalDeclarationStatement a =>
    simp only [WriteStatement.write, Except.ok.injEq] at hw; subst hw; exact Or.inl rfl
  | insertEnumerationDeclarationStatement a b c =>
    simp only [WriteStatement.write, insertEnumerationDeclarationStatement] at hw
    split at hw
    · simp at hw
    · simp only [Except.ok.injEq] at hw; subst hw; exact Or.inl rfl
  | updateEnumerationDeclarationStatement a b =>
    simp only [WriteStatement.write, Except.ok.injEq] at hw; subst hw; exact Or.inl rfl
  | deleteEnumerationDeclarationStatement a =>
    simp only [WriteStatement.write, Except.ok.injEq] at hw; subst hw; exact Or.inl rfl

theorem write_exportedTypesGrow {db db1 : Database} {statement : WriteStatement}
    (hw : statement.write db = .ok db1) : ExportedTypesGrow db db1 := by
  rcases write_exportedTypes hw with h | ⟨q, major, minor, typeId, h⟩
  · exact ExportedTypesGrow.of_same h
  · rw [h]; exact upsertExportedTypesStatement_grow _ _ _ _ _

theorem insertTypeStatement_exportedTypes {db db1 : Database} {name : String} {id : TypeId}
    (h : insertTypeStatement db name = .ok (db1, id)) :
    db1.exportedTypes = db.exportedTypes := by
  unfold insertTypeStatement at h
  split at h
  · simp at h
  · simp only [Except.ok.injEq, Prod.mk.injEq] at h
    rw [← h.1]

theorem upsertTypeStatement_exportedTypes (db : Database) (name : String)
    (accessSemantics prototypeId : Int) (sourceId : Option Int) :
    (upsertTypeStatement db name accessSemantics prototypeId sourceId).1.exportedTypes =
      db.exportedTypes := by
  rw [upsertTypeStatement_frame]

/-- No call of `synchronizeTypes` removes or rebinds a row of `exportedTypes`. -/
theorem synchronizeTypes_exportedTypesGrow (db : Database) (types : List Storage.Type_)
    (sourceIds : List SourceId) :
    ExportedTypesGrow db (synchronizeTypes db types sourceIds).database :=
  synchronizeTypes_rel ExportedTypesGrow.here (fun _ _ _ => ExportedTypesGrow.next)
    (fun _ _ _ => write_exportedTypesGrow)
    (fun _ _ _ _ h => ExportedTypesGrow.of_same (insertTypeStatement_exportedTypes h))
    db types sourceIds
    (fun type _ db p =>
      ExportedTypesGrow.of_same (upsertTypeStatement_exportedTypes db type.typeName _ p _))

/-- The upserts of exported types raise nothing. -/
theorem upsertExportedTypes_ok (typeId : TypeId) :
    ∀ (exportedTypes : List Storage.ExportedType) (s : Session),
      ∃ s1, upsertExportedTypes typeId exportedTypes s = .ok s1 := by
  intro exportedTypes
  induction exportedTypes with
  | nil => intro s; exact ⟨s, rfl⟩
  | cons e es ih =>
    intro s
    have hstep : ∃ s0, upsertExportedType e.qualifiedTypeName e.version typeId s = .ok s0 :=
      ⟨_, rfl⟩
    obtain ⟨s0, h0⟩ := hstep
    obtain ⟨s1, h1⟩ := ih s0
    exact ⟨s1, by simp only [upsertExportedTypes, h0]; exact h1⟩

/-- The two ways a call of `upsertType` ends: the foreign key holds at the commit and the call
returns the id of the upserted row, or it does not and the call raises and changes nothing. -/
theorem upsertType_cases (db : Database) (name : String) (prototypeId : TypeId)
    (accessSemantics : Storage.TypeAccessSemantics) (exportedTypes : List Storage.ExportedType) :
    ∃ s1, upsertExportedTypes
        (upsertTypeStatement db name accessSemantics.toInt prototypeId.id none).2 exportedTypes
        { database := (upsertTypeStatement db name accessSemantics.toInt prototypeId.id none).1 }
          = .ok s1 ∧
      ((deferredForeignKeysHold s1.database = true ∧
        (upsertType db name prototypeId accessSemantics exportedTypes).result =
          .ok (upsertTypeStatement db name accessSemantics.toInt prototypeId.id none).2 ∧
        (upsertType db name prototypeId accessSemantics exportedTypes).database = s1.database) ∨
       (deferredForeignKeysHold s1.database = false ∧
        (upsertType db name prototypeId accessSemantics exportedTypes).result =
          .error .ConstraintPreventsModification ∧
        (upsertType db name prototypeId accessSemantics exportedTypes).database = db)) := by
  obtain ⟨s1, h1⟩ := upsertExportedTypes_ok
    (upsertTypeStatement db name accessSemantics.toInt prototypeId.id none).2 exportedTypes
    { database := (upsertTypeStatement db name accessSemantics.toInt prototypeId.id none).1 }
  refine ⟨s1, h1, ?_⟩
  unfold upsertType Sqlite.ImmediateTransaction
  simp only [h1]
  by_cases hfk : deferredForeignKeysHold s1.database = true
  · left
    simp [hfk]
  · right
    simp [hfk]

/-- No call of `upsertType` removes or rebinds a row of `exportedTypes`. -/
theorem upsertType_exportedTypesGrow (db : Database) (name : String) (prototypeId : TypeId)
    (accessSemantics : Storage.TypeAccessSemantics) (exportedTypes : List Storage.ExportedType) :
    ExportedTypesGrow db (upsertType db name prototypeId accessSemantics exportedTypes).database := by
  obtain ⟨s1, h1, h | h⟩ := upsertType_cases db name prototypeId accessSemantics exportedTypes
  · rw [h.2.2]
    exact (ExportedTypesGrow.of_same (upsertTypeStatement_exportedTypes db name _ _ none)).next
      (upsertExportedTypes_rel ExportedTypesGrow.here (fun _ _ _ => ExportedTypesGrow.next)
        (fun _ _ _ _ => write_exportedTypesGrow) _ _ _ h1)
  · rw [h.2.2]
    exact ExportedTypesGrow.here db

/-- What a call of `upsertType` does to `types`: the constraints of the table are kept, every
row stays under its id and name, and when the call returns an id, that id is valid and is the
key of the row of the given name, which holds the given access semantics, the given prototype
id (none for `-1`) and no source, and every prototype id in the table names a row. -/
theorem upsertType_spec (db : Database) (name : String) (prototypeId : TypeId)
    (accessSemantics : Storage.TypeAccessSemantics) (exportedTypes : List Storage.ExportedType)
    (hwf : TypesWF db.types) :
    TypesWF (upsertType db name prototypeId accessSemantics exportedTypes).database.types ∧
    TypesPersist db.types
      (upsertType db name prototypeId accessSemantics exportedTypes).database.types ∧
    ∀ typeId, (upsertType db name prototypeId accessSemantics exportedTypes).result = .ok typeId →
      0 ≤ typeId.id ∧
      deferredForeignKeysHold
        (upsertType db name prototypeId accessSemantics exportedTypes).database = true ∧
      ∃ row ∈ (upsertType db name prototypeId accessSemantics exportedTypes).database.types,
        row.name = name ∧ row.typeId = typeId.id ∧
        row.accessSemantics = some accessSemantics.toInt ∧
        row.prototypeId = nullif prototypeId.id (-1) ∧ row.sourceId = none := by
  obtain ⟨s1, h1, h | h⟩ := upsertType_cases db name prototypeId accessSemantics exportedTypes
  · have htypes := upsertExportedTypes_types _ _ _ h1
    simp only at htypes
    obtain ⟨hwf1, hpersist, row, hrow, hname, hid, ha, hs, hp⟩ :=
      upsertTypeStatement_spec db name accessSemantics.toInt prototypeId.id none hwf
    rw [h.2.2, htypes]
    refine ⟨hwf1, hpersist, ?_⟩
    intro typeId hres
    rw [h.2.1] at hres
    simp only [Except.ok.injEq] at hres
    subst hres
    refine ⟨?_, h.1, row, hrow, hname, hid, ha, hp, ?_⟩
    · rw [← hid]; exact hwf1.2.2 row hrow
    · simpa using hs
  · rw [h.2.2]
    refine ⟨hwf, TypesPersist.self _, ?_⟩
    intro typeId hres
    rw [h.2.1] at hres
    simp at hres

end ProjectStorage

theorem upsertTypeCalls_spec : ∀ (calls : List UpsertTypeCall) (db : Database),
    TypesWF db.types →
    TypesWF (upsertTypeCalls db calls).types ∧
      TypesPersist db.types (upsertTypeCalls db calls).types := by
  intro calls
  induction calls with
  | nil => intro db hwf; exact ⟨hwf, TypesPersist.self _⟩
  | cons call calls ih =>
    intro db hwf
    obtain ⟨hwf1, hp1, _⟩ := ProjectStorage.upsertType_spec db call.name call.prototypeId
      call.accessSemantics call.exportedTypes hwf
    obtain ⟨hwf2, hp2⟩ := ih (call.run db).database hwf1
    exact ⟨hwf2, hp1.chain hp2⟩

theorem TypesWF.row_of_typeId {types : List TypesRow} (hwf : TypesWF types) {a b : TypesRow}
    (ha : a ∈ types) (hb : b ∈ types) (h : a.typeId = b.typeId) : a = b :=
  List.inj_on_of_nodup_map hwf.1 ha hb h

theorem TypesWF.row_of_name {types : List TypesRow} (hwf : TypesWF types) {a b : TypesRow}
    (ha : a ∈ types) (hb : b ∈ types) (h : a.name = b.name) : a = b :=
  List.inj_on_of_nodup_map hwf.2.1 ha hb h

/-- In a list without two elements of one key, the elements of a key are that one element. -/
theorem filter_eq_singleton {α β : Type} [DecidableEq β] (f : α → β) :
    ∀ (l : List α) (x : α), (l.map f).Nodup → x ∈ l →
      l.filter (fun y => f y = f x) = [x] := by
  intro l
  induction l with
  | nil => intro x _ hx; simp at hx
  | cons a l ih =>
    intro x hnodup hx
    simp only [List.map_cons, List.nodup_cons] at hnodup
    rcases List.mem_cons.mp hx with rfl | hx1
    · have hnone : l.filter (fun y => f y = f x) = [] := by
        apply List.filter_eq_nil_iff.mpr
        intro y hy hfy
        apply hnodup.1
        have : f y = f x := by simpa using hfy
        rw [← this]
        exact List.mem_map.mpr ⟨y, hy, rfl⟩
      simp [List.filter_cons, hnone]
    · have hne : f a ≠ f x := by
        intro h
        apply hnodup.1
        rw [h]
        exact List.mem_map.mpr ⟨x, hx1, rfl⟩
      simp [List.filter_cons, hne, ih x hnodup.2 hx1]

/-! ## The storage of `metainfo/projectstorage.h`: the table `types` -/

namespace Metainfo

theorem TypesWF.append_type {types : List TypesRow} (h : TypesWF types) (row : TypesRow)
    (hid : row.typeId = newRowId (types.map (·.typeId)))
    (hname : ∀ r ∈ types, r.name ≠ row.name) : TypesWF (types ++ [row]) := by
  obtain ⟨h1, h2, h3⟩ := h
  refine ⟨?_, ?_, ?_⟩
  · rw [List.map_append, List.nodup_append]
    refine ⟨h1, by simp, ?_⟩
    intro a ha hb
    simp only [List.map_cons, List.map_nil, List.mem_singleton] at hb
    subst hb
    rw [hid] at ha
    exact newRowId_not_mem _ ha
  · rw [List.map_append, List.nodup_append]
    refine ⟨h2, by simp, ?_⟩
    intro a ha hb
    simp only [List.map_cons, List.map_nil, List.mem_singleton] at hb
    subst hb
    obtain ⟨r, hr, hrn⟩ := List.mem_map.mp ha
    exact hname r hr hrn
  · intro r hr
    rcases List.mem_append.mp hr with hr | hr
    · exact h3 r hr
    · simp only [List.mem_singleton] at hr
      subst hr
      rw [hid]
      refine le_of_lt (newRowId_pos ?_)
      intro x hx
      obtain ⟨r, hr, rfl⟩ := List.mem_map.mp hx
      exact h3 r hr

theorem TypesWF.same_of_typeId {types : List TypesRow} (hwf : TypesWF types) {a b : TypesRow}
    (ha : a ∈ types) (hb : b ∈ types) (h : a.typeId = b.typeId) : a = b :=
  List.inj_on_of_nodup_map hwf.1 ha hb h

theorem TypesWF.same_of_name {types : List TypesRow} (hwf : TypesWF types) {a b : TypesRow}
    (ha : a ∈ types) (hb : b ∈ types) (h : a.name = b.name) : a = b :=
  List.inj_on_of_nodup_map hwf.2.1 ha hb h

theorem typesPersist_self (types : List TypesRow) : TypesPersist types types :=
  fun row h => ⟨row, h, rfl, rfl⟩

theorem typesPersist_chain {a b c : List TypesRow} (h1 : TypesPersist a b)
    (h2 : TypesPersist b c) : TypesPersist a c := by
  intro row hrow
  obtain ⟨r1, hr1, hid1, hn1⟩ := h1 row hrow
  obtain ⟨r2, hr2, hid2, hn2⟩ := h2 r1 hr1
  exact ⟨r2, hr2, hid2.trans hid1, hn2.trans hn1⟩

namespace ProjectStorage

/-- What `upsertTypeStatement` does to `types`: the constraints of the table are kept, every row
stays under its id and name, and the row of the given name has the returned id and the given
access semantics and prototype. -/
theorem metainfo_upsertTypeStatement_spec (db : Database) (name : String)
    (accessSemantics prototype : Int) (hwf : TypesWF db.types) :
    TypesWF (upsertTypeStatement db name accessSemantics prototype).1.types ∧
    TypesPersist db.types (upsertTypeStatement db name accessSemantics prototype).1.types ∧
    ∃ row ∈ (upsertTypeStatement db name accessSemantics prototype).1.types,
      row.name = name ∧
      row.typeId = (upsertTypeStatement db name accessSemantics prototype).2.id ∧
      row.accessSemantics = some accessSemantics ∧
      row.prototype = nullif prototype (-1) := by
  unfold upsertTypeStatement
  cases hf : db.types.find? (fun row => row.name = name) with
  | some conflicting =>
    simp only
    have hmem := List.mem_of_find?_eq_some hf
    have hname : conflicting.name = name := by simpa using List.find?_some hf
    have hids : (db.types.map fun row =>
        if row.name = name then
          { row with prototype := nullif prototype (-1),
                     accessSemantics := some accessSemantics }
        else row).map (·.typeId) = db.types.map (·.typeId) := by
      rw [List.map_map]
      apply List.map_congr_left
      intro row _
      simp only [Function.comp]
      split <;> rfl
    have hnames : (db.types.map fun row =>
        if row.name = name then
          { row with prototype := nullif prototype (-1),
                     accessSemantics := some accessSemantics }
        else row).map (·.name) = db.types.map (·.name) := by
      rw [List.map_map]
      apply List.map_congr_left
      intro row _
      simp only [Function.comp]
      split <;> rfl
    refine ⟨⟨by rw [hids]; exact hwf.1, by rw [hnames]; exact hwf.2.1, ?_⟩, ?_, ?_⟩
    · intro row hrow
      obtain ⟨r, hr, rfl⟩ := List.mem_map.mp hrow
      have := hwf.2.2 r hr
      split <;> exact this
    · intro row hrow
      refine ⟨_, List.mem_map.mpr ⟨row, hrow, rfl⟩, ?_, ?_⟩ <;> split <;> rfl
    · refine ⟨_, List.mem_map.mpr ⟨conflicting, hmem, rfl⟩, ?_⟩
      simp [hname]
  | none =>
    simp only
    have hfree : ∀ r ∈ db.types, r.name ≠ name := by
      intro r hr
      have := List.find?_eq_none.mp hf r hr
      simpa using this
    refine ⟨hwf.append_type _ rfl hfree, fun row h => ⟨row, List.mem_append_left _ h, rfl, rfl⟩,
      ?_⟩
    exact ⟨_, List.mem_append_right _ (List.mem_singleton.mpr rfl), rfl, rfl, rfl, rfl⟩

theorem upsertQualifiedTypeNameStatement_types (db : Database) (qualifiedName : String)
    (typeId : Int) :
    (upsertQualifiedTypeNameStatement db qualifiedName typeId).types = db.types := by
  unfold upsertQualifiedTypeNameStatement
  split <;> rfl

theorem upsertQualifiedTypeNames_types (typeId : Int) :
    ∀ (qualifiedNames : List String) (db : Database),
      (qualifiedNames.foldl
        (fun db1 qualifiedName => upsertQualifiedTypeNameStatement db1 qualifiedName typeId)
        db).types = db.types := by
  intro qualifiedNames
  induction qualifiedNames with
  | nil => intro db; rfl
  | cons q qs ih =>
    intro db
    rw [List.foldl_cons, ih, upsertQualifiedTypeNameStatement_types]

theorem upsertType_types (db : Database) (name : String) (prototype : InternalTypeId)
    (accessSemantics : TypeAccessSemantics) (qualifiedNames : List String) :
    (upsertType db name prototype accessSemantics qualifiedNames).1.types =
      (upsertTypeStatement db name accessSemantics.toInt prototype.id).1.types ∧
    (upsertType db name prototype accessSemantics qualifiedNames).2 =
      (upsertTypeStatement db name accessSemantics.toInt prototype.id).2 := by
  unfold upsertType
  exact ⟨upsertQualifiedTypeNames_types _ _ _, rfl⟩

end ProjectStorage

theorem metainfo_upsertTypeCalls_spec : ∀ (calls : List UpsertTypeCall) (db : Database),
    TypesWF db.types →
    TypesWF (upsertTypeCalls db calls).types ∧
      TypesPersist db.types (upsertTypeCalls db calls).types := by
  intro calls
  induction calls with
  | nil => intro db hwf; exact ⟨hwf, typesPersist_self _⟩
  | cons call calls ih =>
    intro db hwf
    obtain ⟨hwf1, hp1, _⟩ := ProjectStorage.metainfo_upsertTypeStatement_spec db call.name
      call.accessSemantics.toInt call.prototype.id hwf
    have htypes := (ProjectStorage.upsertType_types db call.name call.prototype
      call.accessSemantics call.qualifiedNames).1
    have hwf1' : TypesWF (call.run db).1.types := by
      unfold UpsertTypeCall.run; rw [htypes]; exact hwf1
    obtain ⟨hwf2, hp2⟩ := ih (call.run db).1 hwf1'
    refine ⟨hwf2, typesPersist_chain ?_ hp2⟩
    unfold UpsertTypeCall.run; rw [htypes]; exact hp1

end Metainfo

/-! ## Claims on `upsertType` -/

theorem InternalId.eq_iff_id {a b : InternalId} : a = b ↔ a.id = b.id := by
  cases a; cases b; simp

namespace ProjectStorage

/-- C12: in a sequence of `upsertType` calls, two calls that return return the same id exactly
when they were given the same name, and the ids are valid; this holds for the storage of
`projectstorage/projectstorage.h`, where a call may raise at its commit, and for the storage of
`metainfo/projectstorage.h`.  (`first` is any call of the sequence, on the store `db` the calls
before it left; `between` are the calls up to `second`.) -/
theorem upsertType_same_id_iff_same_name :
    (∀ (db : Database), TypesWF db.types →
      ∀ (first second : UpsertTypeCall) (between : List UpsertTypeCall) (id1 id2 : TypeId),
        (first.run db).result = .ok id1 →
        (second.run (upsertTypeCalls (first.run db).database between)).result = .ok id2 →
        id1.isValid = true ∧ id2.isValid = true ∧ (id1 = id2 ↔ first.name = second.name) ∧
          (id1.eq id2 = true ↔ first.name = second.name)) ∧
    (∀ (db : Metainfo.Database), Metainfo.TypesWF db.types →
      ∀ (first second : Metainfo.UpsertTypeCall) (between : List Metainfo.UpsertTypeCall),
        (first.run db).2.isValid = true ∧
        (second.run (Metainfo.upsertTypeCalls (first.run db).1 between)).2.isValid = true ∧
        ((first.run db).2 = (second.run (Metainfo.upsertTypeCalls (first.run db).1 between)).2
          ↔ first.name = second.name) ∧
        (InternalId.eq (first.run db).2
            (second.run (Metainfo.upsertTypeCalls (first.run db).1 between)).2 = true
          ↔ first.name = second.name)) := by
  constructor
  · intro db hwf first second between id1 id2 h1 h2
    obtain ⟨hwf1, _, hspec1⟩ := upsertType_spec db first.name first.prototypeId
      first.accessSemantics first.exportedTypes hwf
    obtain ⟨hv1, _, row1, hrow1, hname1, hid1, _⟩ := hspec1 id1 h1
    obtain ⟨hwf2, hp2⟩ := upsertTypeCalls_spec between (first.run db).database hwf1
    obtain ⟨hwf3, hp3, hspec3⟩ := upsertType_spec
      (upsertTypeCalls (first.run db).database between) second.name second.prototypeId
      second.accessSemantics second.exportedTypes hwf2
    obtain ⟨hv2, _, row2, hrow2, hname2, hid2, _⟩ := hspec3 id2 h2
    obtain ⟨row1', hrow1', hid1', hname1'⟩ := (hp2.chain hp3) row1 hrow1
    have hiff : id1 = id2 ↔ first.name = second.name := by
      rw [InternalId.eq_iff_id]
      constructor
      · intro h
        have : row1' = row2 := hwf3.row_of_typeId hrow1' hrow2 (by rw [hid1', hid1, hid2, h])
        rw [← hname1, ← hname2, ← hname1', this]
      · intro h
        have : row1' = row2 := hwf3.row_of_name hrow1' hrow2 (by rw [hname1', hname1, hname2, h])
        rw [← hid1, ← hid2, ← hid1', this]
    have hvalid1 : id1.isValid = true := by simpa [InternalId.isValid] using hv1
    have hvalid2 : id2.isValid = true := by simpa [InternalId.isValid] using hv2
    refine ⟨hvalid1, hvalid2, hiff, ?_⟩
    rw [← hiff, InternalId.eq_iff_id]
    simp [InternalId.eq, hvalid1, hvalid2]
  · intro db hwf first second between
    obtain ⟨hwf1, _, row1, hrow1, hname1, hid1, _⟩ :=
      Metainfo.ProjectStorage.metainfo_upsertTypeStatement_spec db first.name
        first.accessSemantics.toInt first.prototype.id hwf
    obtain ⟨ht1, hr1⟩ := Metainfo.ProjectStorage.upsertType_types db first.name first.prototype
      first.accessSemantics first.qualifiedNames
    have hwf1' : Metainfo.TypesWF (first.run db).1.types := by
      unfold Metainfo.UpsertTypeCall.run; rw [ht1]; exact hwf1
    obtain ⟨hwf2, hp2⟩ := Metainfo.metainfo_upsertTypeCalls_spec between (first.run db).1 hwf1'
    obtain ⟨hwf3, hp3, row2, hrow2, hname2, hid2, _⟩ :=
      Metainfo.ProjectStorage.metainfo_upsertTypeStatement_spec
        (Metainfo.upsertTypeCalls (first.run db).1 between) second.name
        second.accessSemantics.toInt second.prototype.id hwf2
    obtain ⟨ht3, hr3⟩ := Metainfo.ProjectStorage.upsertType_types
      (Metainfo.upsertTypeCalls (first.run db).1 between) second.name second.prototype
      second.accessSemantics second.qualifiedNames
    have hrow1a : row1 ∈ (first.run db).1.types := by
      unfold Metainfo.UpsertTypeCall.run; rw [ht1]; exact hrow1
    have hid1a : row1.typeId = (first.run db).2.id := by
      unfold Metainfo.UpsertTypeCall.run; rw [hr1]; exact hid1
    have hid2a : row2.typeId
        = (second.run (Metainfo.upsertTypeCalls (first.run db).1 between)).2.id :=
      hid2.trans (congrArg InternalId.id hr3.symm)
    obtain ⟨row1', hrow1', hid1', hname1'⟩ := (Metainfo.typesPersist_chain hp2 hp3) row1 hrow1a
    have hiff : (first.run db).2
        = (second.run (Metainfo.upsertTypeCalls (first.run db).1 between)).2
        ↔ first.name = second.name := by
      rw [InternalId.eq_iff_id]
      constructor
      · intro h
        have : row1' = row2 :=
          hwf3.same_of_typeId hrow1' hrow2 (by rw [hid1', hid1a, hid2a, h])
        rw [← hname1, ← hname2, ← hname1', this]
      · intro h
        have : row1' = row2 :=
          hwf3.same_of_name hrow1' hrow2 (by rw [hname1', hname1, hname2, h])
        rw [← hid1a, ← hid2a, ← hid1', this]
    have hvalid1 : (first.run db).2.isValid = true := by
      have := hwf1.2.2 row1 hrow1
      rw [hid1a] at this
      simpa [InternalId.isValid] using this
    have hvalid2 :
        (second.run (Metainfo.upsertTypeCalls (first.run db).1 between)).2.isValid = true := by
      have := hwf3.2.2 row2 hrow2
      rw [hid2a] at this
      simpa [InternalId.isValid] using this
    refine ⟨hvalid1, hvalid2, hiff, ?_⟩
    rw [← hiff, InternalId.eq_iff_id]
    simp [InternalId.eq, hvalid1, hvalid2]

theorem upsertType_same_id_iff_same_name_witness :
    ((({ id := 1 } : TypeId) = { id := 1 } ↔ Sample.callYi.name = Sample.callYiDerived.name) ∧
     (({ id := 1 } : TypeId) = { id := 2 } ↔ Sample.callYi.name = Sample.callEr.name)) ∧
    (((Metainfo.Sample.callYi.run {}).2
        = (Metainfo.Sample.callYi.run (Metainfo.upsertTypeCalls
            (Metainfo.Sample.callYi.run {}).1 [Metainfo.Sample.callEr])).2
      ↔ Metainfo.Sample.callYi.name = Metainfo.Sample.callYi.name) ∧
     ((Metainfo.Sample.callYi.run {}).2
        = (Metainfo.Sample.callEr.run (Metainfo.upsertTypeCalls
            (Metainfo.Sample.callYi.run {}).1 [])).2
      ↔ Metainfo.Sample.callYi.name = Metainfo.Sample.callEr.name)) :=
  ⟨⟨(upsertType_same_id_iff_same_name.1 {} (by unfold TypesWF; decide) Sample.callYi
        Sample.callYiDerived [Sample.callSan, Sample.callEr] { id := 1 } { id := 1 }
        (by decide) (by decide)).2.2.1,
     (upsertType_same_id_iff_same_name.1 {} (by unfold TypesWF; decide) Sample.callYi
        Sample.callEr [Sample.callSan] { id := 1 } { id := 2 } (by decide) (by decide)).2.2.1⟩,
   ⟨(upsertType_same_id_iff_same_name.2 {} (by unfold Metainfo.TypesWF; decide)
        Metainfo.Sample.callYi Metainfo.Sample.callYi [Metainfo.Sample.callEr]).2.2.1,
     (upsertType_same_id_iff_same_name.2 {} (by unfold Metainfo.TypesWF; decide)
        Metainfo.Sample.callYi Metainfo.Sample.callEr []).2.2.1⟩⟩

/-- C13: after two `upsertType` calls of one name that both return, `types` holds exactly one
row of that name, under the id both calls returned, and the row has the access semantics and the
prototype id of the later call, no prototype when the later call passed an invalid id. -/
theorem upsertType_latest_call_wins (db : Database) (hwf : TypesWF db.types) (name : String)
    (prototypeId1 prototypeId2 : TypeId)
    (accessSemantics1 accessSemantics2 : Storage.TypeAccessSemantics)
    (exportedTypes1 exportedTypes2 : List Storage.ExportedType) (id1 id2 : TypeId)
    (h1 : (upsertType db name prototypeId1 accessSemantics1 exportedTypes1).result = .ok id1)
    (h2 : (upsertType (upsertType db name prototypeId1 accessSemantics1 exportedTypes1).database
      name prototypeId2 accessSemantics2 exportedTypes2).result = .ok id2) :
    ∃ row, (upsertType (upsertType db name prototypeId1 accessSemantics1 exportedTypes1).database
        name prototypeId2 accessSemantics2 exportedTypes2).database.types.filter
          (fun r => r.name = name) = [row] ∧
      row.typeId = id1.id ∧ id2 = id1 ∧
      row.accessSemantics = some accessSemantics2.toInt ∧
      row.prototypeId = nullif prototypeId2.id (-1) ∧
      (prototypeId2.isValid = true → row.prototypeId = some prototypeId2.id) ∧
      (prototypeId2.isValid = false → row.prototypeId = none) := by
  obtain ⟨hwf1, _, hspec1⟩ := upsertType_spec db name prototypeId1 accessSemantics1
    exportedTypes1 hwf
  obtain ⟨_, _, row1, hrow1, hname1, hid1, _⟩ := hspec1 id1 h1
  obtain ⟨hwf2, hp2, hspec2⟩ := upsertType_spec
    (upsertType db name prototypeId1 accessSemantics1 exportedTypes1).database name prototypeId2
    accessSemantics2 exportedTypes2 hwf1
  obtain ⟨_, hfk, row2, hrow2, hname2, hid2, ha2, hproto2, _⟩ := hspec2 id2 h2
  obtain ⟨row1', hrow1', hid1', hname1'⟩ := hp2 row1 hrow1
  have hsame : row1' = row2 := hwf2.row_of_name hrow1' hrow2 (by rw [hname1', hname1, hname2])
  have hfilter := filter_eq_singleton (fun r : TypesRow => r.name) _ row2 hwf2.2.1 hrow2
  simp only [hname2] at hfilter
  refine ⟨row2, hfilter, ?_, ?_, ha2, hproto2, ?_, ?_⟩
  · rw [← hsame, hid1', hid1]
  · rw [InternalId.eq_iff_id, ← hid2, ← hsame, hid1', hid1]
  · intro hvalid
    rw [hproto2]
    unfold nullif
    have : prototypeId2.id ≠ -1 := by
      simp only [InternalId.isValid, decide_eq_true_eq] at hvalid
      omega
    simp [this]
  · intro hinvalid
    rw [hproto2]
    unfold nullif
    by_cases hm : prototypeId2.id = -1
    · simp [hm]
    · exfalso
      have hstored : row2.prototypeId = some prototypeId2.id := by
        rw [hproto2]; unfold nullif; simp [hm]
      unfold deferredForeignKeysHold at hfk
      rw [List.all_eq_true] at hfk
      have := hfk row2 hrow2
      rw [hstored] at this
      simp only [List.any_eq_true, decide_eq_true_eq] at this
      obtain ⟨parent, hparent, hpid⟩ := this
      have hnonneg := hwf2.2.2 parent hparent
      simp only [InternalId.isValid, decide_eq_false_iff_not] at hinvalid
      omega

theorem upsertType_latest_call_wins_witness :
    ∃ row, (upsertType (upsertType Sample.declaredDatabase "X" { id := 1 } .Reference
        []).database "X" {} .Sequence []).database.types.filter (fun r => r.name = "X") = [row] ∧
      row.typeId = ({ id := 3 } : TypeId).id ∧ ({ id := 3 } : TypeId) = { id := 3 } ∧
      row.accessSemantics = some Storage.TypeAccessSemantics.Sequence.toInt ∧
      row.prototypeId = nullif ({} : TypeId).id (-1) ∧
      (({} : TypeId).isValid = true → row.prototypeId = some ({} : TypeId).id) ∧
      (({} : TypeId).isValid = false → row.prototypeId = none) :=
  upsertType_latest_call_wins Sample.declaredDatabase (by unfold TypesWF; decide) "X"
    { id := 1 } {} .Reference .Sequence [] [] { id := 3 } { id := 3 } (by decide) (by decide)

/-- C14: a triple `(qualifiedName, majorVersion, minorVersion)` that `exportedTypes` binds to a
type stays bound to it: after any `synchronizeTypes` call and after any `upsertType` call,
whatever they export, the row is still there, the key is still unique, and
`fetchTypeIdByQualifiedNameAndVersion` for the triple still returns the id of that type;
exporting the triple again, for whatever type, changes nothing. -/
theorem exported_name_stays_bound (db : Database) (hwf : ExportedTypesWF db.exportedTypes)
    (bound : ExportedTypesRow) (hbound : bound ∈ db.exportedTypes) :
    (∀ (types : List Storage.Type_) (sourceIds : List SourceId),
      bound ∈ (synchronizeTypes db types sourceIds).database.exportedTypes ∧
      ExportedTypesWF (synchronizeTypes db types sourceIds).database.exportedTypes ∧
      fetchTypeIdByQualifiedNameAndVersion (synchronizeTypes db types sourceIds).database
        bound.qualifiedName
        { major := { version := bound.majorVersion }, minor := { version := bound.minorVersion } }
        = { id := bound.typeId }) ∧
    (∀ (call : UpsertTypeCall),
      bound ∈ (call.run db).database.exportedTypes ∧
      ExportedTypesWF (call.run db).database.exportedTypes ∧
      fetchTypeIdByQualifiedNameAndVersion (call.run db).database bound.qualifiedName
        { major := { version := bound.majorVersion }, minor := { version := bound.minorVersion } }
        = { id := bound.typeId }) ∧
    (∀ typeId : TypeId,
      upsertExportedTypesStatement db bound.qualifiedName bound.majorVersion bound.minorVersion
        typeId.id = db) := by
  have hfetch : ∀ db1 : Database, ExportedTypesGrow db db1 →
      bound ∈ db1.exportedTypes ∧ ExportedTypesWF db1.exportedTypes ∧
      fetchTypeIdByQualifiedNameAndVersion db1 bound.qualifiedName
        { major := { version := bound.majorVersion }, minor := { version := bound.minorVersion } }
        = { id := bound.typeId } := by
    intro db1 hgrow
    have hmem := hgrow.1 bound hbound
    have hwf1 := hgrow.2 hwf
    refine ⟨hmem, hwf1, ?_⟩
    unfold fetchTypeIdByQualifiedNameAndVersion selectTypeIdByQualifiedNameStatement
    simp only
    cases hs : ((db1.exportedTypes.filter fun row => row.qualifiedName = bound.qualifiedName
        ∧ row.majorVersion = bound.majorVersion
        ∧ row.minorVersion ≤ bound.minorVersion).insertionSort
          fun first second => second.minorVersion ≤ first.minorVersion).head? with
    | none =>
      have hnil := List.head?_eq_none_iff.mp hs
      have hin : bound ∈ (db1.exportedTypes.filter fun row =>
          row.qualifiedName = bound.qualifiedName ∧ row.majorVersion = bound.majorVersion
          ∧ row.minorVersion ≤ bound.minorVersion).insertionSort
            fun first second => second.minorVersion ≤ first.minorVersion :=
        (List.perm_insertionSort _ _).symm.subset (by simp [hmem])
      rw [hnil] at hin
      simp at hin
    | some h =>
      obtain ⟨hh, hmax⟩ := head?_insertionSort_greatest (·.minorVersion) _ h hs
      simp only [List.mem_filter, decide_eq_true_eq] at hh
      have hle := hmax bound (by simp [hmem])
      have heq : h = bound :=
        hwf1.eq_of_key hh.1 hmem hh.2.1 hh.2.2.1 (le_antisymm hh.2.2.2 hle)
      rw [heq]
  exact ⟨fun types sourceIds => hfetch _ (synchronizeTypes_exportedTypesGrow db types sourceIds),
    fun call => hfetch _ (upsertType_exportedTypesGrow db call.name call.prototypeId
      call.accessSemantics call.exportedTypes),
    fun typeId => upsertExportedTypesStatement_stored db bound hbound typeId.id⟩

theorem exported_name_stays_bound_witness :
    (Sample.callEr.exportedTypes = Sample.callYi.exportedTypes ∧
     (Sample.callEr.run (Sample.callYi.run {}).database).result = .ok { id := 2 }) ∧
    fetchTypeIdByQualifiedNameAndVersion (Sample.callEr.run (Sample.callYi.run {}).database).database
      "Qml.Yi" { major := { version := 1 }, minor := { version := 0 } } = { id := 1 } :=
  ⟨by decide,
   ((exported_name_stays_bound (Sample.callYi.run {}).database (by decide)
      { qualifiedName := "Qml.Yi", typeId := 1, majorVersion := 1, minorVersion := 0 }
      (by decide)).2.1 Sample.callEr).2.2⟩

end ProjectStorage

/-! ## The storage of `metainfo/projectstorage.h`: qualified names -/

namespace Metainfo

namespace ProjectStorage

theorem fetchTypeIdByQualifiedName_eq (db : Database) (q : String) :
    fetchTypeIdByQualifiedName db q =
      match boundTypeId db q with
      | some typeId => { id := typeId }
      | none => {} := by
  unfold fetchTypeIdByQualifiedName selectTypeIdByQualifiedNameStatement boundTypeId
  cases db.qualifiedTypeNames.find? (fun row => row.qualifiedName = q) <;> rfl

theorem boundTypeId_eq_none {db : Database} {q : String}
    (h : ∀ row ∈ db.qualifiedTypeNames, row.qualifiedName ≠ q) : boundTypeId db q = none := by
  unfold boundTypeId
  rw [Option.map_eq_none', List.find?_eq_none]
  intro row hrow
  simpa using h row hrow

/-- Right after its upsert a qualified name is bound to the type id that was passed. -/
theorem boundTypeId_upsert_self (db : Database) (q : String) (typeId : Int) :
    boundTypeId (upsertQualifiedTypeNameStatement db q typeId) q = some typeId := by
  unfold upsertQualifiedTypeNameStatement boundTypeId
  by_cases hany : (db.qualifiedTypeNames.any fun row => row.qualifiedName = q) = true
  · rw [if_pos hany]
    simp only
    rw [List.any_eq_true] at hany
    obtain ⟨r, hr, hrq⟩ := hany
    rw [List.find?_map]
    have hcomp : ((fun row : QualifiedTypeNamesRow => decide (row.qualifiedName = q)) ∘
        fun row : QualifiedTypeNamesRow =>
          if row.qualifiedName = q then { row with typeId := typeId } else row)
        = fun row => decide (row.qualifiedName = q) := by
      funext row
      simp only [Function.comp]
      split <;> rfl
    rw [hcomp]
    cases hf : db.qualifiedTypeNames.find? (fun row => decide (row.qualifiedName = q)) with
    | none =>
      have := List.find?_eq_none.mp hf r hr
      exact absurd hrq this
    | some found =>
      have hq : found.qualifiedName = q := by simpa using List.find?_some hf
      simp [hq]
  · rw [if_neg hany]
    simp only
    have hnone : db.qualifiedTypeNames.find? (fun row => decide (row.qualifiedName = q))
        = none := by
      rw [List.find?_eq_none]
      intro row hrow hrq
      exact hany (List.any_eq_true.mpr ⟨row, hrow, hrq⟩)
    rw [List.find?_append, hnone]
    simp

/-- The upsert of one qualified name leaves the binding of every other name as it is. -/
theorem boundTypeId_upsert_other (db : Database) {q other : String} (typeId : Int)
    (hne : other ≠ q) :
    boundTypeId (upsertQualifiedTypeNameStatement db other typeId) q = boundTypeId db q := by
  unfold upsertQualifiedTypeNameStatement boundTypeId
  by_cases hany : (db.qualifiedTypeNames.any fun row => row.qualifiedName = other) = true
  · rw [if_pos hany]
    simp only
    rw [List.find?_map]
    have hcomp : ((fun row : QualifiedTypeNamesRow => decide (row.qualifiedName = q)) ∘
        fun row : QualifiedTypeNamesRow =>
          if row.qualifiedName = other then { row with typeId := typeId } else row)
        = fun row => decide (row.qualifiedName = q) := by
      funext row
      simp only [Function.comp]
      split <;> rfl
    rw [hcomp]
    cases hf : db.qualifiedTypeNames.find? (fun row => decide (row.qualifiedName = q)) with
    | none => rfl
    | some found =>
      have hq : found.qualifiedName = q := by simpa using List.find?_some hf
      have hno : ¬found.qualifiedName = other := by rw [hq]; exact fun h => hne h.symm
      simp [hno]
  · rw [if_neg hany]
    simp only
    rw [List.find?_append]
    have hlast : List.find? (fun row : QualifiedTypeNamesRow => decide (row.qualifiedName = q))
        [{ qualifiedName := other, typeId := typeId }] = none := by
      simp [hne]
    rw [hlast]
    simp

theorem upsertTypeStatement_qualifiedTypeNames (db : Database) (name : String)
    (accessSemantics prototype : Int) :
    (upsertTypeStatement db name accessSemantics prototype).1.qualifiedTypeNames
      = db.qualifiedTypeNames := by
  unfold upsertTypeStatement
  split <;> rfl

theorem boundTypeId_upsertQualifiedTypeNames (q : String) (typeId : Int) :
    ∀ (qualifiedNames : List String) (db : Database),
      (q ∈ qualifiedNames ∨ boundTypeId db q = some typeId →
        boundTypeId (qualifiedNames.foldl (fun db1 qualifiedName =>
          upsertQualifiedTypeNameStatement db1 qualifiedName typeId) db) q = some typeId) ∧
      (q ∉ qualifiedNames →
        boundTypeId (qualifiedNames.foldl (fun db1 qualifiedName =>
          upsertQualifiedTypeNameStatement db1 qualifiedName typeId) db) q
          = boundTypeId db q) := by
  intro qualifiedNames
  induction qualifiedNames with
  | nil =>
    intro db
    refine ⟨fun h => ?_, fun _ => rfl⟩
    rcases h with h | h
    · simp at h
    · exact h
  | cons n ns ih =>
    intro db
    rw [List.foldl_cons]
    refine ⟨fun h => ?_, fun h => ?_⟩
    · by_cases hn : n = q
      · subst hn
        exact (ih _).1 (Or.inr (boundTypeId_upsert_self db n typeId))
      · rcases h with h | h
        · rcases List.mem_cons.mp h with h | h
          · exact absurd h.symm hn
          · exact (ih _).1 (Or.inl h)
        · exact (ih _).1 (Or.inr (by rw [boundTypeId_upsert_other db typeId hn]; exact h))
    · have hn : n ≠ q := fun hn => h (by rw [hn]; exact List.mem_cons_self _ _)
      have hns : q ∉ ns := fun hq => h (List.mem_cons_of_mem _ hq)
      rw [(ih _).2 hns, boundTypeId_upsert_other db typeId hn]

theorem boundTypeId_upsertType (db : Database) (name : String) (prototype : InternalTypeId)
    (accessSemantics : TypeAccessSemantics) (qualifiedNames : List String) (q : String) :
    (q ∈ qualifiedNames →
      boundTypeId (upsertType db name prototype accessSemantics qualifiedNames).1 q =
        some (upsertType db name prototype accessSemantics qualifiedNames).2.id) ∧
    (q ∉ qualifiedNames →
      boundTypeId (upsertType db name prototype accessSemantics qualifiedNames).1 q =
        boundTypeId db q) := by
  unfold upsertType
  simp only
  refine ⟨fun h => (boundTypeId_upsertQualifiedTypeNames q _ qualifiedNames _).1 (Or.inl h),
    fun h => ?_⟩
  rw [(boundTypeId_upsertQualifiedTypeNames q _ qualifiedNames _).2 h]
  unfold boundTypeId
  rw [upsertTypeStatement_qualifiedTypeNames]

end ProjectStorage

theorem boundTypeId_upsertTypeCalls (q : String) :
    ∀ (calls : List UpsertTypeCall) (db : Database),
      (∀ call ∈ calls, q ∉ call.qualifiedNames) →
      boundTypeId (upsertTypeCalls db calls) q = boundTypeId db q := by
  intro calls
  induction calls with
  | nil => intro db _; rfl
  | cons call calls ih =>
    intro db h
    simp only [upsertTypeCalls]
    rw [ih _ fun c hc => h c (List.mem_cons_of_mem _ hc)]
    exact (ProjectStorage.boundTypeId_upsertType db call.name call.prototype
      call.accessSemantics call.qualifiedNames q).2 (h call (List.mem_cons_self _ _))

namespace ProjectStorage

/-- C20: in the storage of `metainfo/projectstorage.h`, after `upsertType(n, p, a, Q)` returned
the id `i`, `fetchTypeIdByQualifiedName(q)` returns `i` for every `q` in `Q`, and still returns
`i` after any further `upsertType` calls whose lists of qualified names do not contain `q`; a
qualified name that the store does not hold and that no call passed yields the invalid id. -/
theorem fetchTypeIdByQualifiedName_after_upsertType (db : Database) (call : UpsertTypeCall)
    (q : String) :
    (q ∈ call.qualifiedNames →
      fetchTypeIdByQualifiedName (call.run db).1 q = (call.run db).2 ∧
      ∀ later : List UpsertTypeCall, (∀ other ∈ later, q ∉ other.qualifiedNames) →
        fetchTypeIdByQualifiedName (upsertTypeCalls (call.run db).1 later) q
          = (call.run db).2) ∧
    ((∀ row ∈ db.qualifiedTypeNames, row.qualifiedName ≠ q) →
      ∀ calls : List UpsertTypeCall, (∀ other ∈ calls, q ∉ other.qualifiedNames) →
        fetchTypeIdByQualifiedName (upsertTypeCalls db calls) q = {}) := by
  constructor
  · intro hq
    have hbound : boundTypeId (call.run db).1 q = some (call.run db).2.id :=
      (boundTypeId_upsertType db call.name call.prototype call.accessSemantics
        call.qualifiedNames q).1 hq
    refine ⟨?_, fun later hlater => ?_⟩
    · rw [fetchTypeIdByQualifiedName_eq, hbound]
    · rw [fetchTypeIdByQualifiedName_eq, boundTypeId_upsertTypeCalls q later _ hlater, hbound]
  · intro hnone calls hcalls
    rw [fetchTypeIdByQualifiedName_eq, boundTypeId_upsertTypeCalls q calls _ hcalls,
      boundTypeId_eq_none hnone]

theorem fetchTypeIdByQualifiedName_after_upsertType_witness :
    (fetchTypeIdByQualifiedName (Sample.callEr.run (Sample.callYi.run {}).1).1 "Qml.Er"
        = { id := 2 } ∧
     fetchTypeIdByQualifiedName
        (upsertTypeCalls (Sample.callEr.run (Sample.callYi.run {}).1).1
          [Sample.callSan, Sample.callYi]) "Qml.Er" = { id := 2 }) ∧
    fetchTypeIdByQualifiedName (upsertTypeCalls {} [Sample.callYi, Sample.callEr]) "Qml.San"
      = {} :=
  ⟨⟨((fetchTypeIdByQualifiedName_after_upsertType (Sample.callYi.run {}).1 Sample.callEr
        "Qml.Er").1 (by decide)).1,
     ((fetchTypeIdByQualifiedName_after_upsertType (Sample.callYi.run {}).1 Sample.callEr
        "Qml.Er").1 (by decide)).2 [Sample.callSan, Sample.callYi] (by decide)⟩,
   (fetchTypeIdByQualifiedName_after_upsertType {} Sample.callYi "Qml.San").2 (by decide)
     [Sample.callYi, Sample.callEr] (by decide)⟩

end ProjectStorage

end Metainfo

/-! ## Upsert of a property declaration -/

theorem keysWF_filter_singleton {R : Type} (key : R → DeclarationKey) {rows : List R}
    (h : KeysWF (rows.map key)) {row : R} (hrow : row ∈ rows) :
    rows.filter (fun r => (key r).2.1 = (key row).2.1 ∧ (key r).2.2 = (key row).2.2) = [row] := by
  have hnodup : (rows.map fun r => (key r).2).Nodup := by
    have := h.2
    rwa [List.map_map] at this
  have hf := filter_eq_singleton (fun r => (key r).2) rows row hnodup hrow
  rw [← hf]
  apply List.filter_congr
  intro r _
  simp only [decide_eq_decide]
  constructor
  · intro hk; exact Prod.ext hk.1 hk.2
  · intro hk; rw [hk]; exact ⟨rfl, rfl⟩

namespace ProjectStorage

/-- What `upsertPropertyDeclarationStatement` does to `propertyDeclarations`: the constraints of
the table are kept, every row stays under its key, no key is negative when none was, and the row
of the given type and name has the returned id, the given property type and the given traits. -/
theorem upsertPropertyDeclarationStatement_spec (db : Database) (typeId : Int) (name : String)
    (propertyTypeId traits : Int) (hwf : KeysWF (propertyKeys db)) :
    KeysWF (propertyKeys (upsertPropertyDeclarationStatement db typeId name propertyTypeId
      traits).1) ∧
    (∀ k ∈ propertyKeys db,
      k ∈ propertyKeys (upsertPropertyDeclarationStatement db typeId name propertyTypeId
        traits).1) ∧
    ((∀ k ∈ propertyKeys db, 0 ≤ k.1) →
      ∀ k ∈ propertyKeys (upsertPropertyDeclarationStatement db typeId name propertyTypeId
        traits).1, 0 ≤ k.1) ∧
    (upsertPropertyDeclarationStatement db typeId name propertyTypeId traits).1.types
      = db.types ∧
    ∃ row ∈ (upsertPropertyDeclarationStatement db typeId name propertyTypeId
        traits).1.propertyDeclarations,
      row.propertyDeclarationId =
        (upsertPropertyDeclarationStatement db typeId name propertyTypeId traits).2.id ∧
      row.typeId = typeId ∧ row.name = name ∧ row.propertyTypeId = propertyTypeId ∧
      row.propertyTraits = nullif traits 0 := by
  unfold upsertPropertyDeclarationStatement
  cases hf : db.propertyDeclarations.find? (fun row => row.typeId = typeId ∧ row.name = name) with
  | some conflicting =>
    simp only
    have hmem := List.mem_of_find?_eq_some hf
    have hconf : conflicting.typeId = typeId ∧ conflicting.name = name := by
      simpa using List.find?_some hf
    have hmap : ∀ f : PropertyDeclarationsRow → PropertyDeclarationsRow,
        (∀ r, (f r).propertyDeclarationId = r.propertyDeclarationId ∧ (f r).typeId = r.typeId
          ∧ (f r).name = r.name) →
        propertyKeys { db with propertyDeclarations := db.propertyDeclarations.map f }
          = propertyKeys db := by
      intro f hf
      unfold propertyKeys
      simp only
      rw [List.map_map]
      apply List.map_congr_left
      intro row _
      simp only [Function.comp, (hf row).1, (hf row).2.1, (hf row).2.2]
    have hkeys := hmap (fun row => if row.typeId = typeId ∧ row.name = name then
        { row with propertyTypeId := propertyTypeId, propertyTraits := nullif traits 0 }
      else row) (by intro r; dsimp only; split <;> exact ⟨rfl, rfl, rfl⟩)
    rw [hkeys]
    refine ⟨hwf, fun k hk => hk, fun h => h, trivial, ?_⟩
    refine ⟨_, List.mem_map.mpr ⟨conflicting, hmem, rfl⟩, ?_⟩
    simp [hconf.1, hconf.2]
  | none =>
    simp only
    have hfree : ∀ k ∈ propertyKeys db, ¬(k.2.1 = typeId ∧ k.2.2 = name) := by
      intro k hk
      obtain ⟨row, hrow, rfl⟩ := List.mem_map.mp hk
      have := List.find?_eq_none.mp hf row hrow
      simpa using this
    have happend : ∀ row : PropertyDeclarationsRow,
        propertyKeys { db with propertyDeclarations := db.propertyDeclarations ++ [row] }
          = propertyKeys db ++ [(row.propertyDeclarationId, row.typeId, row.name)] := by
      intro row
      unfold propertyKeys
      simp only [List.map_append, List.map_cons, List.map_nil]
    have hids : db.propertyDeclarations.map (·.propertyDeclarationId)
        = (propertyKeys db).map (·.1) := by
      unfold propertyKeys
      rw [List.map_map]
      rfl
    rw [happend, hids]
    refine ⟨hwf.append_key typeId name hfree, fun k hk => List.mem_append_left _ hk, ?_, trivial, ?_⟩
    · intro hnonneg k hk
      rcases List.mem_append.mp hk with hk | hk
      · exact hnonneg k hk
      · simp only [List.mem_singleton] at hk
        subst hk
        refine le_of_lt (newRowId_pos ?_)
        intro x hx
        obtain ⟨k, hk, rfl⟩ := List.mem_map.mp hx
        exact hnonneg k hk
    · exact ⟨_, List.mem_append_right _ (List.mem_singleton.mpr rfl), rfl, rfl, rfl, rfl, rfl⟩

end ProjectStorage

theorem upsertPropertyDeclarationCalls_spec :
    ∀ (calls : List (TypeId × String × TypeId)) (db : Database),
      KeysWF (propertyKeys db) →
      KeysWF (propertyKeys (upsertPropertyDeclarationCalls db calls)) ∧
      (∀ k ∈ propertyKeys db, k ∈ propertyKeys (upsertPropertyDeclarationCalls db calls)) ∧
      ((∀ k ∈ propertyKeys db, 0 ≤ k.1) →
        ∀ k ∈ propertyKeys (upsertPropertyDeclarationCalls db calls), 0 ≤ k.1) := by
  intro calls
  induction calls with
  | nil => intro db hwf; exact ⟨hwf, fun k hk => hk, fun h => h⟩
  | cons call calls ih =>
    intro db hwf
    obtain ⟨hwf1, hkept1, hnn1, _⟩ := ProjectStorage.upsertPropertyDeclarationStatement_spec db
      call.1.id call.2.1 call.2.2.id 0 hwf
    obtain ⟨hwf2, hkept2, hnn2⟩ := ih
      (ProjectStorage.upsertPropertyDeclaration db call.1 call.2.1 call.2.2).1 hwf1
    exact ⟨hwf2, fun k hk => hkept2 k (hkept1 k hk), fun h => hnn2 (hnn1 h)⟩

namespace Metainfo

namespace ProjectStorage

/-- What `upsertPropertyDeclarationStatement` does to `propertyDeclarations`: the constraints of
the table are kept, every row stays under its key, no key is negative when none was, and the row
of the given type and name has the returned id and the given property type. -/
theorem metainfo_upsertPropertyDeclarationStatement_spec (db : Database) (typeId : Int)
    (name : String) (propertyTypeId : Int) (hwf : KeysWF (propertyKeys db)) :
    KeysWF (propertyKeys (upsertPropertyDeclarationStatement db typeId name propertyTypeId).1) ∧
    (∀ k ∈ propertyKeys db,
      k ∈ propertyKeys (upsertPropertyDeclarationStatement db typeId name propertyTypeId).1) ∧
    ((∀ k ∈ propertyKeys db, 0 ≤ k.1) →
      ∀ k ∈ propertyKeys (upsertPropertyDeclarationStatement db typeId name propertyTypeId).1,
        0 ≤ k.1) ∧
    ∃ row ∈ (upsertPropertyDeclarationStatement db typeId name
        propertyTypeId).1.propertyDeclarations,
      row.propertyDeclarationId =
        (upsertPropertyDeclarationStatement db typeId name propertyTypeId).2.id ∧
      row.typeId = typeId ∧ row.name = name ∧ row.propertyTypeId = propertyTypeId := by
  unfold upsertPropertyDeclarationStatement
  cases hf : db.propertyDeclarations.find? (fun row => row.typeId = typeId ∧ row.name = name) with
  | some conflicting =>
    simp only
    have hmem := List.mem_of_find?_eq_some hf
    have hconf : conflicting.typeId = typeId ∧ conflicting.name = name := by
      simpa using List.find?_some hf
    have hmap : ∀ f : PropertyDeclarationsRow → PropertyDeclarationsRow,
        (∀ r, (f r).propertyDeclarationId = r.propertyDeclarationId ∧ (f r).typeId = r.typeId
          ∧ (f r).name = r.name) →
        propertyKeys { db with propertyDeclarations := db.propertyDeclarations.map f }
          = propertyKeys db := by
      intro f hf
      unfold propertyKeys
      simp only
      rw [List.map_map]
      apply List.map_congr_left
      intro row _
      simp only [Function.comp, (hf row).1, (hf row).2.1, (hf row).2.2]
    have hkeys := hmap (fun row => if row.typeId = typeId ∧ row.name = name then
        { row with propertyTypeId := propertyTypeId }
      else row) (by intro r; dsimp only; split <;> exact ⟨rfl, rfl, rfl⟩)
    rw [hkeys]
    refine ⟨hwf, fun k hk => hk, fun h => h, ?_⟩
    refine ⟨_, List.mem_map.mpr ⟨conflicting, hmem, rfl⟩, ?_⟩
    simp [hconf.1, hconf.2]
  | none =>
    simp only
    have hfree : ∀ k ∈ propertyKeys db, ¬(k.2.1 = typeId ∧ k.2.2 = name) := by
      intro k hk
      obtain ⟨row, hrow, rfl⟩ := List.mem_map.mp hk
      have := List.find?_eq_none.mp hf row hrow
      simpa using this
    have happend : ∀ row : PropertyDeclarationsRow,
        propertyKeys { db with propertyDeclarations := db.propertyDeclarations ++ [row] }
          = propertyKeys db ++ [(row.propertyDeclarationId, row.typeId, row.name)] := by
      intro row
      unfold propertyKeys
      simp only [List.map_append, List.map_cons, List.map_nil]
    have hids : db.propertyDeclarations.map (·.propertyDeclarationId)
        = (propertyKeys db).map (·.1) := by
      unfold propertyKeys
      rw [List.map_map]
      rfl
    rw [happend, hids]
    refine ⟨hwf.append_key typeId name hfree, fun k hk => List.mem_append_left _ hk, ?_, ?_⟩
    · intro hnonneg k hk
      rcases List.mem_append.mp hk with hk | hk
      · exact hnonneg k hk
      · simp only [List.mem_singleton] at hk
        subst hk
        refine le_of_lt (newRowId_pos ?_)
        intro x hx
        obtain ⟨k, hk, rfl⟩ := List.mem_map.mp hx
        exact hnonneg k hk
    · exact ⟨_, List.mem_append_right _ (List.mem_singleton.mpr rfl), rfl, rfl, rfl, rfl⟩

/-- Rows the property lookup joins: the declarations of the name by the types of the
selection. -/
theorem metainfo_mem_selected_declarations {db : Database} {typeId : Int} {name : String}
    {row : PropertyDeclarationsRow} :
    row ∈ ((typeSelection db.types (db.types.length + 1) (some typeId)).flatMap fun selected =>
        db.propertyDeclarations.filter fun row => some row.typeId = selected ∧ row.name = name) ↔
    some row.typeId ∈ typeSelection db.types (db.types.length + 1) (some typeId) ∧
      row ∈ db.propertyDeclarations ∧ row.name = name := by
  simp only [List.mem_flatMap, List.mem_filter, decide_eq_true_eq]
  constructor
  · rintro ⟨selected, hsel, hrow, hid, hname⟩
    exact ⟨hid ▸ hsel, hrow, hname⟩
  · rintro ⟨hsel, hrow, hname⟩
    exact ⟨some row.typeId, hsel, hrow, rfl, hname⟩

/-- The start type of a selection is in the selection. -/
theorem metainfo_mem_typeSelection_self (types : List TypesRow) (fuel : Nat) (typeId : Int) :
    some typeId ∈ typeSelection types (fuel + 1) (some typeId) := by
  simp [typeSelection]

/-- The lookup returns a declaration when all the rows of the join have its id, whatever the
order in which the engine returns them. -/
theorem metainfo_fetchPropertyDeclarationByTypeIdAndName_only
    (order : Sqlite.RowOrder PropertyDeclarationsRow) (db : Database) (typeId : InternalTypeId)
    (name : String) (row : PropertyDeclarationsRow) (hrow : row ∈ db.propertyDeclarations)
    (hsel : some row.typeId ∈ typeSelection db.types (db.types.length + 1) (some typeId.id))
    (hname : row.name = name)
    (honly : ∀ other ∈ db.propertyDeclarations, other.name = name →
      some other.typeId ∈ typeSelection db.types (db.types.length + 1) (some typeId.id) →
      other.propertyDeclarationId = row.propertyDeclarationId) :
    fetchPropertyDeclarationByTypeIdAndName order db typeId name
      = { id := row.propertyDeclarationId } := by
  have hmem : row ∈ ((typeSelection db.types (db.types.length + 1) (some typeId.id)).flatMap
      fun selected => db.propertyDeclarations.filter
        fun row => some row.typeId = selected ∧ row.name = name) :=
    metainfo_mem_selected_declarations.mpr ⟨hsel, hrow, hname⟩
  unfold fetchPropertyDeclarationByTypeIdAndName
    selectPropertyDeclarationByTypeIdAndNameStatement
  cases hhead : (order.arrange
      ((typeSelection db.types (db.types.length + 1) (some typeId.id)).flatMap
        fun selected => db.propertyDeclarations.filter
          fun row => some row.typeId = selected ∧ row.name = name)).head? with
  | none =>
    rw [order.head?_eq_none hhead] at hmem
    simp at hmem
  | some first =>
    have hfirst := metainfo_mem_selected_declarations.mp (order.mem_of_head? hhead)
    simp only [Option.map_some', honly first hfirst.2.1 hfirst.2.2 hfirst.1]

/-- Under the plan that joins in the order the selection is produced, the lookup started at a
type that declares the name itself returns that declaration. -/
theorem metainfo_fetchPropertyDeclarationByTypeIdAndName_own (db : Database)
    (hkeys : KeysWF (propertyKeys db)) (typeId : InternalTypeId) (name : String)
    (row : PropertyDeclarationsRow) (hrow : row ∈ db.propertyDeclarations)
    (hid : row.typeId = typeId.id) (hname : row.name = name) :
    fetchPropertyDeclarationByTypeIdAndName .asProduced db typeId name
      = { id := row.propertyDeclarationId } := by
  unfold fetchPropertyDeclarationByTypeIdAndName
    selectPropertyDeclarationByTypeIdAndNameStatement
  simp only [Sqlite.RowOrder.asProduced, typeSelection, List.flatMap_cons]
  have hmem : row ∈ db.propertyDeclarations.filter
      (fun row => some row.typeId = some typeId.id ∧ row.name = name) := by
    simp [hrow, hid, hname]
  cases hfilter : db.propertyDeclarations.filter
      (fun row => some row.typeId = some typeId.id ∧ row.name = name) with
  | nil => rw [hfilter] at hmem; simp at hmem
  | cons first rest =>
    simp only [List.cons_append, List.head?_cons, Option.map_some']
    have hfirst : first ∈ db.propertyDeclarations.filter
        (fun row => some row.typeId = some typeId.id ∧ row.name = name) := by
      rw [hfilter]; exact List.mem_cons_self _ _
    simp only [List.mem_filter, decide_eq_true_eq, Option.some.injEq] at hfirst
    have hkey : (first.propertyDeclarationId, first.typeId, first.name)
        = (row.propertyDeclarationId, row.typeId, row.name) := by
      refine hkeys.eq_of_name (List.mem_map.mpr ⟨first, hfirst.1, rfl⟩)
        (List.mem_map.mpr ⟨row, hrow, rfl⟩) ?_
      simp [hfirst.2.1, hfirst.2.2, hid, hname]
    have : first.propertyDeclarationId = row.propertyDeclarationId :=
      congrArg (fun k => k.1) hkey
    rw [this]

end ProjectStorage

theorem metainfo_upsertPropertyDeclarationCalls_spec :
    ∀ (calls : List (InternalTypeId × String × InternalTypeId)) (db : Database),
      KeysWF (propertyKeys db) →
      KeysWF (propertyKeys (upsertPropertyDeclarationCalls db calls)) ∧
      (∀ k ∈ propertyKeys db, k ∈ propertyKeys (upsertPropertyDeclarationCalls db calls)) ∧
      ((∀ k ∈ propertyKeys db, 0 ≤ k.1) →
        ∀ k ∈ propertyKeys (upsertPropertyDeclarationCalls db calls), 0 ≤ k.1) := by
  intro calls
  induction calls with
  | nil => intro db hwf; exact ⟨hwf, fun k hk => hk, fun h => h⟩
  | cons call calls ih =>
    intro db hwf
    obtain ⟨hwf1, hkept1, hnn1, _⟩ :=
      ProjectStorage.metainfo_upsertPropertyDeclarationStatement_spec db
        call.1.id call.2.1 call.2.2.id hwf
    obtain ⟨hwf2, hkept2, hnn2⟩ := ih
      (ProjectStorage.upsertPropertyDeclaration db call.1 call.2.1 call.2.2).1 hwf1
    exact ⟨hwf2, fun k hk => hkept2 k (hkept1 k hk), fun h => hnn2 (hnn1 h)⟩

end Metainfo

namespace ProjectStorage

/-- C19, as stated, fails.  On the store of the chain tests, where `QQuickItem` (type `3`)
declares `foo` under the id `3` and its prototype's prototype `Base` declares `foo` under the id
`1`: `upsertPropertyDeclaration(3, "foo", 5)` returns the id `3`, and so does a second call with
another property type, but under the plan that scans `propertyDeclarations` in the order of its
key `fetchPropertyDeclarationByTypeIdAndName(3, "foo")` returns the id `1`.  In the metainfo
storage, on a store where `QObject` declares `foo` under the id `1` and `Item` (type `3`) is
derived from `QObject`: `upsertPropertyDeclaration(3, "foo", 2)` returns the id `2`, and the
lookup for `(3, "foo")` returns the id `1` under that plan. -/
theorem upsertPropertyDeclaration_lookup_returns_ancestor :
    (upsertPropertyDeclaration Sample.chainDatabase { id := 3 } "foo" { id := 5 }).2
      = { id := 3 } ∧
    (upsertPropertyDeclaration
      (upsertPropertyDeclaration Sample.chainDatabase { id := 3 } "foo" { id := 5 }).1
      { id := 3 } "foo" { id := 4 }).2 = { id := 3 } ∧
    fetchPropertyDeclarationByTypeIdAndName propertyDeclarationsScan
      (upsertPropertyDeclaration
        (upsertPropertyDeclaration Sample.chainDatabase { id := 3 } "foo" { id := 5 }).1
        { id := 3 } "foo" { id := 4 }).1 { id := 3 } "foo" = { id := 1 } ∧
    (Metainfo.ProjectStorage.upsertPropertyDeclaration Metainfo.Sample.itemDatabase
      { id := 3 } "foo" { id := 2 }).2 = { id := 2 } ∧
    Metainfo.ProjectStorage.fetchPropertyDeclarationByTypeIdAndName
      Metainfo.ProjectStorage.propertyDeclarationsScan
      (Metainfo.ProjectStorage.upsertPropertyDeclaration Metainfo.Sample.itemDatabase
        { id := 3 } "foo" { id := 2 }).1 { id := 3 } "foo" = { id := 1 } := by
  decide

/-- C19, amended.  `upsertPropertyDeclaration(t, n, pt)` returns the same, valid id whenever it
is called for the same type id `t` and name `n`, whatever property type is passed and whatever
other `upsertPropertyDeclaration` calls come between; afterwards the table holds exactly one row
for `(t, n)`, under that id and with the property type of the latest call.
`fetchPropertyDeclarationByTypeIdAndName(t, n)` returns that id under the plan that joins in the
order the selection is produced, and under every plan when no other type of the prototype
selection of `t` declares `n`.  This holds for the storage of `projectstorage/projectstorage.h`
and for the storage of `metainfo/projectstorage.h`. -/
theorem upsertPropertyDeclaration_same_id :
    (∀ (db : Database), KeysWF (propertyKeys db) → (∀ k ∈ propertyKeys db, 0 ≤ k.1) →
      ∀ (t : TypeId) (n : String) (pt1 pt2 : TypeId) (between : List (TypeId × String × TypeId))
        (db1 db3 : Database) (id1 id2 : PropertyDeclarationId),
        upsertPropertyDeclaration db t n pt1 = (db1, id1) →
        upsertPropertyDeclaration (upsertPropertyDeclarationCalls db1 between) t n pt2
          = (db3, id2) →
        id2 = id1 ∧ id1.isValid = true ∧ KeysWF (propertyKeys db3) ∧
        (∃ row, db3.propertyDeclarations.filter (fun r => r.typeId = t.id ∧ r.name = n) = [row] ∧
          row.propertyDeclarationId = id1.id ∧ row.propertyTypeId = pt2.id) ∧
        fetchPropertyDeclarationByTypeIdAndName .asProduced db3 t n = id1 ∧
        ∀ order : Sqlite.RowOrder PropertyDeclarationsRow,
          (∀ other ∈ db3.propertyDeclarations, other.name = n →
            some other.typeId ∈ typeSelection db3.types (db3.types.length + 1) (some t.id) →
            other.typeId = t.id) →
          fetchPropertyDeclarationByTypeIdAndName order db3 t n = id1) ∧
    (∀ (db : Metainfo.Database), KeysWF (Metainfo.propertyKeys db) →
      (∀ k ∈ Metainfo.propertyKeys db, 0 ≤ k.1) →
      ∀ (t : Metainfo.InternalTypeId) (n : String) (pt1 pt2 : Metainfo.InternalTypeId)
        (between : List (Metainfo.InternalTypeId × String × Metainfo.InternalTypeId))
        (db1 db3 : Metainfo.Database) (id1 id2 : Metainfo.InternalPropertyDeclarationId),
        Metainfo.ProjectStorage.upsertPropertyDeclaration db t n pt1 = (db1, id1) →
        Metainfo.ProjectStorage.upsertPropertyDeclaration
          (Metainfo.upsertPropertyDeclarationCalls db1 between) t n pt2 = (db3, id2) →
        id2 = id1 ∧ id1.isValid = true ∧ KeysWF (Metainfo.propertyKeys db3) ∧
        (∃ row, db3.propertyDeclarations.filter (fun r => r.typeId = t.id ∧ r.name = n) = [row] ∧
          row.propertyDeclarationId = id1.id ∧ row.propertyTypeId = pt2.id) ∧
        Metainfo.ProjectStorage.fetchPropertyDeclarationByTypeIdAndName .asProduced db3 t n
          = id1 ∧
        ∀ order : Sqlite.RowOrder Metainfo.PropertyDeclarationsRow,
          (∀ other ∈ db3.propertyDeclarations, other.name = n →
            some other.typeId ∈ Metainfo.ProjectStorage.typeSelection db3.types
              (db3.types.length + 1) (some t.id) →
            other.typeId = t.id) →
          Metainfo.ProjectStorage.fetchPropertyDeclarationByTypeIdAndName order db3 t n
            = id1) := by
  constructor
  · intro db hwf hnn t n pt1 pt2 between db1 db3 id1 id2 h1 h3
    obtain ⟨hwf1, _, hnn1, _, row1, hrow1, hrid1, hrt1, hrn1, _⟩ :=
      upsertPropertyDeclarationStatement_spec db t.id n pt1.id 0 hwf
    have e1 : (upsertPropertyDeclarationStatement db t.id n pt1.id 0).1 = db1 :=
      congrArg Prod.fst h1
    have e2 : (upsertPropertyDeclarationStatement db t.id n pt1.id 0).2 = id1 :=
      congrArg Prod.snd h1
    rw [e1] at hwf1 hnn1 hrow1
    rw [e2] at hrid1
    obtain ⟨hwf2, hkept2, hnn2⟩ := upsertPropertyDeclarationCalls_spec between db1 hwf1
    obtain ⟨hwf3, hkept3, hnn3, _, row3, hrow3, hrid3, hrt3, hrn3, hrp3, _⟩ :=
      upsertPropertyDeclarationStatement_spec (upsertPropertyDeclarationCalls db1 between)
        t.id n pt2.id 0 hwf2
    have e3 : (upsertPropertyDeclarationStatement (upsertPropertyDeclarationCalls db1 between)
        t.id n pt2.id 0).1 = db3 := congrArg Prod.fst h3
    have e4 : (upsertPropertyDeclarationStatement (upsertPropertyDeclarationCalls db1 between)
        t.id n pt2.id 0).2 = id2 := congrArg Prod.snd h3
    rw [e3] at hwf3 hkept3 hrow3
    rw [e4] at hrid3
    have hk1 : (row1.propertyDeclarationId, row1.typeId, row1.name) ∈ propertyKeys db3 :=
      hkept3 _ (hkept2 _ (List.mem_map.mpr ⟨row1, hrow1, rfl⟩))
    have hk3 : (row3.propertyDeclarationId, row3.typeId, row3.name) ∈ propertyKeys db3 :=
      List.mem_map.mpr ⟨row3, hrow3, rfl⟩
    have hkey := hwf3.eq_of_name hk1 hk3 (by simp [hrt1, hrn1, hrt3, hrn3])
    have hid : row1.propertyDeclarationId = row3.propertyDeclarationId :=
      congrArg (fun k => k.1) hkey
    have hids : id2 = id1 := by
      rw [InternalId.eq_iff_id, ← hrid1, ← hrid3, hid]
    have hfilter := keysWF_filter_singleton
      (fun row : PropertyDeclarationsRow => (row.propertyDeclarationId, row.typeId, row.name))
      hwf3 hrow3
    simp only [hrt3, hrn3] at hfilter
    refine ⟨hids, ?_, hwf3, ⟨row3, hfilter, ?_, hrp3⟩, ?_, ?_⟩
    · have := hnn1 hnn _ (List.mem_map.mpr ⟨row1, hrow1, rfl⟩)
      simp only [hrid1] at this
      simpa [InternalId.isValid] using this
    · rw [hrid3, hids]
    · rw [fetchPropertyDeclarationByTypeIdAndName_own db3 hwf3 t n row3 hrow3 hrt3 hrn3,
        ← hids, InternalId.eq_iff_id, hrid3]
    · intro order honly
      rw [fetchPropertyDeclarationByTypeIdAndName_only order db3 t n row3 hrow3
          (hrt3 ▸ mem_typeSelection_self _ _ _) hrn3, ← hids, InternalId.eq_iff_id, hrid3]
      intro other hother hname hsel
      have hkey : (other.propertyDeclarationId, other.typeId, other.name)
          = (row3.propertyDeclarationId, row3.typeId, row3.name) := by
        refine hwf3.eq_of_name (List.mem_map.mpr ⟨other, hother, rfl⟩) hk3 ?_
        simp [honly other hother hname hsel, hname, hrt3, hrn3]
      exact congrArg (fun k => k.1) hkey
  · intro db hwf hnn t n pt1 pt2 between db1 db3 id1 id2 h1 h3
    obtain ⟨hwf1, _, hnn1, row1, hrow1, hrid1, hrt1, hrn1, _⟩ :=
      Metainfo.ProjectStorage.metainfo_upsertPropertyDeclarationStatement_spec db t.id n pt1.id
        hwf
    have e1 : (Metainfo.ProjectStorage.upsertPropertyDeclarationStatement db t.id n pt1.id).1
        = db1 := congrArg Prod.fst h1
    have e2 : (Metainfo.ProjectStorage.upsertPropertyDeclarationStatement db t.id n pt1.id).2
        = id1 := congrArg Prod.snd h1
    rw [e1] at hwf1 hnn1 hrow1
    rw [e2] at hrid1
    obtain ⟨hwf2, hkept2, hnn2⟩ :=
      Metainfo.metainfo_upsertPropertyDeclarationCalls_spec between db1 hwf1
    obtain ⟨hwf3, hkept3, hnn3, row3, hrow3, hrid3, hrt3, hrn3, hrp3⟩ :=
      Metainfo.ProjectStorage.metainfo_upsertPropertyDeclarationStatement_spec
        (Metainfo.upsertPropertyDeclarationCalls db1 between) t.id n pt2.id hwf2
    have e3 : (Metainfo.ProjectStorage.upsertPropertyDeclarationStatement
        (Metainfo.upsertPropertyDeclarationCalls db1 between) t.id n pt2.id).1 = db3 :=
      congrArg Prod.fst h3
    have e4 : (Metainfo.ProjectStorage.upsertPropertyDeclarationStatement
        (Metainfo.upsertPropertyDeclarationCalls db1 between) t.id n pt2.id).2 = id2 :=
      congrArg Prod.snd h3
    rw [e3] at hwf3 hkept3 hrow3
    rw [e4] at hrid3
    have hk1 : (row1.propertyDeclarationId, row1.typeId, row1.name)
        ∈ Metainfo.propertyKeys db3 :=
      hkept3 _ (hkept2 _ (List.mem_map.mpr ⟨row1, hrow1, rfl⟩))
    have hk3 : (row3.propertyDeclarationId, row3.typeId, row3.name)
        ∈ Metainfo.propertyKeys db3 :=
      List.mem_map.mpr ⟨row3, hrow3, rfl⟩
    have hkey := hwf3.eq_of_name hk1 hk3 (by simp [hrt1, hrn1, hrt3, hrn3])
    have hid : row1.propertyDeclarationId = row3.propertyDeclarationId :=
      congrArg (fun k => k.1) hkey
    have hids : id2 = id1 := by
      rw [InternalId.eq_iff_id, ← hrid1, ← hrid3, hid]
    have hfilter := keysWF_filter_singleton
      (fun row : Metainfo.PropertyDeclarationsRow =>
        (row.propertyDeclarationId, row.typeId, row.name)) hwf3 hrow3
    simp only [hrt3, hrn3] at hfilter
    refine ⟨hids, ?_, hwf3, ⟨row3, hfilter, ?_, hrp3⟩, ?_, ?_⟩
    · have := hnn1 hnn _ (List.mem_map.mpr ⟨row1, hrow1, rfl⟩)
      simp only [hrid1] at this
      simpa [InternalId.isValid] using this
    · rw [hrid3, hids]
    · rw [Metainfo.ProjectStorage.metainfo_fetchPropertyDeclarationByTypeIdAndName_own db3 hwf3
        t n row3 hrow3 hrt3 hrn3, ← hids, InternalId.eq_iff_id, hrid3]
    · intro order honly
      rw [Metainfo.ProjectStorage.metainfo_fetchPropertyDeclarationByTypeIdAndName_only order
          db3 t n row3 hrow3
          (hrt3 ▸ Metainfo.ProjectStorage.metainfo_mem_typeSelection_self _ _ _) hrn3,
        ← hids, InternalId.eq_iff_id, hrid3]
      intro other hother hname hsel
      have hkey : (other.propertyDeclarationId, other.typeId, other.name)
          = (row3.propertyDeclarationId, row3.typeId, row3.name) := by
        refine hwf3.eq_of_name (List.mem_map.mpr ⟨other, hother, rfl⟩) hk3 ?_
        simp [honly other hother hname hsel, hname, hrt3, hrn3]
      exact congrArg (fun k => k.1) hkey

theorem upsertPropertyDeclaration_same_id_witness :
    (fetchPropertyDeclarationByTypeIdAndName .asProduced
      (upsertPropertyDeclaration (upsertPropertyDeclarationCalls
        (upsertPropertyDeclaration Sample.chainDatabase { id := 4 } "foo" { id := 5 }).1
        [({ id := 4 }, "bar", { id := 5 })]) { id := 4 } "foo" { id := 1 }).1
      { id := 4 } "foo" = { id := 4 }) ∧
    (Metainfo.ProjectStorage.fetchPropertyDeclarationByTypeIdAndName
      Metainfo.ProjectStorage.propertyDeclarationsScan
      (Metainfo.ProjectStorage.upsertPropertyDeclaration (Metainfo.upsertPropertyDeclarationCalls
        (Metainfo.ProjectStorage.upsertPropertyDeclaration Metainfo.Sample.objectDatabase
          { id := 1 } "foo" { id := 2 }).1
        [({ id := 2 }, "foo", { id := 2 })]) { id := 1 } "foo" { id := 1 }).1
      { id := 1 } "foo" = { id := 1 }) :=
  ⟨(upsertPropertyDeclaration_same_id.1 Sample.chainDatabase (by unfold KeysWF; decide)
      (by decide) { id := 4 } "foo" { id := 5 } { id := 1 } [({ id := 4 }, "bar", { id := 5 })]
      _ _ _ _ rfl rfl).2.2.2.2.1,
   (upsertPropertyDeclaration_same_id.2 Metainfo.Sample.objectDatabase
      (by unfold KeysWF; decide) (by decide) { id := 1 } "foo" { id := 2 } { id := 1 }
      [({ id := 2 }, "foo", { id := 2 })] _ _ _ _ rfl rfl).2.2.2.2.2
      Metainfo.ProjectStorage.propertyDeclarationsScan (by decide)⟩

end ProjectStorage

/-! ## Forward references, hydration of one type, the prototype chain -/

namespace ProjectStorage

/-- C15, as stated, fails.  In the batch `[D, B]`, `D` names the prototype `B` and precedes it.
When `D` has the default source id the call commits and leaves `B` alone: no row named `D` is
stored, so no `prototypeId` of `D` is the id of `B`.  When `B` has the default source id the
call raises and stores nothing, so no row is named `B`. -/
theorem synchronizeTypes_forward_reference_not_stored :
    (Sample.sourcelessD.prototype = Sample.forwardB.typeName ∧
     (synchronizeTypes {} [Sample.sourcelessD, Sample.forwardB] [{ id := 1 }, { id := 2 }]).result
        = .ok () ∧
     (synchronizeTypes {} [Sample.sourcelessD, Sample.forwardB]
        [{ id := 1 }, { id := 2 }]).database.types
        = [{ typeId := 1, name := "B", accessSemantics := some 2, sourceId := some 2 }] ∧
     ¬∃ row ∈ (synchronizeTypes {} [Sample.sourcelessD, Sample.forwardB]
        [{ id := 1 }, { id := 2 }]).database.types, row.name = "D") ∧
    (Sample.forwardD.prototype = Sample.sourcelessB.typeName ∧
     (synchronizeTypes {} [Sample.forwardD, Sample.sourcelessB] [{ id := 1 }, { id := 2 }]).result
        = .error .ConstraintPreventsModification ∧
     ¬∃ row ∈ (synchronizeTypes {} [Sample.forwardD, Sample.sourcelessB]
        [{ id := 1 }, { id := 2 }]).database.types, row.name = "B") := by
  decide

/-- C15, amended: when a `synchronizeTypes` call commits whose batch has one entry `D` that
names as its prototype the one entry `B` of the batch, wherever `B` stands in the batch, and the
source id of `D` is not `-1`, then afterwards there is exactly one row named `B`, the row of `D`
has the typeId of that row as its `prototypeId`, and the row of `B` holds the access semantics
and the source id of the entry `B` (which is not `-1` either). -/
theorem synchronizeTypes_forward_reference (db : Database) (hwf : TypesWF db.types)
    (types : List Storage.Type_) (sourceIds : List SourceId) (D B : Storage.Type_)
    (hD : D ∈ types) (hDsame : ∀ x ∈ types, x.typeName = D.typeName → x = D)
    (hB : B ∈ types) (hBsame : ∀ x ∈ types, x.typeName = B.typeName → x = B)
    (hproto : D.prototype = B.typeName) (hBname : B.typeName ≠ "")
    (hsource : D.sourceId.id ≠ -1)
    (hcommit : (synchronizeTypes db types sourceIds).result = .ok ()) :
    ∃ rowB rowD,
      (synchronizeTypes db types sourceIds).database.types.filter
        (fun row => row.name = B.typeName) = [rowB] ∧
      rowD ∈ (synchronizeTypes db types sourceIds).database.types ∧
      rowD.name = D.typeName ∧ rowD.prototypeId = some rowB.typeId ∧
      rowB.accessSemantics = some B.accessSemantics.toInt ∧
      rowB.sourceId = some B.sourceId.id ∧ B.sourceId.id ≠ -1 := by
  obtain ⟨s1, ids, s2, h1, h2, hfk, hdb⟩ := synchronizeTypes_ok hcommit
  have htypes : (synchronizeTypes db types sourceIds).database.types =
      s1.database.types.filter fun row =>
        !notUpdatedTypeInSources (sourceIds.map (·.id)) (ids.map (·.id)) row := by
    rw [hdb, deleteNotUpdatedTypes_ok h2]
  obtain ⟨hwf1, _, hstore⟩ := syncTypes_spec types _ s1 ids h1 hwf
  obtain ⟨rowD, ⟨hrowD, hDname, _, hDsrc, _, hDp⟩, hDid⟩ := hstore D hD hDsame
  obtain ⟨rowB, ⟨hrowB, hBrname, hBsem, hBsrc, _, _⟩, _⟩ := hstore B hB hBsame
  have hDsrc1 : rowD.sourceId = some D.sourceId.id := by
    rw [hDsrc]; unfold nullif; rw [if_neg hsource]
  have hDkept : rowD ∈ (synchronizeTypes db types sourceIds).database.types := by
    rw [htypes]
    refine List.mem_filter.mpr ⟨hrowD, ?_⟩
    simp [notUpdatedTypeInSources, hDsrc1, hDid]
  have hsub : ∀ r ∈ (synchronizeTypes db types sourceIds).database.types,
      r ∈ s1.database.types := by
    intro r hr
    rw [htypes] at hr
    exact (List.mem_filter.mp hr).1
  obtain ⟨proto, hprotomem, hprotoname, hprotoid⟩ := hDp (by rw [hproto]; exact hBname)
  have hprotoB : proto = rowB :=
    hwf1.row_of_name hprotomem hrowB (by rw [hprotoname, hproto, hBrname])
  rw [hprotoB] at hprotoid
  have hall := List.all_eq_true.mp hfk rowD (by rw [← hdb]; exact hDkept)
  rw [hprotoid] at hall
  simp only [List.any_eq_true, decide_eq_true_eq] at hall
  obtain ⟨parent, hparent, hparentid⟩ := hall
  have hparent1 : parent ∈ (synchronizeTypes db types sourceIds).database.types := by
    rw [hdb]; exact hparent
  have hparentB : parent = rowB := hwf1.row_of_typeId (hsub parent hparent1) hrowB hparentid
  rw [hparentB] at hparent1
  have hBsome : rowB.sourceId ≠ none := by
    intro hnone
    rw [htypes] at hparent1
    have := (List.mem_filter.mp hparent1).2
    simp [notUpdatedTypeInSources, hnone] at this
  have hBvalid : B.sourceId.id ≠ -1 := by
    intro h
    apply hBsome
    rw [hBsrc]; unfold nullif; rw [if_pos h]
  have hBsrc1 : rowB.sourceId = some B.sourceId.id := by
    rw [hBsrc]; unfold nullif; rw [if_neg hBvalid]
  have hnodup : ((synchronizeTypes db types sourceIds).database.types.map (·.name)).Nodup := by
    rw [htypes]
    exact hwf1.2.1.sublist ((List.filter_sublist _).map _)
  have hfilter := filter_eq_singleton (fun r : TypesRow => r.name) _ rowB hnodup hparent1
  simp only [hBrname] at hfilter
  exact ⟨rowB, rowD, hfilter, hDkept, hDname, hprotoid, hBsem, hBsrc1, hBvalid⟩

theorem synchronizeTypes_forward_reference_witness :
    ∃ rowB rowD,
      (synchronizeTypes {} [Sample.forwardD, Sample.forwardB]
        [{ id := 1 }, { id := 2 }]).database.types.filter
          (fun row => row.name = Sample.forwardB.typeName) = [rowB] ∧
      rowD ∈ (synchronizeTypes {} [Sample.forwardD, Sample.forwardB]
        [{ id := 1 }, { id := 2 }]).database.types ∧
      rowD.name = Sample.forwardD.typeName ∧ rowD.prototypeId = some rowB.typeId ∧
      rowB.accessSemantics = some Sample.forwardB.accessSemantics.toInt ∧
      rowB.sourceId = some Sample.forwardB.sourceId.id ∧ Sample.forwardB.sourceId.id ≠ -1 :=
  synchronizeTypes_forward_reference {} (by unfold TypesWF; decide)
    [Sample.forwardD, Sample.forwardB] [{ id := 1 }, { id := 2 }] Sample.forwardD Sample.forwardB
    (by decide) (by decide) (by decide) (by decide) (by decide) (by decide) (by decide)
    (by decide)

theorem map_propertyDeclarations_fetchTypes (order : Sqlite.RowOrder ExportedTypesRow)
    (json : JsonEach) (db : Database) :
    (fetchTypes order json db).map (·.propertyDeclarations)
      = db.types.map fun row => fetchPropertyDeclarations db { id := row.typeId } := by
  simp [fetchTypes, selectTypesStatement, List.map_map, Function.comp]

theorem map_typeId_fetchTypes (order : Sqlite.RowOrder ExportedTypesRow)
    (json : JsonEach) (db : Database) :
    (fetchTypes order json db).map (·.typeId) = db.types.map fun row => { id := row.typeId } := by
  simp [fetchTypes, selectTypesStatement, List.map_map, Function.comp]

theorem map_typeName_fetchTypes (order : Sqlite.RowOrder ExportedTypesRow)
    (json : JsonEach) (db : Database) :
    (fetchTypes order json db).map (·.typeName) = db.types.map (·.name) := by
  simp [fetchTypes, selectTypesStatement, List.map_map, Function.comp]

theorem map_functionNames_fetchTypes (order : Sqlite.RowOrder ExportedTypesRow)
    (json : JsonEach) (db : Database) :
    (fetchTypes order json db).map (fun type => type.functionDeclarations.map (·.name))
      = db.types.map fun row =>
          (sortByName (·.name)
            (db.functionDeclarations.filter fun f => f.typeId = row.typeId)).map (·.name) := by
  simp [fetchTypes, selectTypesStatement, fetchFunctionDeclarations, List.map_map, Function.comp]

/-- C17: the code at the failing input, and in general.  `fetchTypeByTypeId` reads the row of
the type and its exported types and nothing more: for every store and id its result has no
property, function, signal or enumeration declaration and the default type id.  On the store
after `synchronizeTypes([A], [1])`, `fetchTypes()` returns `A` with the id `1`, its property `p`
and its function `f`, while `fetchTypeByTypeId(1)` returns `A` with its exported name and
without them.  This holds for every order in which the engine returns the exported types and
for every reading of the JSON texts. -/
theorem fetchTypeByTypeId_not_hydrated (order : Sqlite.RowOrder ExportedTypesRow)
    (json : JsonEach) :
    (∀ (db : Database) (typeId : TypeId),
      (fetchTypeByTypeId order db typeId).propertyDeclarations = [] ∧
      (fetchTypeByTypeId order db typeId).functionDeclarations = [] ∧
      (fetchTypeByTypeId order db typeId).signalDeclarations = [] ∧
      (fetchTypeByTypeId order db typeId).enumerationDeclarations = [] ∧
      (fetchTypeByTypeId order db typeId).typeId = {}) ∧
    (fetchTypes order json Sample.singleDatabase).map (·.typeName) = ["A"] ∧
    (fetchTypes order json Sample.singleDatabase).map (·.typeId) = [{ id := 1 }] ∧
    (fetchTypes order json Sample.singleDatabase).map (·.propertyDeclarations)
      = [[{ name := "p", typeName := "", traits := 0 }]] ∧
    (fetchTypes order json Sample.singleDatabase).map
      (fun type => type.functionDeclarations.map (·.name)) = [["f"]] ∧
    fetchTypeByTypeId order Sample.singleDatabase { id := 1 }
      = { typeName := "A", accessSemantics := .Reference, sourceId := { id := 1 },
          exportedTypes := Sample.typeA.exportedTypes } ∧
    fetchTypeByTypeId order Sample.singleDatabase { id := 1 }
      ∉ fetchTypes order json Sample.singleDatabase := by
  have hgeneral : ∀ (db : Database) (typeId : TypeId),
      (fetchTypeByTypeId order db typeId).propertyDeclarations = [] ∧
      (fetchTypeByTypeId order db typeId).functionDeclarations = [] ∧
      (fetchTypeByTypeId order db typeId).signalDeclarations = [] ∧
      (fetchTypeByTypeId order db typeId).enumerationDeclarations = [] ∧
      (fetchTypeByTypeId order db typeId).typeId = {} := by
    intro db typeId
    unfold fetchTypeByTypeId selectTypeByTypeIdStatement
    split <;> exact ⟨rfl, rfl, rfl, rfl, rfl⟩
  have hid := map_typeId_fetchTypes order json Sample.singleDatabase
  have hids : (Sample.singleDatabase.types.map fun row => ({ id := row.typeId } : TypeId))
      = [{ id := 1 }] := by decide
  have hrows : Sample.singleDatabase.exportedTypes.filter
      (fun row => row.typeId = ({ id := 1 } : TypeId).id)
      = [{ qualifiedName := "Qml.A", typeId := 1, majorVersion := 1, minorVersion := 0 }] := by
    decide
  have hrow : selectTypeByTypeIdStatement Sample.singleDatabase ({ id := 1 } : TypeId).id
      = { typeName := "A", accessSemantics := .Reference, sourceId := { id := 1 } } := by
    decide
  refine ⟨hgeneral, ?_, ?_, ?_, ?_, ?_, ?_⟩
  · rw [map_typeName_fetchTypes]; decide
  · rw [hid, hids]
  · rw [map_propertyDeclarations_fetchTypes]; decide
  · rw [map_functionNames_fetchTypes]; decide
  · unfold fetchTypeByTypeId fetchExportedTypes selectExportedTypesByTypeIdStatement
    rw [hrows, order.arrange_singleton, hrow]
    rfl
  · intro hmem
    have h1 : (fetchTypeByTypeId order Sample.singleDatabase { id := 1 }).typeId
        ∈ (fetchTypes order json Sample.singleDatabase).map (·.typeId) :=
      List.mem_map.mpr ⟨_, hmem, rfl⟩
    rw [hid, hids, (hgeneral _ _).2.2.2.2] at h1
    revert h1
    decide

/-- C18: the code at the failing input, and for every root.  `fetchPrototypes` reads every row
of the recursive selection, the null `prototypeId` of the root included, so the sequence does
not end with the root: for a type without prototype the result is the type followed by the
reading of the null column (`nullValue`), and on the store of the chain tests the result for
`QQuickItem` is `QQuickItem`, `QObject`, `Base` followed by that reading. -/
theorem fetchPrototypes_element_after_root (nullValue : Int) (db : Database)
    (hwf : TypesWF db.types) (root : TypesRow) (hroot : root ∈ db.types)
    (hnone : root.prototypeId = none) :
    fetchPrototypes nullValue db { id := root.typeId }
      = [{ id := root.typeId }, { id := nullValue }] ∧
    fetchPrototypes nullValue Sample.chainDatabase { id := 3 }
      = [{ id := 3 }, { id := 2 }, { id := 1 }, { id := nullValue }] := by
  constructor
  · unfold fetchPrototypes selectPrototypeIdsStatement
    cases hlen : db.types.length with
    | zero =>
      have := List.length_pos_of_mem hroot
      omega
    | succ n =>
      simp only [typeSelection, find_typeId hwf hroot, hnone]
      rfl
  · rfl

theorem fetchPrototypes_element_after_root_witness :
    fetchPrototypes 0 Sample.chainDatabase { id := 1 } = [{ id := 1 }, { id := 0 }] ∧
    fetchPrototypes 0 Sample.chainDatabase { id := 3 }
      = [{ id := 3 }, { id := 2 }, { id := 1 }, { id := 0 }] :=
  fetchPrototypes_element_after_root 0 Sample.chainDatabase (by unfold TypesWF; decide)
    { typeId := 1, name := "Base", accessSemantics := some 1, sourceId := some 1 }
    (by decide) rfl

end ProjectStorage

/-! ## Round trip through the empty store -/

theorem forall₂_exists_of_mem_left {α β : Type} {R : α → β → Prop} {l1 : List α} {l2 : List β}
    (h : List.Forall₂ R l1 l2) : ∀ a ∈ l1, ∃ b ∈ l2, R a b := by
  induction h with
  | nil => intro a ha; simp at ha
  | cons hab _ ih =>
    intro a ha
    rcases List.mem_cons.mp ha with rfl | ha
    · exact ⟨_, List.mem_cons_self _ _, hab⟩
    · obtain ⟨b, hb, hr⟩ := ih a ha
      exact ⟨b, List.mem_cons_of_mem _ hb, hr⟩

theorem forall₂_map_eq {α β γ : Type} {R : α → β → Prop} {f : α → γ} {g : β → γ}
    {l1 : List α} {l2 : List β} (h : List.Forall₂ R l1 l2) :
    (∀ a b, a ∈ l1 → b ∈ l2 → R a b → f a = g b) → l1.map f = l2.map g := by
  induction h with
  | nil => intro _; rfl
  | cons hab _ ih =>
    intro hfg
    simp only [List.map_cons]
    rw [hfg _ _ (List.mem_cons_self _ _) (List.mem_cons_self _ _) hab,
      ih fun a b ha hb => hfg a b (List.mem_cons_of_mem _ ha) (List.mem_cons_of_mem _ hb)]

theorem forall₂_imp_mem {α β : Type} {R S : α → β → Prop} {l1 : List α} {l2 : List β}
    (h : List.Forall₂ R l1 l2) :
    (∀ a b, a ∈ l1 → b ∈ l2 → R a b → S a b) → List.Forall₂ S l1 l2 := by
  induction h with
  | nil => intro _; exact List.Forall₂.nil
  | cons hab _ ih =>
    intro hrs
    exact List.Forall₂.cons (hrs _ _ (List.mem_cons_self _ _) (List.mem_cons_self _ _) hab)
      (ih fun a b ha hb => hrs a b (List.mem_cons_of_mem _ ha) (List.mem_cons_of_mem _ hb))

theorem exists_mem_zip_of_mem {α β : Type} : ∀ (l1 : List α) (l2 : List β),
    l1.length = l2.length → ∀ a ∈ l1, ∃ b, (a, b) ∈ l1.zip l2 := by
  intro l1
  induction l1 with
  | nil => intro _ _ a ha; simp at ha
  | cons x xs ih =>
    intro l2 hlen a ha
    cases l2 with
    | nil => simp at hlen
    | cons y ys =>
      rcases List.mem_cons.mp ha with rfl | ha
      · exact ⟨y, by simp⟩
      · obtain ⟨b, hb⟩ := ih ys (by simpa using hlen) a ha
        exact ⟨b, by simp [hb]⟩

namespace TableInv

variable {R D : Type} {rows : List R} {typeIdOf : R → Int} {Stores : Int → R → D → Prop}
  {decls : Storage.Type_ → List D} {processed : List (Storage.Type_ × Int)}

theorem empty (typeIdOf : R → Int) (Stores : Int → R → D → Prop)
    (decls : Storage.Type_ → List D) : TableInv ([] : List R) typeIdOf Stores decls [] :=
  ⟨fun _ h => by simp at h, fun _ h => by simp at h⟩

/-- Every row of the table is a declaration of a processed type. -/
theorem payload (h : TableInv rows typeIdOf Stores decls processed) :
    ∀ row ∈ rows, ∃ p ∈ processed, ∃ d ∈ decls p.1, Stores p.2 row d := by
  intro row hrow
  obtain ⟨p, hp, hpid⟩ := List.mem_map.mp (h.owned row hrow)
  have hmem : row ∈ rows.filter fun row => typeIdOf row = p.2 := by
    simp [hrow, hpid]
  obtain ⟨d, hd, hs⟩ := forall₂_exists_of_mem_left (h.stored p hp) row hmem
  exact ⟨p, hp, d, hd, hs⟩

theorem weaken {Stores1 : Int → R → D → Prop}
    (h : TableInv rows typeIdOf Stores decls processed)
    (himp : ∀ t row d, Stores t row d → Stores1 t row d) :
    TableInv rows typeIdOf Stores1 decls processed :=
  ⟨h.owned, fun p hp => (h.stored p hp).imp fun _ _ => himp _ _ _⟩

/-- The rows a newly processed type adds at the end of the table keep the invariant. -/
theorem append (h : TableInv rows typeIdOf Stores decls processed)
    (type : Storage.Type_) (typeId : Int) (added : List R)
    (hfresh : typeId ∉ processed.map (·.2))
    (hadded : List.Forall₂ (Stores typeId) added (decls type))
    (htid : ∀ t row d, Stores t row d → typeIdOf row = t) :
    TableInv (rows ++ added) typeIdOf Stores decls (processed ++ [(type, typeId)]) := by
  have haddedId : ∀ row ∈ added, typeIdOf row = typeId := by
    intro row hrow
    obtain ⟨d, _, hs⟩ := forall₂_exists_of_mem_left hadded row hrow
    exact htid _ _ _ hs
  constructor
  · intro row hrow
    rw [List.map_append]
    rcases List.mem_append.mp hrow with hrow | hrow
    · exact List.mem_append_left _ (h.owned row hrow)
    · exact List.mem_append_right _ (by simp [haddedId row hrow])
  · intro p hp
    rw [List.filter_append]
    rcases List.mem_append.mp hp with hp | hp
    · have hne : p.2 ≠ typeId := fun heq => hfresh (heq ▸ List.mem_map.mpr ⟨p, hp, rfl⟩)
      have hnone : added.filter (fun row => typeIdOf row = p.2) = [] := by
        apply List.filter_eq_nil_iff.mpr
        intro row hrow
        simp only [decide_eq_true_eq]
        rw [haddedId row hrow]
        exact fun heq => hne heq.symm
      rw [hnone, List.append_nil]
      exact h.stored p hp
    · simp only [List.mem_singleton] at hp
      subst hp
      have hnone : rows.filter (fun row => typeIdOf row = typeId) = [] := by
        apply List.filter_eq_nil_iff.mpr
        intro row hrow
        simp only [decide_eq_true_eq]
        intro heq
        exact hfresh (heq ▸ h.owned row hrow)
      have hall : added.filter (fun row => typeIdOf row = typeId) = added := by
        apply List.filter_eq_self.mpr
        intro row hrow
        simp [haddedId row hrow]
      simp only
      rw [hnone, hall, List.nil_append]
      exact hadded

end TableInv

theorem insertUpdateDeleteLoop_inserts {σ V A : Type} {cmp : V → A → Ordering}
    {ins : A → σ → Except Error σ} {upd : V → A → σ → Except Error σ}
    {rem : V → σ → Except Error σ} :
    ∀ (fuel : Nat) (values : List A) (s s1 : σ), values.length ≤ fuel →
      Sqlite.insertUpdateDeleteLoop cmp ins upd rem fuel [] values s = .ok s1 →
      InsertedAll ins values s s1 := by
  intro fuel
  induction fuel with
  | zero =>
    intro values s s1 hlen h
    have hnil : values = [] := List.length_eq_zero.mp (Nat.le_zero.mp hlen)
    subst hnil
    simp only [Sqlite.insertUpdateDeleteLoop, Except.ok.injEq] at h
    exact h.symm
  | succ fuel ih =>
    intro values s s1 hlen h
    cases values with
    | nil =>
      simp only [Sqlite.insertUpdateDeleteLoop, Except.ok.injEq] at h
      exact h.symm
    | cons value values =>
      simp only [Sqlite.insertUpdateDeleteLoop] at h
      cases hi : ins value s with
      | error e => simp [hi] at h
      | ok s0 =>
        simp only [hi] at h
        exact ⟨s0, hi, ih values s0 s1 (by simpa using hlen) h⟩

namespace ProjectStorage

theorem write_insertFunctionDeclaration {s s0 : Session} {typeId : Int}
    {name returnTypeName signature : String}
    (h : s.write (.insertFunctionDeclarationStatement typeId name returnTypeName signature)
      = .ok s0) :
    ∃ id, s0.database = { s.database with functionDeclarations :=
      s.database.functionDeclarations ++
        [{ functionDeclarationId := id, typeId := typeId, name := name,
           signature := signature, returnTypeName := returnTypeName }] } := by
  have hw := Session.write_database h
  simp only [WriteStatement.write, insertFunctionDeclarationStatement] at hw
  split at hw
  · simp at hw
  · simp only [Except.ok.injEq] at hw
    exact ⟨_, hw.symm⟩

theorem write_insertSignalDeclaration {s s0 : Session} {typeId : Int}
    {name signature : String}
    (h : s.write (.insertSignalDeclarationStatement typeId name signature) = .ok s0) :
    ∃ id, s0.database = { s.database with signalDeclarations :=
      s.database.signalDeclarations ++
        [{ signalDeclarationId := id, typeId := typeId, name := name,
           signature := signature }] } := by
  have hw := Session.write_database h
  simp only [WriteStatement.write, insertSignalDeclarationStatement] at hw
  split at hw
  · simp at hw
  · simp only [Except.ok.injEq] at hw
    exact ⟨_, hw.symm⟩

theorem write_insertEnumerationDeclaration {s s0 : Session} {typeId : Int}
    {name enumeratorDeclarations : String}
    (h : s.write (.insertEnumerationDeclarationStatement typeId name enumeratorDeclarations)
      = .ok s0) :
    ∃ id, s0.database = { s.database with enumerationDeclarations :=
      s.database.enumerationDeclarations ++
        [{ enumerationDeclarationId := id, typeId := typeId, name := name,
           enumeratorDeclarations := enumeratorDeclarations }] } := by
  have hw := Session.write_database h
  simp only [WriteStatement.write, insertEnumerationDeclarationStatement] at hw
  split at hw
  · simp at hw
  · simp only [Except.ok.injEq] at hw
    exact ⟨_, hw.symm⟩

theorem write_insertPropertyDeclaration {s s0 : Session} {typeId : Int} {name : String}
    {propertyTypeId traits : Int}
    (h : s.write (.insertPropertyDeclarationStatement typeId name propertyTypeId traits)
      = .ok s0) :
    ∃ id, s0.database = { s.database with propertyDeclarations :=
      s.database.propertyDeclarations ++
        [{ propertyDeclarationId := id, typeId := typeId, name := name,
           propertyTypeId := propertyTypeId, propertyTraits := some traits }] } := by
  have hw := Session.write_database h
  simp only [WriteStatement.write, insertPropertyDeclarationStatement] at hw
  split at hw
  · simp at hw
  · simp only [Except.ok.injEq] at hw
    exact ⟨_, hw.symm⟩

theorem insertedAll_functions (typeId : TypeId) :
    ∀ (values : List Storage.FunctionDeclaration) (s s1 : Session),
      InsertedAll (synchronizeFunctionDeclarations.insert typeId) values s s1 →
      ∃ added, s1.database = { s.database with functionDeclarations :=
          s.database.functionDeclarations ++ added } ∧
        List.Forall₂ (StoresFunction typeId.id) added values := by
  intro values
  induction values with
  | nil =>
    intro s s1 h
    simp only [InsertedAll] at h
    subst h
    exact ⟨[], by simp, List.Forall₂.nil⟩
  | cons value values ih =>
    intro s s1 h
    obtain ⟨s0, hi, hrest⟩ := h
    obtain ⟨id, h0⟩ := write_insertFunctionDeclaration hi
    obtain ⟨added, h1, hall⟩ := ih s0 s1 hrest
    refine ⟨({ functionDeclarationId := id, typeId := typeId.id, name := value.name,
               signature := createJson value.parameters,
               returnTypeName := value.returnTypeName } : FunctionDeclarationsRow) :: added,
      ?_, List.Forall₂.cons ⟨rfl, rfl, rfl, rfl⟩ hall⟩
    rw [h1, h0]
    simp

theorem insertedAll_signals (typeId : TypeId) :
    ∀ (values : List Storage.SignalDeclaration) (s s1 : Session),
      InsertedAll (synchronizeSignalDeclarations.insert typeId) values s s1 →
      ∃ added, s1.database = { s.database with signalDeclarations :=
          s.database.signalDeclarations ++ added } ∧
        List.Forall₂ (StoresSignal typeId.id) added values := by
  intro values
  induction values with
  | nil =>
    intro s s1 h
    simp only [InsertedAll] at h
    subst h
    exact ⟨[], by simp, List.Forall₂.nil⟩
  | cons value values ih =>
    intro s s1 h
    obtain ⟨s0, hi, hrest⟩ := h
    obtain ⟨id, h0⟩ := write_insertSignalDeclaration hi
    obtain ⟨added, h1, hall⟩ := ih s0 s1 hrest
    refine ⟨({ signalDeclarationId := id, typeId := typeId.id, name := value.name,
               signature := createJson value.parameters } : SignalDeclarationsRow) :: added,
      ?_, List.Forall₂.cons ⟨rfl, rfl, rfl⟩ hall⟩
    rw [h1, h0]
    simp

theorem insertedAll_enumerations (typeId : TypeId) :
    ∀ (values : List Storage.EnumerationDeclaration) (s s1 : Session),
      InsertedAll (synchronizeEnumerationDeclarations.insert typeId) values s s1 →
      ∃ added, s1.database = { s.database with enumerationDeclarations :=
          s.database.enumerationDeclarations ++ added } ∧
        List.Forall₂ (StoresEnumeration typeId.id) added values := by
  intro values
  induction values with
  | nil =>
    intro s s1 h
    simp only [InsertedAll] at h
    subst h
    exact ⟨[], by simp, List.Forall₂.nil⟩
  | cons value values ih =>
    intro s s1 h
    obtain ⟨s0, hi, hrest⟩ := h
    obtain ⟨id, h0⟩ := write_insertEnumerationDeclaration hi
    obtain ⟨added, h1, hall⟩ := ih s0 s1 hrest
    refine ⟨({ enumerationDeclarationId := id, typeId := typeId.id, name := value.name,
               enumeratorDeclarations :=
                 createJsonEnumeratorDeclarations value.enumeratorDeclarations } :
              EnumerationDeclarationsRow) :: added,
      ?_, List.Forall₂.cons ⟨rfl, rfl, rfl⟩ hall⟩
    rw [h1, h0]
    simp

end ProjectStorage

theorem StoresProperty.persist {types types1 : List TypesRow} {typeId : Int}
    {row : PropertyDeclarationsRow} {property : Storage.PropertyDeclaration}
    (h : StoresProperty types typeId row property)
    (hp : TypesPersist types types1) : StoresProperty types1 typeId row property := by
  obtain ⟨h1, h2, h3, h4⟩ := h
  refine ⟨h1, h2, h3, ?_⟩
  rcases h4 with h4 | ⟨hne, r, hr, hname, hid⟩
  · exact Or.inl h4
  · obtain ⟨r1, hr1, hid1, hname1⟩ := hp r hr
    exact Or.inr ⟨hne, r1, hr1, hname1.trans hname, hid1.trans hid⟩

namespace ProjectStorage

/-- What `fetchTypeIdByName` leaves: only `types` may differ, its rows are kept, and the id it
returns is `-1` for the empty name and the id of the row of that name otherwise. -/
theorem fetchTypeIdByName_names {name : String} {s s1 : Session} {typeId : TypeId}
    (h : fetchTypeIdByName name s = .ok (s1, typeId)) :
    s1.database = { s.database with types := s1.database.types } ∧
    (∀ r ∈ s.database.types, r ∈ s1.database.types) ∧
    ((name = "" ∧ typeId.id = -1) ∨
     (name ≠ "" ∧ ∃ r ∈ s1.database.types, r.name = name ∧ r.typeId = typeId.id)) := by
  obtain ⟨_, hcases⟩ := fetchTypeIdByName_cases h
  rcases hcases with ⟨hdb, hsame⟩ | ⟨hne, _, hid, hdb⟩
  · rw [hdb]
    refine ⟨rfl, fun r hr => hr, ?_⟩
    rcases hsame with ⟨hn, ht⟩ | ⟨hn, _, row, hrow, hname, hrid⟩
    · exact Or.inl ⟨hn, by rw [ht]⟩
    · exact Or.inr ⟨hn, row, hrow, hname, hrid⟩
  · rw [hdb]
    refine ⟨rfl, fun r hr => List.mem_append_left _ hr,
      Or.inr ⟨hne, { typeId := typeId.id, name := name }, ?_, rfl, rfl⟩⟩
    exact List.mem_append_right _ (List.mem_singleton.mpr rfl)

theorem insertedAll_properties (typeId : TypeId) :
    ∀ (values : List Storage.PropertyDeclaration) (s s1 : Session),
      InsertedAll (synchronizePropertyDeclarations.insert typeId) values s s1 →
      ∃ added, s1.database = { s.database with
          types := s1.database.types,
          propertyDeclarations := s.database.propertyDeclarations ++ added } ∧
        (∀ r ∈ s.database.types, r ∈ s1.database.types) ∧
        List.Forall₂ (StoresProperty s1.database.types typeId.id) added values := by
  intro values
  induction values with
  | nil =>
    intro s s1 h
    simp only [InsertedAll] at h
    subst h
    exact ⟨[], by simp, fun r hr => hr, List.Forall₂.nil⟩
  | cons value values ih =>
    intro s s1 h
    obtain ⟨s0, hi, hrest⟩ := h
    unfold synchronizePropertyDeclarations.insert at hi
    cases hf : fetchTypeIdByName value.typeName s with
    | error e => simp [hf] at hi
    | ok r =>
      obtain ⟨sa, propertyTypeId⟩ := r
      simp only [hf] at hi
      obtain ⟨hframe, hkept, hpt⟩ := fetchTypeIdByName_names hf
      obtain ⟨id, h0⟩ := write_insertPropertyDeclaration hi
      obtain ⟨added, h1, hkept1, hall⟩ := ih s0 s1 hrest
      have htypes0 : s0.database.types = sa.database.types := by rw [h0]
      have hprops0 : s0.database.propertyDeclarations = s.database.propertyDeclarations ++
          [{ propertyDeclarationId := id, typeId := typeId.id, name := value.name,
             propertyTypeId := propertyTypeId.id, propertyTraits := some value.traits }] := by
        rw [h0, hframe]
      have hstored : StoresProperty s1.database.types typeId.id
          { propertyDeclarationId := id, typeId := typeId.id, name := value.name,
            propertyTypeId := propertyTypeId.id, propertyTraits := some value.traits }
          value := by
        refine ⟨rfl, rfl, rfl, ?_⟩
        rcases hpt with hpt | ⟨hne, r, hr, hname, hid⟩
        · exact Or.inl hpt
        · exact Or.inr ⟨hne, r, hkept1 r (by rw [htypes0]; exact hr), hname, hid⟩
      refine ⟨_ :: added, ?_, fun r hr => hkept1 r (by rw [htypes0]; exact hkept r hr),
        List.Forall₂.cons hstored hall⟩
      rw [h1, hprops0, h0, hframe]
      simp

end ProjectStorage

namespace ProjectStorage

theorem synchronizePropertyDeclarations_fresh {typeId : TypeId}
    {propertyDeclarations : List Storage.PropertyDeclaration} {s s1 : Session}
    (h : synchronizePropertyDeclarations typeId propertyDeclarations s = .ok s1)
    (hfresh : ∀ row ∈ s.database.propertyDeclarations, row.typeId ≠ typeId.id) :
    ∃ added, s1.database = { s.database with
        types := s1.database.types,
        propertyDeclarations := s.database.propertyDeclarations ++ added } ∧
      (∀ r ∈ s.database.types, r ∈ s1.database.types) ∧
      List.Forall₂ (StoresProperty s1.database.types typeId.id) added
        (sortByName (·.name) propertyDeclarations) := by
  have hrange : selectPropertyDeclarationsForTypeIdStatement s.database typeId.id = [] := by
    unfold selectPropertyDeclarationsForTypeIdStatement
    have hnone : s.database.propertyDeclarations.filter (fun row => row.typeId = typeId.id)
        = [] := List.filter_eq_nil_iff.mpr (by intro row hrow; simpa using hfresh row hrow)
    rw [hnone]; rfl
  unfold synchronizePropertyDeclarations Sqlite.insertUpdateDelete at h
  rw [hrange] at h
  exact insertedAll_properties typeId _ _ _
    (insertUpdateDeleteLoop_inserts _ _ _ _ (by simp) h)

theorem synchronizeFunctionDeclarations_fresh {typeId : TypeId}
    {functionsDeclarations : List Storage.FunctionDeclaration} {s s1 : Session}
    (h : synchronizeFunctionDeclarations typeId functionsDeclarations s = .ok s1)
    (hfresh : ∀ row ∈ s.database.functionDeclarations, row.typeId ≠ typeId.id) :
    ∃ added, s1.database = { s.database with functionDeclarations :=
        s.database.functionDeclarations ++ added } ∧
      List.Forall₂ (StoresFunction typeId.id) added
        (sortByName (·.name) functionsDeclarations) := by
  have hrange : selectFunctionDeclarationsForTypeIdStatement s.database typeId.id = [] := by
    unfold selectFunctionDeclarationsForTypeIdStatement
    have hnone : s.database.functionDeclarations.filter (fun row => row.typeId = typeId.id)
        = [] := List.filter_eq_nil_iff.mpr (by intro row hrow; simpa using hfresh row hrow)
    rw [hnone]; rfl
  unfold synchronizeFunctionDeclarations Sqlite.insertUpdateDelete at h
  rw [hrange] at h
  exact insertedAll_functions typeId _ _ _
    (insertUpdateDeleteLoop_inserts _ _ _ _ (by simp) h)

theorem synchronizeSignalDeclarations_fresh {typeId : TypeId}
    {signalDeclarations : List Storage.SignalDeclaration} {s s1 : Session}
    (h : synchronizeSignalDeclarations typeId signalDeclarations s = .ok s1)
    (hfresh : ∀ row ∈ s.database.signalDeclarations, row.typeId ≠ typeId.id) :
    ∃ added, s1.database = { s.database with signalDeclarations :=
        s.database.signalDeclarations ++ added } ∧
      List.Forall₂ (StoresSignal typeId.id) added
        (sortByName (·.name) signalDeclarations) := by
  have hrange : selectSignalDeclarationsForTypeIdStatement s.database typeId.id = [] := by
    unfold selectSignalDeclarationsForTypeIdStatement
    have hnone : s.database.signalDeclarations.filter (fun row => row.typeId = typeId.id)
        = [] := List.filter_eq_nil_iff.mpr (by intro row hrow; simpa using hfresh row hrow)
    rw [hnone]; rfl
  unfold synchronizeSignalDeclarations Sqlite.insertUpdateDelete at h
  rw [hrange] at h
  exact insertedAll_signals typeId _ _ _
    (insertUpdateDeleteLoop_inserts _ _ _ _ (by simp) h)

theorem synchronizeEnumerationDeclarations_fresh {typeId : TypeId}
    {enumerationDeclarations : List Storage.EnumerationDeclaration} {s s1 : Session}
    (h : synchronizeEnumerationDeclarations typeId enumerationDeclarations s = .ok s1)
    (hfresh : ∀ row ∈ s.database.enumerationDeclarations, row.typeId ≠ typeId.id) :
    ∃ added, s1.database = { s.database with enumerationDeclarations :=
        s.database.enumerationDeclarations ++ added } ∧
      List.Forall₂ (StoresEnumeration typeId.id) added
        (sortByName (·.name) enumerationDeclarations) := by
  have hrange : selectEnumerationDeclarationsForTypeIdStatement s.database typeId.id = [] := by
    unfold selectEnumerationDeclarationsForTypeIdStatement
    have hnone : s.database.enumerationDeclarations.filter
        (fun row => row.typeId = typeId.id) = [] :=
      List.filter_eq_nil_iff.mpr (by intro row hrow; simpa using hfresh row hrow)
    rw [hnone]; rfl
  unfold synchronizeEnumerationDeclarations Sqlite.insertUpdateDelete at h
  rw [hrange] at h
  exact insertedAll_enumerations typeId _ _ _
    (insertUpdateDeleteLoop_inserts _ _ _ _ (by simp) h)

theorem exportedType_eq {a b : Storage.ExportedType}
    (hname : a.qualifiedTypeName = b.qualifiedTypeName)
    (hmajor : a.version.major.version = b.version.major.version)
    (hminor : a.version.minor.version = b.version.minor.version) : a = b := by
  obtain ⟨an, ⟨⟨amaj⟩, ⟨amin⟩⟩⟩ := a
  obtain ⟨bn, ⟨⟨bmaj⟩, ⟨bmin⟩⟩⟩ := b
  simp only at hname hmajor hminor
  subst hname hmajor hminor
  rfl

/-- Exported types none of which is in the table yet, and no two of them equal, are appended
in their order. -/
theorem upsertExportedTypes_fresh (typeId : TypeId) :
    ∀ (exportedTypes : List Storage.ExportedType) (s s1 : Session),
      upsertExportedTypes typeId exportedTypes s = .ok s1 → exportedTypes.Nodup →
      (∀ e ∈ exportedTypes, ∀ row ∈ s.database.exportedTypes,
        ¬(row.qualifiedName = e.qualifiedTypeName ∧ row.majorVersion = e.version.major.version
          ∧ row.minorVersion = e.version.minor.version)) →
      ∃ added, s1.database = { s.database with exportedTypes :=
          s.database.exportedTypes ++ added } ∧
        List.Forall₂ (StoresExportedType typeId.id) added exportedTypes := by
  intro exportedTypes
  induction exportedTypes with
  | nil =>
    intro s s1 h _ _
    simp only [upsertExportedTypes, Except.ok.injEq] at h
    subst h
    exact ⟨[], by simp, List.Forall₂.nil⟩
  | cons e es ih =>
    intro s s1 h hnodup hfresh
    simp only [upsertExportedTypes] at h
    cases h0 : upsertExportedType e.qualifiedTypeName e.version typeId s with
    | error err => simp [h0] at h
    | ok s0 =>
      simp only [h0] at h
      have hw := Session.write_database h0
      simp only [WriteStatement.write, upsertExportedTypesStatement, Except.ok.injEq] at hw
      have hany : ¬(s.database.exportedTypes.any fun row =>
          decide (row.qualifiedName = e.qualifiedTypeName
            ∧ row.majorVersion = e.version.major.version
            ∧ row.minorVersion = e.version.minor.version)) = true := by
        intro hany
        rw [List.any_eq_true] at hany
        obtain ⟨row, hrow, hkey⟩ := hany
        exact hfresh e (List.mem_cons_self _ _) row hrow (by simpa using hkey)
      rw [if_neg hany] at hw
      have hnodup' := List.nodup_cons.mp hnodup
      obtain ⟨added, h1, hall⟩ := ih s0 s1 h hnodup'.2 (by
        intro e' he' row hrow hkey
        rw [← hw] at hrow
        rcases List.mem_append.mp hrow with hrow | hrow
        · exact hfresh e' (List.mem_cons_of_mem _ he') row hrow hkey
        · simp only [List.mem_singleton] at hrow
          subst hrow
          simp only at hkey
          exact hnodup'.1 (exportedType_eq hkey.1 hkey.2.1 hkey.2.2 ▸ he'))
      refine ⟨({ qualifiedName := e.qualifiedTypeName, typeId := typeId.id,
                 majorVersion := e.version.major.version,
                 minorVersion := e.version.minor.version } : ExportedTypesRow) :: added,
        ?_, List.Forall₂.cons ⟨rfl, rfl, rfl, rfl⟩ hall⟩
      rw [h1, ← hw]
      simp

/-- The steps of a successful `syncType`, one after the other. -/
theorem syncType_phases {type : Storage.Type_} {s s1 : Session} {typeId : TypeId}
    (h : syncType type s = .ok (s1, typeId)) :
    ∃ s0 prototypeId s2 s3 s4 s5,
      fetchTypeIdByName type.prototype s = .ok (s0, prototypeId) ∧
      typeId = (upsertTypeStatement s0.database type.typeName type.accessSemantics.toInt
        prototypeId.id (some type.sourceId.id)).2 ∧
      upsertExportedTypes typeId type.exportedTypes
        { s0 with database := (upsertTypeStatement s0.database type.typeName
            type.accessSemantics.toInt prototypeId.id (some type.sourceId.id)).1 } = .ok s2 ∧
      synchronizePropertyDeclarations typeId type.propertyDeclarations s2 = .ok s3 ∧
      synchronizeFunctionDeclarations typeId type.functionDeclarations s3 = .ok s4 ∧
      synchronizeSignalDeclarations typeId type.signalDeclarations s4 = .ok s5 ∧
      synchronizeEnumerationDeclarations typeId type.enumerationDeclarations s5 = .ok s1 := by
  unfold syncType at h
  cases hf : fetchTypeIdByName type.prototype s with
  | error e => simp [hf] at h
  | ok r =>
    obtain ⟨s0, prototypeId⟩ := r
    simp only [hf] at h
    cases he : upsertExportedTypes (upsertTypeStatement s0.database type.typeName
        type.accessSemantics.toInt prototypeId.id (some type.sourceId.id)).2 type.exportedTypes
        { s0 with database := (upsertTypeStatement s0.database type.typeName
            type.accessSemantics.toInt prototypeId.id (some type.sourceId.id)).1 } with
    | error e => simp [he] at h
    | ok s2 =>
      simp only [he] at h
      cases hp : synchronizePropertyDeclarations (upsertTypeStatement s0.database type.typeName
          type.accessSemantics.toInt prototypeId.id (some type.sourceId.id)).2
          type.propertyDeclarations s2 with
      | error e => simp [hp] at h
      | ok s3 =>
        simp only [hp] at h
        cases hfn : synchronizeFunctionDeclarations (upsertTypeStatement s0.database
            type.typeName type.accessSemantics.toInt prototypeId.id
            (some type.sourceId.id)).2 type.functionDeclarations s3 with
        | error e => simp [hfn] at h
        | ok s4 =>
          simp only [hfn] at h
          cases hsg : synchronizeSignalDeclarations (upsertTypeStatement s0.database
              type.typeName type.accessSemantics.toInt prototypeId.id
              (some type.sourceId.id)).2 type.signalDeclarations s4 with
          | error e => simp [hsg] at h
          | ok s5 =>
            simp only [hsg] at h
            cases hen : synchronizeEnumerationDeclarations (upsertTypeStatement s0.database
                type.typeName type.accessSemantics.toInt prototypeId.id
                (some type.sourceId.id)).2 type.enumerationDeclarations s5 with
            | error e => simp [hen] at h
            | ok s6 =>
              simp only [hen, Except.ok.injEq, Prod.mk.injEq] at h
              obtain ⟨rfl, rfl⟩ := h
              exact ⟨s0, prototypeId, s2, s3, s4, s5, rfl, rfl, he, hp, hfn, hsg, hen⟩

end ProjectStorage

namespace ProjectStorage

/-- A `syncType` call leaves in `types` the row of its type, rows that were there, and
placeholders without source. -/
theorem syncType_sourced {type : Storage.Type_} {s s1 : Session} {typeId : TypeId}
    (h : syncType type s = .ok (s1, typeId)) :
    ∀ r ∈ s1.database.types,
      r.name = type.typeName ∨ r ∈ s.database.types ∨ r.sourceId = none := by
  refine @syncType_rel
    (fun db db1 => ∀ r ∈ db1.types,
      r.name = type.typeName ∨ r ∈ db.types ∨ r.sourceId = none)
    (fun _ r hr => Or.inr (Or.inl hr)) ?_ ?_ ?_ type ?_ s s1 typeId h
  · intro a b c hab hbc r hr
    rcases hbc r hr with h1 | h1 | h1
    · exact Or.inl h1
    · exact hab r h1
    · exact Or.inr (Or.inr h1)
  · intro db db1 statement hsweep hw r hr
    have hsession : ({ database := db } : Session).write statement
        = .ok { database := db1, log := [] ++ [statement] } := by
      simp [Session.write, hw]
    have htypes := write_types hsweep hsession
    simp only at htypes
    rw [htypes] at hr
    exact Or.inr (Or.inl hr)
  · intro db db1 name id hi r hr
    unfold insertTypeStatement at hi
    split at hi
    · simp at hi
    · simp only [Except.ok.injEq, Prod.mk.injEq] at hi
      rw [← hi.1] at hr
      rcases List.mem_append.mp hr with hr | hr
      · exact Or.inr (Or.inl hr)
      · simp only [List.mem_singleton] at hr
        subst hr
        exact Or.inr (Or.inr rfl)
  · intro db p r hr
    unfold upsertTypeStatement at hr
    split at hr
    · obtain ⟨row, hrow, rfl⟩ := List.mem_map.mp hr
      by_cases hn : row.name = type.typeName
      · left; simp [hn]
      · right; left; simp [hn, hrow]
    · rcases List.mem_append.mp hr with hr | hr
      · exact Or.inr (Or.inl hr)
      · simp only [List.mem_singleton] at hr
        subst hr
        exact Or.inl rfl

/-- Synchronizing one more type of the batch keeps the invariant of the tables. -/
theorem syncType_batchInv {processed : List (Storage.Type_ × Int)} {type : Storage.Type_}
    {s s1 : Session} {typeId : TypeId}
    (hinv : BatchInv processed s.database) (h : syncType type s = .ok (s1, typeId))
    (hname : type.typeName ∉ processed.map (·.1.typeName))
    (hnodup : type.exportedTypes.Nodup)
    (hdisjoint : ∀ p ∈ processed, ∀ e ∈ type.exportedTypes, e ∉ p.1.exportedTypes) :
    BatchInv (processed ++ [(type, typeId.id)]) s1.database := by
  obtain ⟨hwf1, hpers, rowT, hstoreT, hrowTid⟩ := syncType_spec h hinv.wf
  have hfreshId : typeId.id ∉ processed.map (·.2) := by
    intro hmem
    obtain ⟨p, hp, hpid⟩ := List.mem_map.mp hmem
    obtain ⟨r, hr, hrid, hrname⟩ := hinv.named p hp
    obtain ⟨r1, hr1, hid1, hname1⟩ := hpers r hr
    have hsame : r1 = rowT :=
      hwf1.row_of_typeId hr1 hstoreT.1 (by rw [hid1, hrid, hpid, hrowTid])
    apply hname
    refine List.mem_map.mpr ⟨p, hp, ?_⟩
    rw [← hrname, ← hname1, hsame, hstoreT.2.1]
  have hfreshRows : ∀ {R : Type} (rows : List R) (typeIdOf : R → Int),
      (∀ row ∈ rows, typeIdOf row ∈ processed.map (·.2)) →
      ∀ row ∈ rows, typeIdOf row ≠ typeId.id := by
    intro R rows typeIdOf howned row hrow heq
    exact hfreshId (heq ▸ howned row hrow)
  obtain ⟨s0, prototypeId, s2, s3, s4, s5, hf, htid, he, hp, hfn, hsg, hen⟩ := syncType_phases h
  have e0 := (fetchTypeIdByName_frame hf).2.1
  have eU := upsertTypeStatement_frame s0.database type.typeName type.accessSemantics.toInt
    prototypeId.id (some type.sourceId.id)
  -- what the steps before the merges leave of the tables
  have hUE : (upsertTypeStatement s0.database type.typeName type.accessSemantics.toInt
      prototypeId.id (some type.sourceId.id)).1.exportedTypes = s.database.exportedTypes := by
    rw [eU]; simp only; rw [e0]
  have hUP : (upsertTypeStatement s0.database type.typeName type.accessSemantics.toInt
      prototypeId.id (some type.sourceId.id)).1.propertyDeclarations
      = s.database.propertyDeclarations := by
    rw [eU]; simp only; rw [e0]
  have hUF : (upsertTypeStatement s0.database type.typeName type.accessSemantics.toInt
      prototypeId.id (some type.sourceId.id)).1.functionDeclarations
      = s.database.functionDeclarations := by
    rw [eU]; simp only; rw [e0]
  have hUS : (upsertTypeStatement s0.database type.typeName type.accessSemantics.toInt
      prototypeId.id (some type.sourceId.id)).1.signalDeclarations
      = s.database.signalDeclarations := by
    rw [eU]; simp only; rw [e0]
  have hUN : (upsertTypeStatement s0.database type.typeName type.accessSemantics.toInt
      prototypeId.id (some type.sourceId.id)).1.enumerationDeclarations
      = s.database.enumerationDeclarations := by
    rw [eU]; simp only; rw [e0]
  -- exported types
  have hfreshE : ∀ e ∈ type.exportedTypes,
      ∀ row ∈ (upsertTypeStatement s0.database type.typeName type.accessSemantics.toInt
        prototypeId.id (some type.sourceId.id)).1.exportedTypes,
      ¬(row.qualifiedName = e.qualifiedTypeName ∧ row.majorVersion = e.version.major.version
        ∧ row.minorVersion = e.version.minor.version) := by
    intro e he' row hrow hkey
    rw [hUE] at hrow
    obtain ⟨p, hp', d, hd, hs⟩ := hinv.exported.payload row hrow
    have hde : d = e := exportedType_eq (hs.2.1.symm.trans hkey.1)
      (hs.2.2.1.symm.trans hkey.2.1) (hs.2.2.2.symm.trans hkey.2.2)
    exact hdisjoint p hp' e he' (hde ▸ hd)
  obtain ⟨addedE, e2, hallE⟩ := upsertExportedTypes_fresh typeId _ _ _ he hnodup hfreshE
  simp only at e2
  have h2E : s2.database.exportedTypes = s.database.exportedTypes ++ addedE := by
    rw [e2]; simp only; rw [hUE]
  have h2P : s2.database.propertyDeclarations = s.database.propertyDeclarations := by
    rw [e2]; exact hUP
  have h2F : s2.database.functionDeclarations = s.database.functionDeclarations := by
    rw [e2]; exact hUF
  have h2S : s2.database.signalDeclarations = s.database.signalDeclarations := by
    rw [e2]; exact hUS
  have h2N : s2.database.enumerationDeclarations = s.database.enumerationDeclarations := by
    rw [e2]; exact hUN
  -- property declarations
  obtain ⟨addedP, e3, _, hallP⟩ := synchronizePropertyDeclarations_fresh hp (by
    rw [h2P]; exact hfreshRows _ _ hinv.properties.owned)
  have h3E : s3.database.exportedTypes = s.database.exportedTypes ++ addedE := by
    rw [e3]; exact h2E
  have h3P : s3.database.propertyDeclarations = s.database.propertyDeclarations ++ addedP := by
    rw [e3]; simp only; rw [h2P]
  have h3F : s3.database.functionDeclarations = s.database.functionDeclarations := by
    rw [e3]; exact h2F
  have h3S : s3.database.signalDeclarations = s.database.signalDeclarations := by
    rw [e3]; exact h2S
  have h3N : s3.database.enumerationDeclarations = s.database.enumerationDeclarations := by
    rw [e3]; exact h2N
  -- function declarations
  obtain ⟨addedF, e4, hallF⟩ := synchronizeFunctionDeclarations_fresh hfn (by
    rw [h3F]; exact hfreshRows _ _ hinv.functions.owned)
  have h4T : s4.database.types = s3.database.types := by rw [e4]
  have h4E : s4.database.exportedTypes = s.database.exportedTypes ++ addedE := by
    rw [e4]; exact h3E
  have h4P : s4.database.propertyDeclarations = s.database.propertyDeclarations ++ addedP := by
    rw [e4]; exact h3P
  have h4F : s4.database.functionDeclarations = s.database.functionDeclarations ++ addedF := by
    rw [e4]; simp only; rw [h3F]
  have h4S : s4.database.signalDeclarations = s.database.signalDeclarations := by
    rw [e4]; exact h3S
  have h4N : s4.database.enumerationDeclarations = s.database.enumerationDeclarations := by
    rw [e4]; exact h3N
  -- signal declarations
  obtain ⟨addedS, e5, hallS⟩ := synchronizeSignalDeclarations_fresh hsg (by
    rw [h4S]; exact hfreshRows _ _ hinv.signals.owned)
  have h5T : s5.database.types = s3.database.types := by rw [e5]; exact h4T
  have h5E : s5.database.exportedTypes = s.database.exportedTypes ++ addedE := by
    rw [e5]; exact h4E
  have h5P : s5.database.propertyDeclarations = s.database.propertyDeclarations ++ addedP := by
    rw [e5]; exact h4P
  have h5F : s5.database.functionDeclarations = s.database.functionDeclarations ++ addedF := by
    rw [e5]; exact h4F
  have h5S : s5.database.signalDeclarations = s.database.signalDeclarations ++ addedS := by
    rw [e5]; simp only; rw [h4S]
  have h5N : s5.database.enumerationDeclarations = s.database.enumerationDeclarations := by
    rw [e5]; exact h4N
  -- enumeration declarations
  obtain ⟨addedN, e6, hallN⟩ := synchronizeEnumerationDeclarations_fresh hen (by
    rw [h5N]; exact hfreshRows _ _ hinv.enumerations.owned)
  have hT : s1.database.types = s3.database.types := by rw [e6]; exact h5T
  have hE : s1.database.exportedTypes = s.database.exportedTypes ++ addedE := by
    rw [e6]; exact h5E
  have hP : s1.database.propertyDeclarations = s.database.propertyDeclarations ++ addedP := by
    rw [e6]; exact h5P
  have hF : s1.database.functionDeclarations = s.database.functionDeclarations ++ addedF := by
    rw [e6]; exact h5F
  have hS : s1.database.signalDeclarations = s.database.signalDeclarations ++ addedS := by
    rw [e6]; exact h5S
  have hN : s1.database.enumerationDeclarations
      = s.database.enumerationDeclarations ++ addedN := by
    rw [e6]; simp only; rw [h5N]
  refine ⟨hwf1, ?_, ?_, ?_, ?_, ?_, ?_, ?_⟩
  · intro p hp'
    rcases List.mem_append.mp hp' with hp' | hp'
    · obtain ⟨r, hr, hrid, hrname⟩ := hinv.named p hp'
      obtain ⟨r1, hr1, hid1, hname1⟩ := hpers r hr
      exact ⟨r1, hr1, hid1.trans hrid, hname1.trans hrname⟩
    · simp only [List.mem_singleton] at hp'
      subst hp'
      exact ⟨rowT, hstoreT.1, hrowTid, hstoreT.2.1⟩
  · intro r hr
    rw [List.map_append]
    rcases syncType_sourced h r hr with h1 | h1 | h1
    · exact Or.inr (List.mem_append_right _ (by simp [h1]))
    · rcases hinv.sourced r h1 with h2 | h2
      · exact Or.inl h2
      · exact Or.inr (List.mem_append_left _ h2)
    · exact Or.inl h1
  · rw [hE]
    exact hinv.exported.append type typeId.id addedE hfreshId hallE fun _ _ _ hs => hs.1
  · rw [hP]
    refine (hinv.properties.weaken fun _ _ _ hs => hs.persist hpers).append type typeId.id
      addedP hfreshId ?_ fun _ _ _ hs => hs.1
    rw [hT]
    exact hallP
  · rw [hF]
    exact hinv.functions.append type typeId.id addedF hfreshId hallF fun _ _ _ hs => hs.1
  · rw [hS]
    exact hinv.signals.append type typeId.id addedS hfreshId hallS fun _ _ _ hs => hs.1
  · rw [hN]
    exact hinv.enumerations.append type typeId.id addedN hfreshId hallN fun _ _ _ hs => hs.1

end ProjectStorage

namespace ProjectStorage

theorem syncTypes_batchInv : ∀ (rest : List Storage.Type_)
    (processed : List (Storage.Type_ × Int)) (s s1 : Session) (ids : List TypeId),
    syncTypes rest s = .ok (s1, ids) → BatchInv processed s.database →
    (processed.map (·.1.typeName) ++ rest.map (·.typeName)).Nodup →
    ((processed.map (·.1) ++ rest).flatMap (·.exportedTypes)).Nodup →
    BatchInv (processed ++ rest.zip (ids.map (·.id))) s1.database ∧
      ids.length = rest.length := by
  intro rest
  induction rest with
  | nil =>
    intro processed s s1 ids h hinv _ _
    simp only [syncTypes, Except.ok.injEq, Prod.mk.injEq] at h
    obtain ⟨rfl, rfl⟩ := h
    simpa using hinv
  | cons type rest ih =>
    intro processed s s1 ids h hinv hnames hexported
    simp only [syncTypes] at h
    cases h0 : syncType type s with
    | error e => simp [h0] at h
    | ok r0 =>
      obtain ⟨s0, typeId⟩ := r0
      simp only [h0] at h
      cases hr : syncTypes rest s0 with
      | error e => simp [hr] at h
      | ok r1 =>
        obtain ⟨s2, ids1⟩ := r1
        simp only [hr, Except.ok.injEq, Prod.mk.injEq] at h
        obtain ⟨rfl, rfl⟩ := h
        have hname : type.typeName ∉ processed.map (·.1.typeName) := by
          intro hmem
          have hdis := (List.nodup_append.mp hnames).2.2
          exact hdis hmem (by simp)
        have hexp := List.nodup_append.mp (by
          simpa only [List.flatMap_append, List.flatMap_cons] using hexported)
        have hnodupT : type.exportedTypes.Nodup := (List.nodup_append.mp hexp.2.1).1
        have hdisjoint : ∀ p ∈ processed, ∀ e ∈ type.exportedTypes,
            e ∉ p.1.exportedTypes := by
          intro p hp e he hmem
          have h1 : e ∈ (processed.map (·.1)).flatMap (·.exportedTypes) :=
            List.mem_flatMap.mpr ⟨p.1, List.mem_map.mpr ⟨p, hp, rfl⟩, hmem⟩
          exact hexp.2.2 h1 (List.mem_append_left _ he)
        have hstep := syncType_batchInv hinv h0 hname hnodupT hdisjoint
        obtain ⟨hinv2, hlen⟩ := ih (processed ++ [(type, typeId.id)]) s0 s2 ids1 hr hstep
          (by simpa [List.map_append, List.append_assoc] using hnames)
          (by simpa [List.map_append, List.append_assoc] using hexported)
        refine ⟨?_, by simp [hlen]⟩
        simpa [List.append_assoc] using hinv2

theorem accessSemantics_ofInt_toInt (accessSemantics : Storage.TypeAccessSemantics) :
    Storage.TypeAccessSemantics.ofInt accessSemantics.toInt = accessSemantics := by
  cases accessSemantics <;> rfl

theorem selectTypeNameSubquery_stored {db : Database} (hwf : TypesWF db.types) {row : TypesRow}
    (hrow : row ∈ db.types) : selectTypeNameSubquery db (some row.typeId) = row.name := by
  unfold selectTypeNameSubquery
  simp only [find_typeId hwf hrow]

theorem selectTypeNameSubquery_invalid {db : Database} (hwf : TypesWF db.types) :
    selectTypeNameSubquery db (some (-1)) = "" := by
  unfold selectTypeNameSubquery
  have hnone : db.types.find? (fun row => row.typeId = -1) = none := by
    rw [List.find?_eq_none]
    intro row hrow
    have := hwf.2.2 row hrow
    simp only [decide_eq_true_eq]
    omega
  simp only [hnone]

/-- The parameters read for a stored function are those the JSON function gives for its
signature. -/
theorem selectFunctionParameterDeclarationsStatement_stored (json : JsonEach) {db : Database}
    (hwf : KeysWF (functionKeys db)) {row : FunctionDeclarationsRow}
    (hrow : row ∈ db.functionDeclarations) :
    selectFunctionParameterDeclarationsStatement json db row.functionDeclarationId
      = json.parameters row.signature := by
  unfold selectFunctionParameterDeclarationsStatement
  have hnodup : (db.functionDeclarations.map (·.functionDeclarationId)).Nodup := by
    have := hwf.1
    unfold functionKeys at this
    rwa [List.map_map] at this
  rw [filter_eq_singleton (fun r : FunctionDeclarationsRow => r.functionDeclarationId) _ row
    hnodup hrow]
  simp

theorem selectSignalParameterDeclarationsStatement_stored (json : JsonEach) {db : Database}
    (hwf : KeysWF (signalKeys db)) {row : SignalDeclarationsRow}
    (hrow : row ∈ db.signalDeclarations) :
    selectSignalParameterDeclarationsStatement json db row.signalDeclarationId
      = json.parameters row.signature := by
  unfold selectSignalParameterDeclarationsStatement
  have hnodup : (db.signalDeclarations.map (·.signalDeclarationId)).Nodup := by
    have := hwf.1
    unfold signalKeys at this
    rwa [List.map_map] at this
  rw [filter_eq_singleton (fun r : SignalDeclarationsRow => r.signalDeclarationId) _ row
    hnodup hrow]
  simp

theorem selectEnumeratorDeclarationStatement_stored (json : JsonEach) {db : Database}
    (hwf : KeysWF (enumerationKeys db)) {row : EnumerationDeclarationsRow}
    (hrow : row ∈ db.enumerationDeclarations) :
    selectEnumeratorDeclarationStatement json db row.enumerationDeclarationId
      = json.enumerators row.enumeratorDeclarations := by
  unfold selectEnumeratorDeclarationStatement
  have hnodup : (db.enumerationDeclarations.map (·.enumerationDeclarationId)).Nodup := by
    have := hwf.1
    unfold enumerationKeys at this
    rwa [List.map_map] at this
  rw [filter_eq_singleton (fun r : EnumerationDeclarationsRow => r.enumerationDeclarationId) _
    row hnodup hrow]
  simp

end ProjectStorage

/-! ## Identifier types: equality and order -/

/-- C24: for all ids `a` and `b`, `a == b` holds exactly when `a.id = b.id` and both ids are
valid (`id >= 0`), and `a != b` is its negation; the default id is `-1`, is invalid and is equal
to no id, not even to itself; `a != a` holds exactly for the invalid ids. -/
theorem InternalId.eq_iff_same_valid_id (a b : InternalId) :
    (InternalId.eq a b = true ↔ a.id = b.id ∧ 0 ≤ a.id ∧ 0 ≤ b.id) ∧
    InternalId.ne a b = !InternalId.eq a b ∧
    ({} : InternalId).id = -1 ∧ ({} : InternalId).isValid = false ∧
    InternalId.eq {} b = false ∧ InternalId.eq a {} = false ∧
    InternalId.ne {} {} = true ∧
    (InternalId.ne a a = true ↔ a.isValid = false) := by
  refine ⟨?_, rfl, rfl, by decide, ?_, ?_, by decide, ?_⟩
  · simp [InternalId.eq, InternalId.isValid, and_assoc]
  · simp [InternalId.eq, InternalId.isValid]
  · simp [InternalId.eq, InternalId.isValid]
  · simp [InternalId.ne, InternalId.eq, InternalId.isValid]

/-- C25: for all ids `a`, `b`, `c`, valid or not, `a < b` holds exactly when `a.id < b.id`, so
`<` is a strict total order on the wrapped integers (irreflexive, transitive, and two ids with
different integers are ordered one way or the other); for valid `a` and `b` exactly one of
`a < b`, `a == b`, `b < a` holds. -/
theorem InternalId.lt_iff_id_lt (a b c : InternalId) :
    (InternalId.lt a b = true ↔ a.id < b.id) ∧
    InternalId.lt a a = false ∧
    (InternalId.lt a b = true → InternalId.lt b c = true → InternalId.lt a c = true) ∧
    (a.id ≠ b.id → InternalId.lt a b = true ∨ InternalId.lt b a = true) ∧
    (a.isValid = true → b.isValid = true →
      (InternalId.lt a b = true ∨ InternalId.eq a b = true ∨ InternalId.lt b a = true) ∧
      ¬(InternalId.lt a b = true ∧ InternalId.eq a b = true) ∧
      ¬(InternalId.lt a b = true ∧ InternalId.lt b a = true) ∧
      ¬(InternalId.eq a b = true ∧ InternalId.lt b a = true)) := by
  refine ⟨by simp [InternalId.lt], by simp [InternalId.lt], ?_, ?_, ?_⟩
  · simp only [InternalId.lt, decide_eq_true_eq]
    exact fun h1 h2 => lt_trans h1 h2
  · simp only [InternalId.lt, decide_eq_true_eq]
    exact fun h => lt_or_gt_of_ne h
  simp only [InternalId.lt, InternalId.eq, InternalId.isValid, decide_eq_true_eq,
    Bool.and_eq_true]
  intro ha hb
  refine ⟨?_, ?_, ?_, ?_⟩
  · rcases lt_trichotomy a.id b.id with h | h | h
    · exact Or.inl h
    · exact Or.inr (Or.inl ⟨⟨h, ha⟩, hb⟩)
    · exact Or.inr (Or.inr h)
  · rintro ⟨h1, ⟨h2, _⟩, _⟩; omega
  · rintro ⟨h1, h2⟩; omega
  · rintro ⟨⟨⟨h1, _⟩, _⟩, h2⟩; omega

theorem InternalId.lt_iff_id_lt_witness :
    ({ id := 3 } : InternalId).isValid = true ∧ ({ id := 7 } : InternalId).isValid = true ∧
    InternalId.lt { id := 3 } { id := 7 } = true ∧
    InternalId.eq { id := 3 } { id := 7 } = false ∧
    InternalId.lt { id := 7 } { id := 3 } = false ∧
    ((InternalId.lt { id := 3 } { id := 7 } = true ∨ InternalId.eq { id := 3 } { id := 7 } = true
        ∨ InternalId.lt { id := 7 } { id := 3 } = true) ∧
      ¬(InternalId.lt { id := 3 } { id := 7 } = true ∧ InternalId.eq { id := 3 } { id := 7 } = true) ∧
      ¬(InternalId.lt { id := 3 } { id := 7 } = true ∧ InternalId.lt { id := 7 } { id := 3 } = true) ∧
      ¬(InternalId.eq { id := 3 } { id := 7 } = true ∧ InternalId.lt { id := 7 } { id := 3 } = true)) :=
  ⟨by decide, by decide, by decide, by decide, by decide,
    (InternalId.lt_iff_id_lt { id := 3 } { id := 7 } { id := 9 }).2.2.2.2 (by decide) (by decide)⟩

namespace ProjectStorage

/-- C30, as the code behaves: `upsertType` binds three of the four parameters of
`upsertTypeStatement`, so after an `upsertType` call that commits the row of that name has a
null sourceId, whatever source it had; every later `synchronizeTypes` call that commits and
whose batch does not name the type deletes it, whatever its `sourceIds` are. -/
theorem upsertType_clears_sourceId (db : Database) (hwf : TypesWF db.types) (name : String)
    (prototypeId : TypeId) (accessSemantics : Storage.TypeAccessSemantics)
    (exportedTypes : List Storage.ExportedType) (typeId : TypeId)
    (hcommit : (upsertType db name prototypeId accessSemantics exportedTypes).result
      = .ok typeId) :
    (∀ row ∈ (upsertType db name prototypeId accessSemantics exportedTypes).database.types,
      row.name = name → row.sourceId = none) ∧
    ∀ (types : List Storage.Type_) (sourceIds : List SourceId),
      name ∉ types.map (·.typeName) →
      (synchronizeTypes (upsertType db name prototypeId accessSemantics exportedTypes).database
        types sourceIds).result = .ok () →
      ∀ row ∈ (synchronizeTypes
          (upsertType db name prototypeId accessSemantics exportedTypes).database
          types sourceIds).database.types, row.name ≠ name := by
  obtain ⟨hwf1, _, hspec⟩ := upsertType_spec db name prototypeId accessSemantics exportedTypes hwf
  obtain ⟨_, _, stored, hstored, hsname, _, _, _, hsource⟩ := hspec typeId hcommit
  constructor
  · intro row hrow hname
    have := hwf1.row_of_name hrow hstored (hname.trans hsname.symm)
    rw [this]; exact hsource
  · intro types sourceIds hnot hsync row hrow hname
    obtain ⟨s1, ids, s2, h1, h2, _, hdb⟩ := synchronizeTypes_ok hsync
    have hkept := syncTypes_kept types _ s1 ids h1 stored hstored (by rw [hsname]; exact hnot)
    obtain ⟨hwfs, _, _⟩ := syncTypes_spec types _ s1 ids h1 hwf1
    rw [hdb, deleteNotUpdatedTypes_ok h2] at hrow
    obtain ⟨hrow1, hkeep⟩ := List.mem_filter.mp hrow
    have heq := hwfs.row_of_name hrow1 hkept (hname.trans hsname.symm)
    rw [heq] at hkeep
    simp [notUpdatedTypeInSources, hsource] at hkeep

theorem upsertType_clears_sourceId_witness :
    (∃ row ∈ Sample.singleDatabase.types, row.name = "A" ∧ row.sourceId = some 1) ∧
    (upsertType Sample.singleDatabase "A" {} .Value []).result = .ok { id := 1 } ∧
    ((∀ row ∈ (upsertType Sample.singleDatabase "A" {} .Value []).database.types,
      row.name = "A" → row.sourceId = none) ∧
    ∀ (types : List Storage.Type_) (sourceIds : List SourceId),
      "A" ∉ types.map (·.typeName) →
      (synchronizeTypes (upsertType Sample.singleDatabase "A" {} .Value []).database
        types sourceIds).result = .ok () →
      ∀ row ∈ (synchronizeTypes (upsertType Sample.singleDatabase "A" {} .Value []).database
          types sourceIds).database.types, row.name ≠ "A") :=
  ⟨by decide, by decide,
    upsertType_clears_sourceId Sample.singleDatabase (by unfold TypesWF; decide) "A" {} .Value [] { id := 1 }
      (by decide)⟩

end ProjectStorage

/-! ## Source path cache -/

/-- In a list without two elements of one key, the search for the key of an element finds that
element. -/
theorem find?_key_of_nodup {α β : Type} [DecidableEq β] (f : α → β) :
    ∀ (l : List α) (x : α), (l.map f).Nodup → x ∈ l →
      l.find? (fun y => f y = f x) = some x := by
  intro l
  induction l with
  | nil => intro x _ hx; simp at hx
  | cons a l ih =>
    intro x hnodup hx
    simp only [List.map_cons, List.nodup_cons] at hnodup
    by_cases hax : f a = f x
    · rcases List.mem_cons.mp hx with rfl | hx
      · simp
      · exact absurd (hax ▸ List.mem_map.mpr ⟨x, hx, rfl⟩) hnodup.1
    · have hxl : x ∈ l := by
        rcases List.mem_cons.mp hx with rfl | hx
        · exact absurd rfl hax
        · exact hx
      rw [List.find?_cons_of_neg _ (by simpa using hax)]
      exact ih x hnodup.2 hxl

theorem SourceContextsWF.find_path {rows : List SourceContextsRow} (hwf : SourceContextsWF rows)
    {row : SourceContextsRow} (hrow : row ∈ rows) :
    rows.find? (fun r => r.sourceContextPath = row.sourceContextPath) = some row := by
  have := find?_key_of_nodup (·.sourceContextPath) rows row hwf.2.1 hrow
  simpa using this

theorem SourceContextsWF.find_context_id {rows : List SourceContextsRow} (hwf : SourceContextsWF rows)
    {row : SourceContextsRow} (hrow : row ∈ rows) :
    rows.find? (fun r => r.sourceContextId = row.sourceContextId) = some row := by
  have := find?_key_of_nodup (·.sourceContextId) rows row hwf.1 hrow
  simpa using this

theorem SourceContextsWF.append_path {rows : List SourceContextsRow}
    (hwf : SourceContextsWF rows) (path : String)
    (hfree : ∀ row ∈ rows, row.sourceContextPath ≠ path) :
    SourceContextsWF (rows ++ [{ sourceContextId := newRowId (rows.map (·.sourceContextId)),
                                 sourceContextPath := path }]) := by
  obtain ⟨h1, h2, h3⟩ := hwf
  refine ⟨?_, ?_, ?_⟩
  · rw [List.map_append, List.nodup_append]
    refine ⟨h1, by simp, ?_⟩
    intro a ha hb
    simp only [List.map_cons, List.map_nil, List.mem_singleton] at hb
    subst hb
    exact newRowId_not_mem _ ha
  · rw [List.map_append, List.nodup_append]
    refine ⟨h2, by simp, ?_⟩
    intro a ha hb
    simp only [List.map_cons, List.map_nil, List.mem_singleton] at hb
    subst hb
    obtain ⟨row, hrow, hp⟩ := List.mem_map.mp ha
    exact hfree row hrow hp
  · intro row hrow
    rcases List.mem_append.mp hrow with h | h
    · exact h3 row h
    · simp only [List.mem_singleton] at h
      subst h
      exact le_of_lt (newRowId_pos (by
        intro x hx
        obtain ⟨r, hr, rfl⟩ := List.mem_map.mp hx
        exact h3 r hr))

theorem SourcesWF.find_pair {db : Database} (hwf : SourcesWF db) {row : SourcesRow}
    (hrow : row ∈ db.sources) :
    db.sources.find? (fun r => r.sourceContextId = row.sourceContextId
      ∧ r.sourceName = row.sourceName) = some row := by
  have := find?_key_of_nodup (fun r : SourcesRow => (r.sourceContextId, r.sourceName))
    db.sources row hwf.2.1 hrow
  simpa using this

theorem SourcesWF.find_source_id {db : Database} (hwf : SourcesWF db) {row : SourcesRow}
    (hrow : row ∈ db.sources) :
    db.sources.find? (fun r => r.sourceId = row.sourceId) = some row := by
  have := find?_key_of_nodup (·.sourceId) db.sources row hwf.1 hrow
  simpa using this

theorem SourcesWF.append_pair {db : Database} (hwf : SourcesWF db) (sourceContextId : Int)
    (sourceName : String)
    (hfree : ∀ row ∈ db.sources,
      ¬(row.sourceContextId = sourceContextId ∧ row.sourceName = sourceName))
    (hcontext : ∃ context ∈ db.sourceContexts, context.sourceContextId = sourceContextId) :
    SourcesWF { db with sources := db.sources ++
      [{ sourceId := newRowId (db.sources.map (·.sourceId)), sourceContextId := sourceContextId,
         sourceName := sourceName }] } := by
  obtain ⟨h1, h2, h3⟩ := hwf
  refine ⟨?_, ?_, ?_⟩
  · simp only
    rw [List.map_append, List.nodup_append]
    refine ⟨h1, by simp, ?_⟩
    intro a ha hb
    simp only [List.map_cons, List.map_nil, List.mem_singleton] at hb
    subst hb
    exact newRowId_not_mem _ ha
  · simp only
    rw [List.map_append, List.nodup_append]
    refine ⟨h2, by simp, ?_⟩
    intro a ha hb
    simp only [List.map_cons, List.map_nil, List.mem_singleton] at hb
    subst hb
    obtain ⟨row, hrow, hp⟩ := List.mem_map.mp ha
    simp only [Prod.mk.injEq] at hp
    exact hfree row hrow hp
  · intro row hrow
    simp only at hrow ⊢
    rcases List.mem_append.mp hrow with h | h
    · exact h3 row h
    · simp only [List.mem_singleton] at h
      subst h
      exact ⟨le_of_lt (newRowId_pos (by
        intro x hx
        obtain ⟨r, hr, rfl⟩ := List.mem_map.mp hx
        exact (h3 r hr).1)), hcontext⟩

namespace ProjectStorage

/-- A call of `fetchSourceContextId` for a stored path, on a store no other connection writes
to: the id of the row, and the store as it was. -/
theorem fetchSourceContextId_stored {db : Database} (hwf : SourceContextsWF db.sourceContexts)
    {row : SourceContextsRow} (hrow : row ∈ db.sourceContexts) (fuel : Nat) :
    fetchSourceContextId (fuel + 1) row.sourceContextPath { database := db }
      = some ({ database := db }, .ok { id := row.sourceContextId }) := by
  have hvalid : decide (0 ≤ row.sourceContextId) = true := by simpa using hwf.2.2 row hrow
  simp [fetchSourceContextId, Sqlite.DeferredTransaction, fetchSourceContextIdUnguarded,
    readSourceContextId, Connection.yield,
    selectSourceContextIdFromSourceContextsBySourceContextPathStatement, hwf.find_path hrow,
    InternalId.isValid, hvalid]

/-- A call of `fetchSourceContextId` for a path that is not stored, on a store no other
connection writes to: one row is added, under a new key, and its id is returned. -/
theorem fetchSourceContextId_inserted {db : Database} {sourceContextPath : String}
    (hfree : ∀ row ∈ db.sourceContexts, row.sourceContextPath ≠ sourceContextPath)
    (fuel : Nat) :
    fetchSourceContextId (fuel + 1) sourceContextPath { database := db }
      = some ({ database := { db with sourceContexts := db.sourceContexts ++
                  [{ sourceContextId := newRowId (db.sourceContexts.map (·.sourceContextId)),
                     sourceContextPath := sourceContextPath }] } },
              .ok { id := newRowId (db.sourceContexts.map (·.sourceContextId)) }) := by
  have hfind : db.sourceContexts.find? (fun r => r.sourceContextPath = sourceContextPath)
      = none := by
    rw [List.find?_eq_none]
    intro row hrow
    simpa using hfree row hrow
  have hany : db.sourceContexts.any (fun r => r.sourceContextPath = sourceContextPath)
      = false := by
    rw [List.any_eq_false]
    intro row hrow
    simpa using hfree row hrow
  simp [fetchSourceContextId, Sqlite.DeferredTransaction, fetchSourceContextIdUnguarded,
    readSourceContextId, writeSourceContextId, Connection.yield,
    selectSourceContextIdFromSourceContextsBySourceContextPathStatement, hfind,
    insertIntoSourceContextsStatement, hany, InternalId.isValid]

theorem fetchSourceContextIdCalls_stored {db : Database}
    (hwf : SourceContextsWF db.sourceContexts) {row : SourceContextsRow}
    (hrow : row ∈ db.sourceContexts) (fuel : Nat) :
    ∀ calls, fetchSourceContextIdCalls (fuel + 1) row.sourceContextPath calls { database := db }
      = some ({ database := db }, List.replicate calls (.ok { id := row.sourceContextId })) := by
  intro calls
  induction calls with
  | zero => rfl
  | succ calls ih =>
    simp only [fetchSourceContextIdCalls, fetchSourceContextId_stored hwf hrow fuel, ih,
      List.replicate_succ]

/-- A call of `fetchSourceId` for a stored pair, on a store no other connection writes to. -/
theorem fetchSourceId_stored {db : Database} (hwf : SourcesWF db) {row : SourcesRow}
    (hrow : row ∈ db.sources) :
    fetchSourceId { id := row.sourceContextId } row.sourceName { database := db }
      = ({ database := db }, .ok { id := row.sourceId }) := by
  have hvalid : decide (0 ≤ row.sourceId) = true := by simpa using (hwf.2.2 row hrow).1
  have hfind := hwf.find_pair hrow
  simp only [Bool.decide_and] at hfind
  simp [fetchSourceId, Sqlite.DeferredTransaction, fetchSourceIdUnguarded, readSourceId,
    Connection.yield, selectSourceIdFromSourcesBySourceContextIdAndSourceNameStatement,
    hfind, InternalId.isValid, hvalid]

/-- A call of `fetchSourceId` for a pair that is not stored and whose source context is stored,
on a store no other connection writes to. -/
theorem fetchSourceId_inserted {db : Database} {sourceContextId : Int} {sourceName : String}
    (hfree : ∀ row ∈ db.sources,
      ¬(row.sourceContextId = sourceContextId ∧ row.sourceName = sourceName))
    (hcontext : ∃ context ∈ db.sourceContexts, context.sourceContextId = sourceContextId) :
    fetchSourceId { id := sourceContextId } sourceName { database := db }
      = ({ database := { db with sources := db.sources ++
            [{ sourceId := newRowId (db.sources.map (·.sourceId)),
               sourceContextId := sourceContextId, sourceName := sourceName }] } },
         .ok { id := newRowId (db.sources.map (·.sourceId)) }) := by
  have hfind : db.sources.find? (fun r => r.sourceContextId = sourceContextId
      ∧ r.sourceName = sourceName) = none := by
    rw [List.find?_eq_none]
    intro row hrow
    simpa using hfree row hrow
  have hany : db.sources.any (fun r => r.sourceContextId = sourceContextId
      ∧ r.sourceName = sourceName) = false := by
    rw [List.any_eq_false]
    intro row hrow
    simpa using hfree row hrow
  have hctx : db.sourceContexts.any (fun r => r.sourceContextId = sourceContextId) = true := by
    rw [List.any_eq_true]
    obtain ⟨context, hc, hid⟩ := hcontext
    exact ⟨context, hc, by simpa using hid⟩
  have hnone : ¬∃ x ∈ db.sources, x.sourceContextId = sourceContextId
      ∧ x.sourceName = sourceName := fun ⟨x, hx, h⟩ => hfree x hx h
  simp only [Bool.decide_and] at hfind hany
  simp [fetchSourceId, Sqlite.DeferredTransaction, fetchSourceIdUnguarded, readSourceId,
    writeSourceId, Connection.yield,
    selectSourceIdFromSourcesBySourceContextIdAndSourceNameStatement, hfind,
    insertIntoSourcesStatement, hany, hctx, hnone, InternalId.isValid]

theorem fetchSourceIdCalls_stored {db : Database} (hwf : SourcesWF db) {row : SourcesRow}
    (hrow : row ∈ db.sources) :
    ∀ calls, fetchSourceIdCalls { id := row.sourceContextId } row.sourceName calls
        { database := db }
      = ({ database := db }, List.replicate calls (.ok { id := row.sourceId })) := by
  intro calls
  induction calls with
  | zero => rfl
  | succ calls ih =>
    simp only [fetchSourceIdCalls, fetchSourceId_stored hwf hrow, ih, List.replicate_succ]

end ProjectStorage

namespace ProjectStorage

/-- C21, as stated, fails for `fetchSourceId`: for a pair whose source context id names no row of
`sourceContexts` the insert violates the foreign key of `sources`; the call raises
`ConstraintPreventsModification`, returns no id and inserts no row. -/
theorem fetchSourceId_unknown_context_raises :
    (∀ row ∈ Sample.pathDatabase.sources,
      ¬(row.sourceContextId = 7 ∧ row.sourceName = "file.qml")) ∧
    (fetchSourceId { id := 7 } "file.qml" { database := Sample.pathDatabase }).2
      = .error .ConstraintPreventsModification ∧
    (fetchSourceId { id := 7 } "file.qml" { database := Sample.pathDatabase }).1.database
      = Sample.pathDatabase := by
  decide

/-- C21, amended: on a store that keeps the constraints of its schema and that no other
connection writes to, `fetchSourceContextId(path)` returns the id of the row of `path` when
there is one, and inserts nothing; otherwise it inserts exactly one row, for `path`, and returns
its id.  The id is valid, after the call exactly one row has that path, and any number of calls
one after the other return that id and leave the store as the first call left it.  The same
holds for `fetchSourceId(sourceContextId, sourceName)` when `sourceContextId` is the id of a
stored source context. -/
theorem fetchSourceContextId_read_through (db : Database)
    (hcontexts : SourceContextsWF db.sourceContexts) (hsources : SourcesWF db) (fuel : Nat)
    (sourceContextPath : String) (sourceContextId : SourceContextId) (sourceName : String)
    (hstored : ∃ context ∈ db.sourceContexts, context.sourceContextId = sourceContextId.id) :
    (∃ row db1,
      fetchSourceContextId (fuel + 1) sourceContextPath { database := db }
        = some ({ database := db1 }, .ok { id := row.sourceContextId }) ∧
      row.sourceContextPath = sourceContextPath ∧ 0 ≤ row.sourceContextId ∧
      ((row ∈ db.sourceContexts ∧ db1 = db) ∨
       ((∀ r ∈ db.sourceContexts, r.sourceContextPath ≠ sourceContextPath) ∧
        db1 = { db with sourceContexts := db.sourceContexts ++ [row] })) ∧
      db1.sourceContexts.filter (fun r => r.sourceContextPath = sourceContextPath) = [row] ∧
      ∀ calls, fetchSourceContextIdCalls (fuel + 1) sourceContextPath (calls + 1)
          { database := db }
        = some ({ database := db1 },
            List.replicate (calls + 1) (.ok { id := row.sourceContextId }))) ∧
    (∃ row db1,
      fetchSourceId sourceContextId sourceName { database := db }
        = ({ database := db1 }, .ok { id := row.sourceId }) ∧
      row.sourceContextId = sourceContextId.id ∧ row.sourceName = sourceName ∧
      0 ≤ row.sourceId ∧
      ((row ∈ db.sources ∧ db1 = db) ∨
       ((∀ r ∈ db.sources,
          ¬(r.sourceContextId = sourceContextId.id ∧ r.sourceName = sourceName)) ∧
        db1 = { db with sources := db.sources ++ [row] })) ∧
      db1.sources.filter (fun r => r.sourceContextId = sourceContextId.id
        ∧ r.sourceName = sourceName) = [row] ∧
      ∀ calls, fetchSourceIdCalls sourceContextId sourceName (calls + 1) { database := db }
        = ({ database := db1 }, List.replicate (calls + 1) (.ok { id := row.sourceId }))) := by
  constructor
  · by_cases h : ∃ row ∈ db.sourceContexts, row.sourceContextPath = sourceContextPath
    · obtain ⟨row, hrow, rfl⟩ := h
      refine ⟨row, db, fetchSourceContextId_stored hcontexts hrow fuel, rfl,
        hcontexts.2.2 row hrow, Or.inl ⟨hrow, rfl⟩, ?_,
        fun calls => fetchSourceContextIdCalls_stored hcontexts hrow fuel (calls + 1)⟩
      have := filter_eq_singleton (·.sourceContextPath) db.sourceContexts row hcontexts.2.1 hrow
      simpa using this
    · have hfree : ∀ r ∈ db.sourceContexts, r.sourceContextPath ≠ sourceContextPath :=
        fun r hr hp => h ⟨r, hr, hp⟩
      have hwf1 := hcontexts.append_path sourceContextPath hfree
      have hmem : ({ sourceContextId := newRowId (db.sourceContexts.map (·.sourceContextId)),
                     sourceContextPath := sourceContextPath } : SourceContextsRow)
          ∈ db.sourceContexts ++
            [{ sourceContextId := newRowId (db.sourceContexts.map (·.sourceContextId)),
               sourceContextPath := sourceContextPath }] := by simp
      refine ⟨{ sourceContextId := newRowId (db.sourceContexts.map (·.sourceContextId)),
                sourceContextPath := sourceContextPath }, _,
        fetchSourceContextId_inserted hfree fuel, rfl, hwf1.2.2 _ hmem, Or.inr ⟨hfree, rfl⟩,
        ?_, ?_⟩
      · have := filter_eq_singleton (·.sourceContextPath) _ _ hwf1.2.1 hmem
        simpa using this
      · intro calls
        obtain ⟨db1, hdb1⟩ : ∃ db1 : Database, db1 = { db with
            sourceContexts := db.sourceContexts ++
              [⟨newRowId (db.sourceContexts.map (·.sourceContextId)), sourceContextPath⟩] } :=
          ⟨_, rfl⟩
        have hrest := @fetchSourceContextIdCalls_stored db1 (by rw [hdb1]; exact hwf1) _
          (by rw [hdb1]; exact hmem) fuel calls
        rw [hdb1] at hrest
        simp only at hrest
        simp only [fetchSourceContextIdCalls, fetchSourceContextId_inserted hfree fuel, hrest,
          List.replicate_succ]
  · obtain ⟨sourceContextId⟩ := sourceContextId
    simp only at hstored ⊢
    by_cases h : ∃ row ∈ db.sources, row.sourceContextId = sourceContextId
        ∧ row.sourceName = sourceName
    · obtain ⟨row, hrow, rfl, rfl⟩ := h
      refine ⟨row, db, fetchSourceId_stored hsources hrow, rfl, rfl,
        (hsources.2.2 row hrow).1, Or.inl ⟨hrow, rfl⟩, ?_,
        fun calls => fetchSourceIdCalls_stored hsources hrow (calls + 1)⟩
      have := filter_eq_singleton (fun r : SourcesRow => (r.sourceContextId, r.sourceName))
        db.sources row hsources.2.1 hrow
      simpa using this
    · have hfree : ∀ r ∈ db.sources,
          ¬(r.sourceContextId = sourceContextId ∧ r.sourceName = sourceName) :=
        fun r hr hp => h ⟨r, hr, hp⟩
      have hwf1 := hsources.append_pair sourceContextId sourceName hfree hstored
      have hmem : (⟨newRowId (db.sources.map (·.sourceId)), sourceContextId, sourceName⟩ :
          SourcesRow) ∈ db.sources ++
            [⟨newRowId (db.sources.map (·.sourceId)), sourceContextId, sourceName⟩] := by
        simp
      refine ⟨⟨newRowId (db.sources.map (·.sourceId)), sourceContextId, sourceName⟩, _,
        fetchSourceId_inserted hfree hstored, rfl, rfl, (hwf1.2.2 _ hmem).1,
        Or.inr ⟨hfree, rfl⟩, ?_, ?_⟩
      · have := filter_eq_singleton (fun r : SourcesRow => (r.sourceContextId, r.sourceName))
          _ _ hwf1.2.1 hmem
        simpa using this
      · intro calls
        have hrest := fetchSourceIdCalls_stored hwf1 hmem calls
        simp only at hrest
        simp only [fetchSourceIdCalls, fetchSourceId_inserted hfree hstored, hrest,
          List.replicate_succ]

theorem fetchSourceContextId_read_through_witness :
    (∃ row db1,
      fetchSourceContextId 1 "/other" { database := Sample.pathDatabase }
        = some ({ database := db1 }, .ok { id := row.sourceContextId }) ∧
      row.sourceContextPath = "/other" ∧ 0 ≤ row.sourceContextId ∧
      ((row ∈ Sample.pathDatabase.sourceContexts ∧ db1 = Sample.pathDatabase) ∨
       ((∀ r ∈ Sample.pathDatabase.sourceContexts, r.sourceContextPath ≠ "/other") ∧
        db1 = { Sample.pathDatabase with
                sourceContexts := Sample.pathDatabase.sourceContexts ++ [row] })) ∧
      db1.sourceContexts.filter (fun r => r.sourceContextPath = "/other") = [row] ∧
      ∀ calls, fetchSourceContextIdCalls 1 "/other" (calls + 1)
          { database := Sample.pathDatabase }
        = some ({ database := db1 },
            List.replicate (calls + 1) (.ok { id := row.sourceContextId }))) ∧
    (∃ row db1,
      fetchSourceId { id := 1 } "file.qml" { database := Sample.pathDatabase }
        = ({ database := db1 }, .ok { id := row.sourceId }) ∧
      row.sourceContextId = 1 ∧ row.sourceName = "file.qml" ∧
      0 ≤ row.sourceId ∧
      ((row ∈ Sample.pathDatabase.sources ∧ db1 = Sample.pathDatabase) ∨
       ((∀ r ∈ Sample.pathDatabase.sources,
          ¬(r.sourceContextId = 1 ∧ r.sourceName = "file.qml")) ∧
        db1 = { Sample.pathDatabase with sources := Sample.pathDatabase.sources ++ [row] })) ∧
      db1.sources.filter (fun r => r.sourceContextId = 1 ∧ r.sourceName = "file.qml") = [row] ∧
      ∀ calls, fetchSourceIdCalls { id := 1 } "file.qml" (calls + 1)
          { database := Sample.pathDatabase }
        = ({ database := db1 }, List.replicate (calls + 1) (.ok { id := row.sourceId }))) :=
  fetchSourceContextId_read_through Sample.pathDatabase (by unfold SourceContextsWF; decide)
    (by unfold SourcesWF; decide) 0 "/other" { id := 1 } "file.qml" (by decide)

end ProjectStorage

namespace ProjectStorage

theorem fetchSourceContextPath_eq_ok {db : Database} (hwf : SourceContextsWF db.sourceContexts)
    (sourceContextId : SourceContextId) (sourceContextPath : String) :
    fetchSourceContextPath db sourceContextId = .ok sourceContextPath ↔
      (⟨sourceContextId.id, sourceContextPath⟩ : SourceContextsRow) ∈ db.sourceContexts := by
  unfold fetchSourceContextPath selectSourceContextPathFromSourceContextsBySourceContextIdStatement
  constructor
  · intro h
    cases hf : db.sourceContexts.find? (fun row => row.sourceContextId = sourceContextId.id) with
    | none => simp [hf] at h
    | some row =>
      simp only [hf, Option.map_some', Except.ok.injEq] at h
      have hmem := List.mem_of_find?_eq_some hf
      have hid : row.sourceContextId = sourceContextId.id := by
        simpa using List.find?_some hf
      obtain ⟨rid, rpath⟩ := row
      simp only at h hid
      subst h hid
      exact hmem
  · intro h
    have := hwf.find_context_id h
    simp only at this
    simp [this]

theorem fetchSourceContextPath_eq_error {db : Database} (sourceContextId : SourceContextId)
    (e : Error) :
    fetchSourceContextPath db sourceContextId = .error e ↔
      e = .SourceContextIdDoesNotExists ∧
      ∀ row ∈ db.sourceContexts, row.sourceContextId ≠ sourceContextId.id := by
  unfold fetchSourceContextPath selectSourceContextPathFromSourceContextsBySourceContextIdStatement
  cases hf : db.sourceContexts.find? (fun row => row.sourceContextId = sourceContextId.id) with
  | none =>
    simp only [Option.map_none', Except.error.injEq]
    rw [List.find?_eq_none] at hf
    constructor
    · intro h
      exact ⟨h.symm, fun row hrow => by simpa using hf row hrow⟩
    · intro h
      exact h.1.symm
  | some row =>
    simp only [Option.map_some', false_iff, not_and, reduceCtorEq]
    intro _ hall
    exact hall row (List.mem_of_find?_eq_some hf) (by simpa using List.find?_some hf)

/-- Both reads of a stored source give its name and its source context. -/
theorem fetchSource_of_mem {db : Database} (hcontexts : SourceContextsWF db.sourceContexts)
    (hsources : SourcesWF db) {row : SourcesRow} (hrow : row ∈ db.sources) :
    fetchSourceNameAndSourceContextId db { id := row.sourceId }
      = .ok { sourceName := row.sourceName, sourceContextId := { id := row.sourceContextId } } ∧
    fetchSourceContextIdOfSource db { id := row.sourceId }
      = .ok { id := row.sourceContextId } := by
  have hfind := hsources.find_source_id hrow
  obtain ⟨context, hcontext, hid⟩ := (hsources.2.2 row hrow).2
  have hvalid : 0 ≤ row.sourceContextId := hid ▸ hcontexts.2.2 context hcontext
  simp [fetchSourceNameAndSourceContextId, fetchSourceContextIdOfSource,
    selectSourceNameAndSourceContextIdFromSourcesBySourceIdStatement,
    selectSourceContextIdFromSourcesBySourceIdStatement, hfind, InternalId.isValid, hvalid]

/-- Both reads of an id that no row of `sources` has raise `SourceIdDoesNotExists`. -/
theorem fetchSource_of_not_mem {db : Database} {sourceId : SourceId}
    (hnone : ∀ row ∈ db.sources, row.sourceId ≠ sourceId.id) :
    fetchSourceNameAndSourceContextId db sourceId = .error .SourceIdDoesNotExists ∧
    fetchSourceContextIdOfSource db sourceId = .error .SourceIdDoesNotExists := by
  have hfind : db.sources.find? (fun row => row.sourceId = sourceId.id) = none := by
    rw [List.find?_eq_none]
    intro row hrow
    simpa using hnone row hrow
  simp [fetchSourceNameAndSourceContextId, fetchSourceContextIdOfSource,
    selectSourceNameAndSourceContextIdFromSourcesBySourceIdStatement,
    selectSourceContextIdFromSourcesBySourceIdStatement, hfind, InternalId.isValid]

/-- On a store no other connection writes to, `fetchSourceContextId` returns the id of a row
of its path that is stored afterwards, and the constraints of `sourceContexts` are kept. -/
theorem fetchSourceContextId_sequential {db : Database}
    (hwf : SourceContextsWF db.sourceContexts) (fuel : Nat) (sourceContextPath : String) :
    ∃ row db1,
      fetchSourceContextId (fuel + 1) sourceContextPath { database := db }
        = some ({ database := db1 }, .ok { id := row.sourceContextId }) ∧
      row.sourceContextPath = sourceContextPath ∧ row ∈ db1.sourceContexts ∧
      SourceContextsWF db1.sourceContexts := by
  by_cases h : ∃ row ∈ db.sourceContexts, row.sourceContextPath = sourceContextPath
  · obtain ⟨row, hrow, rfl⟩ := h
    exact ⟨row, db, fetchSourceContextId_stored hwf hrow fuel, rfl, hrow, hwf⟩
  · have hfree : ∀ r ∈ db.sourceContexts, r.sourceContextPath ≠ sourceContextPath :=
      fun r hr hp => h ⟨r, hr, hp⟩
    exact ⟨⟨newRowId (db.sourceContexts.map (·.sourceContextId)), sourceContextPath⟩, _,
      fetchSourceContextId_inserted hfree fuel, rfl, by simp,
      hwf.append_path sourceContextPath hfree⟩

/-- A call of `fetchSourceId` for a pair that is not stored and whose source context is not
stored either: the insert violates the foreign key. -/
theorem fetchSourceId_dangling {db : Database} {sourceContextId : Int} {sourceName : String}
    (hfree : ∀ row ∈ db.sources,
      ¬(row.sourceContextId = sourceContextId ∧ row.sourceName = sourceName))
    (hcontext : ∀ context ∈ db.sourceContexts, context.sourceContextId ≠ sourceContextId) :
    fetchSourceId { id := sourceContextId } sourceName { database := db }
      = ({ database := db }, .error .ConstraintPreventsModification) := by
  have hfind : db.sources.find? (fun r => r.sourceContextId = sourceContextId
      ∧ r.sourceName = sourceName) = none := by
    rw [List.find?_eq_none]
    intro row hrow
    simpa using hfree row hrow
  have hany : db.sources.any (fun r => r.sourceContextId = sourceContextId
      ∧ r.sourceName = sourceName) = false := by
    rw [List.any_eq_false]
    intro row hrow
    simpa using hfree row hrow
  have hctx : db.sourceContexts.any (fun r => r.sourceContextId = sourceContextId) = false := by
    rw [List.any_eq_false]
    intro row hrow
    simpa using hcontext row hrow
  have hnone : ¬∃ x ∈ db.sources, x.sourceContextId = sourceContextId
      ∧ x.sourceName = sourceName := fun ⟨x, hx, h⟩ => hfree x hx h
  have hnoctx : ¬∃ x ∈ db.sourceContexts, x.sourceContextId = sourceContextId :=
    fun ⟨x, hx, h⟩ => hcontext x hx h
  simp only [Bool.decide_and] at hfind hany
  simp [fetchSourceId, Sqlite.DeferredTransaction, fetchSourceIdUnguarded, readSourceId,
    writeSourceId, Connection.yield,
    selectSourceIdFromSourcesBySourceContextIdAndSourceNameStatement, hfind,
    insertIntoSourcesStatement, hany, hctx, hnone, hnoctx, InternalId.isValid]

/-- On a store no other connection writes to, `fetchSourceId` either returns the id of a row of
its pair that is stored afterwards, the constraints being kept, or raises
`ConstraintPreventsModification` because its source context is not stored. -/
theorem fetchSourceId_sequential {db : Database} (hsources : SourcesWF db)
    (sourceContextId : Int) (sourceName : String) :
    (∃ row db1,
      fetchSourceId { id := sourceContextId } sourceName { database := db }
        = ({ database := db1 }, .ok { id := row.sourceId }) ∧
      row.sourceContextId = sourceContextId ∧ row.sourceName = sourceName ∧
      row ∈ db1.sources ∧ SourcesWF db1 ∧ db1.sourceContexts = db.sourceContexts) ∨
    ((∀ context ∈ db.sourceContexts, context.sourceContextId ≠ sourceContextId) ∧
      fetchSourceId { id := sourceContextId } sourceName { database := db }
        = ({ database := db }, .error .ConstraintPreventsModification)) := by
  by_cases h : ∃ row ∈ db.sources, row.sourceContextId = sourceContextId
      ∧ row.sourceName = sourceName
  · obtain ⟨row, hrow, rfl, rfl⟩ := h
    exact Or.inl ⟨row, db, fetchSourceId_stored hsources hrow, rfl, rfl, hrow, hsources, rfl⟩
  · have hfree : ∀ r ∈ db.sources,
        ¬(r.sourceContextId = sourceContextId ∧ r.sourceName = sourceName) :=
      fun r hr hp => h ⟨r, hr, hp⟩
    by_cases hc : ∃ context ∈ db.sourceContexts, context.sourceContextId = sourceContextId
    · exact Or.inl ⟨⟨newRowId (db.sources.map (·.sourceId)), sourceContextId, sourceName⟩, _,
        fetchSourceId_inserted hfree hc, rfl, rfl, by simp,
        hsources.append_pair sourceContextId sourceName hfree hc, rfl⟩
    · exact Or.inr ⟨fun context hcontext hid => hc ⟨context, hcontext, hid⟩,
        fetchSourceId_dangling hfree fun context hcontext hid => hc ⟨context, hcontext, hid⟩⟩

/-- C22: on a store that keeps the constraints of its schema, `fetchSourceContextPath(id)`
returns the path of the row of `sourceContexts` with that id and raises
`SourceContextIdDoesNotExists`, and nothing else, exactly when there is no such row;
`fetchSourceContextPath(fetchSourceContextId(p)) = p` for every path `p`.
`fetchSourceNameAndSourceContextId(id)` and `fetchSourceContextId(sourceId)` return the name and
the source context of the row of `sources` with that id and raise `SourceIdDoesNotExists`
exactly when there is no such row; applied to the id `fetchSourceId(c, n)` returns they give
`(n, c)` and `c`, and `fetchSourceId(c, n)` returns for every stored source context `c`. -/
theorem fetchSourceContextPath_inverse (db : Database)
    (hcontexts : SourceContextsWF db.sourceContexts) (hsources : SourcesWF db) :
    (∀ (id : SourceContextId) (path : String), fetchSourceContextPath db id = .ok path ↔
      (⟨id.id, path⟩ : SourceContextsRow) ∈ db.sourceContexts) ∧
    (∀ (id : SourceContextId) (e : Error), fetchSourceContextPath db id = .error e ↔
      e = .SourceContextIdDoesNotExists ∧
      ∀ row ∈ db.sourceContexts, row.sourceContextId ≠ id.id) ∧
    (∀ (fuel : Nat) (path : String), ∃ c1 id,
      fetchSourceContextId (fuel + 1) path { database := db } = some (c1, .ok id) ∧
      fetchSourceContextPath c1.database id = .ok path) ∧
    (∀ (id : SourceId) (value : Cache.SourceNameAndSourceContextId),
      fetchSourceNameAndSourceContextId db id = .ok value ↔
        (⟨id.id, value.sourceContextId.id, value.sourceName⟩ : SourcesRow) ∈ db.sources) ∧
    (∀ (id : SourceId) (context : SourceContextId),
      fetchSourceContextIdOfSource db id = .ok context ↔
        ∃ row ∈ db.sources, row.sourceId = id.id ∧ row.sourceContextId = context.id) ∧
    (∀ (id : SourceId) (e : Error),
      (fetchSourceNameAndSourceContextId db id = .error e ↔
        e = .SourceIdDoesNotExists ∧ ∀ row ∈ db.sources, row.sourceId ≠ id.id) ∧
      (fetchSourceContextIdOfSource db id = .error e ↔
        e = .SourceIdDoesNotExists ∧ ∀ row ∈ db.sources, row.sourceId ≠ id.id)) ∧
    (∀ (context : SourceContextId) (name : String) (c1 : Connection) (id : SourceId),
      fetchSourceId context name { database := db } = (c1, .ok id) →
      fetchSourceNameAndSourceContextId c1.database id
        = .ok { sourceName := name, sourceContextId := context } ∧
      fetchSourceContextIdOfSource c1.database id = .ok context) ∧
    (∀ (context : SourceContextId) (name : String),
      (∃ row ∈ db.sourceContexts, row.sourceContextId = context.id) →
      ∃ c1 id, fetchSourceId context name { database := db } = (c1, .ok id)) := by
  have hcases : ∀ (id : SourceId),
      (∃ row ∈ db.sources, row.sourceId = id.id) ∨ ∀ row ∈ db.sources, row.sourceId ≠ id.id := by
    intro id
    by_cases h : ∃ row ∈ db.sources, row.sourceId = id.id
    · exact Or.inl h
    · exact Or.inr fun row hrow hid => h ⟨row, hrow, hid⟩
  refine ⟨fetchSourceContextPath_eq_ok hcontexts, fetchSourceContextPath_eq_error, ?_, ?_, ?_,
    ?_, ?_, ?_⟩
  · intro fuel path
    obtain ⟨row, db1, hfetch, hpath, hrow, hwf1⟩ :=
      fetchSourceContextId_sequential hcontexts fuel path
    refine ⟨_, _, hfetch, ?_⟩
    rw [fetchSourceContextPath_eq_ok hwf1, ← hpath]
    exact hrow
  · intro id value
    obtain ⟨id⟩ := id
    rcases hcases { id := id } with ⟨row, hrow, hid⟩ | hnone
    · simp only at hid
      subst hid
      rw [(fetchSource_of_mem hcontexts hsources hrow).1]
      constructor
      · intro h
        simp only [Except.ok.injEq] at h
        subst h
        exact hrow
      · intro h
        have := List.inj_on_of_nodup_map hsources.1 h hrow rfl
        obtain ⟨name, ⟨context⟩⟩ := value
        simp only at this
        rw [← this]
    · rw [(fetchSource_of_not_mem hnone).1]
      simp only [reduceCtorEq, false_iff]
      intro h
      exact hnone _ h rfl
  · intro id context
    obtain ⟨id⟩ := id
    rcases hcases { id := id } with ⟨row, hrow, hid⟩ | hnone
    · simp only at hid
      subst hid
      rw [(fetchSource_of_mem hcontexts hsources hrow).2]
      constructor
      · intro h
        simp only [Except.ok.injEq] at h
        subst h
        exact ⟨row, hrow, rfl, rfl⟩
      · rintro ⟨row1, hrow1, hid1, hctx1⟩
        have := List.inj_on_of_nodup_map hsources.1 hrow1 hrow hid1
        subst this
        obtain ⟨context⟩ := context
        simp only at hctx1
        rw [hctx1]
    · rw [(fetchSource_of_not_mem hnone).2]
      simp only [reduceCtorEq, false_iff]
      rintro ⟨row, hrow, hid, _⟩
      exact hnone row hrow hid
  · intro id e
    obtain ⟨id⟩ := id
    rcases hcases { id := id } with ⟨row, hrow, hid⟩ | hnone
    · simp only at hid
      subst hid
      rw [(fetchSource_of_mem hcontexts hsources hrow).1,
        (fetchSource_of_mem hcontexts hsources hrow).2]
      simp only [reduceCtorEq, false_iff, not_and]
      exact ⟨fun _ hall => hall row hrow rfl, fun _ hall => hall row hrow rfl⟩
    · rw [(fetchSource_of_not_mem hnone).1, (fetchSource_of_not_mem hnone).2]
      simp only [Except.error.injEq]
      exact ⟨⟨fun h => ⟨h.symm, hnone⟩, fun h => h.1.symm⟩,
        ⟨fun h => ⟨h.symm, hnone⟩, fun h => h.1.symm⟩⟩
  · intro context name c1 id hfetch
    obtain ⟨context⟩ := context
    rcases fetchSourceId_sequential hsources context name with
      ⟨row, db1, hf, hctx, hname, hrow, hwf1, hsame⟩ | ⟨_, hf⟩
    · rw [hf] at hfetch
      simp only [Prod.mk.injEq, Except.ok.injEq] at hfetch
      obtain ⟨rfl, rfl⟩ := hfetch
      have hcontexts1 : SourceContextsWF db1.sourceContexts := by rw [hsame]; exact hcontexts
      have := fetchSource_of_mem hcontexts1 hwf1 hrow
      rw [hctx, hname] at this
      exact this
    · rw [hf] at hfetch
      simp at hfetch
  · rintro ⟨context⟩ name ⟨row, hrow, hid⟩
    simp only at hid
    rcases fetchSourceId_sequential hsources context name with
      ⟨row1, db1, hf, _⟩ | ⟨hnone, _⟩
    · exact ⟨_, _, hf⟩
    · exact absurd hid (hnone row hrow)

theorem fetchSourceContextPath_inverse_witness :
    fetchSourceContextPath Sample.pathDatabase { id := 1 } = .ok "/path/to" ∧
    fetchSourceContextPath Sample.pathDatabase { id := 2 }
      = .error .SourceContextIdDoesNotExists ∧
    fetchSourceNameAndSourceContextId Sample.pathDatabase { id := 1 }
      = .ok { sourceName := "file.qml", sourceContextId := { id := 1 } } ∧
    fetchSourceContextIdOfSource Sample.pathDatabase { id := 2 }
      = .error .SourceIdDoesNotExists ∧
    ∀ (fuel : Nat) (path : String), ∃ c1 id,
      fetchSourceContextId (fuel + 1) path { database := Sample.pathDatabase }
        = some (c1, .ok id) ∧
      fetchSourceContextPath c1.database id = .ok path :=
  ⟨by decide, by decide, by decide, by decide,
    (fetchSourceContextPath_inverse Sample.pathDatabase (by unfold SourceContextsWF; decide)
      (by unfold SourcesWF; decide)).2.2.1⟩

end ProjectStorage

namespace ProjectStorage

end ProjectStorage

namespace ProjectStorage

end ProjectStorage

/-! ## The metainfo storage: the calls it makes on its database -/

namespace Metainfo

/-- The template over the tables of the engine is the storage of `Metainfo.ProjectStorage`. -/
theorem template_database_eq (order : Sqlite.RowOrder PropertyDeclarationsRow)
    (db : Database) :
    (∀ name prototype accessSemantics qualifiedNames,
      Template.upsertType (Database.database order) name prototype accessSemantics qualifiedNames
          db
        = some (ProjectStorage.upsertType db name prototype accessSemantics qualifiedNames)) ∧
    (∀ typeId name propertyTypeId,
      Template.upsertPropertyDeclaration (Database.database order) typeId name propertyTypeId
          db
        = some (ProjectStorage.upsertPropertyDeclaration db typeId name propertyTypeId)) ∧
    (∀ typeId name,
      Template.fetchPropertyDeclarationByTypeIdAndName (Database.database order) typeId name
          db
        = (db, ProjectStorage.fetchPropertyDeclarationByTypeIdAndName order db typeId name)) ∧
    (∀ name, Template.fetchTypeIdByQualifiedName (Database.database order) name db
        = (db, ProjectStorage.fetchTypeIdByQualifiedName db name)) ∧
    (∀ type prototype, Template.fetchIsProtype (Database.database order) type prototype db
        = (db, ProjectStorage.fetchIsProtype db type prototype)) :=
  ⟨fun _ _ _ _ => rfl, fun _ _ _ => rfl, fun _ _ => rfl, fun _ => rfl, fun _ _ => rfl⟩

/-- The writes of the qualified names, recorded by the mock one after the other. -/
theorem SqliteDatabaseMock.foldl_record (typeId : Int) :
    ∀ (qualifiedNames : List String) (mock : SqliteDatabaseMock),
      qualifiedNames.foldl (fun s1 qualifiedName =>
          SqliteDatabaseMock.database.upsertQualifiedTypeNameStatement qualifiedName typeId s1)
        mock
      = { mock with calls := mock.calls ++ qualifiedNames.map fun qualifiedName =>
            DatabaseCall.upsertQualifiedTypeNameStatement qualifiedName typeId } := by
  intro qualifiedNames
  induction qualifiedNames with
  | nil => intro mock; simp
  | cons qualifiedName qualifiedNames ih =>
    intro mock
    rw [List.foldl_cons, ih]
    simp [SqliteDatabaseMock.database, SqliteDatabaseMock.record]

/-- C27: in the metainfo storage, for every name, prototype id, access semantics and list of
qualified names, `upsertType` makes exactly these calls on its database, in this order: the
begin of an immediate transaction, one type upsert with `(name, accessSemantics, prototype.id)`,
one qualified-name write per element of the list, in the order of the list, each with the id
the type upsert returned, and the commit; it returns the id the type upsert returned.  Each
fetch makes a deferred begin, its one read and a commit, and returns what the read gave, the
invalid id (or `false`) when it gave nothing. -/
theorem upsertType_calls (mock : SqliteDatabaseMock) (name : String)
    (prototype : InternalTypeId) (accessSemantics : TypeAccessSemantics)
    (qualifiedNames : List String) (internalTypeId : InternalTypeId)
    (hreturned : mock.valueReturnsInternalTypeId
      (.upsertTypeStatement name accessSemantics.toInt prototype.id) = some internalTypeId) :
    (∃ mock1, Template.upsertType SqliteDatabaseMock.database name prototype accessSemantics
        qualifiedNames mock = some (mock1, internalTypeId) ∧
      mock1.calls = mock.calls ++
        [.immediateBegin, .upsertTypeStatement name accessSemantics.toInt prototype.id] ++
        qualifiedNames.map (fun qualifiedName =>
          DatabaseCall.upsertQualifiedTypeNameStatement qualifiedName internalTypeId.id) ++
        [.commit]) ∧
    (∀ (typeId : InternalTypeId) (propertyName : String),
      (Template.fetchPropertyDeclarationByTypeIdAndName SqliteDatabaseMock.database typeId
        propertyName mock).1.calls = mock.calls ++ [.deferredBegin,
          .selectPropertyDeclarationByTypeIdAndNameStatement typeId.id propertyName, .commit] ∧
      (Template.fetchPropertyDeclarationByTypeIdAndName SqliteDatabaseMock.database typeId
        propertyName mock).2 = (mock.valueReturnsInternalPropertyDeclarationId
          (.selectPropertyDeclarationByTypeIdAndNameStatement typeId.id propertyName)).getD {}) ∧
    (∀ (qualifiedName : String),
      (Template.fetchTypeIdByQualifiedName SqliteDatabaseMock.database qualifiedName
        mock).1.calls = mock.calls ++ [.deferredBegin,
          .selectTypeIdByQualifiedNameStatement qualifiedName, .commit] ∧
      (Template.fetchTypeIdByQualifiedName SqliteDatabaseMock.database qualifiedName mock).2
        = (mock.valueReturnsInternalTypeId
            (.selectTypeIdByQualifiedNameStatement qualifiedName)).getD {}) ∧
    (∀ (type ancestor : InternalTypeId),
      (Template.fetchIsProtype SqliteDatabaseMock.database type ancestor mock).1.calls
        = mock.calls ++ [.deferredBegin, .selectPrototypeIdStatement type.id ancestor.id,
            .commit] ∧
      (Template.fetchIsProtype SqliteDatabaseMock.database type ancestor mock).2
        = (mock.valueReturnsInternalTypeId
            (.selectPrototypeIdStatement type.id ancestor.id)).isSome) := by
  refine ⟨?_, ?_, ?_, ?_⟩
  · have hanswer : (SqliteDatabaseMock.database.upsertTypeStatement name accessSemantics.toInt
        prototype.id (SqliteDatabaseMock.database.immediateBegin mock)).2
        = some internalTypeId := hreturned
    unfold Template.upsertType
    simp only [hanswer]
    refine ⟨_, rfl, ?_⟩
    rw [SqliteDatabaseMock.foldl_record]
    simp [SqliteDatabaseMock.database, SqliteDatabaseMock.record]
  · intro typeId propertyName
    constructor
    · simp [Template.fetchPropertyDeclarationByTypeIdAndName, SqliteDatabaseMock.database,
        SqliteDatabaseMock.record]
    · simp only [Template.fetchPropertyDeclarationByTypeIdAndName, SqliteDatabaseMock.database,
        SqliteDatabaseMock.record]
      cases mock.valueReturnsInternalPropertyDeclarationId
        (.selectPropertyDeclarationByTypeIdAndNameStatement typeId.id propertyName) <;> rfl
  · intro qualifiedName
    constructor
    · simp [Template.fetchTypeIdByQualifiedName, SqliteDatabaseMock.database,
        SqliteDatabaseMock.record]
    · simp only [Template.fetchTypeIdByQualifiedName, SqliteDatabaseMock.database,
        SqliteDatabaseMock.record]
      cases mock.valueReturnsInternalTypeId
        (.selectTypeIdByQualifiedNameStatement qualifiedName) <;> rfl
  · intro type ancestor
    constructor
    · simp [Template.fetchIsProtype, SqliteDatabaseMock.database, SqliteDatabaseMock.record]
    · rfl

theorem upsertType_calls_witness :
    (∃ mock1, Template.upsertType SqliteDatabaseMock.database "QObject" { id := 3 } .Reference
        ["Qml.Object", "Quick.Object"] Sample.insertTypeMock = some (mock1, { id := 11 }) ∧
      mock1.calls = [.immediateBegin, .upsertTypeStatement "QObject" 0 3,
        .upsertQualifiedTypeNameStatement "Qml.Object" 11,
        .upsertQualifiedTypeNameStatement "Quick.Object" 11, .commit]) ∧
    (Template.fetchTypeIdByQualifiedName SqliteDatabaseMock.database "boo"
      Sample.insertTypeMock).1.calls
      = [.deferredBegin, .selectTypeIdByQualifiedNameStatement "boo", .commit] :=
  ⟨(upsertType_calls Sample.insertTypeMock "QObject" { id := 3 } .Reference
      ["Qml.Object", "Quick.Object"] { id := 11 } (by decide)).1,
    ((upsertType_calls Sample.insertTypeMock "QObject" { id := 3 } .Reference
      ["Qml.Object", "Quick.Object"] { id := 11 } (by decide)).2.2.1 "boo").1⟩

end Metainfo

/-! ## The signature text is injective on plain names -/

/-- Value of a decimal digit character. -/
theorem digitChar_toNat : ∀ k < 10, (Nat.digitChar k).toNat = k + 48 := by decide

/-- The digits `Nat.toDigitsCore` puts before its accumulator: decimal digits, at least one, and
the value they denote is the number. -/
theorem toDigitsCore_spec : ∀ (fuel n : Nat) (ds : List Char), n < fuel →
    ∃ l, Nat.toDigitsCore 10 fuel n ds = l ++ ds ∧ l ≠ [] ∧
      (∀ c ∈ l, 48 ≤ c.toNat ∧ c.toNat ≤ 57) ∧
      l.foldl (fun a c => 10 * a + (c.toNat - 48)) 0 = n := by
  intro fuel
  induction fuel with
  | zero => intro n ds h; omega
  | succ fuel ih =>
    intro n ds hn
    have hd : n % 10 < 10 := Nat.mod_lt _ (by decide)
    have hdc := digitChar_toNat (n % 10) hd
    unfold Nat.toDigitsCore
    simp only
    by_cases h0 : n / 10 = 0
    · simp only [h0, if_true]
      refine ⟨[Nat.digitChar (n % 10)], rfl, by simp, ?_, ?_⟩
      · intro c hc
        simp only [List.mem_singleton] at hc
        subst hc
        omega
      · simp only [List.foldl_cons, List.foldl_nil, hdc]
        omega
    · simp only [h0, if_false]
      have hlt : n / 10 < fuel := by omega
      obtain ⟨l, hl, _, hdigits, hval⟩ := ih (n / 10) (Nat.digitChar (n % 10) :: ds) hlt
      refine ⟨l ++ [Nat.digitChar (n % 10)], by rw [hl]; simp, by simp, ?_, ?_⟩
      · intro c hc
        rcases List.mem_append.mp hc with hc | hc
        · exact hdigits c hc
        · simp only [List.mem_singleton] at hc
          subst hc
          omega
      · rw [List.foldl_append, hval]
        simp only [List.foldl_cons, List.foldl_nil, hdc]
        omega

theorem natRepr_spec (n : Nat) :
    (Nat.repr n).data ≠ [] ∧ (∀ c ∈ (Nat.repr n).data, 48 ≤ c.toNat ∧ c.toNat ≤ 57) ∧
    (Nat.repr n).data.foldl (fun a c => 10 * a + (c.toNat - 48)) 0 = n := by
  obtain ⟨l, hl, hne, hdigits, hval⟩ := toDigitsCore_spec (n + 1) n [] (by omega)
  have : (Nat.repr n).data = l := by
    simp only [Nat.repr, Nat.toDigits, List.asString, hl, List.append_nil]
  rw [this]
  exact ⟨hne, hdigits, hval⟩

/-- The decimal text of an integer: digits after an optional minus sign, and no two integers
have the same text. -/
theorem intToString_spec :
    (∀ i : Int, ∀ c ∈ (toString i).data, (48 ≤ c.toNat ∧ c.toNat ≤ 57) ∨ c.toNat = 45) ∧
    ∀ i j : Int, (toString i).data = (toString j).data → i = j := by
  have hnat : ∀ n : Nat, toString (Int.ofNat n) = Nat.repr n := fun _ => rfl
  have hneg : ∀ n : Nat, (toString (Int.negSucc n)).data
      = Char.ofNat 45 :: (Nat.repr (n + 1)).data := fun _ => rfl
  have hinj : ∀ n m : Nat, (Nat.repr n).data = (Nat.repr m).data → n = m := by
    intro n m h
    have h1 := (natRepr_spec n).2.2
    rw [h, (natRepr_spec m).2.2] at h1
    exact h1.symm
  have hhead : ∀ n m : Nat, (Nat.repr n).data ≠ Char.ofNat 45 :: (Nat.repr m).data := by
    intro n m h
    obtain ⟨hne, hdigits, _⟩ := natRepr_spec n
    rw [h] at hdigits
    have := hdigits (Char.ofNat 45) (List.mem_cons_self _ _)
    have h45 : (Char.ofNat 45).toNat = 45 := by decide
    omega
  constructor
  · intro i c hc
    cases i with
    | ofNat n =>
      rw [hnat] at hc
      exact Or.inl ((natRepr_spec n).2.1 c hc)
    | negSucc n =>
      rw [hneg] at hc
      rcases List.mem_cons.mp hc with rfl | hc
      · exact Or.inr (by decide)
      · exact Or.inl ((natRepr_spec (n + 1)).2.1 c hc)
  · intro i j h
    cases i with
    | ofNat n =>
      cases j with
      | ofNat m =>
        rw [hnat, hnat] at h
        rw [hinj n m h]
      | negSucc m =>
        rw [hnat, hneg] at h
        exact absurd h (hhead n (m + 1))
    | negSucc n =>
      cases j with
      | ofNat m =>
        rw [hnat, hneg] at h
        exact absurd h.symm (hhead m (n + 1))
      | negSucc m =>
        rw [hneg, hneg] at h
        have := hinj _ _ (List.cons.inj h).2
        have hnm : n = m := by omega
        rw [hnm]

/-- Two texts that end at the first occurrence of a character `c`, each followed by a rest, are
equal when the whole texts are. -/
theorem append_terminated_inj (c : Char) :
    ∀ (l1 l2 x1 x2 : List Char), c ∉ l1 → c ∉ l2 → l1 ++ c :: x1 = l2 ++ c :: x2 →
      l1 = l2 ∧ x1 = x2 := by
  intro l1
  induction l1 with
  | nil =>
    intro l2 x1 x2 _ h2 h
    cases l2 with
    | nil => exact ⟨rfl, (List.cons.inj h).2⟩
    | cons a l2 =>
      simp only [List.nil_append, List.cons_append, List.cons.injEq] at h
      exact absurd (h.1 ▸ List.mem_cons_self _ _) h2
  | cons a l1 ih =>
    intro l2 x1 x2 h1 h2 h
    cases l2 with
    | nil =>
      simp only [List.nil_append, List.cons_append, List.cons.injEq] at h
      exact absurd (h.1 ▸ List.mem_cons_self _ _) h1
    | cons b l2 =>
      simp only [List.cons_append, List.cons.injEq] at h
      obtain ⟨hl, hx⟩ := ih l2 x1 x2 (fun hc => h1 (List.mem_cons_of_mem _ hc))
        (fun hc => h2 (List.mem_cons_of_mem _ hc)) h.2
      exact ⟨by rw [h.1, hl], hx⟩

namespace ProjectStorage

theorem createJson_fold
    (step : String × String → Storage.ParameterDeclaration → String × String)
    (hstep : ∀ state parameter, step state parameter
      = (⟨state.1.data ++ state.2.data ++ createJson.object parameter⟩, ",")) :
    ∀ (parameters : List Storage.ParameterDeclaration) (json : String),
      ((parameters.foldl step (json, ",")).1 ++ "]").data
        = json.data ++ createJson.rest parameters := by
  intro parameters
  induction parameters with
  | nil => intro json; simp [createJson.rest]
  | cons parameter parameters ih =>
    intro json
    rw [List.foldl_cons, hstep, ih]
    simp [createJson.rest, List.append_assoc]

/-- The characters of a signature: the opening bracket, then the closing bracket or the first
parameter and the rest. -/
theorem createJson_data (parameters : List Storage.ParameterDeclaration) :
    (createJson parameters).data = "[".data ++
      match parameters with
      | [] => "]".data
      | parameter :: parameters => createJson.object parameter ++ createJson.rest parameters := by
  obtain ⟨step, hdef⟩ : ∃ step : String × String → Storage.ParameterDeclaration →
      String × String, step = fun state parameter =>
        let json := state.1 ++ state.2 ++ "\x7b\"n\":\"" ++ parameter.name ++ "\",\"tn\":\""
          ++ parameter.typeName
        (if parameter.traits = 0 then json ++ "\"\x7d"
         else json ++ "\",\"tr\":" ++ toString parameter.traits ++ "\x7d", ",") := ⟨_, rfl⟩
  have hjson : createJson parameters = (parameters.foldl step ("[", "")).1 ++ "]" := by
    rw [hdef]; rfl
  have hstep : ∀ (state : String × String) (parameter : Storage.ParameterDeclaration),
      step state parameter
        = (⟨state.1.data ++ state.2.data ++ createJson.object parameter⟩, ",") := by
    intro state parameter
    rw [hdef]
    simp only [createJson.object, Prod.mk.injEq, and_true]
    apply String.ext
    by_cases h : parameter.traits = 0
    · simp [h, String.data_append, List.append_assoc]
    · simp [h, String.data_append, List.append_assoc]
  rw [hjson]
  cases parameters with
  | nil => rw [hdef]; rfl
  | cons parameter parameters =>
    rw [List.foldl_cons, hstep, createJson_fold _ hstep]
    simp [List.append_assoc]

/-- The characters of a parameter and what follows it, as the name and the type name, each up
to the double quote that ends it, and the traits. -/
theorem createJson_object_append (p : Storage.ParameterDeclaration) (r : List Char) :
    createJson.object p ++ r = "\x7b\"n\":\"".data ++ (p.name.data ++ Char.ofNat 34 ::
      (",\"tn\":\"".data ++ (p.typeName.data ++ Char.ofNat 34 ::
        (if p.traits = 0 then Char.ofNat 125 :: r
         else ",\"tr\":".data ++ ((toString p.traits).data ++ Char.ofNat 125 :: r))))) := by
  unfold createJson.object
  by_cases h : p.traits = 0
  · rw [if_pos h, if_pos h]
    simp [List.append_assoc]
  · rw [if_neg h, if_neg h]
    simp [List.append_assoc]

/-- The text of a parameter with plain names, followed by anything, determines the parameter
and what follows. -/
theorem createJson_object_inj {p q : Storage.ParameterDeclaration} {r1 r2 : List Char}
    (hp : Char.ofNat 34 ∉ p.name.data ∧ Char.ofNat 34 ∉ p.typeName.data)
    (hq : Char.ofNat 34 ∉ q.name.data ∧ Char.ofNat 34 ∉ q.typeName.data)
    (h : createJson.object p ++ r1 = createJson.object q ++ r2) : p = q ∧ r1 = r2 := by
  have hcomma : ",\"tr\":".data = Char.ofNat 44 :: "\"tr\":".data := by decide
  have hdigits : ∀ i : Int, Char.ofNat 125 ∉ (toString i).data := by
    intro i hmem
    have h125 : (Char.ofNat 125).toNat = 125 := by decide
    rcases intToString_spec.1 i _ hmem with h1 | h1 <;> omega
  rw [createJson_object_append, createJson_object_append] at h
  obtain ⟨hname, h⟩ := append_terminated_inj _ _ _ _ _ hp.1 hq.1 (List.append_cancel_left h)
  obtain ⟨htype, h⟩ := append_terminated_inj _ _ _ _ _ hp.2 hq.2 (List.append_cancel_left h)
  have key : p.traits = q.traits ∧ r1 = r2 := by
    by_cases h1 : p.traits = 0
    · by_cases h2 : q.traits = 0
      · rw [if_pos h1, if_pos h2] at h
        exact ⟨h1.trans h2.symm, (List.cons.inj h).2⟩
      · rw [if_pos h1, if_neg h2, hcomma] at h
        exact absurd (List.cons.inj h).1 (by decide)
    · by_cases h2 : q.traits = 0
      · rw [if_neg h1, if_pos h2, hcomma] at h
        exact absurd (List.cons.inj h).1 (by decide)
      · rw [if_neg h1, if_neg h2] at h
        obtain ⟨hd, hr⟩ := append_terminated_inj _ _ _ _ _ (hdigits _) (hdigits _)
          (List.append_cancel_left h)
        exact ⟨intToString_spec.2 _ _ hd, hr⟩
  obtain ⟨htr, hr⟩ := key
  refine ⟨?_, hr⟩
  obtain ⟨pn, pt, ptr⟩ := p
  obtain ⟨qn, qt, qtr⟩ := q
  simp only at hname htype htr
  rw [String.ext hname, String.ext htype, htr]

theorem createJson_rest_inj :
    ∀ (p q : List Storage.ParameterDeclaration), PlainNames p → PlainNames q →
      createJson.rest p = createJson.rest q → p = q := by
  intro p
  induction p with
  | nil =>
    intro q _ _ h
    cases q with
    | nil => rfl
    | cons b q =>
      have h1 : createJson.rest (b :: q)
          = Char.ofNat 44 :: (createJson.object b ++ createJson.rest q) := rfl
      have h0 : createJson.rest [] = [Char.ofNat 93] := rfl
      rw [h0, h1] at h
      exact absurd (List.cons.inj h).1 (by decide)
  | cons a p ih =>
    intro q hp hq h
    cases q with
    | nil =>
      have h1 : createJson.rest (a :: p)
          = Char.ofNat 44 :: (createJson.object a ++ createJson.rest p) := rfl
      have h0 : createJson.rest [] = [Char.ofNat 93] := rfl
      rw [h0, h1] at h
      exact absurd (List.cons.inj h).1 (by decide)
    | cons b q =>
      have h1 : ∀ (x : Storage.ParameterDeclaration) (l : List Storage.ParameterDeclaration),
          createJson.rest (x :: l)
            = Char.ofNat 44 :: (createJson.object x ++ createJson.rest l) := fun _ _ => rfl
      rw [h1, h1] at h
      have h := (List.cons.inj h).2
      obtain ⟨hab, hrest⟩ := createJson_object_inj (hp a (List.mem_cons_self _ _))
        (hq b (List.mem_cons_self _ _)) h
      rw [hab, ih q (fun x hx => hp x (List.mem_cons_of_mem _ hx))
        (fun x hx => hq x (List.mem_cons_of_mem _ hx)) hrest]

/-- On parameter lists with plain names the signature text determines the list. -/
theorem createJson_inj {p q : List Storage.ParameterDeclaration} (hp : PlainNames p)
    (hq : PlainNames q) (h : createJson p = createJson q) : p = q := by
  have hdata := congrArg String.data h
  rw [createJson_data, createJson_data] at hdata
  have hopen : ∀ x : Storage.ParameterDeclaration, ∀ (r : List Char),
      "]".data ≠ createJson.object x ++ r := by
    intro x r hx
    have hpre : "\x7b\"n\":\"".data = Char.ofNat 123 :: "\"n\":\"".data := by decide
    have hclose : "]".data = [Char.ofNat 93] := by decide
    rw [createJson_object_append, hpre, hclose] at hx
    exact absurd (List.cons.inj hx).1 (by decide)
  have hdata := List.append_cancel_left hdata
  cases p with
  | nil =>
    cases q with
    | nil => rfl
    | cons b q => exact absurd hdata (hopen b _)
  | cons a p =>
    cases q with
    | nil => exact absurd hdata.symm (hopen a _)
    | cons b q =>
      simp only at hdata
      obtain ⟨hab, hrest⟩ := createJson_object_inj (hp a (List.mem_cons_self _ _))
        (hq b (List.mem_cons_self _ _)) hdata
      rw [hab, createJson_rest_inj p q (fun x hx => hp x (List.mem_cons_of_mem _ hx))
        (fun x hx => hq x (List.mem_cons_of_mem _ hx)) hrest]

end ProjectStorage

namespace ProjectStorage

/-- C26, as stated, fails: `createJson` does not escape the double quote, so the list of the one
parameter `a` whose type name is `b`, then the text that closes a parameter and opens the
parameter `c` up to its type name `d`, and the list of the two parameters `a : b`, `c : d` have
the same signature text; resynchronizing a signal stored with the second list with the first
list writes nothing. -/
theorem createJson_not_injective :
    Sample.quotedParameters ≠ Sample.plainParameters ∧
    createJson Sample.quotedParameters = createJson Sample.plainParameters ∧
    synchronizeSignalDeclarations.update
      { name := "s", signature := createJson Sample.plainParameters, id := { id := 1 } }
      { name := "s", parameters := Sample.quotedParameters } { database := {} }
      = .ok { database := {} } := by
  decide

/-- C26, amended: for all parameter lists `p` and `q` in which no name and no type name
contains a double quote, `createJson(p) = createJson(q)` exactly when `p = q` (same names, type
names and traits in the same order); so the update of a resynchronized function whose stored
signature is that of `q` writes the row exactly when the return type name or the parameter list
differs from the stored one, and the update of a signal exactly when the parameter list
differs, and never when they are the same. -/
theorem createJson_injective_on_plain_names (p q : List Storage.ParameterDeclaration)
    (hp : PlainNames p) (hq : PlainNames q) :
    (createJson p = createJson q ↔ p = q) ∧
    (∀ (view : Storage.FunctionDeclarationView) (value : Storage.FunctionDeclaration)
        (s : Session), view.signature = createJson q → value.parameters = p →
      synchronizeFunctionDeclarations.update view value s =
        if value.returnTypeName = view.returnTypeName ∧ p = q then .ok s
        else s.write (.updateFunctionDeclarationStatement view.id.id value.returnTypeName
          (createJson p))) ∧
    (∀ (view : Storage.SignalDeclarationView) (value : Storage.SignalDeclaration)
        (s : Session), view.signature = createJson q → value.parameters = p →
      synchronizeSignalDeclarations.update view value s =
        if p = q then .ok s
        else s.write (.updateSignalDeclarationStatement view.id.id (createJson p))) := by
  have hiff : createJson p = createJson q ↔ p = q :=
    ⟨createJson_inj hp hq, fun h => by rw [h]⟩
  refine ⟨hiff, ?_, ?_⟩
  · intro view value s hview hvalue
    unfold synchronizeFunctionDeclarations.update
    rw [hview, hvalue]
    by_cases h : value.returnTypeName = view.returnTypeName ∧ p = q
    · rw [if_pos h, if_pos ⟨h.1, hiff.mpr h.2⟩]
    · rw [if_neg h, if_neg fun h1 => h ⟨h1.1, hiff.mp h1.2⟩]
  · intro view value s hview hvalue
    unfold synchronizeSignalDeclarations.update
    rw [hview, hvalue]
    by_cases h : p = q
    · rw [if_pos h, if_pos (hiff.mpr h)]
    · rw [if_neg h, if_neg fun h1 => h (hiff.mp h1)]

theorem createJson_injective_on_plain_names_witness :
    PlainNames Sample.plainParameters ∧ PlainNames [{ name := "a", typeName := "b", traits := 1 }] ∧
    (createJson Sample.plainParameters = createJson [{ name := "a", typeName := "b", traits := 1 }]
      ↔ Sample.plainParameters = [{ name := "a", typeName := "b", traits := 1 }]) :=
  ⟨by decide, by decide,
    (createJson_injective_on_plain_names Sample.plainParameters
      [{ name := "a", typeName := "b", traits := 1 }] (by decide) (by decide)).1⟩

end ProjectStorage

/-! ## The JSON table function reads back what `createJson` writes -/

namespace Sqlite

/-- A plain text followed by a double quote is read as the string of that text. -/
theorem readJsonString_plain : ∀ (s rest : List Char),
    (∀ c ∈ s, c ≠ Char.ofNat 34 ∧ c ≠ Char.ofNat 92 ∧ 32 ≤ c.toNat) →
    readJsonString (s ++ Char.ofNat 34 :: rest) = some (s, rest) := by
  intro s
  induction s with
  | nil => intro rest _; simp [readJsonString]
  | cons c s ih =>
    intro rest h
    obtain ⟨h1, h2, h3⟩ := h c (List.mem_cons_self _ _)
    have hno : ¬(c = Char.ofNat 92 ∨ c.toNat < 32) := by
      rintro (h | h)
      · exact h2 h
      · omega
    rw [List.cons_append, readJsonString, if_neg h1, if_neg hno,
      ih rest (fun x hx => h x (List.mem_cons_of_mem _ hx))]
    rfl

/-- Decimal digits followed by a text that does not start with a digit are read as the number
they denote. -/
theorem readDigits_append : ∀ (ds : List Char) (value : Nat) (rest : List Char),
    (∀ c ∈ ds, 48 ≤ c.toNat ∧ c.toNat ≤ 57) → startsWithDigit rest = false →
    readDigits value (ds ++ rest)
      = (ds.foldl (fun a c => 10 * a + (c.toNat - 48)) value, rest) := by
  intro ds
  induction ds with
  | nil =>
    intro value rest _ hrest
    cases rest with
    | nil => rfl
    | cons c rest =>
      have hc : isDecimalDigit c = false := hrest
      simp only [List.nil_append, readDigits, hc, List.foldl_nil]
      rfl
  | cons d ds ih =>
    intro value rest hds hrest
    have hd : isDecimalDigit d = true := by
      simpa [isDecimalDigit] using hds d (List.mem_cons_self _ _)
    rw [List.cons_append, readDigits, if_pos hd,
      ih _ rest (fun x hx => hds x (List.mem_cons_of_mem _ hx)) hrest]
    rfl

/-- The decimal text of a natural number followed by a text that does not start with a digit is
read as that number. -/
theorem readJsonInteger_repr (n : Nat) (rest : List Char)
    (hrest : startsWithDigit rest = false) :
    startsWithDigit ((Nat.repr n).data ++ rest) = true ∧
    readDigits 0 ((Nat.repr n).data ++ rest) = (n, rest) ∧
    readJsonInteger ((Nat.repr n).data ++ rest) = some ((n : Int), rest) := by
  obtain ⟨hne, hdigits, hval⟩ := natRepr_spec n
  have hread := readDigits_append (Nat.repr n).data 0 rest hdigits hrest
  rw [hval] at hread
  cases hdata : (Nat.repr n).data with
  | nil => exact absurd hdata hne
  | cons d ds =>
    rw [hdata] at hdigits hread
    have hd := hdigits d (List.mem_cons_self _ _)
    have hd1 : isDecimalDigit d = true := by simpa [isDecimalDigit] using hd
    have h45 : d ≠ Char.ofNat 45 := by
      intro h
      have : (Char.ofNat 45).toNat = 45 := by decide
      rw [h] at hd
      omega
    rw [List.cons_append] at hread ⊢
    refine ⟨hd1, hread, ?_⟩
    rw [readJsonInteger, if_neg h45, if_pos hd1, hread]

/-- The decimal text of an integer followed by a text that does not start with a digit is read
as that integer. -/
theorem readJsonInteger_toString (i : Int) (rest : List Char)
    (hrest : startsWithDigit rest = false) :
    readJsonInteger ((toString i).data ++ rest) = some (i, rest) := by
  cases i with
  | ofNat n =>
    have : toString (Int.ofNat n) = Nat.repr n := rfl
    rw [this]
    exact (readJsonInteger_repr n rest hrest).2.2
  | negSucc n =>
    have hdata : (toString (Int.negSucc n)).data
        = Char.ofNat 45 :: (Nat.repr (n + 1)).data := rfl
    obtain ⟨h1, h2, -⟩ := readJsonInteger_repr (n + 1) rest hrest
    rw [hdata, List.cons_append, readJsonInteger, if_pos rfl, if_pos h1, h2]
    rfl

/-- A plain text between double quotes is read as the string of that text. -/
theorem readJsonValue_text (s rest : List Char)
    (hs : ∀ c ∈ s, c ≠ Char.ofNat 34 ∧ c ≠ Char.ofNat 92 ∧ 32 ≤ c.toNat) :
    readJsonValue (Char.ofNat 34 :: (s ++ Char.ofNat 34 :: rest)) = some (.text s, rest) := by
  rw [readJsonValue, if_pos rfl, readJsonString_plain s rest hs]
  rfl

/-- The text `null` is read as null. -/
theorem readJsonValue_null (rest : List Char) :
    readJsonValue (Char.ofNat 110 :: Char.ofNat 117 :: Char.ofNat 108 :: Char.ofNat 108 :: rest)
      = some (.null, rest) := by
  rw [readJsonValue, if_neg (by decide), if_pos rfl, if_pos (by rfl)]
  rfl

/-- The decimal text of an integer is read as that integer. -/
theorem readJsonValue_integer (i : Int) (rest : List Char)
    (hrest : startsWithDigit rest = false) :
    readJsonValue ((toString i).data ++ rest) = some (.integer i, rest) := by
  have hread := readJsonInteger_toString i rest hrest
  cases hdata : (toString i).data with
  | nil =>
    exfalso
    cases i with
    | ofNat n =>
      have : toString (Int.ofNat n) = Nat.repr n := rfl
      rw [this] at hdata
      exact (natRepr_spec n).1 hdata
    | negSucc n =>
      have : (toString (Int.negSucc n)).data
          = Char.ofNat 45 :: (Nat.repr (n + 1)).data := rfl
      rw [this] at hdata
      exact absurd hdata (List.cons_ne_nil _ _)
  | cons c cs =>
    have hc : (48 ≤ c.toNat ∧ c.toNat ≤ 57) ∨ c.toNat = 45 :=
      intToString_spec.1 i c (hdata ▸ List.mem_cons_self _ _)
    have h34 : c ≠ Char.ofNat 34 := by
      intro h
      have : (Char.ofNat 34).toNat = 34 := by decide
      rw [h] at hc
      omega
    have h110 : c ≠ Char.ofNat 110 := by
      intro h
      have : (Char.ofNat 110).toNat = 110 := by decide
      rw [h] at hc
      omega
    rw [hdata] at hread
    rw [List.cons_append] at hread ⊢
    rw [readJsonValue, if_neg h34, if_neg h110, hread]
    rfl

/-- A member whose value is followed by the closing brace is the last member of the object. -/
theorem readJsonMembers_last (fuel : Nat) (key text rest : List Char) (value : JsonValue)
    (hkey : ∀ c ∈ key, c ≠ Char.ofNat 34 ∧ c ≠ Char.ofNat 92 ∧ 32 ≤ c.toNat)
    (hvalue : readJsonValue text = some (value, Char.ofNat 125 :: rest)) :
    readJsonMembers (fuel + 1) (Char.ofNat 34 :: (key ++ Char.ofNat 34 :: Char.ofNat 58 :: text))
      = some ([(key, value)], rest) := by
  rw [readJsonMembers, if_pos rfl, readJsonString_plain key _ hkey]
  simp only [List.head?_cons, List.tail_cons, if_true, hvalue]

/-- A member whose value is followed by a comma is followed by the other members. -/
theorem readJsonMembers_next (fuel : Nat) (key text rest : List Char) (value : JsonValue)
    (hkey : ∀ c ∈ key, c ≠ Char.ofNat 34 ∧ c ≠ Char.ofNat 92 ∧ 32 ≤ c.toNat)
    (hvalue : readJsonValue text = some (value, Char.ofNat 44 :: rest)) :
    readJsonMembers (fuel + 1) (Char.ofNat 34 :: (key ++ Char.ofNat 34 :: Char.ofNat 58 :: text))
      = (readJsonMembers fuel rest).map fun read => ((key, value) :: read.1, read.2) := by
  rw [readJsonMembers, if_pos rfl, readJsonString_plain key _ hkey]
  have h1 : ¬(some (Char.ofNat 44) = some (Char.ofNat 125)) := by decide
  simp only [List.head?_cons, List.tail_cons, if_true, hvalue, if_neg h1]

end Sqlite

namespace ProjectStorage

/-- The text of a parameter with plain names, followed by anything, is read as an object whose
row is the parameter. -/
theorem readJsonObject_parameter (p : Storage.ParameterDeclaration)
    (hp : Sqlite.PlainText p.name ∧ Sqlite.PlainText p.typeName) (fuel : Nat)
    (rest : List Char) :
    ∃ object, Sqlite.readJsonObject (fuel + 3) (createJson.object p ++ rest)
        = some (object, rest) ∧ Sqlite.readParameter object = p := by
  have e1 : "\x7b\"n\":\"".data = [Char.ofNat 123, Char.ofNat 34, Char.ofNat 110,
      Char.ofNat 34, Char.ofNat 58, Char.ofNat 34] := by decide
  have e2 : ",\"tn\":\"".data = [Char.ofNat 44, Char.ofNat 34, Char.ofNat 116, Char.ofNat 110,
      Char.ofNat 34, Char.ofNat 58, Char.ofNat 34] := by decide
  have e3 : ",\"tr\":".data = [Char.ofNat 44, Char.ofNat 34, Char.ofNat 116, Char.ofNat 114,
      Char.ofNat 34, Char.ofNat 58] := by decide
  have hkn : ∀ c ∈ [Char.ofNat 110],
      c ≠ Char.ofNat 34 ∧ c ≠ Char.ofNat 92 ∧ 32 ≤ c.toNat := by decide
  have hktn : ∀ c ∈ [Char.ofNat 116, Char.ofNat 110],
      c ≠ Char.ofNat 34 ∧ c ≠ Char.ofNat 92 ∧ 32 ≤ c.toNat := by decide
  have hktr : ∀ c ∈ [Char.ofNat 116, Char.ofNat 114],
      c ≠ Char.ofNat 34 ∧ c ≠ Char.ofNat 92 ∧ 32 ≤ c.toNat := by decide
  have hopen : ¬(some (Char.ofNat 34) = some (Char.ofNat 125)) := by decide
  obtain ⟨name, typeName, traits⟩ := p
  simp only at hp
  rw [createJson_object_append, e1, e2, e3]
  simp only [List.cons_append, List.nil_append]
  simp only [Sqlite.readJsonObject, List.head?_cons, List.tail_cons, if_true, if_neg hopen]
  by_cases ht : traits = 0
  · subst ht
    simp only [if_true]
    have hv1 := Sqlite.readJsonValue_text name.data
      (Char.ofNat 44 :: Char.ofNat 34 :: Char.ofNat 116 :: Char.ofNat 110 :: Char.ofNat 34 ::
        Char.ofNat 58 :: Char.ofNat 34 :: (typeName.data ++ Char.ofNat 34 ::
          Char.ofNat 125 :: rest)) hp.1
    have h1 := Sqlite.readJsonMembers_next (fuel + 2) [Char.ofNat 110] _ _ _ hkn hv1
    have hv2 := Sqlite.readJsonValue_text typeName.data (Char.ofNat 125 :: rest) hp.2
    have h2 := Sqlite.readJsonMembers_last (fuel + 1) [Char.ofNat 116, Char.ofNat 110] _ _ _
      hktn hv2
    simp only [List.cons_append, List.nil_append] at h1 h2
    rw [h1, h2]
    exact ⟨_, rfl, rfl⟩
  · simp only [if_neg ht]
    have hv1 := Sqlite.readJsonValue_text name.data
      (Char.ofNat 44 :: Char.ofNat 34 :: Char.ofNat 116 :: Char.ofNat 110 :: Char.ofNat 34 ::
        Char.ofNat 58 :: Char.ofNat 34 :: (typeName.data ++ Char.ofNat 34 ::
          Char.ofNat 44 :: Char.ofNat 34 :: Char.ofNat 116 :: Char.ofNat 114 ::
          Char.ofNat 34 :: Char.ofNat 58 ::
          ((toString traits).data ++ Char.ofNat 125 :: rest))) hp.1
    have h1 := Sqlite.readJsonMembers_next (fuel + 2) [Char.ofNat 110] _ _ _ hkn hv1
    have hv2 := Sqlite.readJsonValue_text typeName.data
      (Char.ofNat 44 :: Char.ofNat 34 :: Char.ofNat 116 :: Char.ofNat 114 ::
          Char.ofNat 34 :: Char.ofNat 58 ::
          ((toString traits).data ++ Char.ofNat 125 :: rest)) hp.2
    have h2 := Sqlite.readJsonMembers_next (fuel + 1) [Char.ofNat 116, Char.ofNat 110] _ _ _
      hktn hv2
    have hv3 := Sqlite.readJsonValue_integer traits (Char.ofNat 125 :: rest)
      (by show Sqlite.isDecimalDigit (Char.ofNat 125) = false; decide)
    have h3 := Sqlite.readJsonMembers_last fuel [Char.ofNat 116, Char.ofNat 114] _ _ _
      hktr hv3
    simp only [List.cons_append, List.nil_append] at h1 h2 h3
    rw [h1, h2, h3]
    exact ⟨_, rfl, rfl⟩

/-- The text of a parameter list has at least three characters for each parameter. -/
theorem createJson_object_length (p : Storage.ParameterDeclaration) (rest : List Char) :
    ∃ k, (createJson.object p ++ rest).length = k + 3 := by
  refine ⟨(createJson.object p ++ rest).length - 3, ?_⟩
  have e1 : "\x7b\"n\":\"".data.length = 6 := by decide
  have : 6 ≤ (createJson.object p ++ rest).length := by
    rw [createJson_object_append, List.length_append, e1]
    omega
  omega

/-- The objects of the text of a plain parameter list after its opening bracket are read as the
parameters of the list. -/
theorem readJsonObjects_parameters :
    ∀ (ps : List Storage.ParameterDeclaration) (p : Storage.ParameterDeclaration)
      (fuel : Nat), PlainParameters (p :: ps) → ps.length < fuel →
      ∃ objects, Sqlite.readJsonObjects fuel (createJson.object p ++ createJson.rest ps)
          = some objects ∧ objects.map Sqlite.readParameter = p :: ps := by
  intro ps
  induction ps with
  | nil =>
    intro p fuel hplain hfuel
    obtain ⟨fuel, rfl⟩ : ∃ f, fuel = f + 1 := ⟨fuel - 1, by omega⟩
    obtain ⟨k, hk⟩ := createJson_object_length p (createJson.rest [])
    obtain ⟨object, hobject, hread⟩ := readJsonObject_parameter p
      (hplain p (List.mem_cons_self _ _)) k (createJson.rest [])
    have hrest : createJson.rest [] = [Char.ofNat 93] := rfl
    rw [Sqlite.readJsonObjects, hk, hobject]
    simp only [hrest, if_true]
    exact ⟨_, rfl, by simp [hread]⟩
  | cons q ps ih =>
    intro p fuel hplain hfuel
    obtain ⟨fuel, rfl⟩ : ∃ f, fuel = f + 1 := ⟨fuel - 1, by omega⟩
    obtain ⟨k, hk⟩ := createJson_object_length p (createJson.rest (q :: ps))
    obtain ⟨object, hobject, hread⟩ := readJsonObject_parameter p
      (hplain p (List.mem_cons_self _ _)) k (createJson.rest (q :: ps))
    have hrest : createJson.rest (q :: ps)
        = Char.ofNat 44 :: (createJson.object q ++ createJson.rest ps) := rfl
    obtain ⟨objects, hobjects, hreads⟩ := ih q fuel
      (fun x hx => hplain x (List.mem_cons_of_mem _ hx))
      (by simp only [List.length_cons] at hfuel; omega)
    have h1 : ¬(Char.ofNat 44 :: (createJson.object q ++ createJson.rest ps)
        = [Char.ofNat 93]) := by
      intro h
      exact absurd (List.cons.inj h).1 (by decide)
    rw [Sqlite.readJsonObjects, hk, hobject]
    simp only [hrest, if_neg h1, List.head?_cons, List.tail_cons, if_true, hobjects,
      Option.map_some']
    exact ⟨_, rfl, by simp [hread, hreads]⟩

/-- The text after the first parameter has more characters than the list has further
parameters. -/
theorem createJson_rest_length :
    ∀ ps : List Storage.ParameterDeclaration, ps.length < (createJson.rest ps).length := by
  intro ps
  induction ps with
  | nil => decide
  | cons p ps ih =>
    have : createJson.rest (p :: ps)
        = Char.ofNat 44 :: (createJson.object p ++ createJson.rest ps) := rfl
    rw [this]
    simp only [List.length_cons, List.length_append]
    omega

/-- The JSON table function reads the text `createJson` writes for a plain parameter list back
as the list. -/
theorem jsonEachParameters_createJson (ps : List Storage.ParameterDeclaration)
    (hplain : PlainParameters ps) : Sqlite.jsonEachParameters (createJson ps) = ps := by
  have hopen : "[".data = [Char.ofNat 91] := by decide
  have hdata := createJson_data ps
  cases ps with
  | nil =>
    have hd : (createJson []).data = [Char.ofNat 91, Char.ofNat 93] := by decide
    rw [Sqlite.jsonEachParameters, if_pos hd]
  | cons p ps =>
    simp only [hopen, List.cons_append, List.nil_append] at hdata
    have hbrace : ∃ r, createJson.object p ++ createJson.rest ps = Char.ofNat 123 :: r := by
      have e1 : "\x7b\"n\":\"".data = Char.ofNat 123 :: "\"n\":\"".data := by decide
      rw [createJson_object_append, e1]
      exact ⟨_, rfl⟩
    obtain ⟨r, hr⟩ := hbrace
    have h1 : ¬((createJson (p :: ps)).data = [Char.ofNat 91, Char.ofNat 93]) := by
      rw [hdata, hr]
      intro h
      exact absurd (List.cons.inj (List.cons.inj h).2).1 (by decide)
    have hlen : (createJson (p :: ps)).length
        = (createJson.object p ++ createJson.rest ps).length + 1 := by
      show (createJson (p :: ps)).data.length = _
      rw [hdata]
      rfl
    obtain ⟨objects, hobjects, hread⟩ := readJsonObjects_parameters ps p
      (createJson (p :: ps)).length hplain (by
        rw [hlen, List.length_append]
        have := createJson_rest_length ps
        omega)
    rw [Sqlite.jsonEachParameters, if_neg h1]
    simp only [hdata, List.head?_cons, List.tail_cons, if_true] at hobjects ⊢
    rw [hobjects]
    exact hread

end ProjectStorage

namespace ProjectStorage

theorem createJsonEnumeratorDeclarations_fold
    (step : String × String → Storage.EnumeratorDeclaration → String × String)
    (hstep : ∀ state enumerator, step state enumerator
      = (⟨state.1.data ++ state.2.data ++ createJsonEnumeratorDeclarations.member enumerator⟩,
         ",\"")) :
    ∀ (enumerators : List Storage.EnumeratorDeclaration) (json : String),
      ((enumerators.foldl step (json, ",\"")).1 ++ "\x7d").data
        = json.data ++ createJsonEnumeratorDeclarations.rest enumerators := by
  intro enumerators
  induction enumerators with
  | nil => intro json; simp [createJsonEnumeratorDeclarations.rest]
  | cons enumerator enumerators ih =>
    intro json
    rw [List.foldl_cons, hstep, ih]
    simp [createJsonEnumeratorDeclarations.rest, List.append_assoc]

/-- The characters of the text of an enumerator list: the opening brace, then the closing brace
or the first enumerator after a double quote and the rest. -/
theorem createJsonEnumeratorDeclarations_data
    (enumerators : List Storage.EnumeratorDeclaration) :
    (createJsonEnumeratorDeclarations enumerators).data = "\x7b".data ++
      match enumerators with
      | [] => "\x7d".data
      | enumerator :: enumerators =>
        "\"".data ++ createJsonEnumeratorDeclarations.member enumerator ++
          createJsonEnumeratorDeclarations.rest enumerators := by
  obtain ⟨step, hdef⟩ : ∃ step : String × String → Storage.EnumeratorDeclaration →
      String × String, step = fun state enumerator =>
        let json := state.1 ++ state.2 ++ enumerator.name
        (if enumerator.hasValue then json ++ "\":\"" ++ toString enumerator.value ++ "\""
         else json ++ "\":null", ",\"") := ⟨_, rfl⟩
  have hjson : createJsonEnumeratorDeclarations enumerators
      = (enumerators.foldl step ("\x7b", "\"")).1 ++ "\x7d" := by
    rw [hdef]; rfl
  have hstep : ∀ (state : String × String) (enumerator : Storage.EnumeratorDeclaration),
      step state enumerator
        = (⟨state.1.data ++ state.2.data ++
            createJsonEnumeratorDeclarations.member enumerator⟩, ",\"") := by
    intro state enumerator
    rw [hdef]
    simp only [createJsonEnumeratorDeclarations.member, Prod.mk.injEq, and_true]
    apply String.ext
    by_cases h : enumerator.hasValue = true
    · simp [h, String.data_append, List.append_assoc]
    · simp [h, String.data_append, List.append_assoc]
  rw [hjson]
  cases enumerators with
  | nil => rw [hdef]; rfl
  | cons enumerator enumerators =>
    rw [List.foldl_cons, hstep, createJsonEnumeratorDeclarations_fold _ hstep]
    simp [List.append_assoc]

/-- The decimal text of an integer is a plain text. -/
theorem intToString_plain (i : Int) :
    ∀ c ∈ (toString i).data, c ≠ Char.ofNat 34 ∧ c ≠ Char.ofNat 92 ∧ 32 ≤ c.toNat := by
  intro c hc
  have h := intToString_spec.1 i c hc
  have h34 : (Char.ofNat 34).toNat = 34 := by decide
  have h92 : (Char.ofNat 92).toNat = 92 := by decide
  refine ⟨?_, ?_, ?_⟩
  · intro heq
    rw [heq] at h
    omega
  · intro heq
    rw [heq] at h
    omega
  · omega

/-- The text of a plain enumerator, followed by anything, is read as a member whose row is the
enumerator. -/
theorem readJsonValue_enumerator (e : Storage.EnumeratorDeclaration)
    (he : Sqlite.PlainText e.name ∧ (e.hasValue = false → e.value = 0)) (rest : List Char) :
    ∃ value, createJsonEnumeratorDeclarations.member e ++ rest
        = e.name.data ++ Char.ofNat 34 :: Char.ofNat 58 ::
            (createJsonEnumeratorDeclarations.member e ++ rest).drop (e.name.data.length + 2) ∧
      Sqlite.readJsonValue
        ((createJsonEnumeratorDeclarations.member e ++ rest).drop (e.name.data.length + 2))
        = some (value, rest) ∧
      Sqlite.readEnumerator (e.name.data, value) = e := by
  have e1 : "\":\"".data = [Char.ofNat 34, Char.ofNat 58, Char.ofNat 34] := by decide
  have e2 : "\":null".data = [Char.ofNat 34, Char.ofNat 58, Char.ofNat 110, Char.ofNat 117,
      Char.ofNat 108, Char.ofNat 108] := by decide
  have e3 : "\"".data = [Char.ofNat 34] := by decide
  have hdrop : ∀ (a b : List Char), (a ++ Char.ofNat 34 :: Char.ofNat 58 :: b).drop
      (a.length + 2) = b := by
    intro a b
    have : a ++ Char.ofNat 34 :: Char.ofNat 58 :: b
        = (a ++ [Char.ofNat 34, Char.ofNat 58]) ++ b := by simp
    rw [this, List.drop_append_of_le_length (by simp), List.drop_of_length_le (by simp)]
    rfl
  obtain ⟨name, value, hasValue⟩ := e
  simp only at he
  cases hasValue with
  | true =>
    have htext : createJsonEnumeratorDeclarations.member ⟨name, value, true⟩ ++ rest
        = name.data ++ Char.ofNat 34 :: Char.ofNat 58 ::
            (Char.ofNat 34 :: ((toString value).data ++ Char.ofNat 34 :: rest)) := by
      simp [createJsonEnumeratorDeclarations.member, e1, e3, List.append_assoc]
    rw [htext, hdrop]
    refine ⟨.text (toString value).data, rfl,
      Sqlite.readJsonValue_text _ rest (intToString_plain value), ?_⟩
    have hread := Sqlite.readJsonInteger_toString value [] rfl
    rw [List.append_nil] at hread
    simp [Sqlite.readEnumerator, Sqlite.JsonValue.toInteger, hread]
  | false =>
    have hvalue : value = 0 := he.2 rfl
    subst hvalue
    have htext : createJsonEnumeratorDeclarations.member ⟨name, 0, false⟩ ++ rest
        = name.data ++ Char.ofNat 34 :: Char.ofNat 58 ::
            (Char.ofNat 110 :: Char.ofNat 117 :: Char.ofNat 108 :: Char.ofNat 108 ::
              rest) := by
      simp [createJsonEnumeratorDeclarations.member, e2, List.append_assoc]
    rw [htext, hdrop]
    refine ⟨.null, rfl, Sqlite.readJsonValue_null rest, ?_⟩
    simp [Sqlite.readEnumerator, Sqlite.JsonValue.toInteger]

/-- The members of the text of a plain enumerator list after its opening brace are read as the
enumerators of the list. -/
theorem readJsonMembers_enumerators :
    ∀ (es : List Storage.EnumeratorDeclaration) (e : Storage.EnumeratorDeclaration)
      (fuel : Nat), PlainEnumerators (e :: es) → es.length < fuel →
      ∃ members, Sqlite.readJsonMembers fuel
          (Char.ofNat 34 :: (createJsonEnumeratorDeclarations.member e ++
            createJsonEnumeratorDeclarations.rest es)) = some (members, []) ∧
        members.map Sqlite.readEnumerator = e :: es := by
  intro es
  induction es with
  | nil =>
    intro e fuel hplain hfuel
    obtain ⟨fuel, rfl⟩ : ∃ f, fuel = f + 1 := ⟨fuel - 1, by omega⟩
    have hrest : createJsonEnumeratorDeclarations.rest [] = [Char.ofNat 125] := rfl
    obtain ⟨value, htext, hvalue, hread⟩ := readJsonValue_enumerator e
      (hplain e (List.mem_cons_self _ _)) [Char.ofNat 125]
    rw [hrest, htext, Sqlite.readJsonMembers_last fuel e.name.data _ [] value
      (hplain e (List.mem_cons_self _ _)).1 hvalue]
    exact ⟨_, rfl, by simp [hread]⟩
  | cons d es ih =>
    intro e fuel hplain hfuel
    obtain ⟨fuel, rfl⟩ : ∃ f, fuel = f + 1 := ⟨fuel - 1, by omega⟩
    have hrest : createJsonEnumeratorDeclarations.rest (d :: es)
        = Char.ofNat 44 :: Char.ofNat 34 :: (createJsonEnumeratorDeclarations.member d ++
            createJsonEnumeratorDeclarations.rest es) := rfl
    obtain ⟨value, htext, hvalue, hread⟩ := readJsonValue_enumerator e
      (hplain e (List.mem_cons_self _ _))
      (Char.ofNat 44 :: Char.ofNat 34 :: (createJsonEnumeratorDeclarations.member d ++
        createJsonEnumeratorDeclarations.rest es))
    obtain ⟨members, hmembers, hreads⟩ := ih d fuel
      (fun x hx => hplain x (List.mem_cons_of_mem _ hx))
      (by simp only [List.length_cons] at hfuel; omega)
    rw [hrest, htext, Sqlite.readJsonMembers_next fuel e.name.data _ _ value
      (hplain e (List.mem_cons_self _ _)).1 hvalue, hmembers]
    exact ⟨_, rfl, by simp [hread, hreads]⟩

/-- The text after the first enumerator has more characters than the list has further
enumerators. -/
theorem createJsonEnumeratorDeclarations_rest_length :
    ∀ es : List Storage.EnumeratorDeclaration,
      es.length < (createJsonEnumeratorDeclarations.rest es).length := by
  intro es
  induction es with
  | nil => decide
  | cons e es ih =>
    have : createJsonEnumeratorDeclarations.rest (e :: es)
        = Char.ofNat 44 :: Char.ofNat 34 :: (createJsonEnumeratorDeclarations.member e ++
            createJsonEnumeratorDeclarations.rest es) := rfl
    rw [this]
    simp only [List.length_cons, List.length_append]
    omega

/-- The JSON table function reads the text `createJson` writes for a plain enumerator list back
as the list. -/
theorem jsonEachEnumerators_createJson (es : List Storage.EnumeratorDeclaration)
    (hplain : PlainEnumerators es) :
    Sqlite.jsonEachEnumerators (createJsonEnumeratorDeclarations es) = es := by
  have hopen : "\x7b".data = [Char.ofNat 123] := by decide
  have hquote : "\"".data = [Char.ofNat 34] := by decide
  have hdata := createJsonEnumeratorDeclarations_data es
  cases es with
  | nil =>
    have hd : (createJsonEnumeratorDeclarations []).data = [Char.ofNat 123, Char.ofNat 125] := by
      decide
    have hl : (createJsonEnumeratorDeclarations []).length = 2 := by decide
    simp [Sqlite.jsonEachEnumerators, Sqlite.readJsonObject, hd, hl]
  | cons e es =>
    simp only [hopen, hquote, List.cons_append, List.nil_append] at hdata
    have hlen : (createJsonEnumeratorDeclarations (e :: es)).length
        = (createJsonEnumeratorDeclarations.member e ++
            createJsonEnumeratorDeclarations.rest es).length + 2 := by
      show (createJsonEnumeratorDeclarations (e :: es)).data.length = _
      rw [hdata]
      rfl
    obtain ⟨members, hmembers, hread⟩ := readJsonMembers_enumerators es e
      (createJsonEnumeratorDeclarations (e :: es)).length hplain (by
        rw [hlen, List.length_append]
        have := createJsonEnumeratorDeclarations_rest_length es
        omega)
    have hopen1 : ¬(some (Char.ofNat 34) = some (Char.ofNat 125)) := by decide
    simp only [Sqlite.jsonEachEnumerators, Sqlite.readJsonObject, hdata, List.head?_cons,
      List.tail_cons, if_true, if_neg hopen1, hmembers]
    exact hread

end ProjectStorage

namespace ProjectStorage

/-- On the store after `synchronizeTypes([A], [1])` with the exported names `Qml.B`, `Qml.A` of
`A` in that order, the plan that scans `exportedTypes` in the order of its primary key returns
`Qml.A` before `Qml.B`: the exported types come back up to order. -/
theorem fetchTypes_exportedTypes_key_order :
    (synchronizeTypes {} [Sample.typeExported] [{ id := 1 }]).result = .ok () ∧
    Sample.typeExported.exportedTypes.map (·.qualifiedTypeName) = ["Qml.B", "Qml.A"] ∧
    (fetchTypes exportedTypesScan Sqlite.jsonEach
      (synchronizeTypes {} [Sample.typeExported] [{ id := 1 }]).database).map
        (fun type => type.exportedTypes.map (·.qualifiedTypeName))
      = [["Qml.A", "Qml.B"]] := by
  decide

/-- C16, as stated, fails.  Each of three batches of the one type `A` of source `1` meets the
conditions of the claim, and `synchronizeTypes([A], [1])` on the empty store commits.  With one
property `p` of type `double`: the placeholder row of `double` is swept, and `fetchTypes()`
returns `A` with the property `p` of the empty type name.  With a function `f` of one parameter
`a` whose type name holds a double quote: `createJson` does not escape it, the stored text is
the array of the two objects of `a : b` and `c : d`, and `fetchTypes()` returns `f` with these
two parameters.  With an enumeration `E` whose enumerator `e` has the value `5` and `hasValue`
off: the stored text holds `null` for `e`, and `fetchTypes()` returns `e` with the value `0`. -/
theorem fetchTypes_differs_from_incoming :
    (∀ batch ∈ [[Sample.typeWithDouble], [Sample.typeQuoted], [Sample.typeUnvalued]],
      (batch.map (·.typeName)).Nodup ∧
      (∀ type ∈ batch,
        type.sourceId.isValid = true ∧ type.sourceId ∈ [({ id := 1 } : SourceId)] ∧
        DistinctDeclarationNames type) ∧
      (synchronizeTypes {} batch [{ id := 1 }]).result = .ok ()) ∧
    Sample.typeWithDouble.propertyDeclarations
      = [{ name := "p", typeName := "double", traits := 1 }] ∧
    (fetchTypes .asProduced Sqlite.jsonEach
      (synchronizeTypes {} [Sample.typeWithDouble] [{ id := 1 }]).database).map
        (fun type => (type.typeName, type.propertyDeclarations))
      = [("A", [{ name := "p", typeName := "", traits := 1 }])] ∧
    Sample.typeQuoted.functionDeclarations
      = [{ name := "f", parameters :=
            [{ name := "a", typeName := "b\"\x7d,\x7b\"n\":\"c\",\"tn\":\"d" }] }] ∧
    (fetchTypes .asProduced Sqlite.jsonEach
      (synchronizeTypes {} [Sample.typeQuoted] [{ id := 1 }]).database).map
        (fun type => (type.typeName, type.functionDeclarations))
      = [("A", [{ name := "f", parameters :=
            [{ name := "a", typeName := "b" }, { name := "c", typeName := "d" }] }])] ∧
    Sample.typeUnvalued.enumerationDeclarations
      = [{ name := "E", enumeratorDeclarations :=
            [{ name := "e", value := 5, hasValue := false }] }] ∧
    (fetchTypes .asProduced Sqlite.jsonEach
      (synchronizeTypes {} [Sample.typeUnvalued] [{ id := 1 }]).database).map
        (fun type => (type.typeName, type.enumerationDeclarations))
      = [("A", [{ name := "E", enumeratorDeclarations :=
            [{ name := "e", value := 0, hasValue := false }] }])] := by
  decide

end ProjectStorage

namespace ProjectStorage

/-- C16, amended: starting from the empty store, after a `synchronizeTypes(types, sourceIds)`
call that commits, where the type names are pairwise distinct, no type has the source id `-1`,
every property type name is empty or the name of a type of the batch, no exported type occurs
twice in the batch, the names and type names of the parameters and the names of the enumerators
hold no double quote, backslash or control character, and every enumerator without value has
the value `0`: whatever the order in which the engine returns the exported types,
`fetchTypes()` returns exactly the incoming types and nothing else (the names are the incoming
names, each once), each with the same typeName, prototype name, accessSemantics and sourceId,
and with the same exported types and property, function, signal and enumeration declarations up
to order, the parameter lists, traits and enumerator lists being the incoming ones
(`Hydrates`). -/
theorem fetchTypes_round_trip (order : Sqlite.RowOrder ExportedTypesRow)
    (types : List Storage.Type_) (sourceIds : List SourceId)
    (hnames : (types.map (·.typeName)).Nodup)
    (hsources : ∀ type ∈ types, type.sourceId.id ≠ -1)
    (hpropertyTypes : ∀ type ∈ types, ∀ property ∈ type.propertyDeclarations,
      property.typeName = "" ∨ property.typeName ∈ types.map (·.typeName))
    (hexported : (types.flatMap (·.exportedTypes)).Nodup)
    (hplain : ∀ type ∈ types, PlainDeclarations type)
    (hcommit : (synchronizeTypes {} types sourceIds).result = .ok ()) :
    ((fetchTypes order Sqlite.jsonEach
        (synchronizeTypes {} types sourceIds).database).map (·.typeName)).Perm
      (types.map (·.typeName)) ∧
    ∀ type ∈ types,
      ∃ fetched ∈ fetchTypes order Sqlite.jsonEach (synchronizeTypes {} types sourceIds).database,
        Hydrates type fetched := by
  have hwf0 : TypesWF ({} : Database).types := ⟨List.nodup_nil, List.nodup_nil, by simp⟩
  have hkeys0 : KeysWF ([] : List DeclarationKey) := ⟨List.nodup_nil, List.nodup_nil⟩
  have hWF := synchronizeTypes_wellFormed {} types sourceIds
    ⟨hwf0, hkeys0, hkeys0, hkeys0, hkeys0⟩
  obtain ⟨s1, ids, s2, h1, h2, hfk, hdb⟩ := synchronizeTypes_ok hcommit
  have hinv0 : BatchInv [] ({ database := {} } : Session).database :=
    ⟨hwf0, by simp, by intro r hr; simp at hr, TableInv.empty _ _ _, TableInv.empty _ _ _,
      TableInv.empty _ _ _, TableInv.empty _ _ _, TableInv.empty _ _ _⟩
  obtain ⟨hinv, hlen⟩ := syncTypes_batchInv types [] _ s1 ids h1 hinv0
    (by simpa using hnames) (by simpa using hexported)
  simp only [List.nil_append] at hinv
  obtain ⟨hwf1, _, hstore⟩ := syncTypes_spec types _ s1 ids h1 hwf0
  have hs2 := deleteNotUpdatedTypes_ok h2
  generalize (synchronizeTypes {} types sourceIds).database = final at hdb hWF ⊢
  have hfT : final.types = s1.database.types.filter fun row =>
      !notUpdatedTypeInSources (sourceIds.map (·.id)) (ids.map (·.id)) row := by
    rw [hdb, hs2]
  have hfE : final.exportedTypes = s1.database.exportedTypes := by rw [hdb, hs2]
  have hfP : final.propertyDeclarations = s1.database.propertyDeclarations := by rw [hdb, hs2]
  have hfF : final.functionDeclarations = s1.database.functionDeclarations := by rw [hdb, hs2]
  have hfS : final.signalDeclarations = s1.database.signalDeclarations := by rw [hdb, hs2]
  have hfN : final.enumerationDeclarations = s1.database.enumerationDeclarations := by
    rw [hdb, hs2]
  have hsub : ∀ r ∈ final.types, r ∈ s1.database.types := by
    intro r hr
    rw [hfT] at hr
    exact (List.mem_filter.mp hr).1
  have hsame : ∀ type ∈ types, ∀ x ∈ types, x.typeName = type.typeName → x = type :=
    fun type htype x hx hn => List.inj_on_of_nodup_map hnames hx htype hn
  -- the row of every type of the batch is stored at the end
  have hkept : ∀ type ∈ types, ∃ row, StoresType s1.database.types type row ∧
      row ∈ final.types ∧ row.sourceId = some type.sourceId.id ∧
      (type, row.typeId) ∈ types.zip (ids.map (·.id)) := by
    intro type htype
    obtain ⟨row, hst, hrid⟩ := hstore type htype (hsame type htype)
    have hsrc : row.sourceId = some type.sourceId.id := by
      rw [hst.2.2.2.1]; unfold nullif; rw [if_neg (hsources type htype)]
    refine ⟨row, hst, ?_, hsrc, ?_⟩
    · rw [hfT]
      refine List.mem_filter.mpr ⟨hst.1, ?_⟩
      simp [notUpdatedTypeInSources, hsrc, hrid]
    · obtain ⟨t, hzip⟩ := exists_mem_zip_of_mem types (ids.map (·.id)) (by simp [hlen])
        type htype
      obtain ⟨r, hr, hrt, hrname⟩ := hinv.named _ hzip
      have hrrow : r = row := hwf1.row_of_name hr hst.1 (by rw [hrname, hst.2.1])
      rw [← hrrow, hrt]
      exact hzip
  have hwfF : TypesWF final.types := hWF.types
  refine ⟨?_, ?_⟩
  · rw [map_typeName_fetchTypes]
    refine (List.perm_ext_iff_of_nodup hwfF.2.1 hnames).mpr fun n => ⟨fun hn => ?_, fun hn => ?_⟩
    · obtain ⟨r, hr, rfl⟩ := List.mem_map.mp hn
      have hr1 := hsub r hr
      rw [hfT] at hr
      have hkeep := (List.mem_filter.mp hr).2
      rcases hinv.sourced r hr1 with hnone | hmem
      · simp [notUpdatedTypeInSources, hnone] at hkeep
      · obtain ⟨p, hp, hpn⟩ := List.mem_map.mp hmem
        rw [← hpn]
        exact List.mem_map.mpr ⟨p.1, (List.of_mem_zip hp).1, rfl⟩
    · obtain ⟨type, htype, rfl⟩ := List.mem_map.mp hn
      obtain ⟨row, hst, hrow, _, _⟩ := hkept type htype
      exact List.mem_map.mpr ⟨row, hrow, hst.2.1⟩
  · intro type htype
    obtain ⟨row, hst, hrow, hsrc, hzip⟩ := hkept type htype
    obtain ⟨hrow1, hrname, hsem, _, hp0, hp1⟩ := hst
    refine ⟨_, List.mem_map.mpr ⟨_, List.mem_map.mpr ⟨row, hrow, rfl⟩, rfl⟩, ?_⟩
    unfold Hydrates
    refine ⟨hrname, ?_, ?_, ?_, ?_, ?_, ?_, ?_, ?_⟩
    · -- prototype
      show selectTypeNameSubquery final row.prototypeId = type.prototype
      by_cases hproto : type.prototype = ""
      · rw [hp0 hproto, hproto]; rfl
      · obtain ⟨proto, hprotomem, hprotoname, hprotoid⟩ := hp1 hproto
        have hall := List.all_eq_true.mp hfk row (by rw [← hdb]; exact hrow)
        rw [hprotoid] at hall
        simp only [List.any_eq_true, decide_eq_true_eq] at hall
        obtain ⟨parent, hparent, hparentid⟩ := hall
        rw [← hdb] at hparent
        have hparentproto : parent = proto :=
          hwf1.row_of_typeId (hsub parent hparent) hprotomem hparentid
        rw [hparentproto] at hparent
        rw [hprotoid, selectTypeNameSubquery_stored hwfF hparent, hprotoname]
    · -- access semantics
      show Storage.TypeAccessSemantics.ofInt (row.accessSemantics.getD 0) = type.accessSemantics
      rw [hsem]
      exact accessSemantics_ofInt_toInt _
    · -- source id
      show ({ id := row.sourceId.getD (-1) } : SourceId) = type.sourceId
      rw [hsrc]
      rfl
    · -- exported types
      show ((order.arrange (final.exportedTypes.filter (fun r => r.typeId = row.typeId))).map
        _).Perm type.exportedTypes
      have hstored := hinv.exported.stored _ hzip
      simp only at hstored
      refine ((order.perm _).map _).trans ?_
      rw [hfE, forall₂_map_eq (g := id) hstored, List.map_id]
      intro r e _ _ hs
      exact exportedType_eq hs.2.1 hs.2.2.1 hs.2.2.2
    · -- property declarations
      show ((final.propertyDeclarations.filter (fun r => r.typeId = row.typeId)).map _).Perm _
      have hstored := hinv.properties.stored _ hzip
      simp only at hstored
      rw [hfP, forall₂_map_eq hstored]
      · exact (sortByName_perm _ _).map _
      · intro r p _ hp hs
        have hp' : p ∈ type.propertyDeclarations := (sortByName_perm _ _).subset hp
        obtain ⟨_, hname, htraits, htype'⟩ := hs
        have htypeName : selectTypeNameSubquery final (some r.propertyTypeId) = p.typeName := by
          rcases htype' with ⟨hempty, hid⟩ | ⟨hne, r', hr', hr'name, hr'id⟩
          · rw [hid, hempty]
            exact selectTypeNameSubquery_invalid hwfF
          · rcases hpropertyTypes type htype p hp' with h | h
            · exact absurd h hne
            · obtain ⟨other, hother, hothername⟩ := List.mem_map.mp h
              obtain ⟨orow, host, horow, _, _⟩ := hkept other hother
              have hsame' : r' = orow :=
                hwf1.row_of_name hr' host.1 (by rw [hr'name, host.2.1, hothername])
              rw [← hr'id, hsame', selectTypeNameSubquery_stored hwfF horow, host.2.1,
                hothername]
        simp only [htypeName, hname, htraits, Option.getD_some]
    · -- function declarations
      show ((sortByName (·.name)
        (final.functionDeclarations.filter (fun r => r.typeId = row.typeId))).map _).Perm _
      have hstored := hinv.functions.stored _ hzip
      simp only at hstored
      rw [← hfF] at hstored
      refine ((sortByName_perm _ _).map _).trans ?_
      rw [forall₂_map_eq (g := id) hstored, List.map_id]
      · exact sortByName_perm _ _
      · intro r f hr hf hs
        have hr' : r ∈ final.functionDeclarations := (List.mem_filter.mp hr).1
        have hf' : f ∈ type.functionDeclarations := (sortByName_perm _ _).subset hf
        have hread : Sqlite.jsonEach.parameters (createJson f.parameters) = f.parameters :=
          jsonEachParameters_createJson _ ((hplain type htype).1 f hf')
        simp only [selectFunctionParameterDeclarationsStatement_stored Sqlite.jsonEach
          hWF.functions hr', hs.2.1, hs.2.2.1, hs.2.2.2, hread, id]
    · -- signal declarations
      show ((sortByName (·.name)
        (final.signalDeclarations.filter (fun r => r.typeId = row.typeId))).map _).Perm _
      have hstored := hinv.signals.stored _ hzip
      simp only at hstored
      rw [← hfS] at hstored
      refine ((sortByName_perm _ _).map _).trans ?_
      rw [forall₂_map_eq (g := id) hstored, List.map_id]
      · exact sortByName_perm _ _
      · intro r f hr hf hs
        have hr' : r ∈ final.signalDeclarations := (List.mem_filter.mp hr).1
        have hf' : f ∈ type.signalDeclarations := (sortByName_perm _ _).subset hf
        have hread : Sqlite.jsonEach.parameters (createJson f.parameters) = f.parameters :=
          jsonEachParameters_createJson _ ((hplain type htype).2.1 f hf')
        simp only [selectSignalParameterDeclarationsStatement_stored Sqlite.jsonEach
          hWF.signals hr', hs.2.1, hs.2.2, hread, id]
    · -- enumeration declarations
      show ((sortByName (·.name)
        (final.enumerationDeclarations.filter (fun r => r.typeId = row.typeId))).map _).Perm _
      have hstored := hinv.enumerations.stored _ hzip
      simp only at hstored
      rw [← hfN] at hstored
      refine ((sortByName_perm _ _).map _).trans ?_
      rw [forall₂_map_eq (g := id) hstored, List.map_id]
      · exact sortByName_perm _ _
      · intro r f hr hf hs
        have hr' : r ∈ final.enumerationDeclarations := (List.mem_filter.mp hr).1
        have hf' : f ∈ type.enumerationDeclarations := (sortByName_perm _ _).subset hf
        have hread : Sqlite.jsonEach.enumerators
            (createJsonEnumeratorDeclarations f.enumeratorDeclarations)
            = f.enumeratorDeclarations :=
          jsonEachEnumerators_createJson _ ((hplain type htype).2.2 f hf')
        simp only [selectEnumeratorDeclarationStatement_stored Sqlite.jsonEach
          hWF.enumerations hr', hs.2.1, hs.2.2, hread, id]

theorem fetchTypes_round_trip_witness :
    ((fetchTypes exportedTypesScan Sqlite.jsonEach (synchronizeTypes {}
      [Sample.typeE, Sample.typeA, Sample.typeDouble] [{ id := 1 }, { id := 2 }]).database).map
        (·.typeName)).Perm ["E", "A", "double"] ∧
    (∃ fetched ∈ fetchTypes exportedTypesScan Sqlite.jsonEach (synchronizeTypes {}
        [Sample.typeE, Sample.typeA, Sample.typeDouble] [{ id := 1 }, { id := 2 }]).database,
      Hydrates Sample.typeA fetched) ∧
    (∃ fetched ∈ fetchTypes exportedTypesScan Sqlite.jsonEach (synchronizeTypes {}
        [Sample.typeE, Sample.typeA, Sample.typeDouble] [{ id := 1 }, { id := 2 }]).database,
      Hydrates Sample.typeE fetched) :=
  ⟨(fetchTypes_round_trip exportedTypesScan [Sample.typeE, Sample.typeA, Sample.typeDouble]
      [{ id := 1 }, { id := 2 }] (by decide) (by decide) (by decide) (by decide) (by decide)
      (by decide)).1,
   (fetchTypes_round_trip exportedTypesScan [Sample.typeE, Sample.typeA, Sample.typeDouble]
      [{ id := 1 }, { id := 2 }] (by decide) (by decide) (by decide) (by decide) (by decide)
      (by decide)).2 Sample.typeA (by decide),
   (fetchTypes_round_trip exportedTypesScan [Sample.typeE, Sample.typeA, Sample.typeDouble]
      [{ id := 1 }, { id := 2 }] (by decide) (by decide) (by decide) (by decide) (by decide)
      (by decide)).2 Sample.typeE (by decide)⟩

end ProjectStorage

/-! ## The merge of one declaration kind, row by row -/

section MergeRows

variable {σ V A R : Type} {rows : σ → List R} {key : R → DeclarationKey} {toView : R → V}
  {t : Int} {vid : V → Int} {vname : V → String} {aname : A → String}
  {G : σ → σ → Prop} {P : σ → A → R → Prop}

/-- Two rows of a table with unique primary keys that have the same key are the same row. -/
theorem row_eq_of_id {l : List R} (hwf : KeysWF (l.map key)) {r0 r1 : R} (h0 : r0 ∈ l)
    (h1 : r1 ∈ l) (hid : (key r0).1 = (key r1).1) : r0 = r1 := by
  have hnodup : (l.map (fun r => (key r).1)).Nodup := by
    have := hwf.1
    rwa [List.map_map] at this
  exact List.inj_on_of_nodup_map hnodup h0 h1 hid

/-- What a successful merge of the declarations of type `t` does to the rows, when the callbacks
act on the rows as an insert, an in-place update of the row of the view and a delete by id: the
rows of other types are kept as they are and none is added, every row of `t` that is left holds
an incoming value (`P`) or is a row not yet visited, and the rows already visited are kept. -/
theorem insertUpdateDeleteLoop_rows
    (hvid : ∀ r, vid (toView r) = (key r).1)
    (hrefl : ∀ s, G s s) (htrans : ∀ s s1 s2, G s s1 → G s1 s2 → G s s2)
    (hmono : ∀ s s1 a r, G s s1 → P s a r → P s1 a r)
    {ins : A → σ → Except Error σ} {upd : V → A → σ → Except Error σ}
    {rem : V → σ → Except Error σ}
    (h_ins : ∀ s a s1, ins a s = .ok s1 → G s s1 ∧ ∃ r, rows s1 = rows s ++ [r] ∧
      key r = (newRowId (((rows s).map key).map (·.1)), t, aname a) ∧ P s1 a r)
    (h_upd : ∀ s v a s1, upd v a s = .ok s1 → vname v = aname a → G s s1 ∧ ∃ f : R → R,
      rows s1 = (rows s).map (fun r => if (key r).1 = vid v then f r else r) ∧
      (∀ r, key (f r) = key r) ∧
      ∀ r ∈ rows s, toView r = v → (key r).2.1 = t → P s1 a (f r))
    (h_rem : ∀ s v s1, rem v s = .ok s1 → G s s1 ∧
      rows s1 = (rows s).filter (fun r => (key r).1 ≠ vid v)) :
    ∀ (fuel : Nat) (vs : List V) (as : List A) (s s2 : σ), vs.length + as.length ≤ fuel →
      Sqlite.insertUpdateDeleteLoop (fun v a => Sqlite.compare (vname v) (aname a))
        ins upd rem fuel vs as s = .ok s2 →
      MergeInv (fun s => (rows s).map key) t vid vname aname (fun _ => True) vs as s →
      (∀ v ∈ vs, ∃ r ∈ rows s, toView r = v) →
      G s s2 ∧
      (∀ r, (key r).2.1 ≠ t → (r ∈ rows s2 ↔ r ∈ rows s)) ∧
      (∀ r ∈ rows s2, (key r).2.1 = t →
        (∃ a ∈ as, (key r).2.2 = aname a ∧ P s2 a r) ∨
        (r ∈ rows s ∧ ∀ v ∈ vs, vid v ≠ (key r).1)) ∧
      (∀ r ∈ rows s, (key r).2.1 = t → (∀ v ∈ vs, vid v ≠ (key r).1) → r ∈ rows s2) := by
  intro fuel
  induction fuel with
  | zero =>
    intro vs as s s2 hlen h hI hviews
    simp only [Sqlite.insertUpdateDeleteLoop, Except.ok.injEq] at h
    subst h
    exact ⟨hrefl s, fun _ _ => Iff.rfl, fun r hr _ => Or.inr ⟨hr,
      by
        have hvs : vs = [] := List.length_eq_zero.mp (by omega)
        subst hvs; simp⟩, fun r hr _ _ => hr⟩
  | succ fuel ih =>
    intro vs as s s2 hlen h hI hviews
    -- the three kinds of round
    have round_insert : ∀ (a : A) (as1 : List A), as = a :: as1 →
        (∀ v ∈ vs, Sqlite.compare (aname a) (vname v) = .lt) →
        ∀ s1, ins a s = .ok s1 →
        Sqlite.insertUpdateDeleteLoop (fun v a => Sqlite.compare (vname v) (aname a))
          ins upd rem fuel vs as1 s1 = .ok s2 →
        G s s2 ∧
        (∀ r, (key r).2.1 ≠ t → (r ∈ rows s2 ↔ r ∈ rows s)) ∧
        (∀ r ∈ rows s2, (key r).2.1 = t →
          (∃ a ∈ as, (key r).2.2 = aname a ∧ P s2 a r) ∨
          (r ∈ rows s ∧ ∀ v ∈ vs, vid v ≠ (key r).1)) ∧
        (∀ r ∈ rows s, (key r).2.1 = t → (∀ v ∈ vs, vid v ≠ (key r).1) → r ∈ rows s2) := by
      intro a as1 has hlt s1 h1 h2
      subst has
      obtain ⟨hG, rn, hrows, hkey, hP⟩ := h_ins s a s1 h1
      have hkeys : (rows s1).map key = (rows s).map key ++
          [(newRowId (((rows s).map key).map (·.1)), t, aname a)] := by
        rw [hrows, List.map_append, List.map_singleton, hkey]
      obtain ⟨hI1, _⟩ := hI.step_insert hlt trivial hkeys
      have hviews1 : ∀ v ∈ vs, ∃ r ∈ rows s1, toView r = v := by
        intro v hv
        obtain ⟨r, hr, hrv⟩ := hviews v hv
        exact ⟨r, by rw [hrows]; exact List.mem_append_left _ hr, hrv⟩
      obtain ⟨hG2, hframe, horigin, hkept⟩ :=
        ih vs as1 s1 s2 (by simp at hlen ⊢; omega) h2 hI1 hviews1
      have htn : (key rn).2.1 = t := by rw [hkey]
      refine ⟨htrans _ _ _ hG hG2, ?_, ?_, ?_⟩
      · intro r hrt
        rw [hframe r hrt, hrows, List.mem_append, List.mem_singleton]
        constructor
        · rintro (h | h)
          · exact h
          · exact absurd (h ▸ htn) hrt
        · exact Or.inl
      · intro r hr hrt
        rcases horigin r hr hrt with ⟨b, hb, hbn, hbP⟩ | ⟨hr1, hvs⟩
        · exact Or.inl ⟨b, List.mem_cons_of_mem _ hb, hbn, hbP⟩
        · rw [hrows, List.mem_append, List.mem_singleton] at hr1
          rcases hr1 with hr1 | hr1
          · exact Or.inr ⟨hr1, hvs⟩
          · subst hr1
            refine Or.inl ⟨a, List.mem_cons_self _ _, by rw [hkey], ?_⟩
            have hin : r ∈ rows s1 := by rw [hrows]; simp
            exact hmono _ _ _ _ hG2 hP
      · intro r hr hrt hvs
        exact hkept r (by rw [hrows]; exact List.mem_append_left _ hr) hrt hvs
    have round_remove : ∀ (v : V) (vs1 : List V), vs = v :: vs1 →
        (∀ a ∈ as, Sqlite.compare (vname v) (aname a) = .lt) →
        ∀ s1, rem v s = .ok s1 →
        Sqlite.insertUpdateDeleteLoop (fun v a => Sqlite.compare (vname v) (aname a))
          ins upd rem fuel vs1 as s1 = .ok s2 →
        G s s2 ∧
        (∀ r, (key r).2.1 ≠ t → (r ∈ rows s2 ↔ r ∈ rows s)) ∧
        (∀ r ∈ rows s2, (key r).2.1 = t →
          (∃ a ∈ as, (key r).2.2 = aname a ∧ P s2 a r) ∨
          (r ∈ rows s ∧ ∀ v ∈ vs, vid v ≠ (key r).1)) ∧
        (∀ r ∈ rows s, (key r).2.1 = t → (∀ v ∈ vs, vid v ≠ (key r).1) → r ∈ rows s2) := by
      intro v vs1 hvs hlt s1 h1 h2
      subst hvs
      obtain ⟨hG, hrows⟩ := h_rem s v s1 h1
      have hkeys : (rows s1).map key = ((rows s).map key).filter (fun k => k.1 ≠ vid v) := by
        rw [hrows, List.filter_map]
        rfl
      obtain ⟨hI1, _⟩ := hI.step_remove hlt trivial hkeys
      have hne := hI.vid_ne
      have hpresent := hI.present v (List.mem_cons_self _ _)
      have hmem1 : ∀ r, r ∈ rows s1 ↔ r ∈ rows s ∧ (key r).1 ≠ vid v := by
        intro r; rw [hrows]; simp
      have hviews1 : ∀ w ∈ vs1, ∃ r ∈ rows s1, toView r = w := by
        intro w hw
        obtain ⟨r, hr, hrv⟩ := hviews w (List.mem_cons_of_mem _ hw)
        refine ⟨r, (hmem1 r).mpr ⟨hr, ?_⟩, hrv⟩
        rw [← hvid r, hrv]
        exact hne w hw
      obtain ⟨hG2, hframe, horigin, hkept⟩ :=
        ih vs1 as s1 s2 (by simp at hlen ⊢; omega) h2 hI1 hviews1
      have htype : ∀ r ∈ rows s, (key r).1 = vid v → (key r).2.1 = t := by
        intro r hr hid
        have := hI.wf.eq_of_id (List.mem_map.mpr ⟨r, hr, rfl⟩) hpresent hid
        rw [this]
      refine ⟨htrans _ _ _ hG hG2, ?_, ?_, ?_⟩
      · intro r hrt
        rw [hframe r hrt, hmem1]
        constructor
        · exact fun h => h.1
        · exact fun h => ⟨h, fun hid => hrt (htype r h hid)⟩
      · intro r hr hrt
        rcases horigin r hr hrt with h | ⟨hr1, hvs⟩
        · exact Or.inl h
        · obtain ⟨hr0, hid⟩ := (hmem1 r).mp hr1
          refine Or.inr ⟨hr0, fun w hw => ?_⟩
          rcases List.mem_cons.mp hw with rfl | hw
          · exact fun h => hid h.symm
          · exact hvs w hw
      · intro r hr hrt hvs
        exact hkept r ((hmem1 r).mpr ⟨hr, fun h => hvs v (List.mem_cons_self _ _) h.symm⟩) hrt
          fun w hw => hvs w (List.mem_cons_of_mem _ hw)
    cases vs with
    | nil =>
      cases as with
      | nil =>
        simp only [Sqlite.insertUpdateDeleteLoop, Except.ok.injEq] at h
        subst h
        exact ⟨hrefl s, fun _ _ => Iff.rfl, fun r hr _ => Or.inr ⟨hr, by simp⟩,
          fun r hr _ _ => hr⟩
      | cons a as =>
        simp only [Sqlite.insertUpdateDeleteLoop] at h
        cases h1 : ins a s with
        | error e => simp [h1] at h
        | ok s1 =>
          simp only [h1] at h
          exact round_insert a as rfl (by simp) s1 h1 h
    | cons v vs =>
      cases as with
      | nil =>
        simp only [Sqlite.insertUpdateDeleteLoop] at h
        cases h1 : rem v s with
        | error e => simp [h1] at h
        | ok s1 =>
          simp only [h1] at h
          exact round_remove v vs rfl (by simp) s1 h1 h
      | cons a as =>
        cases hcmp : Sqlite.compare (vname v) (aname a) with
        | eq =>
          have heq := Sqlite.compare_eq_iff.mp hcmp
          simp only [Sqlite.insertUpdateDeleteLoop, hcmp] at h
          cases h1 : upd v a s with
          | error e => simp [h1] at h
          | ok s1 =>
            simp only [h1] at h
            obtain ⟨hG, f, hrows, hfkey, hP⟩ := h_upd s v a s1 h1 heq
            have hkeys : (rows s1).map key = (rows s).map key := by
              rw [hrows, List.map_map]
              apply List.map_congr_left
              intro r _
              simp only [Function.comp]
              split
              · exact hfkey r
              · rfl
            obtain ⟨hI1, _⟩ := hI.step_update heq trivial hkeys
            have hne := hI.vid_ne
            have hpresent := hI.present v (List.mem_cons_self _ _)
            obtain ⟨rv, hrv, hrvv⟩ := hviews v (List.mem_cons_self _ _)
            have hrvid : (key rv).1 = vid v := by rw [← hvid rv, hrvv]
            have hrvkey : key rv = (vid v, t, vname v) :=
              hI.wf.eq_of_id (List.mem_map.mpr ⟨rv, hrv, rfl⟩) hpresent hrvid
            have hmem1 : ∀ r, r ∈ rows s1 ↔
                (r ∈ rows s ∧ (key r).1 ≠ vid v) ∨ r = f rv := by
              intro r
              rw [hrows, List.mem_map]
              constructor
              · rintro ⟨r0, hr0, rfl⟩
                by_cases hid : (key r0).1 = vid v
                · rw [if_pos hid]
                  right
                  rw [row_eq_of_id hI.wf hr0 hrv (hid.trans hrvid.symm)]
                · rw [if_neg hid]
                  exact Or.inl ⟨hr0, hid⟩
              · rintro (⟨hr0, hid⟩ | rfl)
                · exact ⟨r, hr0, by rw [if_neg hid]⟩
                · exact ⟨rv, hrv, by rw [if_pos hrvid]⟩
            have hviews1 : ∀ w ∈ vs, ∃ r ∈ rows s1, toView r = w := by
              intro w hw
              obtain ⟨r, hr, hrw⟩ := hviews w (List.mem_cons_of_mem _ hw)
              refine ⟨r, (hmem1 r).mpr (Or.inl ⟨hr, ?_⟩), hrw⟩
              rw [← hvid r, hrw]
              exact hne w hw
            obtain ⟨hG2, hframe, horigin, hkept⟩ :=
              ih vs as s1 s2 (by simp at hlen ⊢; omega) h hI1 hviews1
            have hfkeyv : key (f rv) = (vid v, t, vname v) := by rw [hfkey, hrvkey]
            refine ⟨htrans _ _ _ hG hG2, ?_, ?_, ?_⟩
            · intro r hrt
              rw [hframe r hrt, hmem1]
              constructor
              · rintro (⟨h, _⟩ | h)
                · exact h
                · exact absurd (by rw [h, hfkeyv]) hrt
              · intro h
                refine Or.inl ⟨h, fun hid => hrt ?_⟩
                rw [row_eq_of_id hI.wf h hrv (hid.trans hrvid.symm), hrvkey]
            · intro r hr hrt
              rcases horigin r hr hrt with ⟨b, hb, hbn, hbP⟩ | ⟨hr1, hvs⟩
              · exact Or.inl ⟨b, List.mem_cons_of_mem _ hb, hbn, hbP⟩
              · rcases (hmem1 r).mp hr1 with ⟨hr0, hid⟩ | rfl
                · refine Or.inr ⟨hr0, fun w hw => ?_⟩
                  rcases List.mem_cons.mp hw with rfl | hw
                  · exact fun h => hid h.symm
                  · exact hvs w hw
                · refine Or.inl ⟨a, List.mem_cons_self _ _, by rw [hfkeyv, ← heq], ?_⟩
                  exact hmono _ _ _ _ hG2 (hP rv hrv hrvv (by rw [hrvkey]))
            · intro r hr hrt hvs
              have hid : (key r).1 ≠ vid v := fun h => hvs v (List.mem_cons_self _ _) h.symm
              exact hkept r ((hmem1 r).mpr (Or.inl ⟨hr, hid⟩)) hrt
                fun w hw => hvs w (List.mem_cons_of_mem _ hw)
        | gt =>
          have hav := Sqlite.compare_gt_iff.mp hcmp
          have hlt : ∀ w ∈ v :: vs, Sqlite.compare (aname a) (vname w) = .lt := by
            intro w hw
            rcases List.mem_cons.mp hw with rfl | hw
            · exact hav
            · exact Sqlite.compare_lt_trans hav ((List.pairwise_cons.mp hI.vsSorted).1 w hw)
          simp only [Sqlite.insertUpdateDeleteLoop, hcmp] at h
          cases h1 : ins a s with
          | error e => simp [h1] at h
          | ok s1 =>
            simp only [h1] at h
            exact round_insert a as rfl hlt s1 h1 h
        | lt =>
          have hlt : ∀ b ∈ a :: as, Sqlite.compare (vname v) (aname b) = .lt := by
            intro b hb
            rcases List.mem_cons.mp hb with rfl | hb
            · exact hcmp
            · exact Sqlite.compare_lt_trans hcmp ((List.pairwise_cons.mp hI.asSorted).1 b hb)
          simp only [Sqlite.insertUpdateDeleteLoop, hcmp] at h
          cases h1 : rem v s with
          | error e => simp [h1] at h
          | ok s1 =>
            simp only [h1] at h
            exact round_remove v vs rfl hlt s1 h1 h

end MergeRows

section MergeRowsTable

variable {σ V A R : Type} {rows : σ → List R} {key : R → DeclarationKey} {toView : R → V}
  {t : Int} {vid : V → Int} {vname : V → String} {aname : A → String}
  {G : σ → σ → Prop} {P : σ → A → R → Prop}

/-- The merge of one declaration kind, started on the rows of `t` in name order, when it
succeeds: the rows of other types are what they were, and every row of `t` holds an incoming
value. -/
theorem insertUpdateDelete_rows
    (hvid : ∀ r, vid (toView r) = (key r).1) (hvname : ∀ r, vname (toView r) = (key r).2.2)
    (hrefl : ∀ s, G s s) (htrans : ∀ s s1 s2, G s s1 → G s1 s2 → G s s2)
    (hmono : ∀ s s1 a r, G s s1 → P s a r → P s1 a r)
    {ins : A → σ → Except Error σ} {upd : V → A → σ → Except Error σ}
    {rem : V → σ → Except Error σ}
    (h_ins : ∀ s a s1, ins a s = .ok s1 → G s s1 ∧ ∃ r, rows s1 = rows s ++ [r] ∧
      key r = (newRowId (((rows s).map key).map (·.1)), t, aname a) ∧ P s1 a r)
    (h_upd : ∀ s v a s1, upd v a s = .ok s1 → vname v = aname a → G s s1 ∧ ∃ f : R → R,
      rows s1 = (rows s).map (fun r => if (key r).1 = vid v then f r else r) ∧
      (∀ r, key (f r) = key r) ∧
      ∀ r ∈ rows s, toView r = v → (key r).2.1 = t → P s1 a (f r))
    (h_rem : ∀ s v s1, rem v s = .ok s1 → G s s1 ∧
      rows s1 = (rows s).filter (fun r => (key r).1 ≠ vid v))
    (s s2 : σ) (hwf : KeysWF ((rows s).map key))
    (values : List A) (hnodup : (values.map aname).Nodup)
    (h : Sqlite.insertUpdateDelete
      ((sortByName (fun r => (key r).2.2)
        ((rows s).filter (fun r => (key r).2.1 = t))).map toView)
      (sortByName aname values)
      (fun v a => Sqlite.compare (vname v) (aname a)) ins upd rem s = .ok s2) :
    G s s2 ∧
    (∀ r, (key r).2.1 ≠ t → (r ∈ rows s2 ↔ r ∈ rows s)) ∧
    (∀ r ∈ rows s2, (key r).2.1 = t → ∃ a ∈ values, (key r).2.2 = aname a ∧ P s2 a r) := by
  set own := (rows s).filter (fun r => (key r).2.1 = t) with hown
  have hmem_sorted : ∀ r, r ∈ sortByName (fun r => (key r).2.2) own ↔
      r ∈ rows s ∧ (key r).2.1 = t := by
    intro r
    rw [(sortByName_perm _ own).mem_iff, hown]
    simp
  have hnames : (own.map (fun r => (key r).2.2)).Nodup := by
    have h1 : ((own.map key).map (·.2)).Nodup :=
      hwf.2.sublist (((List.filter_sublist _).map key).map _)
    have h2 := List.pairwise_map.mp (List.pairwise_map.mp h1)
    refine List.pairwise_map.mpr (List.Pairwise.imp_of_mem ?_ h2)
    intro a b ha hb hne heq
    apply hne
    have hta : (key a).2.1 = t := by
      have := (List.mem_filter.mp ha).2; simpa using this
    have htb : (key b).2.1 = t := by
      have := (List.mem_filter.mp hb).2; simpa using this
    exact Prod.ext (by simp [hta, htb]) heq
  have hI : MergeInv (fun s => (rows s).map key) t vid vname aname (fun _ => True)
      ((sortByName (fun r => (key r).2.2) own).map toView) (sortByName aname values) s := by
    refine ⟨hwf, trivial, ?_, sortByName_sorted aname values hnodup, ?_, ?_⟩
    · rw [List.pairwise_map]
      refine (sortByName_sorted _ own hnames).imp ?_
      intro a b hab
      rw [hvname, hvname]; exact hab
    · intro v hv
      obtain ⟨r, hr, rfl⟩ := List.mem_map.mp hv
      obtain ⟨hr1, hr2⟩ := (hmem_sorted r).mp hr
      rw [hvid, hvname]
      refine List.mem_map.mpr ⟨r, hr1, ?_⟩
      rw [← hr2]
    · intro k hk ht
      obtain ⟨r, hr, rfl⟩ := List.mem_map.mp hk
      exact Or.inl ⟨toView r, List.mem_map.mpr ⟨r, (hmem_sorted r).mpr ⟨hr, ht⟩, rfl⟩, hvid r⟩
  have hviews : ∀ v ∈ (sortByName (fun r => (key r).2.2) own).map toView,
      ∃ r ∈ rows s, toView r = v := by
    intro v hv
    obtain ⟨r, hr, rfl⟩ := List.mem_map.mp hv
    exact ⟨r, ((hmem_sorted r).mp hr).1, rfl⟩
  obtain ⟨hG, hframe, horigin, _⟩ := insertUpdateDeleteLoop_rows hvid hrefl htrans hmono
    h_ins h_upd h_rem _ _ _ s s2 le_rfl h hI hviews
  refine ⟨hG, hframe, ?_⟩
  intro r hr hrt
  rcases horigin r hr hrt with ⟨a, ha, han, haP⟩ | ⟨hr0, hvs⟩
  · exact ⟨a, (sortByName_perm aname values).mem_iff.mp ha, han, haP⟩
  · exact absurd (hvid r)
      (hvs (toView r) (List.mem_map.mpr ⟨r, (hmem_sorted r).mpr ⟨hr0, hrt⟩, rfl⟩))

end MergeRowsTable

namespace ProjectStorage

/-- A successful synchronization of the functions of a type: the other tables are what they
were, the rows of other types are what they were, every row of the type is an incoming function
with its values, and every incoming function has its row. -/
theorem synchronizeFunctionDeclarations_rows {typeId : TypeId}
    {functionsDeclarations : List Storage.FunctionDeclaration} {s s2 : Session}
    (h : synchronizeFunctionDeclarations typeId functionsDeclarations s = .ok s2)
    (hwf : KeysWF (functionKeys s.database))
    (hnodup : (functionsDeclarations.map (·.name)).Nodup) :
    s2.database = { s.database with functionDeclarations := s2.database.functionDeclarations } ∧
    (∀ row : FunctionDeclarationsRow, row.typeId ≠ typeId.id →
      (row ∈ s2.database.functionDeclarations ↔ row ∈ s.database.functionDeclarations)) ∧
    (∀ row ∈ s2.database.functionDeclarations, row.typeId = typeId.id →
      ∃ d ∈ functionsDeclarations, StoresFunction typeId.id row d) ∧
    (∀ d ∈ functionsDeclarations, ∃ row ∈ s2.database.functionDeclarations,
      row.typeId = typeId.id ∧ row.name = d.name) ∧
    KeysWF (functionKeys s2.database) := by
  have h_ins : ∀ (s : Session) (a : Storage.FunctionDeclaration) (s1 : Session),
      synchronizeFunctionDeclarations.insert typeId a s = .ok s1 →
      { s1.database with functionDeclarations := [] } = { s.database with functionDeclarations := [] } ∧
      ∃ r, s1.database.functionDeclarations = s.database.functionDeclarations ++ [r] ∧
        (r.functionDeclarationId, r.typeId, r.name) =
          (newRowId ((s.database.functionDeclarations.map
            (fun row => (row.functionDeclarationId, row.typeId, row.name))).map (·.1)),
           typeId.id, a.name) ∧
        StoresFunction typeId.id r a := by
    intro s a s1 h1
    have hw := Session.write_database h1
    simp only [WriteStatement.write, insertFunctionDeclarationStatement] at hw
    split at hw
    · simp at hw
    · simp only [Except.ok.injEq] at hw
      rw [← hw]
      refine ⟨rfl, _, rfl, ?_, rfl, rfl, rfl, rfl⟩
      simp [List.map_map, Function.comp_def]
  have h_upd : ∀ (s : Session) (v : Storage.FunctionDeclarationView)
      (a : Storage.FunctionDeclaration) (s1 : Session),
      synchronizeFunctionDeclarations.update v a s = .ok s1 → v.name = a.name →
      { s1.database with functionDeclarations := [] } = { s.database with functionDeclarations := [] } ∧
      ∃ f : FunctionDeclarationsRow → FunctionDeclarationsRow,
        s1.database.functionDeclarations = s.database.functionDeclarations.map
          (fun r => if (r.functionDeclarationId, r.typeId, r.name).1 = v.id.id then f r else r) ∧
        (∀ r, ((f r).functionDeclarationId, (f r).typeId, (f r).name)
          = (r.functionDeclarationId, r.typeId, r.name)) ∧
        ∀ r ∈ s.database.functionDeclarations,
          ({ name := r.name, returnTypeName := r.returnTypeName, signature := r.signature,
             id := { id := r.functionDeclarationId } } : Storage.FunctionDeclarationView) = v →
          (r.functionDeclarationId, r.typeId, r.name).2.1 = typeId.id →
          StoresFunction typeId.id (f r) a := by
    intro s v a s1 h1 hname
    unfold synchronizeFunctionDeclarations.update at h1
    by_cases hc : a.returnTypeName = v.returnTypeName ∧ createJson a.parameters = v.signature
    · rw [if_pos hc] at h1
      simp only [Except.ok.injEq] at h1
      subst h1
      refine ⟨rfl, id, ?_, fun _ => rfl, ?_⟩
      · simp
      · intro r _ hv ht
        subst hv
        exact ⟨ht, hname, hc.1.symm, hc.2.symm⟩
    · rw [if_neg hc] at h1
      have hw := Session.write_database h1
      simp only [WriteStatement.write, Except.ok.injEq] at hw
      rw [← hw]
      refine ⟨rfl,
        fun r => { r with returnTypeName := a.returnTypeName, signature := createJson a.parameters },
        rfl, fun _ => rfl, ?_⟩
      intro r _ hv ht
      subst hv
      exact ⟨ht, hname, rfl, rfl⟩
  have h_rem : ∀ (s : Session) (v : Storage.FunctionDeclarationView) (s1 : Session),
      synchronizeFunctionDeclarations.remove v s = .ok s1 →
      { s1.database with functionDeclarations := [] } = { s.database with functionDeclarations := [] } ∧
      s1.database.functionDeclarations = s.database.functionDeclarations.filter
        (fun r => (r.functionDeclarationId, r.typeId, r.name).1 ≠ v.id.id) := by
    intro s v s1 h1
    have hw := Session.write_database h1
    simp only [WriteStatement.write, Except.ok.injEq] at hw
    rw [← hw]
    exact ⟨rfl, rfl⟩
  obtain ⟨hG, hframe, hrows⟩ := @insertUpdateDelete_rows Session
    Storage.FunctionDeclarationView Storage.FunctionDeclaration FunctionDeclarationsRow
    (fun s => s.database.functionDeclarations)
    (fun row => (row.functionDeclarationId, row.typeId, row.name))
    (fun row => { name := row.name, returnTypeName := row.returnTypeName,
                  signature := row.signature, id := { id := row.functionDeclarationId } })
    typeId.id (fun v => v.id.id) (·.name) (·.name)
    (fun s s1 => ({ s1.database with functionDeclarations := [] } : Database)
      = { s.database with functionDeclarations := [] })
    (fun _ a r => StoresFunction typeId.id r a)
    (fun _ => rfl) (fun _ => rfl) (fun _ => rfl)
    (fun s s1 s2 h1 h2 => h2.trans h1) (fun _ _ _ _ _ hp => hp)
    _ _ _ h_ins h_upd h_rem s s2 hwf functionsDeclarations hnodup h
  obtain ⟨s2', h2', hwf2, hsync, _⟩ :=
    synchronizeFunctionDeclarations_spec typeId functionsDeclarations s hwf hnodup
  rw [h] at h2'
  simp only [Except.ok.injEq] at h2'
  subst h2'
  have hother : s2.database
      = { s.database with functionDeclarations := s2.database.functionDeclarations } :=
    congrArg (fun db : Database =>
      { db with functionDeclarations := s2.database.functionDeclarations }) hG
  refine ⟨hother, fun row hrt => hframe row hrt, ?_, ?_, hwf2⟩
  · intro row hrow hrt
    obtain ⟨a, ha, _, hP⟩ := hrows row hrow hrt
    exact ⟨a, ha, hP⟩
  · intro d hd
    obtain ⟨i, hi⟩ := (hsync.1 d.name).mpr (List.mem_map.mpr ⟨d, hd, rfl⟩)
    obtain ⟨row, hrow, hkey⟩ := List.mem_map.mp hi
    simp only [Prod.mk.injEq] at hkey
    exact ⟨row, hrow, hkey.2.1, hkey.2.2⟩

end ProjectStorage

namespace ProjectStorage

/-- A successful synchronization of the signals of a type: the other tables are what they
were, the rows of other types are what they were, every row of the type is an incoming signal
with its values, and every incoming signal has its row. -/
theorem synchronizeSignalDeclarations_rows {typeId : TypeId}
    {signalDeclarations0 : List Storage.SignalDeclaration} {s s2 : Session}
    (h : synchronizeSignalDeclarations typeId signalDeclarations0 s = .ok s2)
    (hwf : KeysWF (signalKeys s.database))
    (hnodup : (signalDeclarations0.map (·.name)).Nodup) :
    s2.database = { s.database with signalDeclarations := s2.database.signalDeclarations } ∧
    (∀ row : SignalDeclarationsRow, row.typeId ≠ typeId.id →
      (row ∈ s2.database.signalDeclarations ↔ row ∈ s.database.signalDeclarations)) ∧
    (∀ row ∈ s2.database.signalDeclarations, row.typeId = typeId.id →
      ∃ d ∈ signalDeclarations0, StoresSignal typeId.id row d) ∧
    (∀ d ∈ signalDeclarations0, ∃ row ∈ s2.database.signalDeclarations,
      row.typeId = typeId.id ∧ row.name = d.name) ∧
    KeysWF (signalKeys s2.database) := by
  have h_ins : ∀ (s : Session) (a : Storage.SignalDeclaration) (s1 : Session),
      synchronizeSignalDeclarations.insert typeId a s = .ok s1 →
      { s1.database with signalDeclarations := [] } = { s.database with signalDeclarations := [] } ∧
      ∃ r, s1.database.signalDeclarations = s.database.signalDeclarations ++ [r] ∧
        (r.signalDeclarationId, r.typeId, r.name) =
          (newRowId ((s.database.signalDeclarations.map
            (fun row => (row.signalDeclarationId, row.typeId, row.name))).map (·.1)),
           typeId.id, a.name) ∧
        StoresSignal typeId.id r a := by
    intro s a s1 h1
    have hw := Session.write_database h1
    simp only [WriteStatement.write, insertSignalDeclarationStatement] at hw
    split at hw
    · simp at hw
    · simp only [Except.ok.injEq] at hw
      rw [← hw]
      refine ⟨rfl, _, rfl, ?_, rfl, rfl, rfl⟩
      simp [List.map_map, Function.comp_def]
  have h_upd : ∀ (s : Session) (v : Storage.SignalDeclarationView)
      (a : Storage.SignalDeclaration) (s1 : Session),
      synchronizeSignalDeclarations.update v a s = .ok s1 → v.name = a.name →
      { s1.database with signalDeclarations := [] } = { s.database with signalDeclarations := [] } ∧
      ∃ f : SignalDeclarationsRow → SignalDeclarationsRow,
        s1.database.signalDeclarations = s.database.signalDeclarations.map
          (fun r => if (r.signalDeclarationId, r.typeId, r.name).1 = v.id.id then f r else r) ∧
        (∀ r, ((f r).signalDeclarationId, (f r).typeId, (f r).name)
          = (r.signalDeclarationId, r.typeId, r.name)) ∧
        ∀ r ∈ s.database.signalDeclarations,
          ({ name := r.name, signature := r.signature,
             id := { id := r.signalDeclarationId } } : Storage.SignalDeclarationView) = v →
          (r.signalDeclarationId, r.typeId, r.name).2.1 = typeId.id →
          StoresSignal typeId.id (f r) a := by
    intro s v a s1 h1 hname
    unfold synchronizeSignalDeclarations.update at h1
    by_cases hc : createJson a.parameters = v.signature
    · rw [if_pos hc] at h1
      simp only [Except.ok.injEq] at h1
      subst h1
      refine ⟨rfl, id, ?_, fun _ => rfl, ?_⟩
      · simp
      · intro r _ hv ht
        subst hv
        exact ⟨ht, hname, hc.symm⟩
    · rw [if_neg hc] at h1
      have hw := Session.write_database h1
      simp only [WriteStatement.write, Except.ok.injEq] at hw
      rw [← hw]
      refine ⟨rfl,
        fun r => { r with signature := createJson a.parameters },
        rfl, fun _ => rfl, ?_⟩
      intro r _ hv ht
      subst hv
      exact ⟨ht, hname, rfl⟩
  have h_rem : ∀ (s : Session) (v : Storage.SignalDeclarationView) (s1 : Session),
      synchronizeSignalDeclarations.remove v s = .ok s1 →
      { s1.database with signalDeclarations := [] } = { s.database with signalDeclarations := [] } ∧
      s1.database.signalDeclarations = s.database.signalDeclarations.filter
        (fun r => (r.signalDeclarationId, r.typeId, r.name).1 ≠ v.id.id) := by
    intro s v s1 h1
    have hw := Session.write_database h1
    simp only [WriteStatement.write, Except.ok.injEq] at hw
    rw [← hw]
    exact ⟨rfl, rfl⟩
  obtain ⟨hG, hframe, hrows⟩ := @insertUpdateDelete_rows Session
    Storage.SignalDeclarationView Storage.SignalDeclaration SignalDeclarationsRow
    (fun s => s.database.signalDeclarations)
    (fun row => (row.signalDeclarationId, row.typeId, row.name))
    (fun row => { name := row.name, signature := row.signature,
                  id := { id := row.signalDeclarationId } })
    typeId.id (fun v => v.id.id) (·.name) (·.name)
    (fun s s1 => ({ s1.database with signalDeclarations := [] } : Database)
      = { s.database with signalDeclarations := [] })
    (fun _ a r => StoresSignal typeId.id r a)
    (fun _ => rfl) (fun _ => rfl) (fun _ => rfl)
    (fun s s1 s2 h1 h2 => h2.trans h1) (fun _ _ _ _ _ hp => hp)
    _ _ _ h_ins h_upd h_rem s s2 hwf signalDeclarations0 hnodup h
  obtain ⟨s2', h2', hwf2, hsync, _⟩ :=
    synchronizeSignalDeclarations_spec typeId signalDeclarations0 s hwf hnodup
  rw [h] at h2'
  simp only [Except.ok.injEq] at h2'
  subst h2'
  have hother : s2.database
      = { s.database with signalDeclarations := s2.database.signalDeclarations } :=
    congrArg (fun db : Database =>
      { db with signalDeclarations := s2.database.signalDeclarations }) hG
  refine ⟨hother, fun row hrt => hframe row hrt, ?_, ?_, hwf2⟩
  · intro row hrow hrt
    obtain ⟨a, ha, _, hP⟩ := hrows row hrow hrt
    exact ⟨a, ha, hP⟩
  · intro d hd
    obtain ⟨i, hi⟩ := (hsync.1 d.name).mpr (List.mem_map.mpr ⟨d, hd, rfl⟩)
    obtain ⟨row, hrow, hkey⟩ := List.mem_map.mp hi
    simp only [Prod.mk.injEq] at hkey
    exact ⟨row, hrow, hkey.2.1, hkey.2.2⟩

/-- A successful synchronization of the enumerations of a type: the other tables are what they
were, the rows of other types are what they were, every row of the type is an incoming
enumeration with its values, and every incoming enumeration has its row. -/
theorem synchronizeEnumerationDeclarations_rows {typeId : TypeId}
    {enumerationDeclarations0 : List Storage.EnumerationDeclaration} {s s2 : Session}
    (h : synchronizeEnumerationDeclarations typeId enumerationDeclarations0 s = .ok s2)
    (hwf : KeysWF (enumerationKeys s.database))
    (hnodup : (enumerationDeclarations0.map (·.name)).Nodup) :
    s2.database = { s.database with enumerationDeclarations := s2.database.enumerationDeclarations } ∧
    (∀ row : EnumerationDeclarationsRow, row.typeId ≠ typeId.id →
      (row ∈ s2.database.enumerationDeclarations ↔ row ∈ s.database.enumerationDeclarations)) ∧
    (∀ row ∈ s2.database.enumerationDeclarations, row.typeId = typeId.id →
      ∃ d ∈ enumerationDeclarations0, StoresEnumeration typeId.id row d) ∧
    (∀ d ∈ enumerationDeclarations0, ∃ row ∈ s2.database.enumerationDeclarations,
      row.typeId = typeId.id ∧ row.name = d.name) ∧
    KeysWF (enumerationKeys s2.database) := by
  have h_ins : ∀ (s : Session) (a : Storage.EnumerationDeclaration) (s1 : Session),
      synchronizeEnumerationDeclarations.insert typeId a s = .ok s1 →
      { s1.database with enumerationDeclarations := [] } = { s.database with enumerationDeclarations := [] } ∧
      ∃ r, s1.database.enumerationDeclarations = s.database.enumerationDeclarations ++ [r] ∧
        (r.enumerationDeclarationId, r.typeId, r.name) =
          (newRowId ((s.database.enumerationDeclarations.map
            (fun row => (row.enumerationDeclarationId, row.typeId, row.name))).map (·.1)),
           typeId.id, a.name) ∧
        StoresEnumeration typeId.id r a := by
    intro s a s1 h1
    have hw := Session.write_database h1
    simp only [WriteStatement.write, insertEnumerationDeclarationStatement] at hw
    split at hw
    · simp at hw
    · simp only [Except.ok.injEq] at hw
      rw [← hw]
      refine ⟨rfl, _, rfl, ?_, rfl, rfl, rfl⟩
      simp [List.map_map, Function.comp_def]
  have h_upd : ∀ (s : Session) (v : Storage.EnumerationDeclarationView)
      (a : Storage.EnumerationDeclaration) (s1 : Session),
      synchronizeEnumerationDeclarations.update v a s = .ok s1 → v.name = a.name →
      { s1.database with enumerationDeclarations := [] } = { s.database with enumerationDeclarations := [] } ∧
      ∃ f : EnumerationDeclarationsRow → EnumerationDeclarationsRow,
        s1.database.enumerationDeclarations = s.database.enumerationDeclarations.map
          (fun r => if (r.enumerationDeclarationId, r.typeId, r.name).1 = v.id.id then f r else r) ∧
        (∀ r, ((f r).enumerationDeclarationId, (f r).typeId, (f r).name)
          = (r.enumerationDeclarationId, r.typeId, r.name)) ∧
        ∀ r ∈ s.database.enumerationDeclarations,
          ({ name := r.name, enumeratorDeclarations := r.enumeratorDeclarations,
             id := { id := r.enumerationDeclarationId } } : Storage.EnumerationDeclarationView) = v →
          (r.enumerationDeclarationId, r.typeId, r.name).2.1 = typeId.id →
          StoresEnumeration typeId.id (f r) a := by
    intro s v a s1 h1 hname
    unfold synchronizeEnumerationDeclarations.update at h1
    by_cases hc : createJsonEnumeratorDeclarations a.enumeratorDeclarations
        = v.enumeratorDeclarations
    · rw [if_pos hc] at h1
      simp only [Except.ok.injEq] at h1
      subst h1
      refine ⟨rfl, id, ?_, fun _ => rfl, ?_⟩
      · simp
      · intro r _ hv ht
        subst hv
        exact ⟨ht, hname, hc.symm⟩
    · rw [if_neg hc] at h1
      have hw := Session.write_database h1
      simp only [WriteStatement.write, Except.ok.injEq] at hw
      rw [← hw]
      refine ⟨rfl,
        fun r => { r with enumeratorDeclarations :=
          createJsonEnumeratorDeclarations a.enumeratorDeclarations },
        rfl, fun _ => rfl, ?_⟩
      intro r _ hv ht
      subst hv
      exact ⟨ht, hname, rfl⟩
  have h_rem : ∀ (s : Session) (v : Storage.EnumerationDeclarationView) (s1 : Session),
      synchronizeEnumerationDeclarations.remove v s = .ok s1 →
      { s1.database with enumerationDeclarations := [] } = { s.database with enumerationDeclarations := [] } ∧
      s1.database.enumerationDeclarations = s.database.enumerationDeclarations.filter
        (fun r => (r.enumerationDeclarationId, r.typeId, r.name).1 ≠ v.id.id) := by
    intro s v s1 h1
    have hw := Session.write_database h1
    simp only [WriteStatement.write, Except.ok.injEq] at hw
    rw [← hw]
    exact ⟨rfl, rfl⟩
  obtain ⟨hG, hframe, hrows⟩ := @insertUpdateDelete_rows Session
    Storage.EnumerationDeclarationView Storage.EnumerationDeclaration EnumerationDeclarationsRow
    (fun s => s.database.enumerationDeclarations)
    (fun row => (row.enumerationDeclarationId, row.typeId, row.name))
    (fun row => { name := row.name, enumeratorDeclarations := row.enumeratorDeclarations,
                  id := { id := row.enumerationDeclarationId } })
    typeId.id (fun v => v.id.id) (·.name) (·.name)
    (fun s s1 => ({ s1.database with enumerationDeclarations := [] } : Database)
      = { s.database with enumerationDeclarations := [] })
    (fun _ a r => StoresEnumeration typeId.id r a)
    (fun _ => rfl) (fun _ => rfl) (fun _ => rfl)
    (fun s s1 s2 h1 h2 => h2.trans h1) (fun _ _ _ _ _ hp => hp)
    _ _ _ h_ins h_upd h_rem s s2 hwf enumerationDeclarations0 hnodup h
  obtain ⟨s2', h2', hwf2, hsync, _⟩ :=
    synchronizeEnumerationDeclarations_spec typeId enumerationDeclarations0 s hwf hnodup
  rw [h] at h2'
  simp only [Except.ok.injEq] at h2'
  subst h2'
  have hother : s2.database
      = { s.database with enumerationDeclarations := s2.database.enumerationDeclarations } :=
    congrArg (fun db : Database =>
      { db with enumerationDeclarations := s2.database.enumerationDeclarations }) hG
  refine ⟨hother, fun row hrt => hframe row hrt, ?_, ?_, hwf2⟩
  · intro row hrow hrt
    obtain ⟨a, ha, _, hP⟩ := hrows row hrow hrt
    exact ⟨a, ha, hP⟩
  · intro d hd
    obtain ⟨i, hi⟩ := (hsync.1 d.name).mpr (List.mem_map.mpr ⟨d, hd, rfl⟩)
    obtain ⟨row, hrow, hkey⟩ := List.mem_map.mp hi
    simp only [Prod.mk.injEq] at hkey
    exact ⟨row, hrow, hkey.2.1, hkey.2.2⟩

end ProjectStorage

theorem HoldsProperty.of_persist {types types1 : List TypesRow} {typeId : Int}
    {row : PropertyDeclarationsRow} {property : Storage.PropertyDeclaration}
    (h : HoldsProperty types typeId row property) (hp : TypesPersist types types1) :
    HoldsProperty types1 typeId row property := by
  obtain ⟨h1, h2, h3, h4⟩ := h
  refine ⟨h1, h2, h3, ?_⟩
  rcases h4 with h4 | ⟨hne, r, hr, hname, hid⟩
  · exact Or.inl h4
  · obtain ⟨r1, hr1, hid1, hname1⟩ := hp r hr
    exact Or.inr ⟨hne, r1, hr1, hname1.trans hname, hid1.trans hid⟩

namespace ProjectStorage

/-- A successful synchronization of the properties of a type: the tables other than `types` are
what they were, every row of `types` is kept, the rows of other types are what they were, every
row of the type is an incoming property with its values, and every incoming property has its
row. -/
theorem synchronizePropertyDeclarations_rows {typeId : TypeId}
    {propertyDeclarations : List Storage.PropertyDeclaration} {s s2 : Session}
    (h : synchronizePropertyDeclarations typeId propertyDeclarations s = .ok s2)
    (htypes : TypesWF s.database.types) (hwf : KeysWF (propertyKeys s.database))
    (hnodup : (propertyDeclarations.map (·.name)).Nodup) :
    ({ s2.database with types := [], propertyDeclarations := [] } : Database)
      = { s.database with types := [], propertyDeclarations := [] } ∧
    (∀ r ∈ s.database.types, r ∈ s2.database.types) ∧
    (∀ row : PropertyDeclarationsRow, row.typeId ≠ typeId.id →
      (row ∈ s2.database.propertyDeclarations ↔ row ∈ s.database.propertyDeclarations)) ∧
    (∀ row ∈ s2.database.propertyDeclarations, row.typeId = typeId.id →
      ∃ d ∈ propertyDeclarations, HoldsProperty s2.database.types typeId.id row d) ∧
    (∀ d ∈ propertyDeclarations, ∃ row ∈ s2.database.propertyDeclarations,
      row.typeId = typeId.id ∧ row.name = d.name) ∧
    KeysWF (propertyKeys s2.database) ∧ TypesWF s2.database.types := by
  have hfetch : ∀ {name : String} {s s0 : Session} {pid : TypeId},
      fetchTypeIdByName name s = .ok (s0, pid) →
      ({ s0.database with types := [], propertyDeclarations := [] } : Database)
        = { s.database with types := [], propertyDeclarations := [] } ∧
      s0.database.propertyDeclarations = s.database.propertyDeclarations ∧
      (∀ r ∈ s.database.types, r ∈ s0.database.types) := by
    intro name s s0 pid hf
    obtain ⟨hdb, hsub, _⟩ := fetchTypeIdByName_names hf
    exact ⟨by rw [hdb], by rw [hdb], hsub⟩
  have h_ins : ∀ (s : Session) (a : Storage.PropertyDeclaration) (s1 : Session),
      synchronizePropertyDeclarations.insert typeId a s = .ok s1 →
      ((({ s1.database with types := [], propertyDeclarations := [] } : Database)
        = { s.database with types := [], propertyDeclarations := [] }) ∧
       ∀ r ∈ s.database.types, r ∈ s1.database.types) ∧
      ∃ r, s1.database.propertyDeclarations = s.database.propertyDeclarations ++ [r] ∧
        (r.propertyDeclarationId, r.typeId, r.name) =
          (newRowId ((s.database.propertyDeclarations.map
            (fun row => (row.propertyDeclarationId, row.typeId, row.name))).map (·.1)),
           typeId.id, a.name) ∧
        HoldsProperty s1.database.types typeId.id r a := by
    intro s a s1 h1
    unfold synchronizePropertyDeclarations.insert at h1
    cases hf : fetchTypeIdByName a.typeName s with
    | error e => simp [hf] at h1
    | ok r0 =>
      obtain ⟨s0, pid⟩ := r0
      simp only [hf] at h1
      obtain ⟨hother, hprops, hsub⟩ := hfetch hf
      obtain ⟨_, _, hname⟩ := fetchTypeIdByName_names hf
      have hw := Session.write_database h1
      simp only [WriteStatement.write, insertPropertyDeclarationStatement] at hw
      split at hw
      · simp at hw
      · simp only [Except.ok.injEq] at hw
        rw [← hw]
        refine ⟨⟨hother, hsub⟩,
          ⟨newRowId (s0.database.propertyDeclarations.map (·.propertyDeclarationId)),
            typeId.id, a.name, pid.id, some a.traits⟩, by rw [hprops], ?_, rfl, rfl, rfl, ?_⟩
        · simp [List.map_map, Function.comp_def, hprops]
        · rcases hname with ⟨he, hid⟩ | ⟨hne, r, hr, hrn, hrid⟩
          · exact Or.inl ⟨he, hid, rfl⟩
          · exact Or.inr ⟨hne, r, hr, hrn, hrid⟩
  have h_upd : ∀ (s : Session) (v : Storage.PropertyDeclarationView)
      (a : Storage.PropertyDeclaration) (s1 : Session),
      synchronizePropertyDeclarations.update v a s = .ok s1 → v.name = a.name →
      ((({ s1.database with types := [], propertyDeclarations := [] } : Database)
        = { s.database with types := [], propertyDeclarations := [] }) ∧
       ∀ r ∈ s.database.types, r ∈ s1.database.types) ∧
      ∃ f : PropertyDeclarationsRow → PropertyDeclarationsRow,
        s1.database.propertyDeclarations = s.database.propertyDeclarations.map
          (fun r => if (r.propertyDeclarationId, r.typeId, r.name).1 = v.id.id then f r else r) ∧
        (∀ r, ((f r).propertyDeclarationId, (f r).typeId, (f r).name)
          = (r.propertyDeclarationId, r.typeId, r.name)) ∧
        ∀ r ∈ s.database.propertyDeclarations,
          ({ name := r.name, traits := r.propertyTraits.getD 0,
             typeId := { id := r.propertyTypeId },
             id := { id := r.propertyDeclarationId } } : Storage.PropertyDeclarationView) = v →
          (r.propertyDeclarationId, r.typeId, r.name).2.1 = typeId.id →
          HoldsProperty s1.database.types typeId.id (f r) a := by
    intro s v a s1 h1 hvname
    unfold synchronizePropertyDeclarations.update at h1
    cases hf : fetchTypeIdByName a.typeName s with
    | error e => simp [hf] at h1
    | ok r0 =>
      obtain ⟨s0, pid⟩ := r0
      simp only [hf] at h1
      obtain ⟨hother, hprops, hsub⟩ := hfetch hf
      obtain ⟨_, _, hname⟩ := fetchTypeIdByName_names hf
      by_cases hc : (decide (v.traits = a.traits) && pid.eq v.typeId) = true
      · rw [if_pos hc] at h1
        simp only [Except.ok.injEq] at h1
        subst h1
        refine ⟨⟨hother, hsub⟩, id, by simp [hprops], fun _ => rfl, ?_⟩
        intro r _ hv ht
        subst hv
        simp only [Bool.and_eq_true, decide_eq_true_eq, InternalId.eq, InternalId.isValid]
          at hc
        obtain ⟨htr, ⟨hid, hvalid⟩, _⟩ := hc
        refine ⟨ht, hvname, htr, ?_⟩
        rcases hname with ⟨_, hinv⟩ | ⟨hne, r1, hr1, hrn, hrid⟩
        · omega
        · exact Or.inr ⟨hne, r1, hr1, hrn, by simp only [id]; omega⟩
      · rw [if_neg hc] at h1
        have hw := Session.write_database h1
        simp only [WriteStatement.write, Except.ok.injEq] at hw
        rw [← hw]
        refine ⟨⟨hother, hsub⟩,
          fun r => { r with propertyTypeId := pid.id, propertyTraits := some a.traits },
          by simp only [updatePropertyDeclarationStatement, hprops], fun _ => rfl, ?_⟩
        intro r _ hv ht
        subst hv
        refine ⟨ht, hvname, rfl, ?_⟩
        rcases hname with ⟨he, hid⟩ | ⟨hne, r1, hr1, hrn, hrid⟩
        · exact Or.inl ⟨he, hid, rfl⟩
        · exact Or.inr ⟨hne, r1, hr1, hrn, hrid⟩
  have h_rem : ∀ (s : Session) (v : Storage.PropertyDeclarationView) (s1 : Session),
      synchronizePropertyDeclarations.remove v s = .ok s1 →
      ((({ s1.database with types := [], propertyDeclarations := [] } : Database)
        = { s.database with types := [], propertyDeclarations := [] }) ∧
       ∀ r ∈ s.database.types, r ∈ s1.database.types) ∧
      s1.database.propertyDeclarations = s.database.propertyDeclarations.filter
        (fun r => (r.propertyDeclarationId, r.typeId, r.name).1 ≠ v.id.id) := by
    intro s v s1 h1
    have hw := Session.write_database h1
    simp only [WriteStatement.write, Except.ok.injEq] at hw
    rw [← hw]
    exact ⟨⟨rfl, fun _ hr => hr⟩, rfl⟩
  obtain ⟨hG, hframe, hrows⟩ := @insertUpdateDelete_rows Session
    Storage.PropertyDeclarationView Storage.PropertyDeclaration PropertyDeclarationsRow
    (fun s => s.database.propertyDeclarations)
    (fun row => (row.propertyDeclarationId, row.typeId, row.name))
    (fun row => { name := row.name, traits := row.propertyTraits.getD 0,
                  typeId := { id := row.propertyTypeId },
                  id := { id := row.propertyDeclarationId } })
    typeId.id (fun v => v.id.id) (·.name) (·.name)
    (fun s s1 => (({ s1.database with types := [], propertyDeclarations := [] } : Database)
      = { s.database with types := [], propertyDeclarations := [] }) ∧
      ∀ r ∈ s.database.types, r ∈ s1.database.types)
    (fun s a r => HoldsProperty s.database.types typeId.id r a)
    (fun _ => rfl) (fun _ => rfl) (fun _ => ⟨rfl, fun _ hr => hr⟩)
    (fun s s1 s2 h1 h2 => ⟨h2.1.trans h1.1, fun r hr => h2.2 r (h1.2 r hr)⟩)
    (fun _ _ _ _ hg hp => hp.of_persist (TypesPersist.of_subset hg.2))
    _ _ _ h_ins h_upd h_rem s s2 hwf propertyDeclarations hnodup h
  obtain ⟨s2', h2', htypes2, hwf2, hsync, _⟩ :=
    synchronizePropertyDeclarations_spec typeId propertyDeclarations s htypes hwf hnodup
  rw [h] at h2'
  simp only [Except.ok.injEq] at h2'
  subst h2'
  refine ⟨hG.1, hG.2, fun row hrt => hframe row hrt, ?_, ?_, hwf2, htypes2⟩
  · intro row hrow hrt
    obtain ⟨a, ha, _, hP⟩ := hrows row hrow hrt
    exact ⟨a, ha, hP⟩
  · intro d hd
    obtain ⟨i, hi⟩ := (hsync.1 d.name).mpr (List.mem_map.mpr ⟨d, hd, rfl⟩)
    obtain ⟨row, hrow, hkey⟩ := List.mem_map.mp hi
    simp only [Prod.mk.injEq] at hkey
    exact ⟨row, hrow, hkey.2.1, hkey.2.2⟩

end ProjectStorage

theorem HoldsType.of_keeps {db db1 : Database} {type : Storage.Type_} {typeId : Int}
    (h : HoldsType db type typeId) (hk : KeepsDeclarationsOf typeId db db1) :
    HoldsType db1 type typeId := by
  refine ⟨?_, ?_, ?_, ?_, ?_, ?_, ?_, ?_, ?_⟩
  · intro e he
    obtain ⟨row, hrow, hkey⟩ := h.exported e he
    exact ⟨row, hk.exported row hrow, hkey⟩
  · intro row hrow hid
    obtain ⟨d, hd, hst⟩ := h.properties row ((hk.properties row hid).mp hrow) hid
    exact ⟨d, hd, hst.of_persist hk.types⟩
  · intro d hd
    obtain ⟨row, hrow, hid, hname⟩ := h.propertyNames d hd
    exact ⟨row, (hk.properties row hid).mpr hrow, hid, hname⟩
  · intro row hrow hid
    exact h.functions row ((hk.functions row hid).mp hrow) hid
  · intro d hd
    obtain ⟨row, hrow, hid, hname⟩ := h.functionNames d hd
    exact ⟨row, (hk.functions row hid).mpr hrow, hid, hname⟩
  · intro row hrow hid
    exact h.signals row ((hk.signals row hid).mp hrow) hid
  · intro d hd
    obtain ⟨row, hrow, hid, hname⟩ := h.signalNames d hd
    exact ⟨row, (hk.signals row hid).mpr hrow, hid, hname⟩
  · intro row hrow hid
    exact h.enumerations row ((hk.enumerations row hid).mp hrow) hid
  · intro d hd
    obtain ⟨row, hrow, hid, hname⟩ := h.enumerationNames d hd
    exact ⟨row, (hk.enumerations row hid).mpr hrow, hid, hname⟩

namespace ProjectStorage

/-- The exported types of a type, once upserted, are all in the table; the rows that were there
stay, and no other table changes. -/
theorem upsertExportedTypes_rows (typeId : TypeId) :
    ∀ (exportedTypes : List Storage.ExportedType) (s s1 : Session),
      upsertExportedTypes typeId exportedTypes s = .ok s1 →
      s1.database = { s.database with exportedTypes := s1.database.exportedTypes } ∧
      (∀ row ∈ s.database.exportedTypes, row ∈ s1.database.exportedTypes) ∧
      ∀ e ∈ exportedTypes, ∃ row ∈ s1.database.exportedTypes,
        row.qualifiedName = e.qualifiedTypeName ∧
        row.majorVersion = e.version.major.version ∧
        row.minorVersion = e.version.minor.version := by
  intro exportedTypes
  induction exportedTypes with
  | nil =>
    intro s s1 h
    simp only [upsertExportedTypes, Except.ok.injEq] at h
    subst h
    exact ⟨rfl, fun _ h => h, fun e he => absurd he (List.not_mem_nil _)⟩
  | cons e es ih =>
    intro s s1 h
    simp only [upsertExportedTypes] at h
    cases h0 : upsertExportedType e.qualifiedTypeName e.version typeId s with
    | error err => simp [h0] at h
    | ok s0 =>
      simp only [h0] at h
      have hw := Session.write_database h0
      simp only [WriteStatement.write, Except.ok.injEq] at hw
      obtain ⟨hdb, hkeep, hall⟩ := ih s0 s1 h
      have hstep : s0.database = { s.database with exportedTypes := s0.database.exportedTypes } ∧
          (∀ row ∈ s.database.exportedTypes, row ∈ s0.database.exportedTypes) ∧
          ∃ row ∈ s0.database.exportedTypes,
            row.qualifiedName = e.qualifiedTypeName ∧
            row.majorVersion = e.version.major.version ∧
            row.minorVersion = e.version.minor.version := by
        rw [← hw]
        unfold upsertExportedTypesStatement
        split
        · rename_i hany
          rw [List.any_eq_true] at hany
          obtain ⟨row, hrow, hkey⟩ := hany
          exact ⟨rfl, fun _ h => h, row, hrow, by simpa using hkey⟩
        · refine ⟨rfl, fun row hrow => List.mem_append_left _ hrow, _,
            List.mem_append_right _ (List.mem_singleton_self _), rfl, rfl, rfl⟩
      obtain ⟨hdb0, hkeep0, row0, hrow0, hkey0⟩ := hstep
      refine ⟨?_, fun row hrow => hkeep row (hkeep0 row hrow), ?_⟩
      · rw [hdb, hdb0]
      · intro e1 he1
        rcases List.mem_cons.mp he1 with rfl | he1
        · exact ⟨row0, hkeep row0 hrow0, hkey0⟩
        · exact hall e1 he1

/-- After a successful `syncType` on well-formed tables the tables hold the batch entry under
the id the call returns, and the declarations of every other type are what they were. -/
theorem syncType_holds {type : Storage.Type_} {s s1 : Session} {typeId : TypeId}
    (h : syncType type s = .ok (s1, typeId)) (hwf : s.database.WellFormed)
    (hdistinct : DistinctDeclarationNames type) :
    HoldsType s1.database type typeId.id ∧
    ∀ t, t ≠ typeId.id → KeepsDeclarationsOf t s.database s1.database := by
  obtain ⟨s0, prototypeId, s2, s3, s4, s5, hf, htid, he, hp, hfn, hsg, hen⟩ := syncType_phases h
  obtain ⟨hpn, hfnn, hsgn, henn⟩ := hdistinct
  obtain ⟨-, hdb0, hsub0, hwf0⟩ := fetchTypeIdByName_frame hf
  have hU := upsertTypeStatement_frame s0.database type.typeName type.accessSemantics.toInt
    prototypeId.id (some type.sourceId.id)
  obtain ⟨hwfU, hperU, -⟩ := upsertTypeStatement_spec s0.database type.typeName
    type.accessSemantics.toInt prototypeId.id (some type.sourceId.id) (hwf0 hwf.types)
  obtain ⟨dbU, hdbU⟩ : ∃ dbU, dbU = (upsertTypeStatement s0.database type.typeName
    type.accessSemantics.toInt prototypeId.id (some type.sourceId.id)).1 := ⟨_, rfl⟩
  rw [← hdbU] at hU hwfU hperU he
  obtain ⟨hdbE, hkeepE, hallE⟩ := upsertExportedTypes_rows typeId _ _ _ he
  simp only at hdbE hkeepE
  -- the tables of `s2` other than `types` and `exportedTypes` are those of `s`
  have e2p : s2.database.propertyDeclarations = s.database.propertyDeclarations := by
    rw [hdbE, hU, hdb0]
  have e2f : s2.database.functionDeclarations = s.database.functionDeclarations := by
    rw [hdbE, hU, hdb0]
  have e2s : s2.database.signalDeclarations = s.database.signalDeclarations := by
    rw [hdbE, hU, hdb0]
  have e2e : s2.database.enumerationDeclarations = s.database.enumerationDeclarations := by
    rw [hdbE, hU, hdb0]
  have e2t : s2.database.types = dbU.types := by rw [hdbE]
  have hwfP : KeysWF (propertyKeys s2.database) := by
    have := hwf.properties
    unfold propertyKeys at this ⊢
    rw [e2p]; exact this
  obtain ⟨hdbP, hsubP, hframeP, hrowsP, hnamesP, -, hwfT3⟩ :=
    synchronizePropertyDeclarations_rows hp (e2t ▸ hwfU) hwfP hpn
  have e3f : s3.database.functionDeclarations = s2.database.functionDeclarations := by
    have h0 := congrArg Database.functionDeclarations hdbP
    exact h0
  have e3s : s3.database.signalDeclarations = s2.database.signalDeclarations := by
    have h0 := congrArg Database.signalDeclarations hdbP
    exact h0
  have e3e : s3.database.enumerationDeclarations = s2.database.enumerationDeclarations := by
    have h0 := congrArg Database.enumerationDeclarations hdbP
    exact h0
  have e3x : s3.database.exportedTypes = s2.database.exportedTypes := by
    have h0 := congrArg Database.exportedTypes hdbP
    exact h0
  have hwfF : KeysWF (functionKeys s3.database) := by
    have := hwf.functions
    unfold functionKeys at this ⊢
    rw [e3f, e2f]; exact this
  obtain ⟨hdbF, hframeF, hrowsF, hnamesF, -⟩ :=
    synchronizeFunctionDeclarations_rows hfn hwfF hfnn
  have hwfS : KeysWF (signalKeys s4.database) := by
    have := hwf.signals
    unfold signalKeys at this ⊢
    rw [hdbF]; simp only
    rw [e3s, e2s]; exact this
  obtain ⟨hdbS, hframeS, hrowsS, hnamesS, -⟩ :=
    synchronizeSignalDeclarations_rows hsg hwfS hsgn
  have hwfE : KeysWF (enumerationKeys s5.database) := by
    have := hwf.enumerations
    unfold enumerationKeys at this ⊢
    rw [hdbS]; simp only
    rw [hdbF]; simp only
    rw [e3e, e2e]; exact this
  obtain ⟨hdbN, hframeN, hrowsN, hnamesN, -⟩ :=
    synchronizeEnumerationDeclarations_rows hen hwfE henn
  -- the tables of `s1` in terms of the phases
  have e1t : s1.database.types = s3.database.types := by rw [hdbN, hdbS, hdbF]
  have e1x : s1.database.exportedTypes = s2.database.exportedTypes := by
    rw [hdbN, hdbS, hdbF]; exact e3x
  have e1p : s1.database.propertyDeclarations = s3.database.propertyDeclarations := by
    rw [hdbN, hdbS, hdbF]
  have e1f : s1.database.functionDeclarations = s4.database.functionDeclarations := by
    rw [hdbN, hdbS]
  have e1s : s1.database.signalDeclarations = s5.database.signalDeclarations := by
    rw [hdbN]
  have e5f : s5.database.functionDeclarations = s4.database.functionDeclarations := by
    rw [hdbS]
  have e4s : s4.database.signalDeclarations = s.database.signalDeclarations := by
    rw [hdbF]; exact e3s.trans e2s
  have e5e : s5.database.enumerationDeclarations = s.database.enumerationDeclarations := by
    rw [hdbS, hdbF]; exact e3e.trans e2e
  have e3ff : s3.database.functionDeclarations = s.database.functionDeclarations :=
    e3f.trans e2f
  have hper : TypesPersist s.database.types s1.database.types := by
    rw [e1t]
    exact ((TypesPersist.of_subset hsub0).chain hperU).chain
      (TypesPersist.of_subset (e2t ▸ hsubP))
  have hxsub : ∀ row ∈ s.database.exportedTypes, row ∈ s1.database.exportedTypes := by
    intro row hrow
    rw [e1x]
    apply hkeepE
    rw [hU, hdb0]
    exact hrow
  constructor
  · refine ⟨?_, ?_, ?_, ?_, ?_, ?_, ?_, ?_, ?_⟩
    · intro e hemem
      rw [e1x]
      exact hallE e hemem
    · intro row hrow hid
      rw [e1p] at hrow
      rw [e1t]
      exact hrowsP row hrow hid
    · intro d hd
      rw [e1p]
      exact hnamesP d hd
    · intro row hrow hid
      rw [e1f] at hrow
      exact hrowsF row hrow hid
    · intro d hd
      rw [e1f]
      exact hnamesF d hd
    · intro row hrow hid
      rw [e1s] at hrow
      exact hrowsS row hrow hid
    · intro d hd
      rw [e1s]
      exact hnamesS d hd
    · intro row hrow hid
      exact hrowsN row hrow hid
    · intro d hd
      exact hnamesN d hd
  · intro t ht
    refine ⟨hper, hxsub, ?_, ?_, ?_, ?_⟩
    · intro row hid
      rw [e1p, ← e2p]
      exact hframeP row (hid ▸ ht)
    · intro row hid
      rw [e1f, ← e3ff]
      exact hframeF row (hid ▸ ht)
    · intro row hid
      rw [e1s, ← e4s]
      exact hframeS row (hid ▸ ht)
    · intro row hid
      rw [← e5e]
      exact hframeN row (hid ▸ ht)

end ProjectStorage

theorem KeepsDeclarationsOf.unchanged (typeId : Int) (db : Database) :
    KeepsDeclarationsOf typeId db db :=
  ⟨TypesPersist.self _, fun _ h => h, fun _ _ => Iff.rfl, fun _ _ => Iff.rfl,
    fun _ _ => Iff.rfl, fun _ _ => Iff.rfl⟩

theorem KeepsDeclarationsOf.andThen {typeId : Int} {a b c : Database}
    (h1 : KeepsDeclarationsOf typeId a b) (h2 : KeepsDeclarationsOf typeId b c) :
    KeepsDeclarationsOf typeId a c :=
  ⟨h1.types.chain h2.types, fun row h => h2.exported row (h1.exported row h),
    fun row h => (h2.properties row h).trans (h1.properties row h),
    fun row h => (h2.functions row h).trans (h1.functions row h),
    fun row h => (h2.signals row h).trans (h1.signals row h),
    fun row h => (h2.enumerations row h).trans (h1.enumerations row h)⟩

namespace ProjectStorage

/-- A row of `types` whose name is not in the batch stays through the loop over the batch, and
so do the declarations of its type. -/
theorem syncTypes_keeps :
    ∀ (types : List Storage.Type_) (s s1 : Session) (typeIds : List TypeId),
      syncTypes types s = .ok (s1, typeIds) → s.database.WellFormed →
      (∀ type ∈ types, DistinctDeclarationNames type) →
      ∀ row ∈ s.database.types, row.name ∉ types.map (·.typeName) →
        row ∈ s1.database.types ∧ KeepsDeclarationsOf row.typeId s.database s1.database := by
  intro types
  induction types with
  | nil =>
    intro s s1 typeIds h _ _ row hrow _
    simp only [syncTypes, Except.ok.injEq, Prod.mk.injEq] at h
    obtain ⟨rfl, -⟩ := h
    exact ⟨hrow, KeepsDeclarationsOf.unchanged _ _⟩
  | cons type types ih =>
    intro s s1 typeIds h hwf hdistinct row hrow hname
    simp only [syncTypes] at h
    cases h0 : syncType type s with
    | error e => simp [h0] at h
    | ok r0 =>
      obtain ⟨sa, typeId⟩ := r0
      simp only [h0] at h
      cases h1 : syncTypes types sa with
      | error e => simp [h1] at h
      | ok r1 =>
        obtain ⟨sb, ids⟩ := r1
        simp only [h1, Except.ok.injEq, Prod.mk.injEq] at h
        obtain ⟨rfl, -⟩ := h
        have hne : row.name ≠ type.typeName := by
          intro heq
          exact hname (List.mem_map.mpr ⟨type, List.mem_cons_self _ _, heq.symm⟩)
        have hrest : row.name ∉ types.map (·.typeName) := by
          intro hmem
          obtain ⟨x, hx, hxn⟩ := List.mem_map.mp hmem
          exact hname (List.mem_map.mpr ⟨x, List.mem_cons_of_mem _ hx, hxn⟩)
        have hwfa := syncType_wellFormed h0 hwf
        obtain ⟨-, -, rowT, hstT, hidT⟩ := syncType_spec h0 hwf.types
        have hrowa : row ∈ sa.database.types := by
          have hk := syncTypes_kept [type] s sa [typeId]
            (by simp [syncTypes, h0]) row hrow (by simpa using hne)
          exact hk
        have hidne : row.typeId ≠ typeId.id := by
          intro heq
          have hsame : row = rowT :=
            List.inj_on_of_nodup_map hwfa.types.1 hrowa hstT.1 (heq.trans hidT.symm)
          exact hne (hsame ▸ hstT.2.1)
        obtain ⟨-, hkeep⟩ := syncType_holds h0 hwf
          (hdistinct type (List.mem_cons_self _ _))
        obtain ⟨hrowb, hkeepb⟩ := ih sa sb ids h1 hwfa
          (fun x hx => hdistinct x (List.mem_cons_of_mem _ hx)) row hrowa hrest
        exact ⟨hrowb, (hkeep row.typeId hidne).andThen hkeepb⟩

/-- After the loop over a batch of distinct type names on well-formed tables, every batch entry
has its row in `types`, the id of the row is among the ids the loop returns, and the tables hold
the entry under that id; every id the loop returns is the id of the row of a batch entry. -/
theorem syncTypes_holds :
    ∀ (types : List Storage.Type_) (s s1 : Session) (typeIds : List TypeId),
      syncTypes types s = .ok (s1, typeIds) → s.database.WellFormed →
      (types.map (·.typeName)).Nodup →
      (∀ type ∈ types, DistinctDeclarationNames type) →
      s1.database.WellFormed ∧
      (∀ type ∈ types, ∃ row, StoresType s1.database.types type row ∧
        row.typeId ∈ typeIds.map (·.id) ∧ HoldsType s1.database type row.typeId) ∧
      (∀ i ∈ typeIds, ∃ type ∈ types, ∃ row ∈ s1.database.types,
        row.name = type.typeName ∧ row.typeId = i.id) := by
  intro types
  induction types with
  | nil =>
    intro s s1 typeIds h hwf _ _
    simp only [syncTypes, Except.ok.injEq, Prod.mk.injEq] at h
    obtain ⟨rfl, rfl⟩ := h
    exact ⟨hwf, fun _ h => absurd h (List.not_mem_nil _),
      fun _ h => absurd h (List.not_mem_nil _)⟩
  | cons type types ih =>
    intro s s1 typeIds h hwf hnodup hdistinct
    simp only [syncTypes] at h
    cases h0 : syncType type s with
    | error e => simp [h0] at h
    | ok r0 =>
      obtain ⟨sa, typeId⟩ := r0
      simp only [h0] at h
      cases h1 : syncTypes types sa with
      | error e => simp [h1] at h
      | ok r1 =>
        obtain ⟨sb, ids⟩ := r1
        simp only [h1, Except.ok.injEq, Prod.mk.injEq] at h
        obtain ⟨rfl, rfl⟩ := h
        have hwfa := syncType_wellFormed h0 hwf
        obtain ⟨-, -, rowT, hstT, hidT⟩ := syncType_spec h0 hwf.types
        obtain ⟨hholdT, -⟩ := syncType_holds h0 hwf (hdistinct type (List.mem_cons_self _ _))
        have hnodup' : type.typeName ∉ types.map (·.typeName) ∧
            (types.map (·.typeName)).Nodup := List.nodup_cons.mp hnodup
        obtain ⟨hwfb, hall, hids⟩ := ih sa sb ids h1 hwfa hnodup'.2
          (fun x hx => hdistinct x (List.mem_cons_of_mem _ hx))
        obtain ⟨-, hperb, -⟩ := syncTypes_spec types sa sb ids h1 hwfa.types
        have hnotin : rowT.name ∉ types.map (·.typeName) := by
          rw [hstT.2.1]; exact hnodup'.1
        obtain ⟨hrowb, hkeepb⟩ := syncTypes_keeps types sa sb ids h1 hwfa
          (fun x hx => hdistinct x (List.mem_cons_of_mem _ hx)) rowT hstT.1 hnotin
        refine ⟨hwfb, ?_, ?_⟩
        · intro x hx
          rcases List.mem_cons.mp hx with rfl | hx
          · refine ⟨rowT, hstT.mono hrowb hperb, ?_, ?_⟩
            · rw [hidT]; simp
            · exact (hidT ▸ hholdT).of_keeps hkeepb
          · obtain ⟨row, hst, hid, hhold⟩ := hall x hx
            exact ⟨row, hst, by simp only [List.map_cons, List.mem_cons]; exact Or.inr hid,
              hhold⟩
        · intro i hi
          rcases List.mem_cons.mp hi with rfl | hi
          · exact ⟨type, List.mem_cons_self _ _, rowT, hrowb, hstT.2.1, hidT⟩
          · obtain ⟨x, hx, row, hrow, hn, hid⟩ := hids i hi
            exact ⟨x, List.mem_cons_of_mem _ hx, row, hrow, hn, hid⟩

/-- A row of `types` with a source that is not swept stays through the sweep. -/
theorem mem_types_of_sweep {db : Database} {sourceIds updatedTypeIds : List Int}
    {row : TypesRow} (hrow : row ∈ db.types) {sourceId : Int}
    (hsrc : row.sourceId = some sourceId) (hid : row.typeId ∈ updatedTypeIds) :
    row ∈ db.types.filter
      (fun row => !notUpdatedTypeInSources sourceIds updatedTypeIds row) := by
  refine List.mem_filter.mpr ⟨hrow, ?_⟩
  simp [notUpdatedTypeInSources, hsrc, hid]

end ProjectStorage

section MergeSettled

variable {σ δ V A R : Type}

/-- Two streams ascending by name that hold the same names pair up place by place. -/
theorem forall₂_of_sorted_names (n1 : R → String) (n2 : A → String) :
    ∀ (l1 : List R) (l2 : List A) (P : R → A → Prop),
      l1.Pairwise (fun a b => Sqlite.compare (n1 a) (n1 b) = .lt) →
      l2.Pairwise (fun a b => Sqlite.compare (n2 a) (n2 b) = .lt) →
      (∀ x ∈ l1, ∃ a ∈ l2, n1 x = n2 a) → (∀ a ∈ l2, ∃ x ∈ l1, n1 x = n2 a) →
      (∀ x ∈ l1, ∀ a ∈ l2, n1 x = n2 a → P x a) →
      List.Forall₂ P l1 l2 := by
  intro l1
  induction l1 with
  | nil =>
    intro l2 P _ _ _ h21 _
    cases l2 with
    | nil => exact List.Forall₂.nil
    | cons a as =>
      obtain ⟨x, hx, _⟩ := h21 a (List.mem_cons_self _ _)
      exact absurd hx (List.not_mem_nil _)
  | cons x xs ih =>
    intro l2 P hs1 hs2 h12 h21 hP
    cases l2 with
    | nil =>
      obtain ⟨a, ha, _⟩ := h12 x (List.mem_cons_self _ _)
      exact absurd ha (List.not_mem_nil _)
    | cons a as =>
      obtain ⟨hx, hxs⟩ := List.pairwise_cons.mp hs1
      obtain ⟨ha, has⟩ := List.pairwise_cons.mp hs2
      have hhead : n1 x = n2 a := by
        obtain ⟨a1, ha1, hxa1⟩ := h12 x (List.mem_cons_self _ _)
        rcases List.mem_cons.mp ha1 with rfl | ha1
        · exact hxa1
        · obtain ⟨x1, hx1, hx1a⟩ := h21 a (List.mem_cons_self _ _)
          rcases List.mem_cons.mp hx1 with rfl | hx1
          · exact hx1a
          · exfalso
            have h1 := hx x1 hx1
            have h2 := ha a1 ha1
            rw [hx1a, hxa1] at h1
            exact Sqlite.compare_lt_irrefl _ (Sqlite.compare_lt_trans h1 h2)
      refine List.Forall₂.cons (hP x (List.mem_cons_self _ _) a (List.mem_cons_self _ _) hhead)
        (ih as P hxs has ?_ ?_ ?_)
      · intro y hy
        obtain ⟨b, hb, hyb⟩ := h12 y (List.mem_cons_of_mem _ hy)
        rcases List.mem_cons.mp hb with rfl | hb
        · exfalso
          have h1 := hx y hy
          rw [hyb, hhead] at h1
          exact Sqlite.compare_lt_irrefl _ h1
        · exact ⟨b, hb, hyb⟩
      · intro b hb
        obtain ⟨y, hy, hyb⟩ := h21 b (List.mem_cons_of_mem _ hb)
        rcases List.mem_cons.mp hy with rfl | hy
        · exfalso
          have h1 := ha b hb
          rw [← hyb, hhead] at h1
          exact Sqlite.compare_lt_irrefl _ h1
        · exact ⟨y, hy, hyb⟩
      · intro y hy b hb hyb
        exact hP y (List.mem_cons_of_mem _ hy) b (List.mem_cons_of_mem _ hb) hyb

/-- A merge whose two streams pair up place by place, with an update callback that leaves the
tables as they are on each pair, leaves the tables as they are. -/
theorem insertUpdateDeleteLoop_settled (proj : σ → δ) (d : δ)
    {cmp : V → A → Ordering} {ins : A → σ → Except Error σ}
    {upd : V → A → σ → Except Error σ} {rem : V → σ → Except Error σ}
    {P : V → A → Prop}
    (hcmp : ∀ v a, P v a → cmp v a = .eq)
    (hupd : ∀ v a, P v a → ∀ s, proj s = d → ∃ s1, upd v a s = .ok s1 ∧ proj s1 = d) :
    ∀ (vs : List V) (as : List A), List.Forall₂ P vs as → ∀ (fuel : Nat) (s : σ), proj s = d →
      ∃ s1, Sqlite.insertUpdateDeleteLoop cmp ins upd rem fuel vs as s = .ok s1 ∧
        proj s1 = d := by
  intro vs as hall
  induction hall with
  | nil =>
    intro fuel s hs
    cases fuel with
    | zero => exact ⟨s, rfl, hs⟩
    | succ fuel => exact ⟨s, rfl, hs⟩
  | @cons v a vs as hva _ ih =>
    intro fuel s hs
    cases fuel with
    | zero => exact ⟨s, rfl, hs⟩
    | succ fuel =>
      obtain ⟨s1, h1, hs1⟩ := hupd v a hva s hs
      obtain ⟨s2, h2, hs2⟩ := ih fuel s1 hs1
      refine ⟨s2, ?_, hs2⟩
      simp only [Sqlite.insertUpdateDeleteLoop, hcmp v a hva, h1]
      exact h2

/-- The merge of one declaration kind of the type `t`, started on tables that hold for `t` the
incoming values name by name, with an update callback that leaves the tables as they are on a
row and the value it holds: the merge succeeds and leaves the tables as they are. -/
theorem insertUpdateDelete_settled (t : Int) (vname : V → String) (aname : A → String)
    (rows : δ → List R) (key : R → DeclarationKey) (toView : R → V)
    (hvname : ∀ r, vname (toView r) = (key r).2.2)
    (proj : σ → δ) (d : δ) (Stores : R → A → Prop)
    {ins : A → σ → Except Error σ} {upd : V → A → σ → Except Error σ}
    {rem : V → σ → Except Error σ}
    (hupd : ∀ r ∈ rows d, ∀ a, Stores r a → ∀ s, proj s = d →
      ∃ s1, upd (toView r) a s = .ok s1 ∧ proj s1 = d)
    (hwf : KeysWF ((rows d).map key))
    (values : List A) (hnodup : (values.map aname).Nodup)
    (hrows : ∀ r ∈ rows d, (key r).2.1 = t →
      ∃ a ∈ values, (key r).2.2 = aname a ∧ Stores r a)
    (hnames : ∀ a ∈ values, ∃ r ∈ rows d, (key r).2.1 = t ∧ (key r).2.2 = aname a)
    (s : σ) (hs : proj s = d) :
    ∃ s1, Sqlite.insertUpdateDelete
            ((sortByName (fun r => (key r).2.2)
              ((rows d).filter (fun r => (key r).2.1 = t))).map toView)
            (sortByName aname values)
            (fun v a => Sqlite.compare (vname v) (aname a)) ins upd rem s = .ok s1 ∧
          proj s1 = d := by
  obtain ⟨own, hown⟩ : ∃ own, own = (rows d).filter (fun r => (key r).2.1 = t) := ⟨_, rfl⟩
  rw [← hown]
  have hmem_own : ∀ r, r ∈ own ↔ r ∈ rows d ∧ (key r).2.1 = t := by
    intro r
    rw [hown]
    simp
  have hmem_sorted : ∀ r, r ∈ sortByName (fun r => (key r).2.2) own ↔
      r ∈ rows d ∧ (key r).2.1 = t := by
    intro r
    rw [(sortByName_perm _ own).mem_iff]
    exact hmem_own r
  have hnames_own : (own.map (fun r => (key r).2.2)).Nodup := by
    have h1 : ((own.map key).map (·.2)).Nodup := by
      rw [hown]
      exact hwf.2.sublist (((List.filter_sublist _).map key).map _)
    have h2 := List.pairwise_map.mp (List.pairwise_map.mp h1)
    refine List.pairwise_map.mpr (List.Pairwise.imp_of_mem ?_ h2)
    intro a b ha hb hne heq
    apply hne
    have hta : (key a).2.1 = t := ((hmem_own a).mp ha).2
    have htb : (key b).2.1 = t := ((hmem_own b).mp hb).2
    exact Prod.ext (by simp [hta, htb]) heq
  have hinj : ∀ a ∈ values, ∀ b ∈ values, aname a = aname b → a = b :=
    fun a ha b hb hab => List.inj_on_of_nodup_map hnodup ha hb hab
  have hall : List.Forall₂ (fun r a => r ∈ rows d ∧ (key r).2.2 = aname a ∧ Stores r a)
      (sortByName (fun r => (key r).2.2) own) (sortByName aname values) := by
    refine forall₂_of_sorted_names (fun r => (key r).2.2) aname _ _ _
      (sortByName_sorted _ own hnames_own) (sortByName_sorted aname values hnodup) ?_ ?_ ?_
    · intro r hr
      obtain ⟨hr1, hr2⟩ := (hmem_sorted r).mp hr
      obtain ⟨a, ha, hname, _⟩ := hrows r hr1 hr2
      exact ⟨a, (sortByName_perm aname values).mem_iff.mpr ha, hname⟩
    · intro a ha
      obtain ⟨r, hr, hrt, hname⟩ := hnames a ((sortByName_perm aname values).mem_iff.mp ha)
      exact ⟨r, (hmem_sorted r).mpr ⟨hr, hrt⟩, hname⟩
    · intro r hr a ha hname
      obtain ⟨hr1, hr2⟩ := (hmem_sorted r).mp hr
      obtain ⟨b, hb, hnameb, hst⟩ := hrows r hr1 hr2
      have hba : b = a :=
        hinj b hb a ((sortByName_perm aname values).mem_iff.mp ha) (hnameb.symm.trans hname)
      subst hba
      exact ⟨hr1, hname, hst⟩
  have hall2 : List.Forall₂
      (fun v a => ∃ r ∈ rows d, toView r = v ∧ (key r).2.2 = aname a ∧ Stores r a)
      ((sortByName (fun r => (key r).2.2) own).map toView) (sortByName aname values) := by
    rw [List.forall₂_map_left_iff]
    exact hall.imp (fun r a h => ⟨r, h.1, rfl, h.2.1, h.2.2⟩)
  unfold Sqlite.insertUpdateDelete
  refine insertUpdateDeleteLoop_settled proj d ?_ ?_ _ _ hall2 _ s hs
  · rintro v a ⟨r, _, rfl, hname, _⟩
    rw [hvname, hname]
    exact Sqlite.compare_self _
  · rintro v a ⟨r, hr, rfl, _, hst⟩ s hs
    exact hupd r hr a hst s hs

end MergeSettled

namespace ProjectStorage

/-- The id of a stored type is fetched by its name without a write. -/
theorem fetchTypeIdByName_stored {name : String} {s : Session}
    (hwf : TypesWF s.database.types) {row : TypesRow} (hrow : row ∈ s.database.types)
    (hname : row.name = name) (hne : name ≠ "") :
    fetchTypeIdByName name s = .ok (s, { id := row.typeId }) := by
  subst hname
  have hfind : s.database.types.find? (fun r => r.name = row.name) = some row := by
    have := find?_key_of_nodup (·.name) s.database.types row hwf.2.1 hrow
    simpa using this
  have hvalid : (0 : Int) ≤ row.typeId := hwf.2.2 row hrow
  simp [fetchTypeIdByName, hne, selectTypeIdByNameStatement, hfind, InternalId.isValid, hvalid]

/-- The upsert of a type whose row holds the values already leaves the table as it is and
returns the id of the row. -/
theorem upsertTypeStatement_settled {db : Database} (hwf : TypesWF db.types) {row : TypesRow}
    (hrow : row ∈ db.types) {accessSemantics prototypeId : Int} {sourceId : Option Int}
    (hacc : row.accessSemantics = some accessSemantics)
    (hproto : row.prototypeId = nullif prototypeId (-1))
    (hsrc : row.sourceId = sourceId.bind (nullif · (-1))) :
    upsertTypeStatement db row.name accessSemantics prototypeId sourceId
      = (db, { id := row.typeId }) := by
  have hfind : db.types.find? (fun r => r.name = row.name) = some row := by
    have := find?_key_of_nodup (·.name) db.types row hwf.2.1 hrow
    simpa using this
  have hmap : (db.types.map fun r =>
      if r.name = row.name then
        { r with prototypeId := nullif prototypeId (-1),
                 accessSemantics := some accessSemantics,
                 sourceId := sourceId.bind (nullif · (-1)) }
      else r) = db.types := by
    conv_rhs => rw [← List.map_id db.types]
    apply List.map_congr_left
    intro r hr
    by_cases hn : r.name = row.name
    · have hrr : r = row := List.inj_on_of_nodup_map hwf.2.1 hr hrow hn
      subst hrr
      rw [if_pos rfl, ← hacc, ← hproto, ← hsrc]
      rfl
    · rw [if_neg hn]; rfl
  unfold upsertTypeStatement
  rw [hfind]
  simp only [hmap]

/-- Exported types that are all in the table are upserted without a change of the tables. -/
theorem upsertExportedTypes_settled (typeId : TypeId) (db : Database) :
    ∀ (exportedTypes : List Storage.ExportedType) (s : Session), s.database = db →
      (∀ e ∈ exportedTypes, ∃ row ∈ db.exportedTypes,
        row.qualifiedName = e.qualifiedTypeName ∧
        row.majorVersion = e.version.major.version ∧
        row.minorVersion = e.version.minor.version) →
      ∃ s1, upsertExportedTypes typeId exportedTypes s = .ok s1 ∧ s1.database = db := by
  intro exportedTypes
  induction exportedTypes with
  | nil =>
    intro s hs _
    exact ⟨s, rfl, hs⟩
  | cons e es ih =>
    intro s hs hall
    obtain ⟨row, hrow, h1, h2, h3⟩ := hall e (List.mem_cons_self _ _)
    have hstored := upsertExportedTypesStatement_stored db row hrow typeId.id
    rw [h1, h2, h3] at hstored
    obtain ⟨s1, hs1, hdb1⟩ := ih
      { database := db,
        log := s.log ++ [.upsertExportedTypesStatement e.qualifiedTypeName
          e.version.major.version e.version.minor.version typeId.id] }
      rfl (fun e1 he1 => hall e1 (List.mem_cons_of_mem _ he1))
    refine ⟨s1, ?_, hdb1⟩
    simp only [upsertExportedTypes, upsertExportedType, Session.write, WriteStatement.write, hs,
      hstored]
    exact hs1

/-- Functions that the table holds for the type already are synchronized without a change of
the tables. -/
theorem synchronizeFunctionDeclarations_settled {typeId : TypeId}
    {functionsDeclarations : List Storage.FunctionDeclaration} {s : Session}
    (hwf : KeysWF (functionKeys s.database))
    (hnodup : (functionsDeclarations.map (·.name)).Nodup)
    (hrows : ∀ row ∈ s.database.functionDeclarations, row.typeId = typeId.id →
      ∃ d ∈ functionsDeclarations, StoresFunction typeId.id row d)
    (hnames : ∀ d ∈ functionsDeclarations, ∃ row ∈ s.database.functionDeclarations,
      row.typeId = typeId.id ∧ row.name = d.name) :
    ∃ s1, synchronizeFunctionDeclarations typeId functionsDeclarations s = .ok s1 ∧
      s1.database = s.database := by
  exact @insertUpdateDelete_settled Session Database Storage.FunctionDeclarationView
    Storage.FunctionDeclaration FunctionDeclarationsRow typeId.id (·.name) (·.name)
    (fun db => db.functionDeclarations)
    (fun row => (row.functionDeclarationId, row.typeId, row.name))
    (fun row => { name := row.name, returnTypeName := row.returnTypeName,
                  signature := row.signature, id := { id := row.functionDeclarationId } })
    (fun _ => rfl) (·.database) s.database (fun r a => StoresFunction typeId.id r a)
    _ _ _
    (fun r _ a hst s1 hs1 => ⟨s1, by
      simp [synchronizeFunctionDeclarations.update, hst.2.2.1, hst.2.2.2], hs1⟩)
    hwf functionsDeclarations hnodup
    (fun r hr ht => by
      obtain ⟨d, hd, hst⟩ := hrows r hr ht
      exact ⟨d, hd, hst.2.1, hst⟩)
    hnames s rfl

end ProjectStorage

namespace ProjectStorage

/-- Signals that the table holds for the type already are synchronized without a change of the
tables. -/
theorem synchronizeSignalDeclarations_settled {typeId : TypeId}
    {signalDeclarations0 : List Storage.SignalDeclaration} {s : Session}
    (hwf : KeysWF (signalKeys s.database))
    (hnodup : (signalDeclarations0.map (·.name)).Nodup)
    (hrows : ∀ row ∈ s.database.signalDeclarations, row.typeId = typeId.id →
      ∃ d ∈ signalDeclarations0, StoresSignal typeId.id row d)
    (hnames : ∀ d ∈ signalDeclarations0, ∃ row ∈ s.database.signalDeclarations,
      row.typeId = typeId.id ∧ row.name = d.name) :
    ∃ s1, synchronizeSignalDeclarations typeId signalDeclarations0 s = .ok s1 ∧
      s1.database = s.database := by
  exact @insertUpdateDelete_settled Session Database Storage.SignalDeclarationView
    Storage.SignalDeclaration SignalDeclarationsRow typeId.id (·.name) (·.name)
    (fun db => db.signalDeclarations)
    (fun row => (row.signalDeclarationId, row.typeId, row.name))
    (fun row => { name := row.name, signature := row.signature,
                  id := { id := row.signalDeclarationId } })
    (fun _ => rfl) (·.database) s.database (fun r a => StoresSignal typeId.id r a)
    _ _ _
    (fun r _ a hst s1 hs1 => ⟨s1, by
      simp [synchronizeSignalDeclarations.update, hst.2.2], hs1⟩)
    hwf signalDeclarations0 hnodup
    (fun r hr ht => by
      obtain ⟨d, hd, hst⟩ := hrows r hr ht
      exact ⟨d, hd, hst.2.1, hst⟩)
    hnames s rfl

/-- Enumerations that the table holds for the type already are synchronized without a change of
the tables. -/
theorem synchronizeEnumerationDeclarations_settled {typeId : TypeId}
    {enumerationDeclarations0 : List Storage.EnumerationDeclaration} {s : Session}
    (hwf : KeysWF (enumerationKeys s.database))
    (hnodup : (enumerationDeclarations0.map (·.name)).Nodup)
    (hrows : ∀ row ∈ s.database.enumerationDeclarations, row.typeId = typeId.id →
      ∃ d ∈ enumerationDeclarations0, StoresEnumeration typeId.id row d)
    (hnames : ∀ d ∈ enumerationDeclarations0, ∃ row ∈ s.database.enumerationDeclarations,
      row.typeId = typeId.id ∧ row.name = d.name) :
    ∃ s1, synchronizeEnumerationDeclarations typeId enumerationDeclarations0 s = .ok s1 ∧
      s1.database = s.database := by
  exact @insertUpdateDelete_settled Session Database Storage.EnumerationDeclarationView
    Storage.EnumerationDeclaration EnumerationDeclarationsRow typeId.id (·.name) (·.name)
    (fun db => db.enumerationDeclarations)
    (fun row => (row.enumerationDeclarationId, row.typeId, row.name))
    (fun row => { name := row.name, enumeratorDeclarations := row.enumeratorDeclarations,
                  id := { id := row.enumerationDeclarationId } })
    (fun _ => rfl) (·.database) s.database (fun r a => StoresEnumeration typeId.id r a)
    _ _ _
    (fun r _ a hst s1 hs1 => ⟨s1, by
      simp [synchronizeEnumerationDeclarations.update, hst.2.2], hs1⟩)
    hwf enumerationDeclarations0 hnodup
    (fun r hr ht => by
      obtain ⟨d, hd, hst⟩ := hrows r hr ht
      exact ⟨d, hd, hst.2.1, hst⟩)
    hnames s rfl

/-- An update of a property row with the values the row has already leaves the table as it
is. -/
theorem updatePropertyDeclarationStatement_settled {db : Database}
    (hwf : KeysWF (propertyKeys db)) {row : PropertyDeclarationsRow}
    (hrow : row ∈ db.propertyDeclarations) {propertyTypeId traits : Int}
    (htype : row.propertyTypeId = propertyTypeId) (htraits : row.propertyTraits = some traits) :
    updatePropertyDeclarationStatement db row.propertyDeclarationId propertyTypeId traits
      = db := by
  have hids : (db.propertyDeclarations.map (·.propertyDeclarationId)).Nodup := by
    have := hwf.1
    unfold propertyKeys at this
    rwa [List.map_map] at this
  have hmap : (db.propertyDeclarations.map fun r =>
      if r.propertyDeclarationId = row.propertyDeclarationId then
        { r with propertyTypeId := propertyTypeId, propertyTraits := some traits }
      else r) = db.propertyDeclarations := by
    conv_rhs => rw [← List.map_id db.propertyDeclarations]
    apply List.map_congr_left
    intro r hr
    by_cases hn : r.propertyDeclarationId = row.propertyDeclarationId
    · have hrr : r = row := List.inj_on_of_nodup_map hids hr hrow hn
      subst hrr
      rw [if_pos rfl, ← htype, ← htraits]
      rfl
    · rw [if_neg hn]; rfl
  unfold updatePropertyDeclarationStatement
  rw [hmap]

/-- Properties that the tables hold for the type already are synchronized without a change of
the tables. -/
theorem synchronizePropertyDeclarations_settled {typeId : TypeId}
    {propertyDeclarations : List Storage.PropertyDeclaration} {s : Session}
    (htypes : TypesWF s.database.types) (hwf : KeysWF (propertyKeys s.database))
    (hnodup : (propertyDeclarations.map (·.name)).Nodup)
    (hrows : ∀ row ∈ s.database.propertyDeclarations, row.typeId = typeId.id →
      ∃ d ∈ propertyDeclarations, HoldsProperty s.database.types typeId.id row d)
    (hnames : ∀ d ∈ propertyDeclarations, ∃ row ∈ s.database.propertyDeclarations,
      row.typeId = typeId.id ∧ row.name = d.name) :
    ∃ s1, synchronizePropertyDeclarations typeId propertyDeclarations s = .ok s1 ∧
      s1.database = s.database := by
  have hupd : ∀ r ∈ s.database.propertyDeclarations, ∀ (a : Storage.PropertyDeclaration),
      HoldsProperty s.database.types typeId.id r a → ∀ s0 : Session,
      s0.database = s.database →
      ∃ s1, synchronizePropertyDeclarations.update
          { name := r.name, traits := r.propertyTraits.getD 0,
            typeId := { id := r.propertyTypeId }, id := { id := r.propertyDeclarationId } }
          a s0 = .ok s1 ∧ s1.database = s.database := by
    intro r hr a hst s0 hs0
    obtain ⟨-, -, htraits, hcase⟩ := hst
    rcases hcase with ⟨hempty, hptid, hsome⟩ | ⟨hne, tr, htr, htrname, htrid⟩
    · have hfetch : fetchTypeIdByName a.typeName s0 = .ok (s0, {}) := by
        simp [fetchTypeIdByName, hempty]
      have hsettled := updatePropertyDeclarationStatement_settled hwf hr hptid hsome
      refine ⟨{ database := s.database,
                log := s0.log ++ [.updatePropertyDeclarationStatement r.propertyDeclarationId
                  (-1) a.traits] }, ?_, rfl⟩
      simp only [synchronizePropertyDeclarations.update, hfetch, InternalId.eq,
        InternalId.isValid, Session.write, WriteStatement.write, hs0, hsettled]
      simp
    · have hfetch : fetchTypeIdByName a.typeName s0 = .ok (s0, { id := tr.typeId }) :=
        fetchTypeIdByName_stored (hs0 ▸ htypes) (hs0 ▸ htr) htrname hne
      have hvalid : (0 : Int) ≤ tr.typeId := htypes.2.2 tr htr
      refine ⟨s0, ?_, hs0⟩
      simp only [synchronizePropertyDeclarations.update, hfetch, InternalId.eq,
        InternalId.isValid, htraits, htrid]
      rw [← htrid]
      simp [hvalid]
  exact @insertUpdateDelete_settled Session Database Storage.PropertyDeclarationView
    Storage.PropertyDeclaration PropertyDeclarationsRow typeId.id (·.name) (·.name)
    (fun db => db.propertyDeclarations)
    (fun row => (row.propertyDeclarationId, row.typeId, row.name))
    (fun row => { name := row.name, traits := row.propertyTraits.getD 0,
                  typeId := { id := row.propertyTypeId },
                  id := { id := row.propertyDeclarationId } })
    (fun _ => rfl) (·.database) s.database
    (fun r a => HoldsProperty s.database.types typeId.id r a)
    _ _ _ hupd
    hwf propertyDeclarations hnodup
    (fun r hr ht => by
      obtain ⟨d, hd, hst⟩ := hrows r hr ht
      exact ⟨d, hd, hst.2.1, hst⟩)
    hnames s rfl

end ProjectStorage

namespace ProjectStorage

/-- C29, as stated, fails.  The batch `[A]` with `A` of source `1` and one property `p` of type
`double`, a type that is not part of the batch, synchronized into the empty store with the
source ids `[1]`: the call commits, the row of `p` has the property type id `2`, and the table
`types` has no row of the id `2` and no row of the name `double`, the placeholder row of
`double` being swept with the rows that have no source. -/
theorem synchronizeTypes_sweeps_property_type :
    (synchronizeTypes {} [Sample.typeWithDouble] [{ id := 1 }]).result = .ok () ∧
    (∃ property ∈ Sample.typeWithDouble.propertyDeclarations,
      property.name = "p" ∧ property.typeName = "double") ∧
    (∃ row ∈ (synchronizeTypes {} [Sample.typeWithDouble]
        [{ id := 1 }]).database.propertyDeclarations,
      row.name = "p" ∧ row.propertyTypeId = 2) ∧
    ∀ typeRow ∈ (synchronizeTypes {} [Sample.typeWithDouble] [{ id := 1 }]).database.types,
      typeRow.typeId ≠ 2 ∧ typeRow.name ≠ "double" := by
  decide

/-- C29, amended.  On well-formed tables, for a batch of distinct type names whose entries have
distinct declaration names, after a `synchronizeTypes` call that commits: each row of
`propertyDeclarations` that belongs to the row of an incoming type is a property of that type,
and when the type name of the property is not empty, `propertyTypeId` is the type id of every
row of `types` of that name; a row of that name exists when the named type is an entry of the
batch with a source id other than `-1`, and when it is not part of the batch but was stored
before the call with a source that is not among `sourceIds`. -/
theorem synchronizeTypes_property_types (db : Database) (types : List Storage.Type_)
    (sourceIds : List SourceId) (hwf : db.WellFormed)
    (hnames : (types.map (·.typeName)).Nodup)
    (hdistinct : ∀ type ∈ types, DistinctDeclarationNames type)
    (hcommit : (synchronizeTypes db types sourceIds).result = .ok ()) :
    ∀ type ∈ types, ∀ typeRow ∈ (synchronizeTypes db types sourceIds).database.types,
      typeRow.name = type.typeName →
      ∀ row ∈ (synchronizeTypes db types sourceIds).database.propertyDeclarations,
        row.typeId = typeRow.typeId →
        ∃ property ∈ type.propertyDeclarations, row.name = property.name ∧
          (property.typeName ≠ "" →
            (∀ named ∈ (synchronizeTypes db types sourceIds).database.types,
              named.name = property.typeName → named.typeId = row.propertyTypeId) ∧
            ((∃ other ∈ types, other.typeName = property.typeName ∧ other.sourceId.id ≠ -1) →
              ∃ named ∈ (synchronizeTypes db types sourceIds).database.types,
                named.name = property.typeName ∧ named.typeId = row.propertyTypeId) ∧
            ((∃ stored ∈ db.types, stored.name = property.typeName ∧
                stored.name ∉ types.map (·.typeName) ∧
                ∃ sourceId, stored.sourceId = some sourceId ∧
                  sourceId ∉ sourceIds.map (·.id)) →
              ∃ named ∈ (synchronizeTypes db types sourceIds).database.types,
                named.name = property.typeName ∧ named.typeId = row.propertyTypeId)) := by
  obtain ⟨s1, ids, s2, hsync, hsweep, -, hdb⟩ := synchronizeTypes_ok hcommit
  have hdel := deleteNotUpdatedTypes_ok hsweep
  obtain ⟨hwf1, hall, -⟩ := syncTypes_holds types _ s1 ids hsync hwf hnames hdistinct
  have htypes : (synchronizeTypes db types sourceIds).database.types =
      s1.database.types.filter (fun row =>
        !notUpdatedTypeInSources (sourceIds.map (·.id)) (ids.map (·.id)) row) := by
    rw [hdb, hdel]
  have hprops : (synchronizeTypes db types sourceIds).database.propertyDeclarations =
      s1.database.propertyDeclarations := by
    rw [hdb, hdel]
  rw [htypes, hprops]
  intro type htype typeRow htypeRow htypeName row hrow hrowId
  obtain ⟨rowT, hst, -, hhold⟩ := hall type htype
  have hsame : typeRow = rowT :=
    List.inj_on_of_nodup_map hwf1.types.2.1 (List.mem_filter.mp htypeRow).1 hst.1
      (htypeName.trans hst.2.1.symm)
  subst hsame
  obtain ⟨property, hproperty, -, hname, -, hcase⟩ := hhold.properties row hrow hrowId
  refine ⟨property, hproperty, hname, ?_⟩
  intro hne
  rcases hcase with ⟨hempty, -⟩ | ⟨-, r, hr, hrname, hrid⟩
  · exact absurd hempty hne
  · have hunique : ∀ named ∈ s1.database.types, named.name = property.typeName →
        named = r := fun named hnamed hn =>
      List.inj_on_of_nodup_map hwf1.types.2.1 hnamed hr (hn.trans hrname.symm)
    refine ⟨?_, ?_, ?_⟩
    · intro named hnamed hn
      rw [hunique named (List.mem_filter.mp hnamed).1 hn]
      exact hrid
    · rintro ⟨other, hother, hon, hosrc⟩
      obtain ⟨rowO, hstO, hidO, -⟩ := hall other hother
      have hsrcO : rowO.sourceId = some other.sourceId.id := by
        rw [hstO.2.2.2.1]
        unfold nullif
        rw [if_neg hosrc]
      have hO : rowO = r := hunique rowO hstO.1 (hstO.2.1.trans hon)
      exact ⟨rowO, mem_types_of_sweep hstO.1 hsrcO hidO, hstO.2.1.trans hon, hO ▸ hrid⟩
    · rintro ⟨stored, hstored, hsn, hnotin, sourceId, hsrc, hnotsel⟩
      have hkept := syncTypes_kept types _ s1 ids hsync stored hstored hnotin
      have hS : stored = r := hunique stored hkept hsn
      refine ⟨stored, List.mem_filter.mpr ⟨hkept, ?_⟩, hsn, hS ▸ hrid⟩
      have hdec : decide (sourceId ∈ sourceIds.map (·.id)) = false := decide_eq_false hnotsel
      simp only [notUpdatedTypeInSources, hsrc, hdec, Bool.false_and, Bool.not_false]

theorem synchronizeTypes_property_types_witness :
    (({} : Database).WellFormed) ∧
    ([Sample.typeWithDouble, Sample.typeDouble].map (·.typeName)).Nodup ∧
    (∀ type ∈ [Sample.typeWithDouble, Sample.typeDouble], DistinctDeclarationNames type) ∧
    (synchronizeTypes {} [Sample.typeWithDouble, Sample.typeDouble] [{ id := 1 }]).result
      = .ok () ∧
    ∀ type ∈ [Sample.typeWithDouble, Sample.typeDouble],
      ∀ typeRow ∈ (synchronizeTypes {} [Sample.typeWithDouble, Sample.typeDouble]
        [{ id := 1 }]).database.types,
      typeRow.name = type.typeName →
      ∀ row ∈ (synchronizeTypes {} [Sample.typeWithDouble, Sample.typeDouble]
          [{ id := 1 }]).database.propertyDeclarations,
        row.typeId = typeRow.typeId →
        ∃ property ∈ type.propertyDeclarations, row.name = property.name ∧
          (property.typeName ≠ "" →
            (∀ named ∈ (synchronizeTypes {} [Sample.typeWithDouble, Sample.typeDouble]
                [{ id := 1 }]).database.types,
              named.name = property.typeName → named.typeId = row.propertyTypeId) ∧
            ((∃ other ∈ [Sample.typeWithDouble, Sample.typeDouble],
                other.typeName = property.typeName ∧ other.sourceId.id ≠ -1) →
              ∃ named ∈ (synchronizeTypes {} [Sample.typeWithDouble, Sample.typeDouble]
                  [{ id := 1 }]).database.types,
                named.name = property.typeName ∧ named.typeId = row.propertyTypeId) ∧
            ((∃ stored ∈ ({} : Database).types, stored.name = property.typeName ∧
                stored.name ∉ [Sample.typeWithDouble, Sample.typeDouble].map (·.typeName) ∧
                ∃ sourceId, stored.sourceId = some sourceId ∧
                  sourceId ∉ [({ id := 1 } : SourceId)].map (·.id)) →
              ∃ named ∈ (synchronizeTypes {} [Sample.typeWithDouble, Sample.typeDouble]
                  [{ id := 1 }]).database.types,
                named.name = property.typeName ∧ named.typeId = row.propertyTypeId)) :=
  ⟨by decide, by decide, by decide, by decide,
    synchronizeTypes_property_types {} [Sample.typeWithDouble, Sample.typeDouble] [{ id := 1 }]
      (by decide) (by decide) (by decide) (by decide)⟩

end ProjectStorage

namespace ProjectStorage

/-- A batch entry that the tables hold already is synchronized without a change of the tables,
and `syncType` returns the id of its row. -/
theorem syncType_settled {type : Storage.Type_} {db : Database} {row : TypesRow}
    (hwf : db.WellFormed) (hst : StoresType db.types type row)
    (hhold : HoldsType db type row.typeId) (hdistinct : DistinctDeclarationNames type)
    (s : Session) (hs : s.database = db) :
    ∃ s1, syncType type s = .ok (s1, { id := row.typeId }) ∧ s1.database = db := by
  obtain ⟨hrow, hname, hacc, hsrc, hp0, hp1⟩ := hst
  obtain ⟨hpn, hfnn, hsgn, henn⟩ := hdistinct
  subst hs
  have hfetch : ∃ p : TypeId, fetchTypeIdByName type.prototype s = .ok (s, p) ∧
      row.prototypeId = nullif p.id (-1) := by
    by_cases hproto : type.prototype = ""
    · refine ⟨{}, by simp [fetchTypeIdByName, hproto], ?_⟩
      rw [hp0 hproto]
      rfl
    · obtain ⟨proto, hmem, hpname, hpid⟩ := hp1 hproto
      refine ⟨{ id := proto.typeId }, fetchTypeIdByName_stored hwf.types hmem hpname hproto, ?_⟩
      have hvalid : (0 : Int) ≤ proto.typeId := hwf.types.2.2 proto hmem
      rw [hpid]
      unfold nullif
      have hne : ¬proto.typeId = -1 := by omega
      rw [if_neg hne]
  obtain ⟨p, hfetch, hprotoId⟩ := hfetch
  have hupsert : upsertTypeStatement s.database type.typeName type.accessSemantics.toInt p.id
      (some type.sourceId.id) = (s.database, { id := row.typeId }) := by
    rw [← hname]
    exact upsertTypeStatement_settled hwf.types hrow hacc hprotoId hsrc
  obtain ⟨s2, h2, hdb2⟩ := upsertExportedTypes_settled { id := row.typeId } s.database
    type.exportedTypes s rfl hhold.exported
  obtain ⟨s3, h3, hdb3⟩ := @synchronizePropertyDeclarations_settled { id := row.typeId }
    type.propertyDeclarations s2 (hdb2 ▸ hwf.types) (hdb2 ▸ hwf.properties) hpn
    (hdb2 ▸ hhold.properties) (hdb2 ▸ hhold.propertyNames)
  rw [hdb2] at hdb3
  obtain ⟨s4, h4, hdb4⟩ := @synchronizeFunctionDeclarations_settled { id := row.typeId }
    type.functionDeclarations s3 (hdb3 ▸ hwf.functions) hfnn
    (hdb3 ▸ hhold.functions) (hdb3 ▸ hhold.functionNames)
  rw [hdb3] at hdb4
  obtain ⟨s5, h5, hdb5⟩ := @synchronizeSignalDeclarations_settled { id := row.typeId }
    type.signalDeclarations s4 (hdb4 ▸ hwf.signals) hsgn
    (hdb4 ▸ hhold.signals) (hdb4 ▸ hhold.signalNames)
  rw [hdb4] at hdb5
  obtain ⟨s6, h6, hdb6⟩ := @synchronizeEnumerationDeclarations_settled { id := row.typeId }
    type.enumerationDeclarations s5 (hdb5 ▸ hwf.enumerations) henn
    (hdb5 ▸ hhold.enumerations) (hdb5 ▸ hhold.enumerationNames)
  rw [hdb5] at hdb6
  refine ⟨s6, ?_, hdb6⟩
  unfold syncType
  rw [hfetch]
  simp only [hupsert, h2, h3, h4, h5, h6]

/-- A batch whose entries the tables hold already is synchronized without a change of the
tables, and the loop returns the ids of the rows of its entries. -/
theorem syncTypes_settled {db : Database} (hwf : db.WellFormed) :
    ∀ (types : List Storage.Type_), (∀ type ∈ types, DistinctDeclarationNames type) →
      (∀ type ∈ types, ∃ row, StoresType db.types type row ∧ HoldsType db type row.typeId) →
      ∀ s : Session, s.database = db →
      ∃ s1 typeIds, syncTypes types s = .ok (s1, typeIds) ∧ s1.database = db ∧
        ∀ type ∈ types, ∀ row ∈ db.types, row.name = type.typeName →
          row.typeId ∈ typeIds.map (·.id) := by
  intro types
  induction types with
  | nil =>
    intro _ _ s hs
    exact ⟨s, [], rfl, hs, fun _ h => absurd h (List.not_mem_nil _)⟩
  | cons type types ih =>
    intro hdistinct hall s hs
    obtain ⟨row, hst, hhold⟩ := hall type (List.mem_cons_self _ _)
    obtain ⟨sa, ha, hdba⟩ := syncType_settled hwf hst hhold
      (hdistinct type (List.mem_cons_self _ _)) s hs
    obtain ⟨sb, ids, hb, hdbb, hids⟩ := ih
      (fun x hx => hdistinct x (List.mem_cons_of_mem _ hx))
      (fun x hx => hall x (List.mem_cons_of_mem _ hx)) sa hdba
    refine ⟨sb, { id := row.typeId } :: ids, ?_, hdbb, ?_⟩
    · simp only [syncTypes, ha, hb]
    · intro x hx r hr hn
      simp only [List.map_cons, List.mem_cons]
      rcases List.mem_cons.mp hx with rfl | hx
      · left
        have hsame : r = row :=
          List.inj_on_of_nodup_map hwf.types.2.1 hr hst.1 (hn.trans hst.2.1.symm)
        rw [hsame]
      · exact Or.inr (hids x hx r hr hn)

/-- A sweep that finds no row to delete leaves the tables as they are. -/
theorem deleteNotUpdatedTypes_settled {s : Session} {sourceIds : List SourceId}
    {updatedTypeIds : List TypeId}
    (hall : ∀ row ∈ s.database.types,
      notUpdatedTypeInSources (sourceIds.map (·.id)) (updatedTypeIds.map (·.id)) row = false) :
    ∃ s1, deleteNotUpdatedTypes updatedTypeIds sourceIds s = .ok s1 ∧
      s1.database = s.database := by
  have hnone : s.database.types.filter
      (notUpdatedTypeInSources (sourceIds.map (·.id)) (updatedTypeIds.map (·.id))) = [] := by
    rw [List.filter_eq_nil_iff]
    intro row hrow
    rw [hall row hrow]
    decide
  have hsame : s.database.types.filter (fun row =>
      !notUpdatedTypeInSources (sourceIds.map (·.id)) (updatedTypeIds.map (·.id)) row)
      = s.database.types := by
    rw [List.filter_eq_self]
    intro row hrow
    rw [hall row hrow]
    rfl
  refine ⟨{ database := s.database,
            log := s.log ++ [.deleteNotUpdatedTypesInSourcesStatement (sourceIds.map (·.id))
              (updatedTypeIds.map (·.id))] }, ?_, rfl⟩
  simp only [deleteNotUpdatedTypes, Session.write, WriteStatement.write,
    deleteNotUpdatedTypesInSourcesStatement, hnone, hsame, List.map_nil, List.insertionSort,
    restrictViolated]
  rfl

end ProjectStorage

namespace ProjectStorage

/-- C28, as stated, fails.  The batch `[A, C]` of source `1`, where `A` has one property `p` of
type `double`, synchronized into the empty store with the source ids `[1]`: the first call
commits and leaves the row of `p` with the property type id `2`, the id of the placeholder row
of `double` that the sweep of the same call deletes; the second call with the same arguments
commits too, makes a new placeholder row, which gets the id `4`, and rewrites the row of `p`
with the property type id `4`: the tables are not what they were after the first call. -/
theorem synchronizeTypes_second_call_rewrites :
    (synchronizeTypes {} [Sample.typeWithDouble, Sample.typeC] [{ id := 1 }]).result = .ok () ∧
    (synchronizeTypes
      (synchronizeTypes {} [Sample.typeWithDouble, Sample.typeC] [{ id := 1 }]).database
      [Sample.typeWithDouble, Sample.typeC] [{ id := 1 }]).result = .ok () ∧
    (synchronizeTypes {} [Sample.typeWithDouble, Sample.typeC]
      [{ id := 1 }]).database.propertyDeclarations
      = [{ propertyDeclarationId := 1, typeId := 1, name := "p", propertyTypeId := 2,
           propertyTraits := some 1 }] ∧
    (synchronizeTypes
      (synchronizeTypes {} [Sample.typeWithDouble, Sample.typeC] [{ id := 1 }]).database
      [Sample.typeWithDouble, Sample.typeC] [{ id := 1 }]).database.propertyDeclarations
      = [{ propertyDeclarationId := 1, typeId := 1, name := "p", propertyTypeId := 4,
           propertyTraits := some 1 }] ∧
    (synchronizeTypes
      (synchronizeTypes {} [Sample.typeWithDouble, Sample.typeC] [{ id := 1 }]).database
      [Sample.typeWithDouble, Sample.typeC] [{ id := 1 }]).database
      ≠ (synchronizeTypes {} [Sample.typeWithDouble, Sample.typeC] [{ id := 1 }]).database := by
  decide

/-- C28, amended.  `synchronizeTypes` is idempotent on batches that name their property types
among the stored types: on well-formed tables, for a batch of distinct type names whose entries
have a source id other than `-1` and distinct declaration names, when the first call commits
and every non-empty property type name of the batch is the name of a row of `types` after that
call, a second call with the same arguments commits and leaves every table exactly as it was
after the first call. -/
theorem synchronizeTypes_idempotent (db : Database) (types : List Storage.Type_)
    (sourceIds : List SourceId) (hwf : db.WellFormed)
    (hnames : (types.map (·.typeName)).Nodup)
    (hsources : ∀ type ∈ types, type.sourceId.id ≠ -1)
    (hdistinct : ∀ type ∈ types, DistinctDeclarationNames type)
    (hcommit : (synchronizeTypes db types sourceIds).result = .ok ())
    (hnamed : ∀ type ∈ types, ∀ property ∈ type.propertyDeclarations,
      property.typeName ≠ "" →
      ∃ row ∈ (synchronizeTypes db types sourceIds).database.types,
        row.name = property.typeName) :
    (synchronizeTypes (synchronizeTypes db types sourceIds).database types sourceIds).result
      = .ok () ∧
    (synchronizeTypes (synchronizeTypes db types sourceIds).database types sourceIds).database
      = (synchronizeTypes db types sourceIds).database := by
  obtain ⟨s1, ids, s2, hsync, hsweep, hfk, hdb⟩ := synchronizeTypes_ok hcommit
  have hdel := deleteNotUpdatedTypes_ok hsweep
  obtain ⟨hwf1, hall, hids⟩ := syncTypes_holds types _ s1 ids hsync hwf hnames hdistinct
  have hwfdb1 := synchronizeTypes_wellFormed db types sourceIds hwf
  obtain ⟨db1, hdb1⟩ : ∃ db1, db1 = (synchronizeTypes db types sourceIds).database :=
    ⟨_, rfl⟩
  rw [← hdb1] at hwfdb1 hnamed hdb ⊢
  have hfk1 : deferredForeignKeysHold db1 = true := hdb ▸ hfk
  have hdb1' : db1 = { s1.database with types := s1.database.types.filter (fun row =>
      !notUpdatedTypeInSources (sourceIds.map (·.id)) (ids.map (·.id)) row) } :=
    hdb.trans hdel
  have htypes : db1.types = s1.database.types.filter (fun row =>
      !notUpdatedTypeInSources (sourceIds.map (·.id)) (ids.map (·.id)) row) := by
    rw [hdb1']
  have hsub : ∀ row ∈ db1.types, row ∈ s1.database.types := by
    intro row hrow
    rw [htypes] at hrow
    exact (List.mem_filter.mp hrow).1
  -- the tables after the first call hold every entry of the batch
  have hsettled : ∀ type ∈ types, ∃ row, StoresType db1.types type row ∧
      HoldsType db1 type row.typeId := by
    intro type htype
    obtain ⟨rowT, hst, hid, hhold⟩ := hall type htype
    have hsrcT : rowT.sourceId = some type.sourceId.id := by
      rw [hst.2.2.2.1]
      unfold nullif
      rw [if_neg (hsources type htype)]
    have hrowT : rowT ∈ db1.types := by
      rw [htypes]
      exact mem_types_of_sweep hst.1 hsrcT hid
    refine ⟨rowT, ⟨hrowT, hst.2.1, hst.2.2.1, hst.2.2.2.1, hst.2.2.2.2.1, ?_⟩, ?_⟩
    · intro hproto
      obtain ⟨proto, hproto1, hpname, hpid⟩ := hst.2.2.2.2.2 hproto
      refine ⟨proto, ?_, hpname, hpid⟩
      have hrowfk := List.all_eq_true.mp hfk1 rowT hrowT
      rw [hpid] at hrowfk
      simp only [List.any_eq_true, decide_eq_true_eq] at hrowfk
      obtain ⟨parent, hparent, hparentId⟩ := hrowfk
      have hsame : parent = proto :=
        List.inj_on_of_nodup_map hwf1.types.1 (hsub parent hparent) hproto1 hparentId
      exact hsame ▸ hparent
    · rw [hdb1']
      refine ⟨hhold.exported, ?_, hhold.propertyNames, hhold.functions, hhold.functionNames,
        hhold.signals, hhold.signalNames, hhold.enumerations, hhold.enumerationNames⟩
      intro row hrow hrowId
      obtain ⟨property, hproperty, h1, h2, h3, hcase⟩ := hhold.properties row hrow hrowId
      refine ⟨property, hproperty, h1, h2, h3, ?_⟩
      rcases hcase with hempty | ⟨hne, r, hr, hrname, hrid⟩
      · exact Or.inl hempty
      · obtain ⟨named, hnamedRow, hnamedName⟩ := hnamed type htype property hproperty hne
        have hsame : named = r :=
          List.inj_on_of_nodup_map hwf1.types.2.1 (hsub named hnamedRow) hr
            (hnamedName.trans hrname.symm)
        refine Or.inr ⟨hne, r, ?_, hrname, hrid⟩
        rw [← htypes]
        exact hsame ▸ hnamedRow
  -- the loop of the second call writes nothing
  obtain ⟨sA, ids2, hA, hdbA, hids2⟩ :=
    syncTypes_settled hwfdb1 types hdistinct hsettled { database := db1 } rfl
  -- and its sweep finds no row to delete
  have hkeepall : ∀ row ∈ sA.database.types,
      notUpdatedTypeInSources (sourceIds.map (·.id)) (ids2.map (·.id)) row = false := by
    intro row hrow
    rw [hdbA] at hrow
    have hrow1 := hrow
    rw [htypes] at hrow1
    obtain ⟨hrows1, hkept⟩ := List.mem_filter.mp hrow1
    cases hsrc : row.sourceId with
    | none => simp [notUpdatedTypeInSources, hsrc] at hkept
    | some sourceId =>
      simp only [notUpdatedTypeInSources, hsrc] at hkept ⊢
      by_cases hmem : sourceId ∈ sourceIds.map (·.id)
      · have hid1 : row.typeId ∈ ids.map (·.id) := by
          by_contra hnot
          simp [hmem, hnot] at hkept
        obtain ⟨i, hi, hieq⟩ := List.mem_map.mp hid1
        obtain ⟨type, htype, r, hr, hrname, hrid⟩ := hids i hi
        have hsame : row = r :=
          List.inj_on_of_nodup_map hwf1.types.1 hrows1 hr (hieq.symm.trans hrid.symm)
        have hid2 : row.typeId ∈ ids2.map (·.id) :=
          hids2 type htype row hrow (hsame ▸ hrname)
        rw [decide_eq_true hid2]
        simp
      · rw [decide_eq_false hmem]
        simp
  obtain ⟨sB, hB, hdbB⟩ := @deleteNotUpdatedTypes_settled sA sourceIds ids2 hkeepall
  have hfkB : deferredForeignKeysHold sB.database = true := by
    rw [hdbB, hdbA]; exact hfk1
  have hrun : synchronizeTypes db1 types sourceIds
      = { result := .ok (), database := sB.database } := by
    simp only [synchronizeTypes, Sqlite.ImmediateTransaction, synchronizeTypesBody, hA, hB,
      hfkB, if_true]
  rw [hrun]
  exact ⟨rfl, hdbB.trans hdbA⟩

theorem synchronizeTypes_idempotent_witness :
    Sample.singleDatabase.WellFormed ∧
    ([Sample.typeWithDouble, Sample.typeDouble, Sample.typeB].map (·.typeName)).Nodup ∧
    (∀ type ∈ [Sample.typeWithDouble, Sample.typeDouble, Sample.typeB],
      type.sourceId.id ≠ -1) ∧
    (∀ type ∈ [Sample.typeWithDouble, Sample.typeDouble, Sample.typeB],
      DistinctDeclarationNames type) ∧
    (synchronizeTypes Sample.singleDatabase
      [Sample.typeWithDouble, Sample.typeDouble, Sample.typeB] [{ id := 1 }]).result
      = .ok () ∧
    (∀ type ∈ [Sample.typeWithDouble, Sample.typeDouble, Sample.typeB],
      ∀ property ∈ type.propertyDeclarations, property.typeName ≠ "" →
      ∃ row ∈ (synchronizeTypes Sample.singleDatabase
          [Sample.typeWithDouble, Sample.typeDouble, Sample.typeB] [{ id := 1 }]).database.types,
        row.name = property.typeName) ∧
    (synchronizeTypes
      (synchronizeTypes Sample.singleDatabase
        [Sample.typeWithDouble, Sample.typeDouble, Sample.typeB] [{ id := 1 }]).database
      [Sample.typeWithDouble, Sample.typeDouble, Sample.typeB] [{ id := 1 }]).result
      = .ok () ∧
    (synchronizeTypes
      (synchronizeTypes Sample.singleDatabase
        [Sample.typeWithDouble, Sample.typeDouble, Sample.typeB] [{ id := 1 }]).database
      [Sample.typeWithDouble, Sample.typeDouble, Sample.typeB] [{ id := 1 }]).database
      = (synchronizeTypes Sample.singleDatabase
        [Sample.typeWithDouble, Sample.typeDouble, Sample.typeB] [{ id := 1 }]).database :=
  ⟨by decide, by decide, by decide, by decide, by decide, by decide,
    synchronizeTypes_idempotent Sample.singleDatabase
      [Sample.typeWithDouble, Sample.typeDouble, Sample.typeB] [{ id := 1 }]
      (by decide) (by decide) (by decide) (by decide) (by decide) (by decide)⟩

end ProjectStorage

end QmlDesigner
